import Mathlib

/-!
# AlgorithmIllustrator: trace generators and playback controllers

A shallow embedding of the trace generators of `src/greedy.js`, `src/sort.js`
and `src/search.js` and of the playback controllers of the three pages.

Conventions of the embedding.

* A JavaScript array is a `List`; `out.push(x)` is `out ++ [x]`.
* A JavaScript `Set` of strings is a `List String` in insertion order
  (`setAdd` keeps the first occurrence, `[...set]` is the list itself).
* An object used as a map with string keys is an association list in
  insertion order (`objSet` overwrites in place, `objGet` reads).
* The numbers of the built-in data are integers; they are `Int` (or `Nat`
  where the source can only produce a non-negative value).  `Infinity` and
  `-Infinity` are the `none` of an `Option`.
* `Array.prototype.sort` with a comparator is the stable sort `jsSort`.
* `forEach` is a left fold over the list.
* A `while` loop or a recursion whose number of steps is not a syntactic bound
  takes a fuel argument and returns `none` when the fuel runs out; the theorems
  show that enough fuel gives a result.
-/

namespace Loop

/-- The outcome of one pass through the body of a loop: go round again with
the new state, or leave the loop (the condition failed, or a `break` or
`return` was reached) with the final state. -/
inductive Flow (σ : Type) where
  | next (s : σ) : Flow σ
  | done (s : σ) : Flow σ

/-- A `while` loop with body `step`, run with at most `fuel` passes; `none`
when the fuel runs out before the loop is left. -/
def run {σ : Type} (step : σ → Flow σ) : Nat → σ → Option σ
  | 0, _ => none
  | fuel + 1, s =>
    match step s with
    | Flow.done s1 => some s1
    | Flow.next s1 => run step fuel s1

/-- A `forEach` whose callback can run out of fuel: a left fold that stops
with `none` as soon as one call gives `none`. -/
def forEachM {σ α : Type} (step : σ → α → Option σ) : List α → σ → Option σ
  | [], s => some s
  | a :: rest, s =>
    match step s a with
    | none => none
    | some s1 => forEachM step rest s1

/-- A counted loop `for (let j = start; j < start + count; j += 1) body`,
whose body changes neither `j` nor the bound. -/
def forLoop {σ : Type} (body : Nat → σ → σ) : Nat → Nat → σ → σ
  | 0, _, s => s
  | count + 1, j, s => forLoop body count (j + 1) (body j s)

end Loop

namespace Js

/-! ## Shared helpers -/

/-- The method `Set.prototype.add` on an insertion-ordered set of strings. -/
def setAdd (s : List String) (x : String) : List String :=
  if x ∈ s then s else s ++ [x]

/-- The method `Set.prototype.delete`. -/
def setDelete (s : List String) (x : String) : List String :=
  s.filter (fun y => y ≠ x)

/-- Assignment `o[k] = v` on an object with string keys. -/
def objSet {β : Type} : List (String × β) → String → β → List (String × β)
  | [], k, v => [(k, v)]
  | (k1, v1) :: rest, k, v =>
    if k1 = k then (k1, v) :: rest else (k1, v1) :: objSet rest k v

/-- Read `o[k]`; `none` is `undefined`. -/
def objGet {β : Type} : List (String × β) → String → Option β
  | [], _ => none
  | (k1, v1) :: rest, k => if k1 = k then some v1 else objGet rest k

/-- Stable sort by a comparator `cmp` (negative: first argument first), as
`Array.prototype.sort` is specified to be: elements that compare equal keep
their input order. -/
def jsSort {α : Type} (cmp : α → α → Int) (l : List α) : List α :=
  l.insertionSort (fun a b => cmp a b ≤ 0)

/-- The number of low bits that the non-negative integer `n` loses as a
double: the least `k` from the given one on with `n / 2^k < 2^53`; `fuel`
bounds the search. -/
def dropBits : Nat → Nat → Nat → Nat
  | 0, _, k => k
  | fuel + 1, n, k => if n / 2 ^ k < 2 ^ 53 then k else dropBits fuel n (k + 1)

/-- The numbers of the source are IEEE 754 doubles.  This is the double
nearest to the integer `x`, ties going to the even significand: `x` itself up
to `2^53` in magnitude, and beyond that the multiple of `2^k` nearest to it,
where `k` is the number of bits above 53.  (No double is as large as `2^1024`;
the source has `Infinity` there, which the model does not represent.) -/
def roundDouble (x : Int) : Int :=
  if x.natAbs ≤ 2 ^ 53 then x
  else
    let n := x.natAbs
    let k := dropBits 1024 n 0
    let q := n / 2 ^ k
    let r := n % 2 ^ k
    let q1 := if 2 ^ (k - 1) < r ∨ (r = 2 ^ (k - 1) ∧ q % 2 = 1) then q + 1 else q
    if x < 0 then -((q1 * 2 ^ k : Nat) : Int) else ((q1 * 2 ^ k : Nat) : Int)

/-- The expression `a + b` on integer values: the exact sum rounded to the
nearest double, which is again an integer. -/
def jsAdd (a b : Int) : Int := roundDouble (a + b)

/-- The expression `a - b` on integer values: the exact difference rounded to
the nearest double. -/
def jsSub (a b : Int) : Int := roundDouble (a - b)

/-- The method `Array.prototype.join` on strings. -/
def join (sep : String) (l : List String) : String :=
  String.intercalate sep l

/-- The statement `o[k].push(x)` on an object of arrays (nothing happens in
the model when `k` is not a key; every key used is one). -/
def objPush {β : Type} : List (String × List β) → String → β → List (String × List β)
  | [], _, _ => []
  | (k1, l) :: rest, k, x =>
    if k1 = k then (k1, l ++ [x]) :: rest else (k1, l) :: objPush rest k x

end Js

namespace Greedy

open Js

/-! ## Interval data -/

/-- One interval `{ id, s, e }`. -/
structure Interval where
  id : String
  s : Int
  e : Int
deriving DecidableEq, Repr

/-- The built-in `intervals`. -/
def intervals : List Interval :=
  [ ⟨"a", 0, 3⟩, ⟨"b", 0, 6⟩, ⟨"c", 0, 3⟩, ⟨"d", 3, 6⟩, ⟨"e", 3, 8⟩,
    ⟨"f", 6, 8⟩, ⟨"g", 6, 8⟩, ⟨"h", 8, 11⟩, ⟨"i", 9, 11⟩, ⟨"j", 9, 11⟩ ]

/-! ## Interval scheduling -/

/-- A snapshot of `buildIntervalScheduling`. -/
structure IntervalStep where
  text : String
  active : Option String
  selected : List String
  rejected : List String
  kind : String
deriving DecidableEq, Repr

/-- The comparator `(a, b) => a.e - b.e || a.s - b.s`. -/
def cmpFinish (a b : Interval) : Int :=
  if a.e - b.e ≠ 0 then a.e - b.e else a.s - b.s

/-- Rendering of `lastEnd` in a template string. -/
def showLastEnd : Option Int → String
  | none => "-Infinity"
  | some v => toString v

/-- The test `iv.s >= lastEnd`, with `none` for `-Infinity`. -/
def geLastEnd (s : Int) : Option Int → Bool
  | none => true
  | some v => decide (v ≤ s)

/-- The mutable variables of `buildIntervalScheduling`. -/
structure SchedState where
  selected : List Interval
  rejected : List String
  out : List IntervalStep
  lastEnd : Option Int
deriving DecidableEq, Repr

/-- The state before the `forEach`. -/
def schedInit : SchedState :=
  { selected := [], rejected := [], out := [], lastEnd := none }

/-- One call of the `forEach` callback of `buildIntervalScheduling`. -/
def schedStep (st : SchedState) (iv : Interval) : SchedState :=
  let out1 := st.out ++ [{
    text := "Consider " ++ iv.id ++ " = [" ++ toString iv.s ++ ", " ++ toString iv.e
      ++ "] against last selected finish " ++ showLastEnd st.lastEnd ++ ".",
    active := some iv.id,
    selected := st.selected.map (fun x => x.id),
    rejected := st.rejected,
    kind := "interval" }]
  if geLastEnd iv.s st.lastEnd then
    let selected1 := st.selected ++ [iv]
    { selected := selected1,
      rejected := st.rejected,
      lastEnd := some iv.e,
      out := out1 ++ [{
        text := "Select " ++ iv.id ++ ". The solution set grows: \x7b"
          ++ join ", " (selected1.map (fun x => x.id)) ++ "\x7d.",
        active := some iv.id,
        selected := selected1.map (fun x => x.id),
        rejected := st.rejected,
        kind := "interval" }] }
  else
    let rejected1 := setAdd st.rejected iv.id
    { selected := st.selected,
      rejected := rejected1,
      lastEnd := st.lastEnd,
      out := out1 ++ [{
        text := "Reject " ++ iv.id ++ ". It overlaps with the current solution set.",
        active := some iv.id,
        selected := st.selected.map (fun x => x.id),
        rejected := rejected1,
        kind := "interval" }] }

/-- The state after the `forEach` has run over the list `l`. -/
def schedAfter (l : List Interval) : SchedState :=
  l.foldl schedStep schedInit

/-- The snapshot pushed after the `forEach` of `buildIntervalScheduling`. -/
def schedFinish (st : SchedState) : IntervalStep :=
  { text := "Finished. Maximum compatible set: \x7b"
      ++ join ", " (st.selected.map (fun x => x.id)) ++ "\x7d.",
    active := none,
    selected := st.selected.map (fun x => x.id),
    rejected := st.rejected,
    kind := "interval" }

/-- The function `buildIntervalScheduling`, with the closed-over constant
`intervals` as its argument. -/
def buildIntervalScheduling (intervals : List Interval) : List IntervalStep :=
  let ordered := jsSort cmpFinish intervals
  let st := schedAfter ordered
  st.out ++ [schedFinish st]

/-- The intervals that the `forEach` of `buildIntervalScheduling` appends to
`selected` when it runs over `l` with `lastEnd = b` (a restatement of
`schedStep` without the snapshots, see `schedFold_selected`). -/
def greedySelect : Option Int → List Interval → List Interval
  | _, [] => []
  | b, x :: xs =>
    if geLastEnd x.s b then x :: greedySelect (some x.e) xs else greedySelect b xs

/-- Two intervals are compatible when one starts at or after the other
finishes. -/
def Compatible (a b : Interval) : Prop := a.e ≤ b.s ∨ b.e ≤ a.s

instance (a b : Interval) : Decidable (Compatible a b) := by
  unfold Compatible; infer_instance

/-! ## Interval partitioning -/

/-- A snapshot of `buildIntervalPartitioning`.  The object `assignments` maps
an interval id to a room index. -/
structure PartitionStep where
  text : String
  active : Option String
  assignments : List (String × Nat)
  roomEnd : List Int
  kind : String
deriving DecidableEq, Repr

/-- The comparator `(a, b) => a.s - b.s || a.e - b.e`. -/
def cmpStart (a b : Interval) : Int :=
  if a.s - b.s ≠ 0 then a.s - b.s else a.e - b.e

/-- The method `Array.prototype.findIndex`; `none` is the result `-1`. -/
def findIndex (p : Int → Bool) : List Int → Option Nat
  | [] => none
  | x :: xs => if p x then some 0 else (findIndex p xs).map (fun i => i + 1)

/-- The room given to `iv` and the updated `roomEnd`: the first room whose
end time is at most `iv.s`, or else a new room pushed at the end (whose index
is `roomEnd.length - 1` after the push). -/
def chooseRoom (roomEnd : List Int) (iv : Interval) : Nat × List Int :=
  match findIndex (fun endTime => decide (endTime ≤ iv.s)) roomEnd with
  | none => ((roomEnd ++ [iv.e]).length - 1, roomEnd ++ [iv.e])
  | some r => (r, roomEnd.set r iv.e)

/-- The mutable variables of `buildIntervalPartitioning`. -/
structure PartState where
  roomEnd : List Int
  assignments : List (String × Nat)
  out : List PartitionStep
deriving DecidableEq, Repr

/-- The state before the `forEach`. -/
def partInit : PartState :=
  { roomEnd := [], assignments := [], out := [] }

/-- One call of the `forEach` callback of `buildIntervalPartitioning`. -/
def partStep (st : PartState) (iv : Interval) : PartState :=
  let out1 := st.out ++ [{
    text := "Place " ++ iv.id ++ " = [" ++ toString iv.s ++ ", " ++ toString iv.e
      ++ "] in the first available room.",
    active := some iv.id,
    assignments := st.assignments,
    roomEnd := st.roomEnd,
    kind := "partition" }]
  let roomIdx := (chooseRoom st.roomEnd iv).1
  let roomEnd1 := (chooseRoom st.roomEnd iv).2
  let assignments1 := objSet st.assignments iv.id roomIdx
  { roomEnd := roomEnd1,
    assignments := assignments1,
    out := out1 ++ [{
      text := iv.id ++ " assigned to room " ++ toString (roomIdx + 1)
        ++ ". Rooms in use: " ++ toString roomEnd1.length ++ ".",
      active := some iv.id,
      assignments := assignments1,
      roomEnd := roomEnd1,
      kind := "partition" }] }

/-- The state after the `forEach` has run over the list `l`. -/
def partAfter (l : List Interval) : PartState :=
  l.foldl partStep partInit

/-- The snapshot pushed after the `forEach` of `buildIntervalPartitioning`. -/
def partFinish (st : PartState) : PartitionStep :=
  { text := "Finished. Minimum number of rooms = " ++ toString st.roomEnd.length ++ ".",
    active := none,
    assignments := st.assignments,
    roomEnd := st.roomEnd,
    kind := "partition" }

/-- The function `buildIntervalPartitioning`, with the closed-over constant
`intervals` as its argument. -/
def buildIntervalPartitioning (intervals : List Interval) : List PartitionStep :=
  let ordered := jsSort cmpStart intervals
  let st := partAfter ordered
  st.out ++ [partFinish st]

/-- Two intervals overlap when each starts before the other finishes. -/
def Overlap (a b : Interval) : Prop := a.s < b.e ∧ b.s < a.e

instance (a b : Interval) : Decidable (Overlap a b) := by
  unfold Overlap; infer_instance

/-- The rooms that the `forEach` of `buildIntervalPartitioning` gives to the
intervals of `l`, in processing order, when it starts from `roomEnd` (a
restatement of `partStep` without the snapshots, see `partFold_roomEnd`). -/
def roomsGiven : List Int → List Interval → List (Interval × Nat)
  | _, [] => []
  | roomEnd, iv :: rest =>
    (iv, (chooseRoom roomEnd iv).1) :: roomsGiven (chooseRoom roomEnd iv).2 rest

/-- The number of intervals of `l` that contain the time point `t`
(`s <= t < e`). -/
def depthAt (l : List Interval) (t : Int) : Nat :=
  l.countP (fun iv => decide (iv.s ≤ t ∧ t < iv.e))

/-- The number of rooms of `roomEnd` whose last finish is after `t`. -/
def busyAt (roomEnd : List Int) (t : Int) : Nat :=
  roomEnd.countP (fun x => decide (t < x))

/-! ## Minimise lateness -/

/-- One job `{ id, p, d }`, with integer `p` and `d`. -/
structure Job where
  id : String
  p : Int
  d : Int
deriving DecidableEq, Repr

/-- The built-in `jobs`. -/
def jobs : List Job :=
  [ ⟨"J1", 2, 3⟩, ⟨"J2", 1, 4⟩, ⟨"J3", 3, 8⟩, ⟨"J4", 2, 9⟩, ⟨"J5", 2, 10⟩ ]

/-- An entry `{ ...job, start, finish, lateness }` of `scheduled`. -/
structure ScheduledJob where
  id : String
  p : Int
  d : Int
  start : Int
  finish : Int
  lateness : Int
deriving DecidableEq, Repr

/-- A snapshot of `buildLateness`. -/
structure LatenessStep where
  text : String
  active : Option String
  orderedJobs : List Job
  scheduled : List ScheduledJob
  maxLate : Int
  kind : String
deriving DecidableEq, Repr

/-- The comparator `(a, b) => a.d - b.d`. -/
def cmpDeadline (a b : Job) : Int := a.d - b.d

/-- The mutable variables of `buildLateness`. -/
structure LateState where
  out : List LatenessStep
  scheduled : List ScheduledJob
  time : Int
  maxLate : Int
deriving DecidableEq, Repr

/-- The state before the `forEach`. -/
def lateInit : LateState :=
  { out := [], scheduled := [], time := 0, maxLate := 0 }

/-- One call of the `forEach` callback of `buildLateness`; the sum
`time + job.p` and the difference `finish - job.d` are those of the source,
in double arithmetic. -/
def lateStep (ordered : List Job) (st : LateState) (job : Job) : LateState :=
  let out1 := st.out ++ [{
    text := "Select next earliest-deadline job " ++ job.id ++ " (d=" ++ toString job.d ++ ").",
    active := some job.id,
    orderedJobs := ordered,
    scheduled := st.scheduled,
    maxLate := st.maxLate,
    kind := "lateness" }]
  let start := st.time
  let finish := jsAdd st.time job.p
  let lateness := max 0 (jsSub finish job.d)
  let maxLate1 := max st.maxLate lateness
  let scheduled1 := st.scheduled ++ [{
    id := job.id, p := job.p, d := job.d,
    start := start, finish := finish, lateness := lateness }]
  { scheduled := scheduled1,
    time := finish,
    maxLate := maxLate1,
    out := out1 ++ [{
      text := job.id ++ " scheduled [" ++ toString start ++ ", " ++ toString finish
        ++ "] with lateness " ++ toString lateness ++ ". Current Lmax=" ++ toString maxLate1 ++ ".",
      active := some job.id,
      orderedJobs := ordered,
      scheduled := scheduled1,
      maxLate := maxLate1,
      kind := "lateness" }] }

/-- The state after the `forEach` has run over the list `l`. -/
def lateAfter (ordered : List Job) (l : List Job) : LateState :=
  l.foldl (lateStep ordered) lateInit

/-- The snapshot pushed after the `forEach` of `buildLateness`. -/
def lateFinish (ordered : List Job) (st : LateState) : LatenessStep :=
  { text := "Finished EDD schedule. Minimum possible maximum lateness is "
      ++ toString st.maxLate ++ ".",
    active := none,
    orderedJobs := ordered,
    scheduled := st.scheduled,
    maxLate := st.maxLate,
    kind := "lateness" }

/-- The function `buildLateness`, with the closed-over constant `jobs` as its
argument. -/
def buildLateness (jobs : List Job) : List LatenessStep :=
  let ordered := jsSort cmpDeadline jobs
  let st := lateAfter ordered ordered
  st.out ++ [lateFinish ordered st]

/-- The job of a scheduled entry. -/
def ScheduledJob.job (x : ScheduledJob) : Job := { id := x.id, p := x.p, d := x.d }

/-- The largest lateness among the entries of a `scheduled` list, 0 when it
is empty. -/
def maxLatenessOf (l : List ScheduledJob) : Int :=
  (l.map (fun x => x.lateness)).foldr max 0

/-- The entries of a `scheduled` list run back to back from time 0: each one
starts when the one before it finishes (the first at 0), finishes `p` later
and has lateness `max(0, finish - d)`, with the sum `start + p` and the
difference `finish - d` of the source (double arithmetic). -/
def BackToBack (l : List ScheduledJob) : Prop :=
  ∀ pre x suf, l = pre ++ x :: suf →
    x.start = (pre.getLast?.map (fun y => y.finish)).getD 0 ∧
    x.finish = jsAdd x.start x.p ∧
    x.lateness = max 0 (jsSub x.finish x.d)

/-- The entries of a `scheduled` list run back to back from time 0 in exact
arithmetic: each one starts when the one before it finishes (the first at 0),
and `finish = start + p` and `lateness = max(0, finish - d)` hold without
rounding. -/
def BackToBackExact (l : List ScheduledJob) : Prop :=
  ∀ pre x suf, l = pre ++ x :: suf →
    x.start = (pre.getLast?.map (fun y => y.finish)).getD 0 ∧
    x.finish = x.start + x.p ∧
    x.lateness = max 0 (x.finish - x.d)

/-- The maximum lateness of the jobs of `l` run back to back in the order of
the list from time `t`, in exact arithmetic: the maximum over the jobs of
`max(0, finish - d)`, 0 for the empty list. -/
def maxLatenessFrom (t : Int) : List Job → Int
  | [] => 0
  | j :: rest => max (max 0 (t + j.p - j.d)) (maxLatenessFrom (t + j.p) rest)

/-- The maximum lateness of the jobs of `l` run back to back in the order of
the list from time `t`, with every sum and difference rounded as the source
rounds it (double arithmetic). -/
def maxLatenessRounded (t : Int) : List Job → Int
  | [] => 0
  | j :: rest =>
    max (max 0 (jsSub (jsAdd t j.p) j.d)) (maxLatenessRounded (jsAdd t j.p) rest)

/-- The total processing time of the jobs plus the magnitude of any deadline
is at most `2^53`: every sum and difference that `buildLateness` forms is then
an integer that a double holds exactly. -/
def WithinExactRange (js : List Job) : Prop :=
  ∀ j ∈ js, (js.map (fun j => j.p)).sum + j.d.natAbs ≤ 2 ^ 53

/-! ## Weighted graph -/

/-- A node `{ id, x, y }`. -/
structure Node where
  id : String
  x : Int
  y : Int
deriving DecidableEq, Repr

/-- An edge `{ id, u, v, w }`. -/
structure Edge where
  id : String
  u : String
  v : String
  w : Int
deriving DecidableEq, Repr

/-- The built-in `graphNodes`. -/
def graphNodes : List Node :=
  [ ⟨"A", 90, 80⟩, ⟨"B", 250, 60⟩, ⟨"C", 160, 190⟩, ⟨"D", 360, 125⟩,
    ⟨"E", 520, 95⟩, ⟨"F", 460, 265⟩, ⟨"G", 250, 300⟩ ]

/-- The built-in `graphEdges`. -/
def graphEdges : List Edge :=
  [ ⟨"A-B", "A", "B", 4⟩, ⟨"A-C", "A", "C", 3⟩, ⟨"B-C", "B", "C", 2⟩,
    ⟨"B-D", "B", "D", 5⟩, ⟨"C-D", "C", "D", 7⟩, ⟨"C-G", "C", "G", 6⟩,
    ⟨"D-E", "D", "E", 3⟩, ⟨"D-F", "D", "F", 4⟩, ⟨"E-F", "E", "F", 2⟩,
    ⟨"F-G", "F", "G", 1⟩, ⟨"D-G", "D", "G", 8⟩ ]

/-- The object `neighbors`: for every node the list of `{ to, edge }`. -/
def neighbors : List (String × List (String × Edge)) :=
  graphEdges.foldl
    (fun acc e => objPush (objPush acc e.u (e.v, e)) e.v (e.u, e))
    (graphNodes.map (fun n => (n.id, [])))

/-- A snapshot of kind `graph`.  A field that a generator does not set is
`none`; in `dist` the value `none` is the `null` that `deepCopy` makes of
`Infinity`. -/
structure GraphStep where
  text : String
  activeNode : Option String
  activeEdge : Option String
  visited : Option (List String)
  dist : Option (List (String × Option Int))
  treeEdges : List String
  removedEdges : List String
  kind : String
deriving DecidableEq, Repr

/-! ### Dijkstra -/

/-- The mutable variables of `buildDijkstra`; in `dist` the value `none` is
`Infinity`, in `parent` it is `null`. -/
structure DijkstraState where
  dist : List (String × Option Int)
  parent : List (String × Option String)
  visited : List String
  out : List GraphStep
deriving DecidableEq, Repr

/-- The comparison `a < b` of two entries of `dist` (`none` is `Infinity`). -/
def ltDist : Option Int → Option Int → Bool
  | some x, some y => decide (x < y)
  | some _, none => true
  | none, _ => false

/-- The value `dist[k]`; a missing key reads as `Infinity` (every key used is
a node id, and all node ids are keys). -/
def distGet (dist : List (String × Option Int)) (k : String) : Option Int :=
  (objGet dist k).join

/-- The expression `[v, p].sort().join("-")` for two strings, compared by
their characters. -/
def edgeKey (v p : String) : String :=
  if p.data < v.data then p ++ "-" ++ v else v ++ "-" ++ p

/-- The expression
`Object.entries(parent).filter(([, p]) => p).map(([v, p]) => [v, p].sort().join("-"))`. -/
def treeOfParent (parent : List (String × Option String)) : List String :=
  parent.filterMap (fun vp =>
    match vp.2 with
    | none => none
    | some p => if p = "" then none else some (edgeKey vp.1 p))

/-- Rendering of a distance in a template string. -/
def showDist : Option Int → String
  | none => "Infinity"
  | some v => toString v

/-- The selection `graphNodes.forEach(...)` of the unvisited node of least
tentative distance: the pair `(nextNode, nextDist)`. -/
def pickNext (st : DijkstraState) : Option String × Option Int :=
  graphNodes.foldl
    (fun acc n =>
      if n.id ∉ st.visited ∧ ltDist (distGet st.dist n.id) acc.2 then
        (some n.id, distGet st.dist n.id)
      else acc)
    (none, none)

/-- One call of the callback of `neighbors[nextNode].forEach` in
`buildDijkstra`; `dest` is the field `to`. -/
def relaxStep (nextNode : String) (st : DijkstraState) (te : String × Edge) : DijkstraState :=
  let dest := te.1
  let edge := te.2
  if dest ∈ st.visited then st
  else
    let cand := (distGet st.dist nextNode).map (fun dv => dv + edge.w)
    let out1 := st.out ++ [{
      text := "Relax " ++ edge.id ++ ", candidate dist(" ++ dest ++ ")=" ++ showDist cand ++ ".",
      activeNode := some nextNode,
      activeEdge := some edge.id,
      visited := some st.visited,
      dist := some st.dist,
      treeEdges := treeOfParent st.parent,
      removedEdges := [],
      kind := "graph" }]
    if ltDist cand (distGet st.dist dest) then
      let dist1 := objSet st.dist dest cand
      let parent1 := objSet st.parent dest (some nextNode)
      { dist := dist1, parent := parent1, visited := st.visited,
        out := out1 ++ [{
          text := "Update dist(" ++ dest ++ ")=" ++ showDist cand ++ ", parent(" ++ dest ++ ")="
            ++ nextNode ++ ".",
          activeNode := some dest,
          activeEdge := some edge.id,
          visited := some st.visited,
          dist := some dist1,
          treeEdges := treeOfParent parent1,
          removedEdges := [],
          kind := "graph" }] }
    else { st with out := out1 }

/-- One pass of the `while` loop of `buildDijkstra`. -/
def dijkstraPass (st : DijkstraState) : Loop.Flow DijkstraState :=
  if st.visited.length < graphNodes.length then
    match (pickNext st).1 with
    | none => Loop.Flow.done st
    | some nextNode =>
      if nextNode = "" then Loop.Flow.done st
      else
        let out1 := st.out ++ [{
          text := "Settle " ++ nextNode ++ " with distance "
            ++ showDist (distGet st.dist nextNode) ++ ".",
          activeNode := some nextNode,
          activeEdge := none,
          visited := some st.visited,
          dist := some st.dist,
          treeEdges := treeOfParent st.parent,
          removedEdges := [],
          kind := "graph" }]
        let st1 : DijkstraState :=
          { st with visited := setAdd st.visited nextNode, out := out1 }
        Loop.Flow.next (((objGet neighbors nextNode).getD []).foldl (relaxStep nextNode) st1)
  else Loop.Flow.done st

/-- The state of `buildDijkstra` before the `while` loop. -/
def dijkstraInit : DijkstraState :=
  let dist0 := graphNodes.foldl (fun o n => objSet o n.id (none : Option Int)) []
  let parent0 := graphNodes.foldl (fun o n => objSet o n.id (none : Option String)) []
  let dist1 := objSet dist0 "A" (some 0)
  { dist := dist1, parent := parent0, visited := [],
    out := [{
      text := "Initialize distances from A.",
      activeNode := some "A",
      activeEdge := none,
      visited := some [],
      dist := some dist1,
      treeEdges := [],
      removedEdges := [],
      kind := "graph" }] }

/-- The snapshot pushed after the `while` loop of `buildDijkstra`. -/
def dijkstraFinish (st : DijkstraState) : GraphStep :=
  { text := "Dijkstra complete. Shortest-path tree is highlighted.",
    activeNode := none,
    activeEdge := none,
    visited := some st.visited,
    dist := some st.dist,
    treeEdges := treeOfParent st.parent,
    removedEdges := [],
    kind := "graph" }

/-- The function `buildDijkstra`; `fuel` bounds the passes of its `while`
loop. -/
def buildDijkstra (fuel : Nat) : Option (List GraphStep) :=
  (Loop.run dijkstraPass fuel dijkstraInit).map (fun st => st.out ++ [dijkstraFinish st])

/-! ### Union-find and Kruskal -/

/-- The class `UF`: the objects `parent` and `rank`. -/
structure UF where
  parent : List (String × String)
  rank : List (String × Nat)
deriving DecidableEq, Repr

/-- The constructor of `UF`. -/
def UF.new (items : List String) : UF :=
  items.foldl
    (fun uf i => { parent := objSet uf.parent i i, rank := objSet uf.rank i 0 })
    { parent := [], rank := [] }

/-- The method `find` with path compression: the updated structure and the
returned root.  `fuel` bounds the depth of the recursion; the result is `none`
when it runs out, and also when `x` is not an item (the source then returns
`undefined`, which the model does not represent). -/
def UF.find : Nat → UF → String → Option (UF × String)
  | 0, _, _ => none
  | fuel + 1, uf, x =>
    match objGet uf.parent x with
    | none => none
    | some px =>
      if px ≠ x then
        match UF.find fuel uf px with
        | none => none
        | some (uf1, r) =>
          let uf2 : UF := { uf1 with parent := objSet uf1.parent x r }
          (objGet uf2.parent x).map (fun v => (uf2, v))
      else some (uf, px)

/-- A comparison `a < b` of two entries of `rank` (`none` is `undefined`,
which compares false). -/
def ltRank : Option Nat → Option Nat → Bool
  | some x, some y => decide (x < y)
  | _, _ => false

/-- The method `union`: the updated structure and the returned boolean. -/
def UF.union (fuel : Nat) (uf : UF) (a b : String) : Option (UF × Bool) :=
  match UF.find fuel uf a with
  | none => none
  | some (uf1, ra) =>
    match UF.find fuel uf1 b with
    | none => none
    | some (uf2, rb) =>
      if ra = rb then some (uf2, false)
      else if ltRank (objGet uf2.rank ra) (objGet uf2.rank rb) then
        some ({ uf2 with parent := objSet uf2.parent ra rb }, true)
      else if ltRank (objGet uf2.rank rb) (objGet uf2.rank ra) then
        some ({ uf2 with parent := objSet uf2.parent rb ra }, true)
      else
        some ({ parent := objSet uf2.parent rb ra,
                rank := objSet uf2.rank ra ((objGet uf2.rank ra).getD 0 + 1) }, true)

/-- The comparator `(a, b) => a.w - b.w`. -/
def cmpWeight (a b : Edge) : Int := a.w - b.w

/-- The comparator `(a, b) => b.w - a.w`. -/
def cmpWeightDesc (a b : Edge) : Int := b.w - a.w

/-- The mutable variables of `buildKruskal`. -/
structure KruskalState where
  uf : UF
  tree : List String
  rejected : List String
  out : List GraphStep
deriving DecidableEq, Repr

/-- One call of the `forEach` callback of `buildKruskal`. -/
def kruskalStep (fuel : Nat) (st : KruskalState) (edge : Edge) : Option KruskalState :=
  let out1 := st.out ++ [{
    text := "Consider " ++ edge.id ++ " (w=" ++ toString edge.w ++ ").",
    activeNode := none,
    activeEdge := some edge.id,
    visited := none,
    dist := none,
    treeEdges := st.tree,
    removedEdges := st.rejected,
    kind := "graph" }]
  match UF.union fuel st.uf edge.u edge.v with
  | none => none
  | some (uf1, true) =>
    let tree1 := setAdd st.tree edge.id
    some { uf := uf1, tree := tree1, rejected := st.rejected,
           out := out1 ++ [{
             text := "Accept " ++ edge.id ++ "; it connects two components.",
             activeNode := none,
             activeEdge := some edge.id,
             visited := none,
             dist := none,
             treeEdges := tree1,
             removedEdges := st.rejected,
             kind := "graph" }] }
  | some (uf1, false) =>
    let rejected1 := setAdd st.rejected edge.id
    some { uf := uf1, tree := st.tree, rejected := rejected1,
           out := out1 ++ [{
             text := "Reject " ++ edge.id ++ "; it creates a cycle.",
             activeNode := none,
             activeEdge := some edge.id,
             visited := none,
             dist := none,
             treeEdges := st.tree,
             removedEdges := rejected1,
             kind := "graph" }] }

/-- The state of `buildKruskal` before the `forEach`. -/
def kruskalInit : KruskalState :=
  { uf := UF.new (graphNodes.map (fun n => n.id)), tree := [], rejected := [], out := [] }

/-- The snapshot pushed after the `forEach` of `buildKruskal`. -/
def kruskalFinish (st : KruskalState) : GraphStep :=
  { text := "Kruskal complete. MST edges are highlighted.",
    activeNode := none,
    activeEdge := none,
    visited := none,
    dist := none,
    treeEdges := st.tree,
    removedEdges := st.rejected,
    kind := "graph" }

/-- The function `buildKruskal`; `fuel` bounds the depth of `find`. -/
def buildKruskal (fuel : Nat) : Option (List GraphStep) :=
  (Loop.forEachM (kruskalStep fuel) (jsSort cmpWeight graphEdges) kruskalInit).map
    (fun st => st.out ++ [kruskalFinish st])

/-! ### Prim -/

/-- The mutable variables of `buildPrim`. -/
structure PrimState where
  visited : List String
  tree : List String
  out : List GraphStep
deriving DecidableEq, Repr

/-- The scan `graphEdges.forEach(...)` of `buildPrim` for the lightest edge
with exactly one end in `visited`: the variable `best`. -/
def primBest (visited : List String) : Option Edge :=
  graphEdges.foldl
    (fun best edge =>
      let inU := decide (edge.u ∈ visited)
      let inV := decide (edge.v ∈ visited)
      if (inU && !inV) || (inV && !inU) then
        match best with
        | none => some edge
        | some b => if edge.w < b.w then some edge else best
      else best)
    none

/-- One pass of the `while` loop of `buildPrim`. -/
def primPass (st : PrimState) : Loop.Flow PrimState :=
  if st.visited.length < graphNodes.length then
    match primBest st.visited with
    | none => Loop.Flow.done st
    | some best =>
      let nextNode := if best.u ∈ st.visited then best.v else best.u
      let out1 := st.out ++ [{
        text := "Choose minimum crossing edge " ++ best.id ++ " (w=" ++ toString best.w ++ ").",
        activeNode := some nextNode,
        activeEdge := some best.id,
        visited := some st.visited,
        dist := none,
        treeEdges := st.tree,
        removedEdges := [],
        kind := "graph" }]
      let tree1 := setAdd st.tree best.id
      let visited1 := setAdd st.visited nextNode
      Loop.Flow.next
        { visited := visited1, tree := tree1,
          out := out1 ++ [{
            text := "Add " ++ best.id ++ " and visit node " ++ nextNode ++ ".",
            activeNode := some nextNode,
            activeEdge := some best.id,
            visited := some visited1,
            dist := none,
            treeEdges := tree1,
            removedEdges := [],
            kind := "graph" }] }
  else Loop.Flow.done st

/-- The state of `buildPrim` before the `while` loop. -/
def primInit : PrimState :=
  { visited := ["A"], tree := [],
    out := [{
      text := "Start Prim from node A.",
      activeNode := some "A",
      activeEdge := none,
      visited := some ["A"],
      dist := none,
      treeEdges := [],
      removedEdges := [],
      kind := "graph" }] }

/-- The snapshot pushed after the `while` loop of `buildPrim`. -/
def primFinish (st : PrimState) : GraphStep :=
  { text := "Prim complete. MST edges are highlighted.",
    activeNode := none,
    activeEdge := none,
    visited := some st.visited,
    dist := none,
    treeEdges := st.tree,
    removedEdges := [],
    kind := "graph" }

/-- The function `buildPrim`; `fuel` bounds the passes of its `while` loop. -/
def buildPrim (fuel : Nat) : Option (List GraphStep) :=
  (Loop.run primPass fuel primInit).map (fun st => st.out ++ [primFinish st])

/-! ### Reverse-delete -/

/-- The object `adj` of `connected`: for every node the ends of its edges
whose id is in `activeEdges`. -/
def activeAdj (activeEdges : List String) : List (String × List String) :=
  graphEdges.foldl
    (fun adj e =>
      if e.id ∉ activeEdges then adj
      else objPush (objPush adj e.u e.v) e.v e.u)
    (graphNodes.map (fun n => (n.id, [])))

/-- The variables `seen` and `stack` of `connected`. -/
structure SearchState where
  seen : List String
  stack : List String
deriving DecidableEq, Repr

/-- One pass of the `while (stack.length)` loop of `connected`; `stack.pop()`
takes the last element. -/
def connectedPass (adj : List (String × List String)) (st : SearchState) :
    Loop.Flow SearchState :=
  match st.stack.getLast? with
  | none => Loop.Flow.done st
  | some u =>
    let stack1 := st.stack.dropLast
    if u ∈ st.seen then Loop.Flow.next { seen := st.seen, stack := stack1 }
    else
      let seen1 := setAdd st.seen u
      Loop.Flow.next
        { seen := seen1,
          stack := ((objGet adj u).getD []).foldl
            (fun stack v => if v ∉ seen1 then stack ++ [v] else stack) stack1 }

/-- The function `connected`; `fuel` bounds the passes of its `while` loop. -/
def connected (fuel : Nat) (activeEdges : List String) : Option Bool :=
  (Loop.run (connectedPass (activeAdj activeEdges)) fuel
      { seen := [], stack := (graphNodes.head?.map (fun n => n.id)).toList }).map
    (fun st => decide (st.seen.length = graphNodes.length))

/-- The mutable variables of `buildReverseDelete`. -/
structure ReverseDeleteState where
  active : List String
  removed : List String
  out : List GraphStep
deriving DecidableEq, Repr

/-- One call of the `forEach` callback of `buildReverseDelete`. -/
def reverseDeleteStep (fuel : Nat) (st : ReverseDeleteState) (edge : Edge) :
    Option ReverseDeleteState :=
  let out1 := st.out ++ [{
    text := "Try removing " ++ edge.id ++ " (w=" ++ toString edge.w ++ ").",
    activeNode := none,
    activeEdge := some edge.id,
    visited := none,
    dist := none,
    treeEdges := st.active,
    removedEdges := st.removed,
    kind := "graph" }]
  let active1 := setDelete st.active edge.id
  match connected fuel active1 with
  | none => none
  | some true =>
    let removed1 := setAdd st.removed edge.id
    some { active := active1, removed := removed1,
           out := out1 ++ [{
             text := "Remove " ++ edge.id ++ "; graph remains connected.",
             activeNode := none,
             activeEdge := some edge.id,
             visited := none,
             dist := none,
             treeEdges := active1,
             removedEdges := removed1,
             kind := "graph" }] }
  | some false =>
    let active2 := setAdd active1 edge.id
    some { active := active2, removed := st.removed,
           out := out1 ++ [{
             text := "Keep " ++ edge.id ++ "; removing it disconnects the graph.",
             activeNode := none,
             activeEdge := some edge.id,
             visited := none,
             dist := none,
             treeEdges := active2,
             removedEdges := st.removed,
             kind := "graph" }] }

/-- The state of `buildReverseDelete` before the `forEach`. -/
def reverseDeleteInit : ReverseDeleteState :=
  { active := (graphEdges.map (fun e => e.id)).foldl setAdd [], removed := [], out := [] }

/-- The snapshot pushed after the `forEach` of `buildReverseDelete`. -/
def reverseDeleteFinish (st : ReverseDeleteState) : GraphStep :=
  { text := "Reverse-delete complete. Remaining edges form an MST.",
    activeNode := none,
    activeEdge := none,
    visited := none,
    dist := none,
    treeEdges := st.active,
    removedEdges := st.removed,
    kind := "graph" }

/-- The function `buildReverseDelete`; `fuel` bounds the passes of the loop of
`connected`. -/
def buildReverseDelete (fuel : Nat) : Option (List GraphStep) :=
  (Loop.forEachM (reverseDeleteStep fuel) (jsSort cmpWeightDesc graphEdges)
      reverseDeleteInit).map
    (fun st => st.out ++ [reverseDeleteFinish st])

/-! ### Paths and spanning trees of the built-in graph -/

/-- A walk from `a` to `b`: a list of edges of the graph, each one leaving the
node where the one before it arrived, taken in either direction. -/
def isWalk : String → String → List Edge → Bool
  | a, b, [] => decide (a = b)
  | a, b, e :: rest =>
    decide (e ∈ graphEdges) &&
      ((decide (e.u = a) && isWalk e.v b rest) || (decide (e.v = a) && isWalk e.u b rest))

/-- The total weight of a list of edges. -/
def totalWeight (p : List Edge) : Int := (p.map (fun e => e.w)).sum

/-- Two nodes are joined by an edge of `es`, in either direction. -/
def Adjacent (es : List Edge) (a b : String) : Prop :=
  ∃ e ∈ es, (e.u = a ∧ e.v = b) ∨ (e.u = b ∧ e.v = a)

/-- The edges `es` connect all the nodes of the graph: every node can be
reached from A along edges of `es`. -/
def Spans (es : List Edge) : Prop :=
  ∀ n ∈ graphNodes, Relation.ReflTransGen (Adjacent es) "A" n.id

/-- A spanning tree of the built-in graph: a set of its edges (a sublist of
`graphEdges`) that connects all the nodes with one edge fewer than there are
nodes (so it has no cycle). -/
def IsSpanningTree (es : List Edge) : Prop :=
  es.Sublist graphEdges ∧ Spans es ∧ es.length + 1 = graphNodes.length

/-- The edges of the graph whose id is in `ids`. -/
def edgesOfIds (ids : List String) : List Edge :=
  graphEdges.filter (fun e => decide (e.id ∈ ids))

/-- One round of growing a set of nodes along the edges `es`. -/
def grow (es : List Edge) (seen : List String) : List String :=
  es.foldl
    (fun s e =>
      if e.u ∈ s ∧ e.v ∉ s then s ++ [e.v]
      else if e.v ∈ s ∧ e.u ∉ s then s ++ [e.u]
      else s)
    seen

/-- The nodes found from A after as many rounds as there are nodes. -/
def grown (es : List Edge) : List String :=
  (grow es)^[graphNodes.length] ["A"]

/-- A certificate that `es` does not connect all the nodes: the set `grown es`
holds A, is closed under the edges of `es` and misses a node. -/
def cutCheck (es : List Edge) : Bool :=
  decide ("A" ∈ grown es) &&
    es.all (fun e => decide (e.u ∈ grown es ↔ e.v ∈ grown es)) &&
    graphNodes.any (fun n => decide (n.id ∉ grown es))

/-- The test `check` holds of `acc ++ T` for every sublist `T` of the
list. -/
def allSubsets (check : List Edge → Bool) : List Edge → List Edge → Bool
  | [], acc => check acc
  | e :: rest, acc => allSubsets check rest acc && allSubsets check rest (acc ++ [e])

/-- The result `r` of a generator is a trace whose last snapshot has a
`treeEdges` list of exactly 6 distinct ids, each the id of an edge of the
graph. -/
def EndsWithSixEdges (r : Option (List GraphStep)) : Prop :=
  ∃ tr fin, r = some tr ∧ tr.getLast? = some fin ∧
    fin.treeEdges.length = 6 ∧ fin.treeEdges.Nodup ∧
    ∀ i ∈ fin.treeEdges, ∃ e ∈ graphEdges, e.id = i

/-! ## Invariants used in the proofs -/

/-- The total processing time of the jobs of `l` with deadline at most `D`. -/
def workBy (D : Int) (l : List Job) : Int :=
  ((l.filter (fun j => decide (j.d ≤ D))).map (fun j => j.p)).sum

/-- Every selected interval finishes before the next one starts. -/
def SchedChain (st : SchedState) : Prop :=
  st.selected.Pairwise (fun a b => a.e ≤ b.s) ∧
  ∀ a ∈ st.selected, ∃ v, st.lastEnd = some v ∧ a.e ≤ v

/-- The invariant of the `forEach` of `buildIntervalPartitioning`: `P` are the
intervals processed so far, `R` is `roomEnd`. -/
def PartInv (P : List Interval) (R : List Int) : Prop :=
  (∀ t, depthAt P t ≤ busyAt R t) ∧
  (∀ t, (∀ iv ∈ P, iv.s ≤ t) → busyAt R t ≤ depthAt P t) ∧
  (∃ t, R.length ≤ depthAt P t)

/-- The invariant of the `forEach` of `buildLateness`. -/
def LateInv (st : LateState) : Prop :=
  BackToBack st.scheduled ∧
  st.time = (st.scheduled.getLast?.map (fun y => y.finish)).getD 0 ∧
  st.maxLate = maxLatenessOf st.scheduled ∧
  ∀ step ∈ st.out, BackToBack step.scheduled ∧ step.maxLate = maxLatenessOf step.scheduled

end Greedy

/-! # Playback controllers

The three pages (`search.js`, `sort.js`, `greedy.js`) each keep the variables
`steps`, `index`/`idx`, `timer` and a mode, and define the same transport
functions up to their names and the text of the ready message.  The trace
generators are a parameter `gen` of the controller and the narration of a
snapshot is `text`; the browser is the list of its active interval timers. -/

namespace Playback

/-- The interval timers of the browser: the active ones (id and delay) and
the next id `setInterval` will return (ids are positive). -/
structure Host where
  timers : List (Nat × Int)
  nextId : Nat
deriving DecidableEq, Repr

/-- The call `setInterval(callback, delay)`: the new host and the id. -/
def setInterval (h : Host) (delay : Int) : Host × Nat :=
  ({ timers := h.timers ++ [(h.nextId, delay)], nextId := h.nextId + 1 }, h.nextId)

/-- The call `clearInterval(id)`. -/
def clearInterval (h : Host) (id : Nat) : Host :=
  { h with timers := h.timers.filter (fun p => p.1 ≠ id) }

/-- The state of a page: the script variables `mode`/`currentAlgo`, `steps`,
`index`/`idx`, `timer`, the array `base` (sort page only), and what the page
shows: `status` is `stateEl.textContent`, `shown` is the argument of the last
call of the renderer (`none` for `null`), `speed` is
`Number(speedInput.value)`. -/
structure Ctl (σ : Type) where
  mode : String
  steps : List σ
  idx : Int
  timer : Option Nat
  host : Host
  status : String
  shown : Option σ
  speed : Int
  base : List Int

/-- The function `applyCurrent` (`applyStep` in `sort.js`); `ready` is the
ready message of the page.  Reading `steps[idx]` outside the array makes the
source throw; the model then leaves the state as it is (this is never
reached, see the cursor bounds). -/
def applyCurrent {σ : Type} (ready : String) (text : σ → String) (c : Ctl σ) : Ctl σ :=
  if c.idx < 0 then { c with status := ready, shown := none }
  else
    match c.steps[c.idx.toNat]? with
    | none => c
    | some step =>
      { c with
        status := "Step " ++ toString (c.idx + 1) ++ "/" ++ toString c.steps.length ++ "\n"
          ++ text step,
        shown := some step }

/-- The function `stepForward`. -/
def stepForward {σ : Type} (ready : String) (text : σ → String) (c : Ctl σ) : Ctl σ :=
  if c.steps.length = 0 ∨ c.idx ≥ (c.steps.length : Int) - 1 then c
  else applyCurrent ready text { c with idx := c.idx + 1 }

/-- The function `stepBack`. -/
def stepBack {σ : Type} (ready : String) (text : σ → String) (c : Ctl σ) : Ctl σ :=
  if c.idx ≤ -1 then c
  else applyCurrent ready text { c with idx := c.idx - 1 }

/-- The function `stopPlaying` (`stop` in `greedy.js`). -/
def stopPlaying {σ : Type} (c : Ctl σ) : Ctl σ :=
  match c.timer with
  | none => c
  | some id => { c with host := clearInterval c.host id, timer := none }

/-- The function `startPlaying` (`play` in `greedy.js`). -/
def startPlaying {σ : Type} (c : Ctl σ) : Ctl σ :=
  let c1 := stopPlaying c
  { c1 with host := (setInterval c1.host c1.speed).1,
            timer := some (setInterval c1.host c1.speed).2 }

/-- The callback of the interval `id`; it runs only while that interval is
active. -/
def tick {σ : Type} (ready : String) (text : σ → String) (id : Nat) (c : Ctl σ) : Ctl σ :=
  if id ∈ c.host.timers.map (fun p => p.1) then
    if c.idx ≥ (c.steps.length : Int) - 1 then stopPlaying c
    else stepForward ready text c
  else c

/-- The handler of the `input` event of the speed control, after the control
has taken the value `v`. -/
def speedInput {σ : Type} (v : Int) (c : Ctl σ) : Ctl σ :=
  let c1 := { c with speed := v }
  match c1.timer with
  | none => c1
  | some _ => startPlaying c1

/-- The values of the script variables before the page script runs its
initialisation; `speed` is the value of the speed control of the page. -/
def initial {σ : Type} (mode : String) (speed : Int) : Ctl σ :=
  { mode := mode, steps := [], idx := -1, timer := none,
    host := { timers := [], nextId := 1 }, status := "", shown := none,
    speed := speed, base := [] }

/-- The property names that every object literal inherits from
`Object.prototype`: for these keys `obj[key]` is defined (and truthy) although
the literal does not list them. -/
def protoKeys : List String :=
  ["constructor", "toString", "toLocaleString", "valueOf", "hasOwnProperty",
   "isPrototypeOf", "propertyIsEnumerable", "__proto__", "__defineGetter__",
   "__defineSetter__", "__lookupGetter__", "__lookupSetter__"]

/-- What a user or the browser can do to a page. -/
inductive Event (τ : Type) where
  | setMode (m : String) : Event τ
  | newArray (arr : List Int) : Event τ
  | build (target : Option τ) : Event τ
  | play : Event τ
  | pause : Event τ
  | stepForward : Event τ
  | stepBack : Event τ
  | reset : Event τ
  | speed (v : Int) : Event τ
  | tick (id : Nat) : Event τ

end Playback

/-! ## The search page -/

namespace SearchPage

open Playback

/-- The ready message of `applyCurrent`. -/
def ready : String := "Ready. Build steps then play or step forward."

/-- The modes of the search page. -/
def modes : List String := ["linear", "binary", "bfs", "dfs"]

/-- The function `resetState`. -/
def resetState {σ : Type} (c : Ctl σ) : Ctl σ :=
  { c with steps := [], idx := -1, status := "No steps built yet." }

/-- The function `setMode`.  When `details[next]` is undefined the source
throws in `renderDetails`, after `mode` has been assigned. -/
def setMode {σ : Type} (next : String) (c : Ctl σ) : Ctl σ :=
  let c1 := { c with mode := next }
  if next ∈ modes ∨ next ∈ protoKeys then
    { resetState (stopPlaying c1) with shown := none }
  else c1

/-- The function `buildSteps`; `target` is `Number(targetInput.value)`, with
`none` for `NaN`, and `gen mode target` is the trace of the generator chosen
by `mode`. -/
def buildSteps {σ τ : Type} (text : σ → String) (gen : String → τ → List σ)
    (target : Option τ) (c : Ctl σ) : Ctl σ :=
  match target with
  | none => { c with status := "Enter a valid numeric target." }
  | some t => applyCurrent ready text { c with steps := gen c.mode t, idx := -1 }

/-- The click handler of the reset button. -/
def resetClick {σ : Type} (c : Ctl σ) : Ctl σ :=
  { resetState (stopPlaying c) with shown := none }

/-- The effect of an event on the search page (there is no array control). -/
def handle {σ τ : Type} (text : σ → String) (gen : String → τ → List σ) (c : Ctl σ) :
    Event τ → Ctl σ
  | Event.setMode m => setMode m c
  | Event.newArray _ => c
  | Event.build target => buildSteps text gen target c
  | Event.play => startPlaying c
  | Event.pause => stopPlaying c
  | Event.stepForward => stepForward ready text c
  | Event.stepBack => stepBack ready text c
  | Event.reset => resetClick c
  | Event.speed v => speedInput v c
  | Event.tick id => tick ready text id c

/-- The page initialisation at the end of the script: `requested` is the
`algo` query parameter and `target` the parsed value of the target input. -/
def init {σ τ : Type} (text : σ → String) (gen : String → τ → List σ)
    (requested : Option String) (target : Option τ) (c : Ctl σ) : Ctl σ :=
  match requested with
  | none => setMode "linear" c
  | some r =>
    if r ≠ "" ∧ r ∈ modes then buildSteps text gen target (setMode r c)
    else setMode "linear" c

end SearchPage

/-! ## The sort page -/

namespace SortPage

open Playback

/-- The ready message of `applyStep`. -/
def ready : String := "Ready. Build steps and start playback."

/-- The keys of `conceptMap`. -/
def modes : List String := ["bubble", "selection", "insertion", "merge", "quick"]

/-- The test `conceptMap[key]` for a truthy value: the key is one of the five
algorithms or a property inherited from `Object.prototype`. -/
def conceptMapHas (key : String) : Bool :=
  decide (key ∈ modes ∨ key ∈ protoKeys)

/-- The function `setAlgo`. -/
def setAlgo {σ : Type} (text : σ → String) (next : String) (c : Ctl σ) : Ctl σ :=
  if conceptMapHas next then
    applyCurrent ready text { stopPlaying { c with mode := next } with steps := [], idx := -1 }
  else c

/-- The function `resetArray`; `arr` is the array that `randomArray` returns. -/
def resetArray {σ : Type} (text : σ → String) (arr : List Int) (c : Ctl σ) : Ctl σ :=
  applyCurrent ready text { stopPlaying c with base := arr, steps := [], idx := -1 }

/-- The function `buildSteps`; `gen algo base` is the trace of the generator
chosen by `currentAlgo`. -/
def buildSteps {σ : Type} (text : σ → String) (gen : String → List Int → List σ)
    (c : Ctl σ) : Ctl σ :=
  applyCurrent ready text { c with steps := gen c.mode c.base, idx := -1 }

/-- The click handler of the build button. -/
def buildClick {σ : Type} (text : σ → String) (gen : String → List Int → List σ)
    (c : Ctl σ) : Ctl σ :=
  buildSteps text gen (stopPlaying c)

/-- The click handler of the reset button. -/
def resetClick {σ : Type} (text : σ → String) (c : Ctl σ) : Ctl σ :=
  applyCurrent ready text { stopPlaying c with idx := -1 }

/-- The effect of an event on the sort page (there is no target). -/
def handle {σ τ : Type} (text : σ → String) (gen : String → List Int → List σ) (c : Ctl σ) :
    Event τ → Ctl σ
  | Event.setMode m => setAlgo text m c
  | Event.newArray arr => resetArray text arr c
  | Event.build _ => buildClick text gen c
  | Event.play => startPlaying c
  | Event.pause => stopPlaying c
  | Event.stepForward => stepForward ready text c
  | Event.stepBack => stepBack ready text c
  | Event.reset => resetClick text c
  | Event.speed v => speedInput v c
  | Event.tick id => tick ready text id c

/-- The page initialisation at the end of the script: `requested` is the
`algo` query parameter and `arr` the array that `randomArray` returns. -/
def init {σ : Type} (text : σ → String) (gen : String → List Int → List σ)
    (requested : Option String) (arr : List Int) (c : Ctl σ) : Ctl σ :=
  let c1 := setAlgo text "bubble" c
  match requested with
  | none => resetArray text arr c1
  | some r =>
    if r ≠ "" ∧ conceptMapHas r then
      buildSteps text gen (resetArray text arr (setAlgo text r c1))
    else resetArray text arr c1

end SortPage

/-! ## The greedy page -/

namespace GreedyPage

open Playback

/-- The ready message of `applyCurrent`. -/
def ready : String := "Ready. Build steps to begin."

/-- The list `valid` of modes. -/
def modes : List String :=
  ["interval", "partition", "lateness", "dijkstra", "kruskal", "prim", "reverse_delete"]

/-- The function `setMode`.  When `details[next]` is undefined the source
throws in `renderDetails`, after `mode` has been assigned. -/
def setMode {σ : Type} (text : σ → String) (next : String) (c : Ctl σ) : Ctl σ :=
  let c1 := { c with mode := next }
  if next ∈ modes ∨ next ∈ protoKeys then
    applyCurrent ready text { stopPlaying c1 with steps := [], idx := -1 }
  else c1

/-- The function `buildSteps`; `gen mode` is the trace of the generator
chosen by `mode`. -/
def buildSteps {σ : Type} (text : σ → String) (gen : String → List σ) (c : Ctl σ) : Ctl σ :=
  applyCurrent ready text { c with steps := gen c.mode, idx := -1 }

/-- The click handler of the reset button. -/
def resetClick {σ : Type} (text : σ → String) (c : Ctl σ) : Ctl σ :=
  applyCurrent ready text { stopPlaying c with steps := [], idx := -1 }

/-- The effect of an event on the greedy page (there is no array control and
no target). -/
def handle {σ τ : Type} (text : σ → String) (gen : String → List σ) (c : Ctl σ) :
    Event τ → Ctl σ
  | Event.setMode m => setMode text m c
  | Event.newArray _ => c
  | Event.build _ => buildSteps text gen c
  | Event.play => startPlaying c
  | Event.pause => stopPlaying c
  | Event.stepForward => stepForward ready text c
  | Event.stepBack => stepBack ready text c
  | Event.reset => resetClick text c
  | Event.speed v => speedInput v c
  | Event.tick id => tick ready text id c

/-- The page initialisation at the end of the script: `requested` is the
`algo` query parameter. -/
def init {σ : Type} (text : σ → String) (gen : String → List σ)
    (requested : Option String) (c : Ctl σ) : Ctl σ :=
  match requested with
  | none => setMode text "interval" c
  | some r =>
    if r ≠ "" ∧ r ∈ modes then buildSteps text gen (setMode text r c)
    else setMode text "interval" c

end GreedyPage

namespace Playback

/-- The cursor is between -1 and the last index of the trace. -/
def CursorInRange {σ : Type} (c : Ctl σ) : Prop :=
  -1 ≤ c.idx ∧ c.idx ≤ (c.steps.length : Int) - 1

end Playback

/-! # The sort page: trace generators of `sort.js`

Arrays are `List Int`.  The generators only read and write inside the array
(`rd` gives 0 outside, `List.set` does nothing outside; neither happens), and
the length of `arr` never changes, so a bound `arr.length` is the length of
the input.  An index variable that the source can make -1 is kept one higher
in the model, as its doc comment says. -/

namespace Sorting

open Loop

/-- A snapshot `{ arr, active, compare, sorted, text }`. -/
structure Step where
  arr : List Int
  active : List Nat
  compare : List Nat
  sorted : List Nat
  text : String
deriving DecidableEq, Repr

/-- The function `pushStep` (it copies its arguments). -/
def pushStep (out : List Step) (arr : List Int) (active compare sorted : List Nat)
    (text : String) : List Step :=
  out ++ [{ arr := arr, active := active, compare := compare, sorted := sorted, text := text }]

/-- The read `arr[i]`. -/
def rd (arr : List Int) (i : Nat) : Int := arr.getD i 0

/-- The destructuring swap `[arr[i], arr[j]] = [arr[j], arr[i]]`. -/
def swap (arr : List Int) (i j : Nat) : List Int :=
  (arr.set i (rd arr j)).set j (rd arr i)

/-! ## Bubble sort -/

/-- The variables `arr`, `out`, `sorted` of `buildBubble` and
`buildSelection`. -/
structure SortState where
  arr : List Int
  out : List Step
  sorted : List Nat
deriving DecidableEq, Repr

/-- The body of the inner loop of `buildBubble`. -/
def bubbleInner (sorted : List Nat) (j : Nat) (s : List Int × List Step) :
    List Int × List Step :=
  let out1 := pushStep s.2 s.1 [] [j, j + 1] sorted
    ("Compare indices " ++ toString j ++ " and " ++ toString (j + 1) ++ ".")
  if rd s.1 j > rd s.1 (j + 1) then
    let arr1 := swap s.1 j (j + 1)
    (arr1, pushStep out1 arr1 [j, j + 1] [] sorted
      ("Swap " ++ toString j ++ " and " ++ toString (j + 1) ++ "."))
  else (s.1, out1)

/-- The body of the outer loop of `buildBubble`. -/
def bubbleOuter (i : Nat) (s : SortState) : SortState :=
  let r := forLoop (bubbleInner s.sorted) (s.arr.length - i - 1) 0 (s.arr, s.out)
  let sorted1 := s.sorted ++ [r.1.length - i - 1]
  { arr := r.1,
    sorted := sorted1,
    out := pushStep r.2 r.1 [] [] sorted1
      ("Position " ++ toString (r.1.length - i - 1) ++ " is fixed.") }

/-- The state of `buildBubble` after its outer loop. -/
def bubbleFinal (input : List Int) : SortState :=
  forLoop bubbleOuter input.length 0 { arr := input, out := [], sorted := [] }

/-- The function `buildBubble`. -/
def buildBubble (input : List Int) : List Step :=
  (bubbleFinal input).out

/-! ## Selection sort -/

/-- The body of the inner loop of `buildSelection`; the state is
`(min, out)`. -/
def selectionInner (arr : List Int) (sorted : List Nat) (j : Nat) (s : Nat × List Step) :
    Nat × List Step :=
  let out1 := pushStep s.2 arr [s.1] [s.1, j] sorted
    ("Compare min index " ++ toString s.1 ++ " with " ++ toString j ++ ".")
  if rd arr j < rd arr s.1 then
    (j, pushStep out1 arr [j] [] sorted ("New minimum found at " ++ toString j ++ "."))
  else (s.1, out1)

/-- The body of the outer loop of `buildSelection`. -/
def selectionOuter (i : Nat) (s : SortState) : SortState :=
  let out0 := pushStep s.out s.arr [i] [] s.sorted
    ("Set index " ++ toString i ++ " as current minimum.")
  let r := forLoop (selectionInner s.arr s.sorted) (s.arr.length - (i + 1)) (i + 1) (i, out0)
  let min := r.1
  let arr1 := if min ≠ i then swap s.arr i min else s.arr
  let out1 :=
    if min ≠ i then
      pushStep r.2 arr1 [i, min] [] s.sorted
        ("Swap " ++ toString i ++ " and " ++ toString min ++ ".")
    else r.2
  let sorted1 := s.sorted ++ [i]
  { arr := arr1,
    sorted := sorted1,
    out := pushStep out1 arr1 [] [] sorted1 ("Index " ++ toString i ++ " is now sorted.") }

/-- The state of `buildSelection` after its outer loop. -/
def selectionFinal (input : List Int) : SortState :=
  forLoop selectionOuter input.length 0 { arr := input, out := [], sorted := [] }

/-- The function `buildSelection`. -/
def buildSelection (input : List Int) : List Step :=
  (selectionFinal input).out

/-! ## Insertion sort -/

/-- The loop `while (j >= 0 && arr[j] > key)` of `buildInsertion`.  The first
argument is `j + 1` (so 0 stands for `j = -1`); the result is the final
`j + 1` with the array and the trace. -/
def insertionShift (key : Int) : Nat → List Int × List Step → Nat × List Int × List Step
  | 0, s => (0, s)
  | j + 1, s =>
    if rd s.1 j > key then
      let out1 := pushStep s.2 s.1 [j] [j, j + 1] []
        ("Shift " ++ toString (rd s.1 j) ++ " right from index " ++ toString j ++ ".")
      let arr1 := s.1.set (j + 1) (rd s.1 j)
      let out2 := pushStep out1 arr1 [j + 1] [] [] ("Index " ++ toString (j + 1) ++ " updated.")
      insertionShift key j (arr1, out2)
    else (j + 1, s)

/-- The body of the `for` loop of `buildInsertion`. -/
def insertionOuter (i : Nat) (s : List Int × List Step) : List Int × List Step :=
  let key := rd s.1 i
  let out0 := pushStep s.2 s.1 [i] [] []
    ("Insert value " ++ toString key ++ " from index " ++ toString i ++ ".")
  let r := insertionShift key i (s.1, out0)
  let arr1 := r.2.1.set r.1 key
  (arr1, pushStep r.2.2 arr1 [r.1] [] (List.range (i + 1))
    ("Placed " ++ toString key ++ " at index " ++ toString r.1 ++ "."))

/-- The array and the trace of `buildInsertion` after its loop. -/
def insertionFinal (input : List Int) : List Int × List Step :=
  forLoop insertionOuter (input.length - 1) 1
    (input, pushStep [] input [0] [] [0] "Start with first element as sorted.")

/-- The function `buildInsertion`. -/
def buildInsertion (input : List Int) : List Step :=
  (insertionFinal input).2

/-! ## Merge sort -/

/-- The variables `i`, `j`, `k` of `merge` with the array and the trace. -/
structure MergeState where
  i : Nat
  j : Nat
  k : Nat
  arr : List Int
  out : List Step
deriving DecidableEq, Repr

/-- One pass of the loop `while (i < leftArr.length && j < rightArr.length)`. -/
def mergeMainPass (leftArr rightArr : List Int) (s : MergeState) : Flow MergeState :=
  if s.i < leftArr.length ∧ s.j < rightArr.length then
    let out1 := pushStep s.out s.arr [s.k] [] []
      ("Merge compare " ++ toString (rd leftArr s.i) ++ " and "
        ++ toString (rd rightArr s.j) ++ ".")
    if rd leftArr s.i ≤ rd rightArr s.j then
      let arr1 := s.arr.set s.k (rd leftArr s.i)
      Flow.next { i := s.i + 1, j := s.j, k := s.k + 1, arr := arr1,
                  out := pushStep out1 arr1 [s.k] [] []
                    ("Write merged value at index " ++ toString s.k ++ ".") }
    else
      let arr1 := s.arr.set s.k (rd rightArr s.j)
      Flow.next { i := s.i, j := s.j + 1, k := s.k + 1, arr := arr1,
                  out := pushStep out1 arr1 [s.k] [] []
                    ("Write merged value at index " ++ toString s.k ++ ".") }
  else Flow.done s

/-- One pass of the loop `while (i < leftArr.length)`. -/
def mergeLeftPass (leftArr : List Int) (s : MergeState) : Flow MergeState :=
  if s.i < leftArr.length then
    let arr1 := s.arr.set s.k (rd leftArr s.i)
    Flow.next { i := s.i + 1, j := s.j, k := s.k + 1, arr := arr1,
                out := pushStep s.out arr1 [s.k] [] []
                  ("Copy remaining left value to index " ++ toString s.k ++ ".") }
  else Flow.done s

/-- One pass of the loop `while (j < rightArr.length)`. -/
def mergeRightPass (rightArr : List Int) (s : MergeState) : Flow MergeState :=
  if s.j < rightArr.length then
    let arr1 := s.arr.set s.k (rd rightArr s.j)
    Flow.next { i := s.i, j := s.j + 1, k := s.k + 1, arr := arr1,
                out := pushStep s.out arr1 [s.k] [] []
                  ("Copy remaining right value to index " ++ toString s.k ++ ".") }
  else Flow.done s

/-- The method `arr.slice(a, b)` for `0 <= a`. -/
def slice (arr : List Int) (a b : Nat) : List Int :=
  (arr.drop a).take (b - a)

/-- The inner function `merge` of `buildMerge`; `fuel` bounds the passes of
each of its loops. -/
def merge (fuel : Nat) (left mid right : Nat) (s : List Int × List Step) :
    Option (List Int × List Step) :=
  let leftArr := slice s.1 left (mid + 1)
  let rightArr := slice s.1 (mid + 1) (right + 1)
  match Loop.run (mergeMainPass leftArr rightArr) fuel
      { i := 0, j := 0, k := left, arr := s.1, out := s.2 } with
  | none => none
  | some s1 =>
    match Loop.run (mergeLeftPass leftArr) fuel s1 with
    | none => none
    | some s2 =>
      match Loop.run (mergeRightPass rightArr) fuel s2 with
      | none => none
      | some s3 =>
        some (s3.arr, pushStep s3.out s3.arr [] [] (List.range' left (right + 1 - left))
          ("Merged segment [" ++ toString left ++ ", " ++ toString right ++ "]."))

/-- The inner function `run` of `buildMerge`; `fuel` bounds the depth of the
recursion and the loops of `merge`. -/
def mergeRun : Nat → Nat → Nat → List Int × List Step → Option (List Int × List Step)
  | 0, _, _, _ => none
  | fuel + 1, left, right, s =>
    if left ≥ right then some s
    else
      let mid := (left + right) / 2
      match mergeRun fuel left mid s with
      | none => none
      | some s1 =>
        match mergeRun fuel (mid + 1) right s1 with
        | none => none
        | some s2 => merge fuel left mid right s2

/-- The function `buildMerge`.  For the empty array the source calls
`run(0, -1)`, which returns at once as `run(0, 0)` does here. -/
def buildMerge (fuel : Nat) (input : List Int) : Option (List Step) :=
  (mergeRun fuel 0 (input.length - 1) (input, [])).map
    (fun s => pushStep s.2 s.1 [] [] (List.range s.1.length) "Merge sort complete.")

/-! ## Quick sort -/

/-- The body of the `for` loop of `partition`.  The first component of the
state is `i + 1` (the source starts `i` at `low - 1`). -/
def partitionBody (high : Nat) (pivot : Int) (j : Nat) (s : Nat × List Int × List Step) :
    Nat × List Int × List Step :=
  let out1 := pushStep s.2.2 s.2.1 [high] [j, high] []
    ("Compare index " ++ toString j ++ " with pivot.")
  if rd s.2.1 j ≤ pivot then
    let arr1 := swap s.2.1 s.1 j
    (s.1 + 1, arr1, pushStep out1 arr1 [s.1, j] [] []
      ("Swap indices " ++ toString s.1 ++ " and " ++ toString j ++ "."))
  else (s.1, s.2.1, out1)

/-- The inner function `partition` of `buildQuick`: the returned index with
the array and the trace. -/
def partition (low high : Nat) (s : List Int × List Step) : Nat × List Int × List Step :=
  let pivot := rd s.1 high
  let out0 := pushStep s.2 s.1 [high] [] []
    ("Pivot is " ++ toString pivot ++ " at index " ++ toString high ++ ".")
  let r := forLoop (partitionBody high pivot) (high - low) low (low, s.1, out0)
  let arr1 := swap r.2.1 r.1 high
  (r.1, arr1, pushStep r.2.2 arr1 [r.1] [] [r.1]
    ("Place pivot at index " ++ toString r.1 ++ "."))

/-- The inner function `run` of `buildQuick`; `fuel` bounds the depth of the
recursion.  Where the source passes `high = -1` (the pivot landed at index 0)
the model passes 0, and `low < high` fails in both. -/
def quickRun : Nat → Nat → Nat → List Int × List Step → Option (List Int × List Step)
  | 0, _, _, _ => none
  | fuel + 1, low, high, s =>
    if low < high then
      let r := partition low high s
      match quickRun fuel low (r.1 - 1) r.2 with
      | none => none
      | some s1 => quickRun fuel (r.1 + 1) high s1
    else some s

/-- The function `buildQuick`.  For the empty array the source calls
`run(0, -1)`, which returns at once as `run(0, 0)` does here. -/
def buildQuick (fuel : Nat) (input : List Int) : Option (List Step) :=
  (quickRun fuel 0 (input.length - 1) (input, [])).map
    (fun s => pushStep s.2 s.1 [] [] (List.range s.1.length) "Quick sort complete.")

/-! ## What the claims say of a trace, and the invariants of the proofs -/

/-- The last snapshot of the trace has an `arr` in non-decreasing order that
is a permutation of the input. -/
def EndsSorted (tr : List Step) (input : List Int) : Prop :=
  ∃ fin, tr.getLast? = some fin ∧ fin.arr.Sorted (fun a b => a ≤ b) ∧ fin.arr.Perm input

/-- The `sorted` list of the last snapshot of the trace holds every index
below `n` exactly once. -/
def EndsAllSorted (tr : List Step) (n : Nat) : Prop :=
  ∃ fin, tr.getLast? = some fin ∧ fin.sorted.Perm (List.range n)

/-- Every position from `n - i` on holds a value at least as large as every
value before it. -/
def TailFixed (n i : Nat) (a : List Int) : Prop :=
  ∀ p q, p < q → n - i ≤ q → q < n → rd a p ≤ rd a q

/-- The invariant of the outer loop of `buildBubble`. -/
def BubbleInv (input : List Int) (i : Nat) (s : SortState) : Prop :=
  s.arr.length = input.length ∧ s.arr.Perm input ∧ TailFixed input.length i s.arr ∧
  s.sorted.reverse = List.range' (input.length - i) i

/-- Every position before `i` holds a value at most as large as every value
after it. -/
def HeadFixed (n i : Nat) (a : List Int) : Prop :=
  ∀ p q, p < q → p < i → q < n → rd a p ≤ rd a q

/-- The invariant of the outer loop of `buildSelection`. -/
def SelectionInv (input : List Int) (i : Nat) (s : SortState) : Prop :=
  s.arr.length = input.length ∧ s.arr.Perm input ∧ HeadFixed input.length i s.arr ∧
  s.sorted = List.range i

/-- The state of the shifting loop of `buildInsertion` with the gap at index
`g`: putting `key` into the gap gives a permutation of the input, the values
at the other positions up to `i` are in order, and those after the gap are
larger than `key`. -/
def ShiftInv (input : List Int) (key : Int) (i g : Nat) (a : List Int) : Prop :=
  a.length = input.length ∧ (a.set g key).Perm input ∧
  (∀ p q, p < q → q ≤ i → p ≠ g → q ≠ g → rd a p ≤ rd a q) ∧
  (∀ q, g < q → q ≤ i → key < rd a q)

/-- The invariant of the `for` loop of `buildInsertion`: the first `i`
positions are in order. -/
def InsertionInv (input : List Int) (i : Nat) (s : List Int × List Step) : Prop :=
  s.1.length = input.length ∧ s.1.Perm input ∧
  ∀ p q, p < q → q < i → rd s.1 p ≤ rd s.1 q

/-- The invariant of the `for` loop of `partition` on the array `a` it was
called with: `i1` is `i + 1`, the positions from `low` to `i` hold values at
most `pivot`, those from `i + 1` to `j - 1` larger ones, `pivot` is still at
`high`, nothing outside `low..high` has changed and every value inside came
from inside. -/
def PartitionInv (a : List Int) (low high : Nat) (pivot : Int) (j i1 : Nat) (b : List Int) :
    Prop :=
  b.length = a.length ∧ b.Perm a ∧ low ≤ i1 ∧ i1 ≤ j ∧
  (∀ p, low ≤ p → p < i1 → rd b p ≤ pivot) ∧
  (∀ p, i1 ≤ p → p < j → pivot < rd b p) ∧
  rd b high = pivot ∧
  (∀ p, p < low ∨ high < p → rd b p = rd a p) ∧
  (∀ p, low ≤ p → p ≤ high → ∃ q, low ≤ q ∧ q ≤ high ∧ rd b p = rd a q)

/-- What `run(low, high)` of `buildQuick` does to the array `a`: the result
is a permutation of the same length, unchanged outside `low..high`, with every
value inside taken from inside, and in order from `low` to `high`. -/
def SegmentSorted (low high : Nat) (a b : List Int) : Prop :=
  b.length = a.length ∧ b.Perm a ∧
  (∀ p, p < low ∨ high < p → rd b p = rd a p) ∧
  (∀ p, low ≤ p → p ≤ high → ∃ q, low ≤ q ∧ q ≤ high ∧ rd b p = rd a q) ∧
  (∀ p q, low ≤ p → p < q → q ≤ high → rd b p ≤ rd b q)

/-- The invariant of the three loops of `merge(left, mid, right)` called on
the array `a`, with `L` and `R` the two slices: the part written so far,
`slice arr left k`, is in order, is together with the unread rests of `L` and
`R` a permutation of `L ++ R`, and holds nothing larger than what is still
unread; the array is unchanged before `left` and after `right`. -/
def MergeInv (a : List Int) (left right : Nat) (L R : List Int) (st : MergeState) : Prop :=
  st.arr.length = a.length ∧ st.k = left + st.i + st.j ∧ st.i ≤ L.length ∧ st.j ≤ R.length ∧
  st.arr.take left = a.take left ∧ st.arr.drop (right + 1) = a.drop (right + 1) ∧
  (slice st.arr left st.k).Sorted (fun x y => x ≤ y) ∧
  (slice st.arr left st.k ++ (L.drop st.i ++ R.drop st.j)).Perm (L ++ R) ∧
  (∀ w ∈ slice st.arr left st.k, ∀ x ∈ L.drop st.i ++ R.drop st.j, w ≤ x)

/-- What `run(left, right)` of `buildMerge` does to the array `a`: the result
has the same length, is unchanged before `left` and after `right`, and its
slice from `left` to `right` is the sorted permutation of that slice of `a`. -/
def SliceSorted (left right : Nat) (a b : List Int) : Prop :=
  b.length = a.length ∧ b.take left = a.take left ∧
  b.drop (right + 1) = a.drop (right + 1) ∧
  (slice b left (right + 1)).Sorted (fun x y => x ≤ y) ∧
  (slice b left (right + 1)).Perm (slice a left (right + 1))

end Sorting

/-! # The search page: trace generators of `search.js`

The array elements and the target are values of a linearly ordered type `α`
(JavaScript numbers other than `NaN`, which `buildSteps` rejects); the
built-in array holds integers.  Indices in snapshots are `Int`, since the
binary search can move `right` to -1. -/

namespace Search

open Js

/-- A snapshot `{ activeIndices, foundIndex, text }` of the array searches;
`foundIndex = none` is `null`. -/
structure Step where
  activeIndices : List Int
  foundIndex : Option Int
  text : String
deriving DecidableEq, Repr

/-- The built-in `baseArray`. -/
def baseArray : List Int := [7, 12, 19, 25, 31, 42, 49, 58, 61, 75, 88, 93]

/-- The read `baseArray[i]` for an integer `i`; `none` is `undefined`. -/
def getAt {α : Type} (arr : List α) (i : Int) : Option α :=
  if 0 ≤ i then arr[i.toNat]? else none

/-- Rendering of `baseArray[i]` in a template string. -/
def showAt {α : Type} [ToString α] : Option α → String
  | none => "undefined"
  | some v => toString v

/-- The `for` loop of `buildLinearSteps` from index `i` on, with `count`
indices left (`count = baseArray.length - i`), followed by the statements
after the loop. -/
def linearLoop {α : Type} [DecidableEq α] [ToString α] (baseArray : List α) (target : α) :
    Nat → Nat → List Step → List Step
  | 0, _, out =>
    out ++ [{ activeIndices := [], foundIndex := none,
              text := "Target " ++ toString target ++ " is not in the array." }]
  | count + 1, i, out =>
    let out1 := out ++ [{
      activeIndices := [(i : Int)], foundIndex := none,
      text := "Inspect index " ++ toString i ++ " (value " ++ showAt baseArray[i]? ++ ")." }]
    if baseArray[i]? = some target then
      out1 ++ [{
        activeIndices := [(i : Int)], foundIndex := some (i : Int),
        text := "Found target " ++ toString target ++ " at index " ++ toString i ++ "." }]
    else linearLoop baseArray target count (i + 1) out1

/-- The function `buildLinearSteps`, with the closed-over constant `baseArray`
as its first argument. -/
def buildLinearSteps {α : Type} [DecidableEq α] [ToString α] (baseArray : List α) (target : α) :
    List Step :=
  linearLoop baseArray target baseArray.length 0 []

/-- The variables `left`, `right` and `out` of `buildBinarySteps`. -/
structure BinaryState where
  left : Int
  right : Int
  out : List Step
deriving DecidableEq, Repr

/-- The comparison `baseArray[mid] < target`; `undefined` compares false. -/
def ltTarget {α : Type} [LinearOrder α] (v : Option α) (target : α) : Bool :=
  match v with
  | none => false
  | some x => decide (x < target)

/-- The expression `[left, right].filter((i) => i >= 0 && i < baseArray.length)`. -/
def inRange (n : Nat) (l : List Int) : List Int :=
  l.filter (fun i => decide (0 ≤ i) && decide (i < (n : Int)))

/-- One pass of the `while (left <= right)` loop of `buildBinarySteps`.  The
loop is left by the `return` after a match, or when the condition fails; the
statement after the loop (the not-found snapshot) is then part of the leaving
pass. -/
def binaryPass {α : Type} [LinearOrder α] [ToString α] (baseArray : List α) (target : α)
    (s : BinaryState) : Loop.Flow BinaryState :=
  if s.left ≤ s.right then
    let mid := (s.left + s.right) / 2
    let out1 := s.out ++ [{
      activeIndices := [s.left, mid, s.right], foundIndex := none,
      text := "Range [" ++ toString s.left ++ ", " ++ toString s.right
        ++ "], check middle index " ++ toString mid ++ " (value "
        ++ showAt (getAt baseArray mid) ++ ")." }]
    if getAt baseArray mid = some target then
      Loop.Flow.done { s with out := out1 ++ [{
        activeIndices := [mid], foundIndex := some mid,
        text := "Found target " ++ toString target ++ " at index " ++ toString mid ++ "." }] }
    else if ltTarget (getAt baseArray mid) target then
      let left1 := mid + 1
      Loop.Flow.next { left := left1, right := s.right, out := out1 ++ [{
        activeIndices := inRange baseArray.length [left1, s.right], foundIndex := none,
        text := "Target is larger, move left boundary to " ++ toString left1 ++ "." }] }
    else
      let right1 := mid - 1
      Loop.Flow.next { left := s.left, right := right1, out := out1 ++ [{
        activeIndices := inRange baseArray.length [s.left, right1], foundIndex := none,
        text := "Target is smaller, move right boundary to " ++ toString right1 ++ "." }] }
  else
    Loop.Flow.done { s with out := s.out ++ [{
      activeIndices := [], foundIndex := none,
      text := "Target " ++ toString target ++ " is not in the array." }] }

/-- The function `buildBinarySteps`, with the closed-over constant `baseArray`
as its first argument; `fuel` bounds the passes of its loop. -/
def buildBinarySteps {α : Type} [LinearOrder α] [ToString α] (fuel : Nat) (baseArray : List α)
    (target : α) : Option (List Step) :=
  (Loop.run (binaryPass baseArray target) fuel
      { left := 0, right := (baseArray.length : Int) - 1, out := [] }).map
    (fun s => s.out)

/-! ## Graph traversal -/

/-- A snapshot `{ activeNode, seen, activeEdge, text }` of the traversals. -/
structure GraphStep where
  activeNode : Option String
  seen : List String
  activeEdge : Option String
  text : String
deriving DecidableEq, Repr

/-- The ids of the built-in `graphNodes` (their coordinates are only drawn). -/
def graphNodes : List String := ["A", "B", "C", "D", "E", "F", "G"]

/-- The built-in `graphEdges`. -/
def graphEdges : List (String × String) :=
  [ ("A", "B"), ("A", "C"), ("A", "G"), ("B", "C"), ("B", "D"),
    ("C", "D"), ("C", "F"), ("D", "E"), ("F", "E"), ("F", "G") ]

/-- The method `sort()` without a comparator on an array of strings: ascending order
of their characters. -/
def sortStrings (l : List String) : List String :=
  l.insertionSort (fun a b => ¬ (b.data < a.data))

/-- The object `adjacency`: every node with its sorted list of neighbours. -/
def adjacency : List (String × List String) :=
  (graphEdges.foldl
      (fun acc e => objPush (objPush acc e.1 e.2) e.2 e.1)
      (graphNodes.map (fun n => (n, [])))).map
    (fun kv => (kv.1, sortStrings kv.2))

/-- The function `edgeKey`: `[a, b].sort().join("-")`. -/
def edgeKey (a b : String) : String :=
  join "-" (sortStrings [a, b])

/-- The variables of `buildGraphSteps`: the set `seen`, the queue or stack
`pending`, and `out`. -/
structure GraphState where
  seen : List String
  pending : List String
  out : List GraphStep
deriving DecidableEq, Repr

/-- One pass of the `for (const next of ...)` loop inside the traversal;
`word` is `Queue` for BFS and `Stack` for DFS (both push at the end). -/
def visitNeighbour (word : String) (node : String) (s : GraphState) (next : String) :
    GraphState :=
  let out1 := s.out ++ [{
    activeNode := some node, seen := s.seen, activeEdge := some (edgeKey node next),
    text := "Inspect edge " ++ node ++ " -> " ++ next ++ "." }]
  if next ∉ s.seen then
    let seen1 := setAdd s.seen next
    let pending1 := s.pending ++ [next]
    { seen := seen1, pending := pending1,
      out := out1 ++ [{
        activeNode := some next, seen := seen1, activeEdge := some (edgeKey node next),
        text := "Discover " ++ next ++ ". " ++ word ++ ": [" ++ join ", " pending1 ++ "]." }] }
  else { s with out := out1 }

/-- One pass of the `while (queue.length)` loop of the BFS branch;
`queue.shift()` takes the first element. -/
def bfsPass (s : GraphState) : Loop.Flow GraphState :=
  match s.pending with
  | [] => Loop.Flow.done s
  | node :: queue =>
    let out1 := s.out ++ [{
      activeNode := some node, seen := s.seen, activeEdge := none,
      text := "Dequeue " ++ node ++ ". Queue: [" ++ join ", " queue ++ "]." }]
    Loop.Flow.next (((objGet adjacency node).getD []).foldl (visitNeighbour "Queue" node)
      { seen := s.seen, pending := queue, out := out1 })

/-- One pass of the `while (stack.length)` loop of the DFS branch;
`stack.pop()` takes the last element and the neighbours are taken in reverse
order. -/
def dfsPass (s : GraphState) : Loop.Flow GraphState :=
  match s.pending.getLast? with
  | none => Loop.Flow.done s
  | some node =>
    let stack := s.pending.dropLast
    let out1 := s.out ++ [{
      activeNode := some node, seen := s.seen, activeEdge := none,
      text := "Pop " ++ node ++ ". Stack: [" ++ join ", " stack ++ "]." }]
    Loop.Flow.next (((objGet adjacency node).getD []).reverse.foldl (visitNeighbour "Stack" node)
      { seen := s.seen, pending := stack, out := out1 })

/-- The state of `buildGraphSteps` before its loop: `seen` and the queue or
stack hold the start node A and `out` the first snapshot. -/
def graphInit (fullName word : String) : GraphState :=
  { seen := ["A"], pending := ["A"],
    out := [{
      activeNode := some "A", seen := ["A"], activeEdge := none,
      text := "Initialize " ++ fullName ++ " " ++ word ++ " with A: [" ++ join ", " ["A"] ++ "]." }] }

/-- The snapshot pushed at the end of `buildGraphSteps`. -/
def graphFinish (fullName : String) (s : GraphState) : GraphStep :=
  { activeNode := none, seen := s.seen, activeEdge := none,
    text := fullName ++ " complete. Visited nodes: " ++ join ", " s.seen ++ "." }

/-- The function `buildGraphSteps`: BFS when `kind` is `bfs`, DFS for every
other `kind`; `fuel` bounds the passes of the loop. -/
def buildGraphSteps (fuel : Nat) (kind : String) : Option (List GraphStep) :=
  if kind = "bfs" then
    (Loop.run bfsPass fuel (graphInit "Breadth First Search" "queue")).map
      (fun s => s.out ++ [graphFinish "Breadth First Search" s])
  else
    (Loop.run dfsPass fuel (graphInit "Depth First Search" "stack")).map
      (fun s => s.out ++ [graphFinish "Depth First Search" s])

end Search

namespace Search

/-- The number of midpoint-comparison snapshots of a binary-search trace: the
snapshots pushed at the top of the loop, with `activeIndices = [left, mid,
right]`; every other snapshot has at most two active indices. -/
def midpointChecks (tr : List Step) : Nat :=
  tr.countP (fun s => decide (s.activeIndices.length = 3))

/-- The snapshots of a trace that show no result yet: some index is active and
`foundIndex` is `null`. -/
def InProgress (x : Step) : Prop :=
  x.activeIndices ≠ [] ∧ x.foundIndex = none

/-- The loop invariant of `buildBinarySteps` on an array of length `n`: the
bounds stay within the array, every snapshot so far is in progress, in an
ascending array the target can only occur between `left` and `right`, and
each midpoint comparison so far has halved the range. -/
def BinaryInv {α : Type} [LinearOrder α] (arr : List α) (t : α) (s : BinaryState) : Prop :=
  0 ≤ s.left ∧ s.right < (arr.length : Int) ∧ s.left ≤ s.right + 1 ∧
  (∀ x ∈ s.out, InProgress x) ∧
  (arr.Pairwise (fun a b => a ≤ b) →
    ∀ k : Nat, arr[k]? = some t → s.left ≤ (k : Int) ∧ (k : Int) ≤ s.right) ∧
  (s.right - s.left + 1) * 2 ^ midpointChecks s.out ≤ (arr.length : Int) ∧
  (midpointChecks s.out = 0 ∨ 2 ^ midpointChecks s.out ≤ 2 * arr.length)

/-- The state in which `buildBinarySteps` leaves its loop: the trace is
in-progress snapshots followed by one last snapshot, which either reports an
index holding the target (the loop was left by `return`, with `left <=
right`) or reports nothing (the condition failed, `left > right`; in an
ascending array the target is then absent). -/
def BinaryPost {α : Type} [LinearOrder α] (arr : List α) (t : α) (r : BinaryState) : Prop :=
  (∃ front last, r.out = front ++ [last] ∧ (∀ x ∈ front, InProgress x) ∧
    ((r.left ≤ r.right ∧ ∃ m : Nat, last.foundIndex = some (m : Int) ∧
        last.activeIndices = [(m : Int)] ∧ arr[m]? = some t) ∨
     (r.right < r.left ∧ last.activeIndices = [] ∧ last.foundIndex = none ∧
        (arr.Pairwise (fun a b => a ≤ b) → t ∉ arr)))) ∧
  (midpointChecks r.out = 0 ∨ 2 ^ midpointChecks r.out ≤ 2 * arr.length)

end Search

namespace Search

/-- The test `text.startsWith(pre)`. -/
def startsWith (pre text : String) : Bool :=
  pre.data.isPrefixOf text.data

/-- The number of snapshots of a trace that dequeue node `n`: their text starts
with `Dequeue` and their `activeNode` is `n`. -/
def dequeues (tr : List GraphStep) (n : String) : Nat :=
  tr.countP (fun s => startsWith "Dequeue " s.text && decide (s.activeNode = some n))

/-- The number of snapshots of a trace that discover node `n`: their text starts
with `Discover` and their `activeNode` is `n`. -/
def discovers (tr : List GraphStep) (n : String) : Nat :=
  tr.countP (fun s => startsWith "Discover " s.text && decide (s.activeNode = some n))

end Search

/-! ## Properties of controller states -/

namespace Playback

/-- The only active interval timer of the browser is the one whose id the
script variable `timer` holds; none is active when `timer` is `null`. -/
def TimerInv {σ : Type} (c : Ctl σ) : Prop :=
  c.host.timers.map (fun p => p.1) = c.timer.toList

/-- The status text that `applyCurrent` writes for the cursor `c.idx`: the ready
message when the cursor is -1, and `Step <cursor+1>/<length>`, a newline and
the narration of `steps[cursor]` when the cursor is on a snapshot. -/
def statusFor {σ : Type} (ready : String) (text : σ → String) (c : Ctl σ) : Option String :=
  if c.idx < 0 then some ready
  else
    (c.steps[c.idx.toNat]?).map (fun step =>
      "Step " ++ toString (c.idx + 1) ++ "/" ++ toString c.steps.length ++ "\n" ++ text step)

/-- The status text is the one determined by the cursor and the trace. -/
def StatusSynced {σ : Type} (ready : String) (text : σ → String) (c : Ctl σ) : Prop :=
  statusFor ready text c = some c.status

/-- The snapshot on display is the one under the cursor (none when the cursor
is -1). -/
def ShownSynced {σ : Type} (c : Ctl σ) : Prop :=
  c.shown = if c.idx < 0 then none else c.steps[c.idx.toNat]?

/-- The three controllers as functions from a state and an event to the next
state, each with the ready message of its page. -/
def controllers {σ τ : Type} (text : σ → String) (genSearch : String → τ → List σ)
    (genSort : String → List Int → List σ) (genGreedy : String → List σ) :
    List (String × (Ctl σ → Event τ → Ctl σ)) :=
  [ (SearchPage.ready, SearchPage.handle text genSearch),
    (SortPage.ready, SortPage.handle text genSort),
    (GreedyPage.ready, GreedyPage.handle text genGreedy) ]

/-- The state after `k` consecutive callbacks of the interval `id`. -/
def ticks {σ τ : Type} (handle : Ctl σ → Event τ → Ctl σ) (id : Nat) (k : Nat) (c : Ctl σ) :
    Ctl σ :=
  (List.replicate k (Event.tick id : Event τ)).foldl handle c

end Playback

namespace Playback

/-- The properties that every state of a controller has: the cursor is in
range, the only active timer is the one in `timer`, and the snapshot on
display is the one under the cursor. -/
def WellFormed {σ : Type} (c : Ctl σ) : Prop :=
  CursorInRange c ∧ TimerInv c ∧ ShownSynced c

end Playback

/-! ## The generators behind the build buttons -/

namespace SearchPage

/-- The dispatch on `mode` in `buildSteps` of the search page, for integer
targets: the linear or binary search of the built-in array, or the traversal
named by `mode`.  The fuel given to the loops is enough for the built-in
array and graph. -/
def generate (mode : String) (target : Int) : List (Search.Step ⊕ Search.GraphStep) :=
  if mode = "linear" then (Search.buildLinearSteps Search.baseArray target).map Sum.inl
  else if mode = "binary" then
    ((Search.buildBinarySteps 13 Search.baseArray target).getD []).map Sum.inl
  else ((Search.buildGraphSteps 8 mode).getD []).map Sum.inr

/-- The field `text` of a snapshot of the search page. -/
def narration (s : Search.Step ⊕ Search.GraphStep) : String :=
  match s with
  | Sum.inl a => a.text
  | Sum.inr g => g.text

end SearchPage

namespace SortPage

/-- The dispatch on `currentAlgo` in `buildSteps` of the sort page; every
`algo` other than the first four runs quick sort.  The fuel given to merge and
quick sort is enough for every array. -/
def generate (algo : String) (base : List Int) : List Sorting.Step :=
  if algo = "bubble" then Sorting.buildBubble base
  else if algo = "selection" then Sorting.buildSelection base
  else if algo = "insertion" then Sorting.buildInsertion base
  else if algo = "merge" then (Sorting.buildMerge (base.length + 3) base).getD []
  else (Sorting.buildQuick (base.length + 3) base).getD []

/-- The field `text` of a snapshot of the sort page. -/
def narration (s : Sorting.Step) : String := s.text

end SortPage

namespace Playback

/-- The states a controller goes through: the state after each event of a
list, in order. -/
def statesAfter {σ ε : Type} (handle : Ctl σ → ε → Ctl σ) (c : Ctl σ) : List ε → List (Ctl σ)
  | [] => []
  | e :: rest => handle c e :: statesAfter handle (handle c e) rest

/-- Between two consecutive states nothing was skipped and nothing shown
again: the trace is the same, and either the cursor and the display are
unchanged, or the cursor moved forward by exactly one and the display is the
snapshot under it. -/
def StaysOrAdvances {σ : Type} (a b : Ctl σ) : Prop :=
  b.steps = a.steps ∧
    ((b.idx = a.idx ∧ b.shown = a.shown ∧ b.status = a.status) ∨
     (b.idx = a.idx + 1 ∧ b.shown = a.steps[(a.idx + 1).toNat]? ∧ b.shown ≠ none))

/-- The events of playback: a change of the speed control or a callback of a
timer. -/
def isSpeedOrTick {τ : Type} : Event τ → Bool
  | Event.speed _ => true
  | Event.tick _ => true
  | _ => false

end Playback

namespace Playback

/-- An operation kept the status text, the cursor and the trace, or it wrote
the status determined by the cursor and the trace. -/
def StatusKept {σ : Type} (ready : String) (text : σ → String) (c d : Ctl σ) : Prop :=
  (d.status = c.status ∧ d.idx = c.idx ∧ d.steps = c.steps) ∨ StatusSynced ready text d

end Playback

namespace SearchPage

open Playback

/-- The status texts of the search page: the one determined by the cursor and
the trace, the message of `resetState` (with an empty trace and cursor -1),
or the message of a rejected build. -/
def StatusKnown {σ : Type} (text : σ → String) (c : Ctl σ) : Prop :=
  StatusSynced ready text c ∨
  (c.status = "No steps built yet." ∧ c.idx = -1 ∧ c.steps = []) ∨
  c.status = "Enter a valid numeric target."

end SearchPage

/-! ## Reading a traversal trace -/

namespace Search

/-- The number of snapshots of a trace whose text starts with `pre`. -/
def countText (pre : String) (tr : List GraphStep) : Nat :=
  tr.countP (fun s => startsWith pre s.text)

/-- The nodes taken from the queue or the stack, in the order of the trace:
the `activeNode` of the Dequeue and Pop snapshots. -/
def taken (tr : List GraphStep) : List String :=
  (tr.filter (fun s => startsWith "Dequeue " s.text || startsWith "Pop " s.text)).filterMap
    (fun s => s.activeNode)

/-- The ordered pairs (node, neighbour) of the built-in graph: two for every
edge. -/
def orderedPairs : List (String × String) :=
  adjacency.flatMap (fun kv => kv.2.map (fun m => (kv.1, m)))

/-- A recursive depth-first traversal, as the claim words it: visit the node,
then go into each neighbour in ascending id order that has not been visited
by then, exploring it fully before the next neighbour.  The result is the list
of visited nodes in the order of their first visit, starting from the list
`visited`; `fuel` bounds the depth of the recursion. -/
def recursiveDfs : Nat → List String → String → List String
  | 0, visited, _ => visited
  | fuel + 1, visited, node =>
    if node ∈ visited then visited
    else
      ((Js.objGet adjacency node).getD []).foldl (fun vis next => recursiveDfs fuel vis next)
        (visited ++ [node])

end Search

namespace Search

/-- The trace cut at its Dequeue and Pop snapshots: for each node taken, in
order, the nodes discovered (the `activeNode` of the Discover snapshots)
before the next node is taken. -/
def discoveredBy (tr : List GraphStep) : List (String × List String) :=
  tr.foldl
    (fun acc s =>
      if startsWith "Dequeue " s.text || startsWith "Pop " s.text then
        acc ++ [(s.activeNode.getD "", [])]
      else if startsWith "Discover " s.text then
        match acc.getLast? with
        | none => acc
        | some seg => acc.dropLast ++ [(seg.1, seg.2 ++ [s.activeNode.getD ""])]
      else acc)
    []

/-- In a list of segments of `discoveredBy`, whenever a node discovers
something, its discoveries are in descending id order and the next node taken
is the last, hence the smallest, of them. -/
def smallestFirst : List (String × List String) → Bool
  | [] => true
  | [_] => true
  | a :: b :: rest =>
    (a.2.isEmpty ||
      (decide (a.2.Pairwise (fun x y => y.data < x.data)) && decide (a.2.getLast? = some b.1)))
    && smallestFirst (b :: rest)

end Search

/-! ## Reading a trace of the weighted-graph generators -/

namespace Greedy

open Js

/-- The test `text.startsWith(pre)`. -/
def startsWith (pre text : String) : Bool :=
  pre.data.isPrefixOf text.data

/-- The ids of the edges of the Relax snapshots that follow the settling of
node `u` (their `activeNode` is `u`), in the order of the trace. -/
def relaxedFrom (tr : List GraphStep) (u : String) : List String :=
  (tr.filter (fun s => startsWith "Relax " s.text && decide (s.activeNode = some u))).filterMap
    (fun s => s.activeEdge)

/-- The `visited` list of the snapshot that settles node `u`: the nodes settled
before `u`. -/
def settledBefore (tr : List GraphStep) (u : String) : List String :=
  ((tr.find? (fun s => startsWith "Settle " s.text && decide (s.activeNode = some u))).bind
    (fun s => s.visited)).getD []

/-- The ids of the edges incident to node `u`, in the order of
`neighbors[u]`. -/
def incidentIds (u : String) : List String :=
  ((objGet neighbors u).getD []).map (fun te => te.2.id)

/-- The ids of the edges incident to `u` whose other end is not among the nodes
settled before `u`. -/
def openIncidentIds (tr : List GraphStep) (u : String) : List String :=
  (((objGet neighbors u).getD []).filter
    (fun te => decide (te.1 ∉ settledBefore tr u) && decide (te.1 ≠ u))).map (fun te => te.2.id)

/-- What a Relax snapshot `s` says of the snapshot `t` after it: with `u` the
`activeNode` of `s`, `e` its edge, `dest` the other end of `e` and
`cand = dist[u] + e.w` read in the `dist` of `s`, the snapshot `t` is an
Update snapshot exactly when `cand < dist[dest]`. -/
def updateFollows (s t : GraphStep) : Bool :=
  match s.activeNode, s.activeEdge, s.dist with
  | some u, some eid, some dist =>
    match graphEdges.find? (fun e => decide (e.id = eid)) with
    | none => false
    | some e =>
      let dest := if e.u = u then e.v else e.u
      let cand := (distGet dist u).map (fun dv => dv + e.w)
      startsWith "Update " t.text == ltDist cand (distGet dist dest)
  | _, _, _ => false

/-- Every Relax snapshot of the trace is followed by a snapshot, which is an
Update snapshot exactly when the candidate is smaller; and an Update snapshot
comes only right after a Relax snapshot. -/
def updateRule : List GraphStep → Bool
  | [] => true
  | [s] => !startsWith "Relax " s.text
  | s :: t :: rest =>
    (if startsWith "Relax " s.text then updateFollows s t else !startsWith "Update " t.text)
    && updateRule (t :: rest)

end Greedy

namespace Greedy

open Js

/-- The edge `e` has exactly one end in the set `visited`. -/
def crossing (visited : List String) (e : Edge) : Bool :=
  (decide (e.u ∈ visited) && !decide (e.v ∈ visited)) ||
    (decide (e.v ∈ visited) && !decide (e.u ∈ visited))

/-- The edge named by a Choose snapshot of `buildPrim` has exactly one end in
the `visited` set of the snapshot, and no edge of the graph with exactly one
end in that set is lighter. -/
def lightestCrossing (s : GraphStep) : Bool :=
  match s.activeEdge, s.visited with
  | some eid, some visited =>
    match graphEdges.find? (fun e => decide (e.id = eid)) with
    | none => false
    | some e =>
      crossing visited e &&
        graphEdges.all (fun e2 => !crossing visited e2 || decide (e.w ≤ e2.w))
  | _, _ => false

/-- Every node of the graph is in `grown es`: it was found from A along edges
of `es`. -/
def spansB (es : List Edge) : Bool :=
  graphNodes.all (fun n => decide (n.id ∈ grown es))

/-- The ids of the edges of the Try snapshots of `buildReverseDelete`, in the
order of the trace. -/
def tried (tr : List GraphStep) : List String :=
  (tr.filter (fun s => startsWith "Try removing " s.text)).filterMap (fun s => s.activeEdge)

/-- What a Try snapshot `s` of `buildReverseDelete` says of the snapshot `t`
after it: `t` is a Remove snapshot without the edge when the other edges of
`s` still connect all nodes (found by `spansB`), and a Keep snapshot with the
same edges as `s` when they do not (shown by `cutCheck`). -/
def removalFollows (s t : GraphStep) : Bool :=
  match s.activeEdge with
  | none => false
  | some eid =>
    let rest := edgesOfIds (setDelete s.treeEdges eid)
    (spansB rest && startsWith "Remove " t.text && decide (t.activeEdge = some eid) &&
        decide (t.treeEdges = setDelete s.treeEdges eid)) ||
    (cutCheck rest && startsWith "Keep " t.text && decide (t.activeEdge = some eid) &&
        decide (t.treeEdges.Perm s.treeEdges))

/-- Every Try snapshot of the trace is followed by the snapshot that
`removalFollows` describes, and Remove and Keep snapshots occur nowhere
else. -/
def removalRule : List GraphStep → Bool
  | [] => true
  | [s] => !startsWith "Try removing " s.text
  | s :: t :: rest =>
    (if startsWith "Try removing " s.text then removalFollows s t
      else !(startsWith "Remove " t.text || startsWith "Keep " t.text))
    && removalRule (t :: rest)

end Greedy

/-! ## Counting the snapshots of a bubble-sort trace -/

namespace Sorting

/-- The number of inversions of a list: the pairs of positions `i < j` with
`l[i] > l[j]`. -/
def inversions : List Int → Nat
  | [] => 0
  | x :: rest => rest.countP (fun y => decide (y < x)) + inversions rest

/-- The compare snapshots of `buildBubble`: those with a non-empty
`compare`. -/
def compares (tr : List Step) : Nat :=
  tr.countP (fun s => !s.compare.isEmpty)

/-- The swap snapshots of `buildBubble`: those with a non-empty `active`. -/
def swaps (tr : List Step) : Nat :=
  tr.countP (fun s => !s.active.isEmpty)

/-- The position-fixed snapshots of `buildBubble`: those with neither. -/
def fixes (tr : List Step) : Nat :=
  tr.countP (fun s => s.compare.isEmpty && s.active.isEmpty)

/-- The counts of the trace and the array of `buildBubble` after `i` passes of
the outer loop on an input of length `n`. -/
def BubbleCount (input : List Int) (i : Nat) (s : SortState) : Prop :=
  s.arr.length = input.length ∧
  2 * compares s.out = i * (2 * input.length - i - 1) ∧
  fixes s.out = i ∧
  swaps s.out + inversions s.arr = inversions input ∧
  s.out.length = compares s.out + swaps s.out + fixes s.out

end Sorting

/-! ## Indices of the snapshots -/

namespace Sorting

/-- A snapshot of a sort trace is within the bounds of an array of length `n`:
its `arr` has length `n` and every index in `active`, `compare` and `sorted`
is below `n`. -/
def InBounds (n : Nat) (s : Step) : Prop :=
  s.arr.length = n ∧ (∀ i ∈ s.active, i < n) ∧ (∀ i ∈ s.compare, i < n) ∧
  (∀ i ∈ s.sorted, i < n)

/-- Every snapshot of the trace is within the bounds of an array of length
`n`. -/
def AllInBounds (n : Nat) (tr : List Step) : Prop :=
  ∀ s ∈ tr, InBounds n s

/-- Every index that a snapshot of the trace lists in `sorted` satisfies `A`
and holds, in the `arr` of that snapshot, the value that `arr` holds there. -/
def SortedWithin (A : Nat → Prop) (tr : List Step) (arr : List Int) : Prop :=
  ∀ s ∈ tr, ∀ idx ∈ s.sorted, A idx ∧ rd s.arr idx = rd arr idx

/-- The `arr` of the last snapshot of a trace. -/
def finalArr (tr : List Step) : List Int :=
  match tr.getLast? with
  | some s => s.arr
  | none => []

/-- Every index that a snapshot of the trace lists in `sorted` holds, in the
`arr` of that snapshot, the value that the final `arr` of the trace holds
there. -/
def SortedFixed (tr : List Step) : Prop :=
  ∀ s ∈ tr, ∀ idx ∈ s.sorted, rd s.arr idx = rd (finalArr tr) idx

end Sorting

namespace Search

/-- Every index in `activeIndices` and the `foundIndex`, when there is one, of
a snapshot is a valid index of an array of length `n`. -/
def IndicesValid (n : Nat) (s : Step) : Prop :=
  (∀ i ∈ s.activeIndices, 0 ≤ i ∧ i < (n : Int)) ∧
  (∀ i, s.foundIndex = some i → 0 ≤ i ∧ i < (n : Int))

end Search

/-! ## Components of the union-find structure -/

namespace Greedy

open Js

/-- Following `parent` from `x` for `d` steps ends at `r`, which is its own
parent: `r` is the root of the tree of `x`, at depth `d`. -/
inductive RootIn (par : List (String × String)) : Nat → String → String → Prop where
  | self (r : String) : objGet par r = some r → RootIn par 0 r r
  | up (d : Nat) (x p r : String) :
      objGet par x = some p → p ≠ x → RootIn par d p r → RootIn par (d + 1) x r

/-- The item `r` is the root of the tree of `x`. -/
def RootOf (par : List (String × String)) (x r : String) : Prop :=
  ∃ d, RootIn par d x r

/-- The items `x` and `y` are in the same component of the structure: their
trees have the same root. -/
def UF.Same (uf : UF) (x y : String) : Prop :=
  ∃ r, RootOf uf.parent x r ∧ RootOf uf.parent y r

/-- A sequence of calls of `union`, each on the structure that the call
before it left: the final structure and the returned booleans. -/
def UF.unions (fuel : Nat) : UF → List (String × String) → Option (UF × List Bool)
  | uf, [] => some (uf, [])
  | uf, (a, b) :: rest =>
    match UF.union fuel uf a b with
    | none => none
    | some (uf1, r) => (UF.unions fuel uf1 rest).map (fun p => (p.1, r :: p.2))

/-- The items `x` and `y` are joined by the pairs `ops`: they are related by
the equivalence that the pairs generate. -/
def United (ops : List (String × String)) (x y : String) : Prop :=
  Relation.EqvGen (fun a b => (a, b) ∈ ops) x y

/-- Every item has a root, at depth at most `N`. -/
def Rooted (items : List String) (N : Nat) (uf : UF) : Prop :=
  ∀ x ∈ items, ∃ d r, d ≤ N ∧ RootIn uf.parent d x r

/-- Every root of `par` is still the root of the same items in `par1`, at no
larger depth. -/
def RootsKept (par par1 : List (String × String)) : Prop :=
  ∀ y d r, RootIn par d y r → ∃ d1, d1 ≤ d ∧ RootIn par1 d1 y r

end Greedy

/-! ## Cycles in the tree of Kruskal -/

namespace Greedy

open Js

/-- The nodes found from `a` along the edges `es` after as many rounds of
growing as there are nodes. -/
def reachFrom (es : List Edge) (a : String) : List String :=
  (grow es)^[graphNodes.length] [a]

/-- The node `b` can be reached from `a` along edges of `es`. -/
def Linked (es : List Edge) (a b : String) : Prop :=
  Relation.ReflTransGen (Adjacent es) a b

/-- A certificate that `b` can be reached from `a`: it is among the nodes
found from `a`. -/
def linkedB (es : List Edge) (a b : String) : Bool :=
  decide (b ∈ reachFrom es a)

/-- A certificate that `b` cannot be reached from `a`: the set `reachFrom es a`
holds `a`, is closed under the edges of `es` and misses `b`. -/
def apartB (es : List Edge) (a b : String) : Bool :=
  decide (a ∈ reachFrom es a) &&
    es.all (fun e => decide (e.u ∈ reachFrom es a ↔ e.v ∈ reachFrom es a)) &&
    decide (b ∉ reachFrom es a)

/-- The edges `es` have no cycle: no edge joins two nodes that the other edges
already link. -/
def Acyclic (es : List Edge) : Prop :=
  ∀ e ∈ es, ¬ Linked (es.erase e) e.u e.v

/-- A certificate that `es` has no cycle. -/
def acyclicB (es : List Edge) : Bool :=
  es.all (fun e => apartB (es.erase e) e.u e.v)

/-- The ids of the edges of the Consider snapshots of `buildKruskal`, in the
order of the trace. -/
def considered (tr : List GraphStep) : List String :=
  (tr.filter (fun s => startsWith "Consider " s.text)).filterMap (fun s => s.activeEdge)

/-- What a Consider snapshot `s` of `buildKruskal` says of the snapshot `t`
after it: `t` is an Accept snapshot with the edge added to `treeEdges` when
the ends of the edge are not linked by the edges of `s.treeEdges` (shown by
`apartB`), and a Reject snapshot with the same `treeEdges` when they are
(found by `linkedB`). -/
def acceptFollows (s t : GraphStep) : Bool :=
  match s.activeEdge with
  | none => false
  | some eid =>
    match graphEdges.find? (fun e => decide (e.id = eid)) with
    | none => false
    | some e =>
      (apartB (edgesOfIds s.treeEdges) e.u e.v && startsWith "Accept " t.text &&
          decide (t.activeEdge = some eid) && decide (t.treeEdges = s.treeEdges ++ [eid])) ||
      (linkedB (edgesOfIds s.treeEdges) e.u e.v && startsWith "Reject " t.text &&
          decide (t.activeEdge = some eid) && decide (t.treeEdges = s.treeEdges))

/-- Every Consider snapshot of the trace is followed by the snapshot that
`acceptFollows` describes, and Accept and Reject snapshots occur nowhere
else. -/
def acceptRule : List GraphStep → Bool
  | [] => true
  | [s] => !startsWith "Consider " s.text
  | s :: t :: rest =>
    (if startsWith "Consider " s.text then acceptFollows s t
      else !(startsWith "Accept " t.text || startsWith "Reject " t.text))
    && acceptRule (t :: rest)

end Greedy

/-! ## The search of `connected` -/

namespace Greedy

open Js

/-- The read `adj[u]` of `connected`, with the empty list for `undefined`. -/
def adjOf (adj : List (String × List String)) (u : String) : List String :=
  (objGet adj u).getD []

/-- The number of neighbour entries of the nodes not yet seen: a bound on the
pushes still to come. -/
def unseenWork (adj : List (String × List String)) (seen : List String) : Nat :=
  ((adj.filter (fun p => decide (p.1 ∉ seen))).map (fun p => p.2.length)).sum

/-- The invariant of the loop of `connected` started at `a`: every node seen
or stacked can be reached from `a`, `a` is seen or stacked, every neighbour of
a seen node is seen or stacked, and no node is seen twice. -/
def SearchInv (adj : List (String × List String)) (a : String) (st : SearchState) : Prop :=
  (∀ x, x ∈ st.seen ∨ x ∈ st.stack →
    Relation.ReflTransGen (fun u v => v ∈ adjOf adj u) a x) ∧
  (a ∈ st.seen ∨ a ∈ st.stack) ∧
  (∀ u ∈ st.seen, ∀ v ∈ adjOf adj u, v ∈ st.seen ∨ v ∈ st.stack) ∧
  st.seen.Nodup

end Greedy
/-! # Theorems -/

namespace Greedy

open Js

/-! ## Interval scheduling -/

theorem cmpFinish_le_iff (a b : Interval) :
    cmpFinish a b ≤ 0 ↔ a.e < b.e ∨ (a.e = b.e ∧ a.s ≤ b.s) := by
  unfold cmpFinish
  split_ifs with h <;> omega

theorem jsSort_perm {α : Type} (cmp : α → α → Int) (l : List α) :
    (jsSort cmp l).Perm l :=
  List.perm_insertionSort _ l

theorem cmpFinish_total : IsTotal Interval (fun a b => cmpFinish a b ≤ 0) :=
  ⟨fun a b => by
    simp only [cmpFinish_le_iff]
    omega⟩

theorem cmpFinish_trans : IsTrans Interval (fun a b => cmpFinish a b ≤ 0) :=
  ⟨fun a b c => by
    simp only [cmpFinish_le_iff]
    omega⟩

theorem sorted_byFinish (l : List Interval) :
    (jsSort cmpFinish l).Sorted (fun a b => a.e < b.e ∨ (a.e = b.e ∧ a.s ≤ b.s)) := by
  haveI := cmpFinish_total
  haveI := cmpFinish_trans
  have h := List.sorted_insertionSort (fun a b => cmpFinish a b ≤ 0) l
  exact List.Pairwise.imp (fun {a b} hab => (cmpFinish_le_iff a b).1 hab) h

theorem schedStep_active (st : SchedState) (iv : Interval) :
    (schedStep st iv).out.map (fun x => x.active)
      = st.out.map (fun x => x.active) ++ [some iv.id, some iv.id] := by
  unfold schedStep
  split_ifs <;> simp

theorem schedFold_active (l : List Interval) (st : SchedState) :
    (l.foldl schedStep st).out.map (fun x => x.active)
      = st.out.map (fun x => x.active) ++ l.flatMap (fun iv => [some iv.id, some iv.id]) := by
  induction l generalizing st with
  | nil => simp
  | cons iv rest ih =>
    rw [List.foldl_cons, ih, schedStep_active]
    simp

/-- The variable `lastEnd` is the finish of the most recently selected
interval. -/
theorem schedFold_lastEnd (l : List Interval) (st : SchedState)
    (h : st.lastEnd = st.selected.getLast?.map (fun x => x.e)) :
    (l.foldl schedStep st).lastEnd
      = (l.foldl schedStep st).selected.getLast?.map (fun x => x.e) := by
  induction l generalizing st with
  | nil => simpa using h
  | cons iv rest ih =>
    rw [List.foldl_cons]
    apply ih
    unfold schedStep
    split_ifs <;> simp [h]

theorem schedAfter_lastEnd (l : List Interval) :
    (schedAfter l).lastEnd = (schedAfter l).selected.getLast?.map (fun x => x.e) :=
  schedFold_lastEnd l schedInit rfl

theorem schedAfter_concat (pre : List Interval) (iv : Interval) :
    schedAfter (pre ++ [iv]) = schedStep (schedAfter pre) iv := by
  simp [schedAfter, List.foldl_append]

theorem schedStep_selected (st : SchedState) (iv : Interval) :
    (schedStep st iv).selected
      = if geLastEnd iv.s st.lastEnd then st.selected ++ [iv] else st.selected := by
  unfold schedStep
  split_ifs <;> rfl

theorem schedStep_chain (st : SchedState) (iv : Interval) (hiv : iv.s ≤ iv.e)
    (h : SchedChain st) : SchedChain (schedStep st iv) := by
  obtain ⟨hp, hl⟩ := h
  unfold SchedChain schedStep
  by_cases hc : geLastEnd iv.s st.lastEnd = true
  · simp only [hc, if_true]
    have key : ∀ a ∈ st.selected, a.e ≤ iv.s := by
      intro a ha
      obtain ⟨v, hv, hav⟩ := hl a ha
      rw [hv] at hc
      simp [geLastEnd] at hc
      omega
    refine ⟨?_, ?_⟩
    · rw [List.pairwise_append]
      refine ⟨hp, List.pairwise_singleton _ _, ?_⟩
      intro a ha b hb
      simp at hb
      subst hb
      exact key a ha
    · intro a ha
      refine ⟨iv.e, rfl, ?_⟩
      simp at ha
      rcases ha with ha | ha
      · have := key a ha
        omega
      · subst ha
        exact le_refl _
  · simp only [hc]
    exact ⟨hp, hl⟩

theorem schedFold_chain (l : List Interval) (hl : ∀ iv ∈ l, iv.s ≤ iv.e)
    (st : SchedState) (h : SchedChain st) : SchedChain (l.foldl schedStep st) := by
  induction l generalizing st with
  | nil => exact h
  | cons iv rest ih =>
    rw [List.foldl_cons]
    exact ih (fun x hx => hl x (List.mem_cons_of_mem _ hx)) _
      (schedStep_chain st iv (hl iv (List.mem_cons_self _ _)) h)

theorem schedAfter_chain (l : List Interval) (hl : ∀ iv ∈ l, iv.s ≤ iv.e) :
    (schedAfter l).selected.Pairwise (fun a b => a.e ≤ b.s) :=
  (schedFold_chain l hl schedInit ⟨List.Pairwise.nil, by simp [schedInit]⟩).1

/-- C11: `buildIntervalScheduling` considers the intervals in ascending finish
order with ties in ascending start order (two snapshots for each, then the
final one), selects an interval exactly when no interval is selected yet or
its start is at least the finish of the most recently selected one, and the
final `selected` list holds the ids of pairwise compatible intervals. -/
theorem c11_interval_scheduling (ivs : List Interval) (h : ∀ iv ∈ ivs, iv.s ≤ iv.e) :
    (jsSort cmpFinish ivs).Perm ivs ∧
    (jsSort cmpFinish ivs).Sorted (fun a b => a.e < b.e ∨ (a.e = b.e ∧ a.s ≤ b.s)) ∧
    (buildIntervalScheduling ivs).map (fun x => x.active)
      = (jsSort cmpFinish ivs).flatMap (fun iv => [some iv.id, some iv.id]) ++ [none] ∧
    (∀ pre iv suf, jsSort cmpFinish ivs = pre ++ iv :: suf →
      ((schedAfter (pre ++ [iv])).selected = (schedAfter pre).selected ++ [iv] ∧
        ∀ x, (schedAfter pre).selected.getLast? = some x → x.e ≤ iv.s) ∨
      ((schedAfter (pre ++ [iv])).selected = (schedAfter pre).selected ∧
        ∃ x, (schedAfter pre).selected.getLast? = some x ∧ iv.s < x.e)) ∧
    (∃ fin, (buildIntervalScheduling ivs).getLast? = some fin ∧
      fin.selected = (schedAfter (jsSort cmpFinish ivs)).selected.map (fun x => x.id)) ∧
    (schedAfter (jsSort cmpFinish ivs)).selected.Pairwise Compatible := by
  refine ⟨jsSort_perm _ _, sorted_byFinish _, ?_, ?_, ?_, ?_⟩
  · simp [buildIntervalScheduling, schedAfter, schedFold_active, schedInit, schedFinish]
  · intro pre iv suf _
    rw [schedAfter_concat, schedStep_selected, schedAfter_lastEnd]
    cases hg : (schedAfter pre).selected.getLast? with
    | none => left; simp [geLastEnd]
    | some x =>
      by_cases hx : x.e ≤ iv.s
      · left; simp [geLastEnd, hx]
      · right; simp [geLastEnd, hx]; omega
  · exact ⟨schedFinish (schedAfter (jsSort cmpFinish ivs)),
      by simp [buildIntervalScheduling], rfl⟩
  · have hs : ∀ iv ∈ jsSort cmpFinish ivs, iv.s ≤ iv.e := fun iv hiv =>
      h iv ((jsSort_perm cmpFinish ivs).mem_iff.1 hiv)
    exact List.Pairwise.imp (fun {a b} hab => Or.inl hab) (schedAfter_chain _ hs)

theorem c11_interval_scheduling_witness :
    (∀ iv ∈ intervals, iv.s ≤ iv.e) ∧
    (schedAfter (jsSort cmpFinish intervals)).selected.Pairwise Compatible :=
  ⟨by decide, (c11_interval_scheduling intervals (by decide)).2.2.2.2.2⟩

end Greedy
namespace Greedy

open Js

theorem schedFold_selected (l : List Interval) (st : SchedState) :
    (l.foldl schedStep st).selected = st.selected ++ greedySelect st.lastEnd l := by
  induction l generalizing st with
  | nil => simp [greedySelect]
  | cons iv rest ih =>
    rw [List.foldl_cons, ih, greedySelect]
    unfold schedStep
    split_ifs <;> simp

theorem schedAfter_selected (l : List Interval) :
    (schedAfter l).selected = greedySelect none l := by
  simp [schedAfter, schedFold_selected, schedInit]

theorem greedySelect_sublist (b : Option Int) (l : List Interval) :
    (greedySelect b l).Sublist l := by
  induction l generalizing b with
  | nil => simp [greedySelect]
  | cons x xs ih =>
    rw [greedySelect]
    split_ifs
    · exact (ih _).cons₂ x
    · exact (ih _).cons x

/-- Among pairwise compatible intervals that all finish at or after `c`, at
most one starts before `c`. -/
theorem compatible_filter_length (c : Int) (T : List Interval)
    (hT : ∀ t ∈ T, c ≤ t.e) (hp : T.Pairwise Compatible) :
    T.length ≤ (T.filter (fun t => decide (c ≤ t.s))).length + 1 := by
  induction T with
  | nil => simp
  | cons t T ih =>
    rw [List.pairwise_cons] at hp
    by_cases ht : c ≤ t.s
    · have := ih (fun u hu => hT u (List.mem_cons_of_mem _ hu)) hp.2
      simp [List.filter_cons, ht]
      omega
    · have hall : ∀ u ∈ T, decide (c ≤ u.s) = true := by
        intro u hu
        have hc := hp.1 u hu
        have hue := hT u (List.mem_cons_of_mem _ hu)
        have hte := hT t (List.mem_cons_self _ _)
        unfold Compatible at hc
        simp
        omega
      rw [List.filter_cons_of_neg (by simpa using ht), List.filter_eq_self.2 hall]
      simp

theorem greedySelect_optimal (l : List Interval)
    (hs : l.Sorted (fun a b => a.e < b.e ∨ (a.e = b.e ∧ a.s ≤ b.s)))
    (hl : ∀ iv ∈ l, iv.s ≤ iv.e) :
    ∀ (b : Option Int) (T : List Interval), T.Sublist l → T.Pairwise Compatible →
      (∀ t ∈ T, geLastEnd t.s b = true) → T.length ≤ (greedySelect b l).length := by
  induction l with
  | nil =>
    intro b T hT _ _
    simp at hT
    simp [hT]
  | cons x xs ih =>
    intro b T hT hp hb
    have hs2 := List.pairwise_cons.1 hs
    have ih2 := ih hs2.2 (fun iv hiv => hl iv (List.mem_cons_of_mem _ hiv))
    have hx := hl x (List.mem_cons_self _ _)
    rw [greedySelect]
    rcases List.sublist_cons_iff.1 hT with hT1 | ⟨r, rfl, hr⟩
    · by_cases hc : geLastEnd x.s b = true
      · simp only [hc, if_true, List.length_cons]
        have hTe : ∀ t ∈ T, x.e ≤ t.e := by
          intro t ht
          have := hs2.1 t (hT1.subset ht)
          omega
        have h1 := compatible_filter_length x.e T hTe hp
        have h2 := ih2 (some x.e) (T.filter (fun t => decide (x.e ≤ t.s)))
          ((List.filter_sublist T).trans hT1) (hp.sublist (List.filter_sublist T))
          (by
            intro t ht
            simpa [geLastEnd] using (List.mem_filter.1 ht).2)
        omega
      · simp only [hc]
        exact ih2 b T hT1 hp hb
    · have hc : geLastEnd x.s b = true := hb x (List.mem_cons_self _ _)
      simp only [hc, if_true, List.length_cons]
      rw [List.pairwise_cons] at hp
      have h2 := ih2 (some x.e) r hr hp.2
        (by
          intro t ht
          have hcomp := hp.1 t ht
          have hsort := hs2.1 t (hr.subset ht)
          unfold Compatible at hcomp
          simp [geLastEnd]
          omega)
      omega

/-- C12: the intervals selected by `buildIntervalScheduling` are a compatible
subset of the input of maximum size: every pairwise compatible sub-multiset
of the input has at most as many elements as the final `selected` list.  On
the built-in intervals the final `selected` list has 4 entries. -/
theorem c12_interval_scheduling_maximum :
    (∀ ivs : List Interval, (∀ iv ∈ ivs, iv.s ≤ iv.e) →
      ∃ fin, (buildIntervalScheduling ivs).getLast? = some fin ∧
        (∃ sel : List Interval, fin.selected = sel.map (fun x => x.id) ∧
          sel.Subperm ivs ∧ sel.Pairwise Compatible) ∧
        ∀ T : List Interval, T.Subperm ivs → T.Pairwise Compatible →
          T.length ≤ fin.selected.length) ∧
    (buildIntervalScheduling intervals).getLast?.map (fun x => x.selected.length) = some 4 := by
  refine ⟨?_, by decide⟩
  intro ivs h
  have hperm := jsSort_perm cmpFinish ivs
  have hs : ∀ iv ∈ jsSort cmpFinish ivs, iv.s ≤ iv.e := fun iv hiv =>
    h iv (hperm.mem_iff.1 hiv)
  refine ⟨schedFinish (schedAfter (jsSort cmpFinish ivs)), by simp [buildIntervalScheduling],
    ⟨(schedAfter (jsSort cmpFinish ivs)).selected, rfl, ?_, ?_⟩, ?_⟩
  · rw [schedAfter_selected]
    exact (greedySelect_sublist _ _).subperm.trans hperm.subperm
  · exact List.Pairwise.imp (fun {a b} hab => Or.inl hab) (schedAfter_chain _ hs)
  · intro T hT hp
    obtain ⟨T1, hT1, hsub⟩ := hT.trans hperm.symm.subperm
    have hsym : ∀ {x y : Interval}, Compatible x y → Compatible y x := by
      intro x y hxy
      unfold Compatible at *
      omega
    have hp1 : T1.Pairwise Compatible := (hT1.pairwise_iff hsym).2 hp
    have := greedySelect_optimal _ (sorted_byFinish ivs) hs none T1 hsub hp1
      (by intro t _; rfl)
    simp only [schedFinish, List.length_map, schedAfter_selected]
    rw [← hT1.length_eq]
    exact this

theorem c12_interval_scheduling_maximum_witness :
    (∀ iv ∈ intervals, iv.s ≤ iv.e) ∧
    ∃ fin, (buildIntervalScheduling intervals).getLast? = some fin ∧
      ∀ T : List Interval, T.Subperm intervals → T.Pairwise Compatible →
        T.length ≤ fin.selected.length :=
  ⟨by decide, by
    obtain ⟨fin, h1, _, h3⟩ := c12_interval_scheduling_maximum.1 intervals (by decide)
    exact ⟨fin, h1, h3⟩⟩

end Greedy
namespace Greedy

open Js

/-! ## Interval partitioning -/

theorem cmpStart_le_iff (a b : Interval) :
    cmpStart a b ≤ 0 ↔ a.s < b.s ∨ (a.s = b.s ∧ a.e ≤ b.e) := by
  unfold cmpStart
  split_ifs with h <;> omega

theorem cmpStart_total : IsTotal Interval (fun a b => cmpStart a b ≤ 0) :=
  ⟨fun a b => by
    simp only [cmpStart_le_iff]
    omega⟩

theorem cmpStart_trans : IsTrans Interval (fun a b => cmpStart a b ≤ 0) :=
  ⟨fun a b c => by
    simp only [cmpStart_le_iff]
    omega⟩

theorem sorted_byStart (l : List Interval) :
    (jsSort cmpStart l).Sorted (fun a b => a.s < b.s ∨ (a.s = b.s ∧ a.e ≤ b.e)) := by
  haveI := cmpStart_total
  haveI := cmpStart_trans
  have h := List.sorted_insertionSort (fun a b => cmpStart a b ≤ 0) l
  exact List.Pairwise.imp (fun {a b} hab => (cmpStart_le_iff a b).1 hab) h

theorem findIndex_some (p : Int → Bool) (R : List Int) (r : Nat)
    (h : findIndex p R = some r) :
    ∃ A x B, R = A ++ x :: B ∧ A.length = r ∧ p x = true ∧ ∀ a ∈ A, p a = false := by
  induction R generalizing r with
  | nil => simp [findIndex] at h
  | cons y ys ih =>
    rw [findIndex] at h
    by_cases hy : p y = true
    · simp [hy] at h
      exact ⟨[], y, ys, rfl, by simpa using h, hy, by simp⟩
    · simp [hy] at h
      obtain ⟨i, hi, rfl⟩ := h
      obtain ⟨A, x, B, hR, hA, hx, hall⟩ := ih i hi
      refine ⟨y :: A, x, B, by simp [hR], by simp [hA], hx, ?_⟩
      intro a ha
      simp at ha
      rcases ha with rfl | ha
      · simpa using hy
      · exact hall a ha

theorem findIndex_none (p : Int → Bool) (R : List Int) (h : findIndex p R = none) :
    ∀ x ∈ R, p x = false := by
  induction R with
  | nil => simp
  | cons y ys ih =>
    rw [findIndex] at h
    by_cases hy : p y = true
    · simp [hy] at h
    · simp [hy] at h
      intro x hx
      simp at hx
      rcases hx with rfl | hx
      · simpa using hy
      · exact ih h x hx

/-- The two outcomes of `chooseRoom`. -/
theorem chooseRoom_cases (R : List Int) (iv : Interval) :
    (∃ A x B, R = A ++ x :: B ∧ x ≤ iv.s ∧ (∀ a ∈ A, iv.s < a) ∧
      chooseRoom R iv = (A.length, A ++ iv.e :: B)) ∨
    ((∀ x ∈ R, iv.s < x) ∧ chooseRoom R iv = (R.length, R ++ [iv.e])) := by
  unfold chooseRoom
  cases h : findIndex (fun endTime => decide (endTime ≤ iv.s)) R with
  | none =>
    right
    refine ⟨?_, by simp⟩
    intro x hx
    have := findIndex_none _ R h x hx
    simp at this
    exact this
  | some r =>
    left
    obtain ⟨A, x, B, hR, hA, hx, hall⟩ := findIndex_some _ R r h
    refine ⟨A, x, B, hR, by simpa using hx, ?_, ?_⟩
    · intro a ha
      have := hall a ha
      simp at this
      exact this
    · subst hR
      subst hA
      simp

theorem partStep_active (st : PartState) (iv : Interval) :
    (partStep st iv).out.map (fun x => x.active)
      = st.out.map (fun x => x.active) ++ [some iv.id, some iv.id] := by
  simp [partStep]

theorem partFold_active (l : List Interval) (st : PartState) :
    (l.foldl partStep st).out.map (fun x => x.active)
      = st.out.map (fun x => x.active) ++ l.flatMap (fun iv => [some iv.id, some iv.id]) := by
  induction l generalizing st with
  | nil => simp
  | cons iv rest ih =>
    rw [List.foldl_cons, ih, partStep_active]
    simp

theorem partAfter_concat (pre : List Interval) (iv : Interval) :
    partAfter (pre ++ [iv]) = partStep (partAfter pre) iv := by
  simp [partAfter, List.foldl_append]

theorem objGet_objSet {β : Type} (o : List (String × β)) (k : String) (v : β) (k2 : String) :
    objGet (objSet o k v) k2 = if k = k2 then some v else objGet o k2 := by
  induction o with
  | nil => simp [objSet, objGet]
  | cons kv rest ih =>
    obtain ⟨k1, v1⟩ := kv
    by_cases h1 : k1 = k
    · subst h1
      by_cases h2 : k1 = k2 <;> simp [objSet, objGet, h2]
    · by_cases h2 : k1 = k2
      · subst h2
        have h3 : ¬ k = k1 := fun h => h1 h.symm
        simp [objSet, objGet, h1]
        rw [if_neg h3]
      · simp [objSet, objGet, h1, h2, ih]

/-- The rooms in `roomEnd` after the `forEach` has run over `l`. -/
theorem partFold_roomEnd (l : List Interval) (st : PartState) :
    (l.foldl partStep st).roomEnd
      = l.foldl (fun R iv => (chooseRoom R iv).2) st.roomEnd := by
  induction l generalizing st with
  | nil => rfl
  | cons iv rest ih =>
    rw [List.foldl_cons, ih]
    rfl

/-- The object `assignments` after the `forEach` has run over `l`. -/
theorem partFold_assignments (l : List Interval) (st : PartState) :
    (l.foldl partStep st).assignments
      = (roomsGiven st.roomEnd l).foldl (fun o p => objSet o p.1.id p.2) st.assignments := by
  induction l generalizing st with
  | nil => rfl
  | cons iv rest ih =>
    rw [List.foldl_cons, ih]
    rfl

theorem roomsGiven_fst (R : List Int) (l : List Interval) :
    (roomsGiven R l).map Prod.fst = l := by
  induction l generalizing R with
  | nil => rfl
  | cons iv rest ih => simp [roomsGiven, ih]

/-- Reading a key after a run of assignments with pairwise distinct keys. -/
theorem objGet_foldl_objSet (ps : List (Interval × Nat)) (o : List (String × Nat))
    (hn : (ps.map (fun p => p.1.id)).Nodup) :
    ∀ p ∈ ps, objGet (ps.foldl (fun o p => objSet o p.1.id p.2) o) p.1.id = some p.2 := by
  induction ps generalizing o with
  | nil => simp
  | cons q rest ih =>
    simp only [List.map_cons, List.nodup_cons] at hn
    intro p hp
    simp only [List.foldl_cons]
    rcases List.mem_cons.1 hp with rfl | hp
    · have key : ∀ (rs : List (Interval × Nat)) (o2 : List (String × Nat)),
          p.1.id ∉ rs.map (fun p => p.1.id) →
          objGet (rs.foldl (fun o p => objSet o p.1.id p.2) o2) p.1.id = objGet o2 p.1.id := by
        intro rs
        induction rs with
        | nil => intro o2 _; rfl
        | cons r rs ih2 =>
          intro o2 hr
          simp only [List.map_cons, List.mem_cons, not_or] at hr
          simp only [List.foldl_cons]
          rw [ih2 _ hr.2, objGet_objSet]
          simp [Ne.symm hr.1]
      rw [key rest _ hn.1, objGet_objSet]
      simp
    · exact ih _ hn.2 p hp

theorem getD_append_cons (A : List Int) (x : Int) (B : List Int) :
    (A ++ x :: B).getD A.length 0 = x := by
  induction A with
  | nil => rfl
  | cons a A ih => simpa using ih

theorem getD_append_cons_ne (A : List Int) (x y : Int) (B : List Int) (q : Nat)
    (h : q ≠ A.length) : (A ++ x :: B).getD q 0 = (A ++ y :: B).getD q 0 := by
  induction A generalizing q with
  | nil =>
    cases q with
    | zero => simp at h
    | succ q => rfl
  | cons a A ih =>
    cases q with
    | zero => rfl
    | succ q =>
      have := ih q (by simpa using h)
      simpa using this

/-- Every room that is still in use ends no earlier than before a step. -/
theorem chooseRoom_getD_le (R : List Int) (iv : Interval) (hiv : iv.s ≤ iv.e) (q : Nat)
    (hq : q < R.length) :
    R.getD q 0 ≤ (chooseRoom R iv).2.getD q 0 ∧ R.length ≤ (chooseRoom R iv).2.length := by
  rcases chooseRoom_cases R iv with ⟨A, x, B, hR, hx, _, hc⟩ | ⟨_, hc⟩
  · rw [hc]
    subst hR
    refine ⟨?_, by simp⟩
    by_cases h2 : q = A.length
    · subst h2
      rw [getD_append_cons, getD_append_cons]
      omega
    · rw [getD_append_cons_ne A x iv.e B q h2]
  · rw [hc]
    refine ⟨?_, by simp⟩
    simp [List.getD_eq_getElem?_getD, List.getElem?_append_left, hq]

/-- The room given to the interval is in range afterwards and ends with it;
a reused room ended at or before the start of the interval. -/
theorem chooseRoom_fst (R : List Int) (iv : Interval) :
    (chooseRoom R iv).1 < (chooseRoom R iv).2.length ∧
    (chooseRoom R iv).2.getD (chooseRoom R iv).1 0 = iv.e ∧
    ((chooseRoom R iv).1 < R.length → R.getD (chooseRoom R iv).1 0 ≤ iv.s) := by
  rcases chooseRoom_cases R iv with ⟨A, x, B, hR, hx, _, hc⟩ | ⟨_, hc⟩
  · rw [hc]
    subst hR
    refine ⟨by simp, getD_append_cons _ _ _, fun _ => ?_⟩
    rw [getD_append_cons]
    exact hx
  · rw [hc]
    refine ⟨by simp, ?_, fun h => absurd h (lt_irrefl _)⟩
    have := getD_append_cons R iv.e []
    simp

/-- A later interval that is given one of the present rooms starts at or after
the present end of that room. -/
theorem roomsGiven_future (l : List Interval) (hl : ∀ iv ∈ l, iv.s ≤ iv.e) :
    ∀ (R : List Int) (p : Interval × Nat), p ∈ roomsGiven R l → p.2 < R.length →
      R.getD p.2 0 ≤ p.1.s := by
  induction l with
  | nil => intro R p hp; simp [roomsGiven] at hp
  | cons iv rest ih =>
    intro R p hp hlt
    simp only [roomsGiven, List.mem_cons] at hp
    rcases hp with rfl | hp
    · exact (chooseRoom_fst R iv).2.2 hlt
    · have h1 := chooseRoom_getD_le R iv (hl iv (List.mem_cons_self _ _)) p.2 hlt
      have h2 := ih (fun x hx => hl x (List.mem_cons_of_mem _ hx)) _ p hp (by omega)
      omega

/-- Two intervals that were given the same room do not overlap. -/
theorem roomsGiven_pairwise (l : List Interval) (hl : ∀ iv ∈ l, iv.s ≤ iv.e) (R : List Int) :
    (roomsGiven R l).Pairwise (fun p q => p.2 = q.2 → ¬ Overlap p.1 q.1) := by
  induction l generalizing R with
  | nil => simp [roomsGiven]
  | cons iv rest ih =>
    simp only [roomsGiven, List.pairwise_cons]
    refine ⟨?_, ih (fun x hx => hl x (List.mem_cons_of_mem _ hx)) _⟩
    intro q hq heq
    have h1 := chooseRoom_fst R iv
    have h2 := roomsGiven_future rest (fun x hx => hl x (List.mem_cons_of_mem _ hx)) _ q hq
      (by rw [← heq]; exact h1.1)
    rw [← heq, h1.2.1] at h2
    unfold Overlap
    omega

end Greedy
namespace Greedy

open Js

theorem objGet_foldl_isSome (ps : List (Interval × Nat)) (o : List (String × Nat)) (k : String)
    (h : (objGet o k).isSome) :
    (objGet (ps.foldl (fun o p => objSet o p.1.id p.2) o) k).isSome := by
  induction ps generalizing o with
  | nil => exact h
  | cons q rest ih =>
    simp only [List.foldl_cons]
    apply ih
    rw [objGet_objSet]
    split_ifs
    · rfl
    · exact h

theorem objGet_foldl_mem (ps : List (Interval × Nat)) (o : List (String × Nat)) :
    ∀ p ∈ ps, (objGet (ps.foldl (fun o p => objSet o p.1.id p.2) o) p.1.id).isSome := by
  induction ps generalizing o with
  | nil => simp
  | cons q rest ih =>
    intro p hp
    simp only [List.foldl_cons]
    rcases List.mem_cons.1 hp with rfl | hp
    · apply objGet_foldl_isSome
      rw [objGet_objSet]
      simp
    · exact ih _ p hp

theorem partAfter_assignments (l : List Interval) :
    (partAfter l).assignments
      = (roomsGiven [] l).foldl (fun o p => objSet o p.1.id p.2) [] := by
  simp [partAfter, partFold_assignments, partInit]

theorem set_append_cons (A : List Int) (x e : Int) (B : List Int) :
    (A ++ x :: B).set A.length e = A ++ e :: B := by
  simp

/-- C13 (amended): `buildIntervalPartitioning` processes the intervals in ascending
start order with ties in ascending finish order (two snapshots for each, then
the final one); each interval is recorded in `assignments` with the
lowest-numbered room whose last finish is at most its start, and with a new
room only when there is none; in the final `assignments` every interval has a
room, and two intervals that were given the same room never overlap (read
through `assignments` when the ids are pairwise distinct). -/
theorem c13_interval_partitioning (ivs : List Interval) (h : ∀ iv ∈ ivs, iv.s ≤ iv.e) :
    (jsSort cmpStart ivs).Perm ivs ∧
    (jsSort cmpStart ivs).Sorted (fun a b => a.s < b.s ∨ (a.s = b.s ∧ a.e ≤ b.e)) ∧
    (buildIntervalPartitioning ivs).map (fun x => x.active)
      = (jsSort cmpStart ivs).flatMap (fun iv => [some iv.id, some iv.id]) ++ [none] ∧
    (∀ pre iv suf, jsSort cmpStart ivs = pre ++ iv :: suf →
      ∃ r, objGet (partAfter (pre ++ [iv])).assignments iv.id = some r ∧
        ((∃ v, (partAfter pre).roomEnd[r]? = some v ∧ v ≤ iv.s ∧
            (∀ q w, q < r → (partAfter pre).roomEnd[q]? = some w → iv.s < w) ∧
            (partAfter (pre ++ [iv])).roomEnd = (partAfter pre).roomEnd.set r iv.e) ∨
          (r = (partAfter pre).roomEnd.length ∧
            (∀ w ∈ (partAfter pre).roomEnd, iv.s < w) ∧
            (partAfter (pre ++ [iv])).roomEnd = (partAfter pre).roomEnd ++ [iv.e]))) ∧
    (∃ fin, (buildIntervalPartitioning ivs).getLast? = some fin ∧
      (∀ iv ∈ ivs, ∃ r, objGet fin.assignments iv.id = some r) ∧
      ((ivs.map (fun iv => iv.id)).Nodup →
        (∀ p ∈ roomsGiven [] (jsSort cmpStart ivs), objGet fin.assignments p.1.id = some p.2) ∧
        ivs.Pairwise (fun a b =>
          objGet fin.assignments a.id = objGet fin.assignments b.id → ¬ Overlap a b))) ∧
    (roomsGiven [] (jsSort cmpStart ivs)).Pairwise (fun p q => p.2 = q.2 → ¬ Overlap p.1 q.1) := by
  have hperm := jsSort_perm cmpStart ivs
  have hs : ∀ iv ∈ jsSort cmpStart ivs, iv.s ≤ iv.e := fun iv hiv =>
    h iv (hperm.mem_iff.1 hiv)
  have hpw := roomsGiven_pairwise _ hs []
  refine ⟨hperm, sorted_byStart _, ?_, ?_, ?_, hpw⟩
  · simp [buildIntervalPartitioning, partAfter, partFold_active, partInit, partFinish]
  · intro pre iv suf _
    rw [partAfter_concat]
    refine ⟨(chooseRoom (partAfter pre).roomEnd iv).1, ?_, ?_⟩
    · simp [partStep, objGet_objSet]
    · rcases chooseRoom_cases (partAfter pre).roomEnd iv with
        ⟨A, x, B, hR, hx, hA, hc⟩ | ⟨hall, hc⟩
      · left
        simp only [partStep, hc]
        rw [hR]
        refine ⟨x, by rw [List.getElem?_append_right (le_refl _)]; simp, hx, ?_,
          (set_append_cons A x iv.e B).symm⟩
        intro q w hq hw
        rw [List.getElem?_append_left hq] at hw
        exact hA w (List.getElem?_mem hw)
      · right
        simp only [partStep, hc]
        exact ⟨trivial, hall, trivial⟩
  · refine ⟨partFinish (partAfter (jsSort cmpStart ivs)),
      by simp [buildIntervalPartitioning], ?_, ?_⟩
    · intro iv hiv
      have hiv2 : iv ∈ (roomsGiven [] (jsSort cmpStart ivs)).map Prod.fst := by
        rw [roomsGiven_fst]
        exact hperm.mem_iff.2 hiv
      obtain ⟨p, hp, rfl⟩ := List.mem_map.1 hiv2
      have := objGet_foldl_mem (roomsGiven [] (jsSort cmpStart ivs)) [] p hp
      rw [← partAfter_assignments] at this
      exact Option.isSome_iff_exists.1 this
    · intro hnd
      have hnd2 : ((roomsGiven [] (jsSort cmpStart ivs)).map (fun p => p.1.id)).Nodup := by
        have : (roomsGiven [] (jsSort cmpStart ivs)).map (fun p => p.1.id)
            = (jsSort cmpStart ivs).map (fun iv => iv.id) := by
          conv_rhs => rw [← roomsGiven_fst [] (jsSort cmpStart ivs)]
          simp
        rw [this]
        exact (hperm.map _).nodup_iff.2 hnd
      have hget := objGet_foldl_objSet (roomsGiven [] (jsSort cmpStart ivs)) [] hnd2
      rw [← partAfter_assignments] at hget
      refine ⟨hget, ?_⟩
      have hsym : ∀ {a b : Interval},
          (objGet (partFinish (partAfter (jsSort cmpStart ivs))).assignments a.id
              = objGet (partFinish (partAfter (jsSort cmpStart ivs))).assignments b.id →
            ¬ Overlap a b) →
          (objGet (partFinish (partAfter (jsSort cmpStart ivs))).assignments b.id
              = objGet (partFinish (partAfter (jsSort cmpStart ivs))).assignments a.id →
            ¬ Overlap b a) := by
        intro a b hab hba hov
        exact hab hba.symm ⟨hov.2, hov.1⟩
      rw [← hperm.pairwise_iff hsym]
      have hpw2 : ((roomsGiven [] (jsSort cmpStart ivs)).map Prod.fst).Pairwise (fun a b =>
          objGet (partFinish (partAfter (jsSort cmpStart ivs))).assignments a.id
            = objGet (partFinish (partAfter (jsSort cmpStart ivs))).assignments b.id →
          ¬ Overlap a b) := by
        rw [List.pairwise_map]
        refine List.Pairwise.imp_of_mem ?_ hpw
        intro p q hp hq hpq heq
        simp only [partFinish] at heq
        rw [hget p hp, hget q hq] at heq
        exact hpq (Option.some.inj heq)
      rwa [roomsGiven_fst] at hpw2

theorem c13_interval_partitioning_witness :
    (∀ iv ∈ intervals, iv.s ≤ iv.e) ∧
    (roomsGiven [] (jsSort cmpStart intervals)).Pairwise
      (fun p q => p.2 = q.2 → ¬ Overlap p.1 q.1) :=
  ⟨by decide, (c13_interval_partitioning intervals (by decide)).2.2.2.2.2⟩

/-- C13 (counterexample): `assignments` is keyed by the id of the interval.
For two intervals with the same id `a`, both `[0, 3]`, the first is given
room 0 and the second room 1, and the entry of the second overwrites that of
the first: the final `assignments` is `{ a: 1 }`, where both intervals read
room 1 although they overlap. -/
theorem c13_duplicate_ids_counterexample :
    (∀ iv ∈ [(⟨"a", 0, 3⟩ : Interval), ⟨"a", 0, 3⟩], iv.s ≤ iv.e) ∧
    roomsGiven [] (jsSort cmpStart [⟨"a", 0, 3⟩, ⟨"a", 0, 3⟩])
      = [(⟨"a", 0, 3⟩, 0), (⟨"a", 0, 3⟩, 1)] ∧
    (buildIntervalPartitioning [⟨"a", 0, 3⟩, ⟨"a", 0, 3⟩]).getLast?.map
      (fun fin => fin.assignments) = some [("a", 1)] ∧
    Overlap ⟨"a", 0, 3⟩ ⟨"a", 0, 3⟩ ∧
    (buildIntervalPartitioning [⟨"a", 0, 3⟩, ⟨"a", 0, 3⟩]).getLast?.map
      (fun fin => decide ([(⟨"a", 0, 3⟩ : Interval), ⟨"a", 0, 3⟩].Pairwise (fun a b =>
        objGet fin.assignments a.id = objGet fin.assignments b.id → ¬ Overlap a b)))
      = some false := by
  decide

end Greedy
namespace Greedy

open Js

theorem depthAt_append (P Q : List Interval) (t : Int) :
    depthAt (P ++ Q) t = depthAt P t + depthAt Q t := by
  simp [depthAt, List.countP_append]

theorem depthAt_single (iv : Interval) (t : Int) :
    depthAt [iv] t = if iv.s ≤ t ∧ t < iv.e then 1 else 0 := by
  simp [depthAt, List.countP_cons]

theorem busyAt_append_cons (A : List Int) (x : Int) (B : List Int) (t : Int) :
    busyAt (A ++ x :: B) t = busyAt A t + (if t < x then 1 else 0) + busyAt B t := by
  simp [busyAt, List.countP_append, List.countP_cons]
  omega

theorem busyAt_le_length (R : List Int) (t : Int) : busyAt R t ≤ R.length :=
  List.countP_le_length _

theorem busyAt_all (R : List Int) (t : Int) (h : ∀ x ∈ R, t < x) : busyAt R t = R.length := by
  unfold busyAt
  rw [List.countP_eq_length]
  intro x hx
  simpa using h x hx

theorem partInv_step (P : List Interval) (R : List Int) (iv : Interval)
    (hinv : PartInv P R) (hP : ∀ a ∈ P, a.s ≤ iv.s) (hiv : iv.s < iv.e) :
    PartInv (P ++ [iv]) (chooseRoom R iv).2 := by
  obtain ⟨h1, h2, t0, h3⟩ := hinv
  rcases chooseRoom_cases R iv with ⟨A, x, B, hR, hx, _, hc⟩ | ⟨hall, hc⟩
  · rw [hc]
    subst hR
    refine ⟨?_, ?_, t0, ?_⟩
    · intro t
      have := h1 t
      rw [busyAt_append_cons] at this ⊢
      rw [depthAt_append, depthAt_single]
      split_ifs at this ⊢ <;> omega
    · intro t ht
      have hs : iv.s ≤ t := ht iv (by simp)
      have := h2 t (fun a ha => ht a (by simp [ha]))
      rw [busyAt_append_cons] at this ⊢
      rw [depthAt_append, depthAt_single]
      split_ifs at this ⊢ <;> omega
    · rw [depthAt_append]
      simp only [List.length_append, List.length_cons] at h3 ⊢
      omega
  · rw [hc]
    have hb : ∀ t, busyAt (R ++ [iv.e]) t = busyAt R t + (if t < iv.e then 1 else 0) := by
      intro t
      have := busyAt_append_cons R iv.e [] t
      simpa [busyAt] using this
    refine ⟨?_, ?_, iv.s, ?_⟩
    · intro t
      have := h1 t
      rw [hb, depthAt_append, depthAt_single]
      split_ifs <;> omega
    · intro t ht
      have hs : iv.s ≤ t := ht iv (by simp)
      have := h2 t (fun a ha => ht a (by simp [ha]))
      rw [hb, depthAt_append, depthAt_single]
      split_ifs <;> omega
    · have h4 := h2 iv.s hP
      rw [busyAt_all R iv.s hall] at h4
      rw [depthAt_append, depthAt_single]
      simp only [List.length_append, List.length_singleton]
      split_ifs <;> omega

theorem partInv_fold (suf : List Interval) :
    ∀ (P : List Interval) (R : List Int), PartInv P R →
      (P ++ suf).Pairwise (fun a b => a.s ≤ b.s) → (∀ iv ∈ suf, iv.s < iv.e) →
      PartInv (P ++ suf) (suf.foldl (fun R iv => (chooseRoom R iv).2) R) := by
  induction suf with
  | nil => intro P R h _ _; simpa using h
  | cons iv rest ih =>
    intro P R h hs hlt
    have hs2 := List.pairwise_append.1 hs
    have hstep := partInv_step P R iv h
      (fun a ha => hs2.2.2 a ha iv (List.mem_cons_self _ _)) (hlt iv (List.mem_cons_self _ _))
    have := ih (P ++ [iv]) _ hstep (by simpa using hs)
      (fun x hx => hlt x (List.mem_cons_of_mem _ hx))
    simpa using this

theorem partAfter_roomEnd (l : List Interval) :
    (partAfter l).roomEnd = l.foldl (fun R iv => (chooseRoom R iv).2) [] := by
  simp [partAfter, partFold_roomEnd, partInit]

theorem chooseRoom_length_le (R : List Int) (iv : Interval) :
    R.length ≤ (chooseRoom R iv).2.length := by
  rcases chooseRoom_cases R iv with ⟨A, x, B, hR, _, _, hc⟩ | ⟨_, hc⟩
  · rw [hc, hR]; simp
  · rw [hc]; simp

theorem foldRoom_length_le (l : List Interval) (R : List Int) :
    R.length ≤ (l.foldl (fun R iv => (chooseRoom R iv).2) R).length := by
  induction l generalizing R with
  | nil => exact le_refl _
  | cons iv rest ih =>
    exact le_trans (chooseRoom_length_le R iv) (ih _)

theorem roomsGiven_lt (l : List Interval) (R : List Int) :
    ∀ p ∈ roomsGiven R l, p.2 < (l.foldl (fun R iv => (chooseRoom R iv).2) R).length := by
  induction l generalizing R with
  | nil => simp [roomsGiven]
  | cons iv rest ih =>
    intro p hp
    simp only [roomsGiven, List.mem_cons] at hp
    simp only [List.foldl_cons]
    rcases hp with rfl | hp
    · exact lt_of_lt_of_le (chooseRoom_fst R iv).1 (foldRoom_length_le _ _)
    · exact ih _ p hp

theorem zip_filter_length (l : List Interval) (rs : List Nat) (p : Interval → Bool)
    (h : rs.length = l.length) :
    ((l.zip rs).filter (fun q => p q.1)).length = l.countP p := by
  induction l generalizing rs with
  | nil => simp
  | cons a l ih =>
    cases rs with
    | nil => simp at h
    | cons r rs =>
      have := ih rs (by simpa using h)
      by_cases hp : p a = true
      · simp [List.filter_cons, List.countP_cons, hp, this]
      · simp [List.filter_cons, List.countP_cons, hp, this]

theorem nodup_bounded_length (l : List Nat) (k : Nat) (hn : l.Nodup) (hb : ∀ x ∈ l, x < k) :
    l.length ≤ k := by
  have h1 : l.toFinset ⊆ Finset.range k := by
    intro x hx
    simp at hx
    simpa using hb x hx
  have h2 := Finset.card_le_card h1
  rw [List.toFinset_card_of_nodup hn, Finset.card_range] at h2
  exact h2

/-- Any assignment of rooms below `k` that keeps overlapping intervals apart
needs `k` at least the depth at every point. -/
theorem depthAt_le_rooms (l : List Interval) (rs : List Nat) (k : Nat) (t : Int)
    (hlen : rs.length = l.length) (hk : ∀ r ∈ rs, r < k)
    (hv : (l.zip rs).Pairwise (fun p q => Overlap p.1 q.1 → p.2 ≠ q.2)) :
    depthAt l t ≤ k := by
  have hz := zip_filter_length l rs (fun iv => decide (iv.s ≤ t ∧ t < iv.e)) hlen
  unfold depthAt
  rw [← hz, ← List.length_map _ Prod.snd]
  apply nodup_bounded_length
  · unfold List.Nodup
    rw [List.pairwise_map]
    have hsub := List.filter_sublist (p := fun q : Interval × Nat =>
      decide (q.1.s ≤ t ∧ t < q.1.e)) (l.zip rs)
    refine List.Pairwise.imp_of_mem ?_ (hv.sublist hsub)
    intro p q hp hq hpq
    have h1 := (List.mem_filter.1 hp).2
    have h2 := (List.mem_filter.1 hq).2
    simp at h1 h2
    exact hpq ⟨by omega, by omega⟩
  · intro r hr
    obtain ⟨q, hq, rfl⟩ := List.mem_map.1 hr
    exact hk _ (List.of_mem_zip ((List.mem_filter.1 hq).1)).2

/-- C14: for intervals with start < end the number of rooms of
`buildIntervalPartitioning` equals the largest number of input intervals that
contain a common time point: no point is in more intervals than there are
rooms, some point is in exactly that many, the rooms given are all below that
number, and every assignment that keeps overlapping intervals in different
rooms uses at least as many.  On the built-in intervals it is 3. -/
theorem c14_interval_partitioning_minimum :
    (∀ ivs : List Interval, (∀ iv ∈ ivs, iv.s < iv.e) →
      ∃ fin, (buildIntervalPartitioning ivs).getLast? = some fin ∧
        (∀ t, depthAt ivs t ≤ fin.roomEnd.length) ∧
        (∃ t, depthAt ivs t = fin.roomEnd.length) ∧
        (∀ p ∈ roomsGiven [] (jsSort cmpStart ivs), p.2 < fin.roomEnd.length) ∧
        (∀ (rs : List Nat) (k : Nat), rs.length = ivs.length → (∀ r ∈ rs, r < k) →
          (ivs.zip rs).Pairwise (fun p q => Overlap p.1 q.1 → p.2 ≠ q.2) →
          fin.roomEnd.length ≤ k)) ∧
    (buildIntervalPartitioning intervals).getLast?.map (fun x => x.roomEnd.length) = some 3 := by
  refine ⟨?_, by decide⟩
  intro ivs h
  have hperm := jsSort_perm cmpStart ivs
  have hs : ∀ iv ∈ jsSort cmpStart ivs, iv.s < iv.e := fun iv hiv =>
    h iv (hperm.mem_iff.1 hiv)
  have hsorted : ([] ++ jsSort cmpStart ivs).Pairwise (fun a b : Interval => a.s ≤ b.s) := by
    have := sorted_byStart ivs
    simp only [List.nil_append]
    exact List.Pairwise.imp (fun {a b} hab => by omega) this
  have hinv := partInv_fold (jsSort cmpStart ivs) [] []
    ⟨fun t => by simp [depthAt, busyAt], fun t _ => by simp [depthAt, busyAt], 0, by simp⟩
    hsorted hs
  simp only [List.nil_append] at hinv
  rw [← partAfter_roomEnd] at hinv
  obtain ⟨h1, _, t0, h3⟩ := hinv
  have hd : ∀ t, depthAt (jsSort cmpStart ivs) t = depthAt ivs t := fun t =>
    hperm.countP_eq _
  have hle : ∀ t, depthAt ivs t ≤ (partAfter (jsSort cmpStart ivs)).roomEnd.length := fun t => by
    rw [← hd]
    exact le_trans (h1 t) (busyAt_le_length _ _)
  refine ⟨partFinish (partAfter (jsSort cmpStart ivs)),
    by simp [buildIntervalPartitioning], hle, ⟨t0, ?_⟩, ?_, ?_⟩
  · rw [hd] at h3
    exact le_antisymm (hle t0) h3
  · intro p hp
    have := roomsGiven_lt _ _ p hp
    rw [← partAfter_roomEnd] at this
    exact this
  · intro rs k hlen hk hv
    rw [hd] at h3
    exact le_trans h3 (depthAt_le_rooms ivs rs k t0 hlen hk hv)

theorem c14_interval_partitioning_minimum_witness :
    (∀ iv ∈ intervals, iv.s < iv.e) ∧
    ∃ fin, (buildIntervalPartitioning intervals).getLast? = some fin ∧
      ∀ t, depthAt intervals t ≤ fin.roomEnd.length :=
  ⟨by decide, by
    obtain ⟨fin, h1, h2, _⟩ := c14_interval_partitioning_minimum.1 intervals (by decide)
    exact ⟨fin, h1, h2⟩⟩

end Greedy
namespace Greedy

open Js

/-! ## Minimise lateness -/

theorem cmpDeadline_total : IsTotal Job (fun a b => cmpDeadline a b ≤ 0) :=
  ⟨fun a b => by
    simp only [cmpDeadline]
    omega⟩

theorem cmpDeadline_trans : IsTrans Job (fun a b => cmpDeadline a b ≤ 0) :=
  ⟨fun a b c => by
    simp only [cmpDeadline]
    omega⟩

theorem sorted_byDeadline (l : List Job) :
    (jsSort cmpDeadline l).Sorted (fun a b => a.d ≤ b.d) := by
  haveI := cmpDeadline_total
  haveI := cmpDeadline_trans
  have h := List.sorted_insertionSort (fun a b => cmpDeadline a b ≤ 0) l
  exact List.Pairwise.imp (fun {a b} hab => by simp only [cmpDeadline] at hab; omega) h

theorem maxLatenessOf_concat (l : List ScheduledJob) (x : ScheduledJob) :
    maxLatenessOf (l ++ [x]) = max (maxLatenessOf l) (max x.lateness 0) := by
  induction l with
  | nil => simp [maxLatenessOf]
  | cons y l ih =>
    simp only [maxLatenessOf, List.cons_append, List.map_cons, List.foldr_cons] at ih ⊢
    rw [ih, max_assoc]

theorem backToBack_concat (l : List ScheduledJob) (x : ScheduledJob)
    (hl : BackToBack l)
    (hx : x.start = (l.getLast?.map (fun y => y.finish)).getD 0 ∧
      x.finish = jsAdd x.start x.p ∧ x.lateness = max 0 (jsSub x.finish x.d)) :
    BackToBack (l ++ [x]) := by
  intro pre y suf h
  rcases List.eq_nil_or_concat suf with rfl | ⟨suf1, z, rfl⟩
  · have := List.append_inj' h rfl
    obtain ⟨h1, h2⟩ := this
    simp at h2
    subst h1
    subst h2
    exact hx
  · have h2 : l ++ [x] = (pre ++ y :: suf1) ++ [z] := by simpa using h
    have := List.append_inj' h2 rfl
    exact hl pre y suf1 this.1

theorem lateStep_inv (ordered : List Job) (st : LateState) (job : Job) (h : LateInv st) :
    LateInv (lateStep ordered st job) := by
  obtain ⟨h1, h2, h3, h4⟩ := h
  have hb : BackToBack (st.scheduled ++ [{
      id := job.id, p := job.p, d := job.d, start := st.time,
      finish := jsAdd st.time job.p,
      lateness := max 0 (jsSub (jsAdd st.time job.p) job.d) }]) :=
    backToBack_concat _ _ h1 ⟨h2, rfl, rfl⟩
  have hm : max st.maxLate (max 0 (jsSub (jsAdd st.time job.p) job.d))
      = maxLatenessOf (st.scheduled ++ [{
          id := job.id, p := job.p, d := job.d, start := st.time,
          finish := jsAdd st.time job.p,
          lateness := max 0 (jsSub (jsAdd st.time job.p) job.d) }]) := by
    rw [maxLatenessOf_concat, h3]
    simp
  refine ⟨hb, by simp [lateStep], hm, ?_⟩
  intro step hstep
  simp only [lateStep, List.mem_append, List.mem_singleton] at hstep
  rcases hstep with (hstep | rfl) | rfl
  · exact h4 step hstep
  · exact ⟨h1, h3⟩
  · exact ⟨hb, hm⟩

theorem lateFold_inv (ordered l : List Job) (st : LateState) (h : LateInv st) :
    LateInv (l.foldl (lateStep ordered) st) := by
  induction l generalizing st with
  | nil => exact h
  | cons j rest ih => exact ih _ (lateStep_inv ordered st j h)

theorem lateAfter_inv (ordered l : List Job) : LateInv (lateAfter ordered l) := by
  apply lateFold_inv
  refine ⟨?_, rfl, rfl, by simp [lateInit]⟩
  intro pre x suf h
  simp [lateInit] at h

theorem lateFold_scheduled (ordered l : List Job) (st : LateState) :
    (l.foldl (lateStep ordered) st).scheduled.map ScheduledJob.job
      = st.scheduled.map ScheduledJob.job ++ l := by
  induction l generalizing st with
  | nil => simp
  | cons j rest ih =>
    rw [List.foldl_cons, ih]
    simp [lateStep, ScheduledJob.job]

/-! ### Where double arithmetic is exact -/

theorem roundDouble_exact (x : Int) (h1 : -(2 ^ 53) ≤ x) (h2 : x ≤ 2 ^ 53) :
    roundDouble x = x := by
  unfold roundDouble
  rw [if_pos (by omega)]

theorem backToBackExact_of (l : List ScheduledJob) (h : BackToBack l)
    (he : ∀ x ∈ l, x.finish = x.start + x.p ∧ x.lateness = max 0 (x.finish - x.d)) :
    BackToBackExact l := by
  intro pre x suf hl
  obtain ⟨h1, _, _⟩ := h pre x suf hl
  have h2 := he x (by rw [hl]; simp)
  exact ⟨h1, h2.1, h2.2⟩

theorem lateStep_out (ordered : List Job) (st : LateState) (job : Job) :
    ∀ step ∈ (lateStep ordered st job).out,
      step ∈ st.out ∨ step.scheduled = st.scheduled ∨
        step.scheduled = (lateStep ordered st job).scheduled := by
  intro step hstep
  simp only [lateStep, List.mem_append, List.mem_singleton] at hstep
  rcases hstep with (hstep | rfl) | rfl
  · exact Or.inl hstep
  · exact Or.inr (Or.inl rfl)
  · exact Or.inr (Or.inr rfl)

theorem lateStep_exact (ordered : List Job) (st : LateState) (job : Job)
    (h1 : -(2 ^ 53) ≤ st.time + job.p) (h2 : st.time + job.p ≤ 2 ^ 53)
    (h3 : -(2 ^ 53) ≤ st.time + job.p - job.d) (h4 : st.time + job.p - job.d ≤ 2 ^ 53) :
    (lateStep ordered st job).time = st.time + job.p ∧
    (lateStep ordered st job).scheduled = st.scheduled ++ [{
      id := job.id, p := job.p, d := job.d, start := st.time, finish := st.time + job.p,
      lateness := max 0 (st.time + job.p - job.d) }] := by
  have e1 : jsAdd st.time job.p = st.time + job.p := roundDouble_exact _ h1 h2
  have e2 : jsSub (st.time + job.p) job.d = st.time + job.p - job.d :=
    roundDouble_exact _ h3 h4
  unfold lateStep
  simp only [e1, e2]
  exact ⟨trivial, trivial⟩

/-- While the clock and the deadlines stay within `2^53`, every entry that
`buildLateness` schedules has `finish = start + p` and
`lateness = max(0, finish - d)` without rounding. -/
theorem lateFold_exact (ordered : List Job) (T : Int) :
    ∀ (l : List Job) (st : LateState), 0 ≤ st.time →
      (∀ j ∈ l, 0 ≤ j.p ∧ T + j.d.natAbs ≤ 2 ^ 53) →
      st.time + (l.map (fun j => j.p)).sum ≤ T →
      (∀ x ∈ st.scheduled, x.finish = x.start + x.p ∧ x.lateness = max 0 (x.finish - x.d)) →
      (∀ step ∈ st.out, ∀ x ∈ step.scheduled,
        x.finish = x.start + x.p ∧ x.lateness = max 0 (x.finish - x.d)) →
      (∀ x ∈ (l.foldl (lateStep ordered) st).scheduled,
        x.finish = x.start + x.p ∧ x.lateness = max 0 (x.finish - x.d)) ∧
      (∀ step ∈ (l.foldl (lateStep ordered) st).out, ∀ x ∈ step.scheduled,
        x.finish = x.start + x.p ∧ x.lateness = max 0 (x.finish - x.d)) := by
  intro l
  induction l with
  | nil => intro st _ _ _ hs ho; exact ⟨hs, ho⟩
  | cons j rest ih =>
    intro st h0 hj hT hs ho
    obtain ⟨hp, hd⟩ := hj j (List.mem_cons_self _ _)
    have hrest : 0 ≤ (rest.map (fun j => j.p)).sum :=
      List.sum_nonneg (fun x hx => by
        obtain ⟨y, hy, rfl⟩ := List.mem_map.1 hx
        exact (hj y (List.mem_cons_of_mem _ hy)).1)
    simp only [List.map_cons, List.sum_cons] at hT
    obtain ⟨et, es⟩ := lateStep_exact ordered st j (by omega) (by omega) (by omega) (by omega)
    have hs1 : ∀ x ∈ (lateStep ordered st j).scheduled,
        x.finish = x.start + x.p ∧ x.lateness = max 0 (x.finish - x.d) := by
      intro x hx
      rw [es, List.mem_append, List.mem_singleton] at hx
      rcases hx with hx | hx
      · exact hs x hx
      · subst hx
        exact ⟨rfl, rfl⟩
    rw [List.foldl_cons]
    apply ih
    · rw [et]; omega
    · exact fun x hx => hj x (List.mem_cons_of_mem _ hx)
    · rw [et]; omega
    · exact hs1
    · intro step hstep x hx
      rcases lateStep_out ordered st j step hstep with h | h | h
      · exact ho step h x hx
      · rw [h] at hx
        exact hs x hx
      · rw [h] at hx
        exact hs1 x hx

/-- C15: `buildLateness` schedules the jobs in ascending deadline order, back
to back from time 0 (each entry starts at the previous finish, finishes `p`
later, has lateness `max(0, finish - d)`, the sum and the difference being
those of the source), and in every snapshot `maxLate` is the largest lateness
among the entries of its `scheduled` list (0 when that list is empty).  When
the processing times are non-negative and the total processing time plus the
magnitude of any deadline is at most `2^53`, `finish = start + p` and
`lateness = max(0, finish - d)` hold in every snapshot without rounding. -/
theorem c15_lateness_schedule (js : List Job) :
    (jsSort cmpDeadline js).Perm js ∧
    (jsSort cmpDeadline js).Sorted (fun a b => a.d ≤ b.d) ∧
    (∃ fin, (buildLateness js).getLast? = some fin ∧
      fin.scheduled.map ScheduledJob.job = jsSort cmpDeadline js) ∧
    (∀ step ∈ buildLateness js,
      BackToBack step.scheduled ∧ step.maxLate = maxLatenessOf step.scheduled) ∧
    ((∀ j ∈ js, 0 ≤ j.p) → WithinExactRange js →
      ∀ step ∈ buildLateness js, BackToBackExact step.scheduled) := by
  have hall : ∀ step ∈ buildLateness js,
      BackToBack step.scheduled ∧ step.maxLate = maxLatenessOf step.scheduled := by
    intro step hstep
    have hinv := lateAfter_inv (jsSort cmpDeadline js) (jsSort cmpDeadline js)
    simp only [buildLateness, List.mem_append, List.mem_singleton] at hstep
    rcases hstep with hstep | rfl
    · exact hinv.2.2.2 step hstep
    · exact ⟨hinv.1, hinv.2.2.1⟩
  refine ⟨jsSort_perm _ _, sorted_byDeadline _, ?_, hall, ?_⟩
  · refine ⟨lateFinish (jsSort cmpDeadline js)
      (lateAfter (jsSort cmpDeadline js) (jsSort cmpDeadline js)), by simp [buildLateness], ?_⟩
    simp [lateFinish, lateAfter, lateFold_scheduled, lateInit]
  · intro hp hb step hstep
    have hperm := jsSort_perm cmpDeadline js
    have hsum : ((jsSort cmpDeadline js).map (fun j => j.p)).sum
        = (js.map (fun j => j.p)).sum := (hperm.map _).sum_eq
    obtain ⟨k1, k2⟩ := lateFold_exact (jsSort cmpDeadline js) ((js.map (fun j => j.p)).sum)
      (jsSort cmpDeadline js) lateInit (le_refl _)
      (fun j hj => ⟨hp j (hperm.mem_iff.1 hj), hb j (hperm.mem_iff.1 hj)⟩)
      (by rw [hsum]; simp [lateInit])
      (fun x hx => by simp [lateInit] at hx)
      (fun s hs => by simp [lateInit] at hs)
    apply backToBackExact_of _ (hall step hstep).1
    simp only [buildLateness, List.mem_append, List.mem_singleton] at hstep
    rcases hstep with hstep | rfl
    · exact k2 step hstep
    · exact k1

end Greedy
namespace Greedy

open Js

theorem c15_lateness_schedule_witness :
    ((∀ j ∈ jobs, 0 ≤ j.p) ∧ WithinExactRange jobs) ∧
    ∃ fin, (buildLateness jobs).getLast? = some fin ∧
      BackToBack fin.scheduled ∧ fin.maxLate = maxLatenessOf fin.scheduled ∧
      BackToBackExact fin.scheduled := by
  have hp : ∀ j ∈ jobs, 0 ≤ j.p := by decide
  have hb : WithinExactRange jobs := by
    unfold WithinExactRange
    decide
  obtain ⟨fin, h1, _⟩ := (c15_lateness_schedule jobs).2.2.1
  have hm := List.mem_of_getLast?_eq_some h1
  exact ⟨⟨hp, hb⟩, fin, h1, ((c15_lateness_schedule jobs).2.2.2.1 fin hm).1,
    ((c15_lateness_schedule jobs).2.2.2.1 fin hm).2,
    (c15_lateness_schedule jobs).2.2.2.2 hp hb fin hm⟩

/-! ### Optimality of the earliest-deadline order -/

theorem workBy_cons (D : Int) (j : Job) (l : List Job) :
    workBy D (j :: l) = (if j.d ≤ D then j.p else 0) + workBy D l := by
  unfold workBy
  by_cases h : j.d ≤ D <;> simp [List.filter_cons, h]

theorem workBy_nonneg (D : Int) (l : List Job) (hp : ∀ j ∈ l, 0 ≤ j.p) : 0 ≤ workBy D l := by
  induction l with
  | nil => simp [workBy]
  | cons j l ih =>
    rw [workBy_cons]
    have h1 := hp j (List.mem_cons_self _ _)
    have h2 := ih (fun x hx => hp x (List.mem_cons_of_mem _ hx))
    split_ifs <;> omega

theorem workBy_none (D : Int) (l : List Job) (h : ∀ j ∈ l, ¬ j.d ≤ D) : workBy D l = 0 := by
  induction l with
  | nil => simp [workBy]
  | cons j l ih =>
    rw [workBy_cons, ih (fun x hx => h x (List.mem_cons_of_mem _ hx))]
    simp [h j (List.mem_cons_self _ _)]

theorem workBy_all (D : Int) (l : List Job) (h : ∀ j ∈ l, j.d ≤ D) :
    workBy D l = (l.map (fun j => j.p)).sum := by
  induction l with
  | nil => simp [workBy]
  | cons j l ih =>
    rw [workBy_cons, ih (fun x hx => h x (List.mem_cons_of_mem _ hx))]
    simp [h j (List.mem_cons_self _ _)]

theorem workBy_append (D : Int) (l1 l2 : List Job) :
    workBy D (l1 ++ l2) = workBy D l1 + workBy D l2 := by
  simp [workBy]

theorem workBy_perm (D : Int) {l1 l2 : List Job} (h : l1.Perm l2) :
    workBy D l1 = workBy D l2 :=
  ((h.filter _).map _).sum_eq

theorem maxLatenessFrom_nonneg (t : Int) (l : List Job) : 0 ≤ maxLatenessFrom t l := by
  cases l with
  | nil => simp [maxLatenessFrom]
  | cons j rest => simp [maxLatenessFrom]

/-- In any order, the last job with deadline at most `D` finishes no earlier
than the total work of the jobs with deadline at most `D`. -/
theorem workBy_le_maxLatenessFrom (l : List Job) (hp : ∀ j ∈ l, 0 ≤ j.p) :
    ∀ (t D : Int), (∃ j ∈ l, j.d ≤ D) → t + workBy D l - D ≤ maxLatenessFrom t l := by
  induction l with
  | nil => intro t D h; simp at h
  | cons x rest ih =>
    intro t D h
    have hx := hp x (List.mem_cons_self _ _)
    have hrest : ∀ j ∈ rest, 0 ≤ j.p := fun j hj => hp j (List.mem_cons_of_mem _ hj)
    rw [workBy_cons, maxLatenessFrom]
    by_cases hex : ∃ j ∈ rest, j.d ≤ D
    · have := ih hrest (t + x.p) D hex
      have h1 := le_max_right (max 0 (t + x.p - x.d)) (maxLatenessFrom (t + x.p) rest)
      split_ifs <;> omega
    · have hnone : ∀ j ∈ rest, ¬ j.d ≤ D := fun j hj hd => hex ⟨j, hj, hd⟩
      rw [workBy_none D rest hnone]
      obtain ⟨j, hj, hjd⟩ := h
      rcases List.mem_cons.1 hj with rfl | hj
      · have h1 := le_max_left (max 0 (t + j.p - j.d)) (maxLatenessFrom (t + j.p) rest)
        have h2 := le_max_right 0 (t + j.p - j.d)
        simp only [hjd, if_true]
        omega
      · exact absurd hjd (hnone j hj)

/-- In deadline order every job finishes by the total work of the jobs whose
deadline is at most its own. -/
theorem maxLatenessFrom_sorted_le (B : Int) (hB : 0 ≤ B) (suf : List Job) :
    ∀ (pre : List Job), (pre ++ suf).Pairwise (fun a b => a.d ≤ b.d) →
      (∀ j ∈ pre ++ suf, 0 ≤ j.p) →
      (∀ D, (∃ j ∈ pre ++ suf, j.d ≤ D) → workBy D (pre ++ suf) - D ≤ B) →
      maxLatenessFrom ((pre.map (fun j => j.p)).sum) suf ≤ B := by
  induction suf with
  | nil => intro pre _ _ _; simpa [maxLatenessFrom] using hB
  | cons x rest ih =>
    intro pre hs hp hw
    rw [maxLatenessFrom]
    have hs2 := List.pairwise_append.1 hs
    have hrec := ih (pre ++ [x]) (by simpa using hs) (by simpa using hp) (by simpa using hw)
    have hsum : ((pre ++ [x]).map (fun j => j.p)).sum = (pre.map (fun j => j.p)).sum + x.p := by
      simp
    rw [hsum] at hrec
    have hx := hw x.d ⟨x, by simp, le_refl _⟩
    rw [workBy_append, workBy_cons,
      workBy_all x.d pre (fun j hj => hs2.2.2 j hj x (List.mem_cons_self _ _))] at hx
    have hrest := workBy_nonneg x.d rest (fun j hj => hp j (by simp [hj]))
    simp only [le_refl, if_true] at hx
    simp only [max_le_iff]
    refine ⟨⟨hB, ?_⟩, hrec⟩
    omega

/-- In exact arithmetic the deadline order has the least maximum lateness
among the permutations of jobs with non-negative processing times. -/
theorem edd_optimal_exact (js : List Job) (hp : ∀ j ∈ js, 0 ≤ j.p) (l : List Job)
    (hl : l.Perm js) :
    maxLatenessFrom 0 (jsSort cmpDeadline js) ≤ maxLatenessFrom 0 l := by
  have hperm := jsSort_perm cmpDeadline js
  have hpl : ∀ j ∈ l, 0 ≤ j.p := fun j hj => hp j (hl.mem_iff.1 hj)
  have hps : ∀ j ∈ [] ++ jsSort cmpDeadline js, 0 ≤ j.p := fun j hj =>
    hp j (hperm.mem_iff.1 (by simpa using hj))
  have key := maxLatenessFrom_sorted_le (maxLatenessFrom 0 l) (maxLatenessFrom_nonneg 0 l)
    (jsSort cmpDeadline js) [] (by simpa using sorted_byDeadline js) hps
    (by
      intro D hD
      simp only [List.nil_append] at hD ⊢
      obtain ⟨j, hj, hjd⟩ := hD
      have hj2 : j ∈ l := hl.mem_iff.2 (hperm.mem_iff.1 hj)
      have := workBy_le_maxLatenessFrom l hpl 0 D ⟨j, hj2, hjd⟩
      rw [workBy_perm D (hperm.trans hl.symm)]
      omega)
  simpa using key

theorem maxLatenessRounded_nonneg (t : Int) (l : List Job) : 0 ≤ maxLatenessRounded t l := by
  cases l with
  | nil => simp [maxLatenessRounded]
  | cons j rest => simp [maxLatenessRounded]

/-- The final `maxLate` is the maximum lateness of the processed jobs, as the
source computes it. -/
theorem lateFold_maxLate (ordered l : List Job) (st : LateState) (h0 : 0 ≤ st.maxLate) :
    (l.foldl (lateStep ordered) st).maxLate
      = max st.maxLate (maxLatenessRounded st.time l) := by
  induction l generalizing st with
  | nil =>
    simp only [List.foldl_nil, maxLatenessRounded]
    exact (max_eq_left h0).symm
  | cons j rest ih =>
    rw [List.foldl_cons, ih _ (by simp [lateStep, h0]), maxLatenessRounded]
    simp only [lateStep]
    rw [max_assoc]

/-- While the clock and the deadlines stay within `2^53`, the rounded maximum
lateness of a run is the exact one. -/
theorem maxLatenessRounded_exact (T : Int) :
    ∀ (l : List Job) (t : Int), 0 ≤ t →
      (∀ j ∈ l, 0 ≤ j.p ∧ T + j.d.natAbs ≤ 2 ^ 53) →
      t + (l.map (fun j => j.p)).sum ≤ T →
      maxLatenessRounded t l = maxLatenessFrom t l := by
  intro l
  induction l with
  | nil => intro t _ _ _; rfl
  | cons j rest ih =>
    intro t h0 hj hT
    obtain ⟨hp, hd⟩ := hj j (List.mem_cons_self _ _)
    have hrest : 0 ≤ (rest.map (fun j => j.p)).sum :=
      List.sum_nonneg (fun x hx => by
        obtain ⟨y, hy, rfl⟩ := List.mem_map.1 hx
        exact (hj y (List.mem_cons_of_mem _ hy)).1)
    simp only [List.map_cons, List.sum_cons] at hT
    have e1 : jsAdd t j.p = t + j.p := roundDouble_exact _ (by omega) (by omega)
    have e2 : jsSub (t + j.p) j.d = t + j.p - j.d := roundDouble_exact _ (by omega) (by omega)
    rw [maxLatenessRounded, maxLatenessFrom, e1, e2,
      ih (t + j.p) (by omega) (fun x hx => hj x (List.mem_cons_of_mem _ hx)) (by omega)]

/-- C16 (counterexample): the sums of `buildLateness` are rounded to doubles.
For three jobs with deadline 0 and processing times `2^53 + 2`, 1 and 2 (each
a double) the clock goes `2^53 + 2`, then `2^53 + 4` (the nearest double to
`2^53 + 3`), then `2^53 + 6`, which is the final `maxLate`; run in the order 1,
2, `2^53 + 2` the same jobs have maximum lateness `2^53 + 5`, and `2^53 + 4`
when the sums are rounded as the source rounds them. -/
theorem c16_rounding_counterexample :
    (∀ j ∈ [(⟨"J1", 9007199254740994, 0⟩ : Job), ⟨"J2", 1, 0⟩, ⟨"J3", 2, 0⟩],
      0 ≤ j.p ∧ roundDouble j.p = j.p ∧ roundDouble j.d = j.d) ∧
    (2 : Int) ^ 53 = 9007199254740992 ∧
    (buildLateness [⟨"J1", 9007199254740994, 0⟩, ⟨"J2", 1, 0⟩, ⟨"J3", 2, 0⟩]).getLast?.map
      (fun s => (s.scheduled.map (fun x => x.finish), s.maxLate))
      = some ([9007199254740994, 9007199254740996, 9007199254740998], 9007199254740998) ∧
    [(⟨"J2", 1, 0⟩ : Job), ⟨"J3", 2, 0⟩, ⟨"J1", 9007199254740994, 0⟩].Perm
      [⟨"J1", 9007199254740994, 0⟩, ⟨"J2", 1, 0⟩, ⟨"J3", 2, 0⟩] ∧
    maxLatenessFrom 0 [⟨"J2", 1, 0⟩, ⟨"J3", 2, 0⟩, ⟨"J1", 9007199254740994, 0⟩]
      = 9007199254740997 ∧
    maxLatenessRounded 0 [⟨"J2", 1, 0⟩, ⟨"J3", 2, 0⟩, ⟨"J1", 9007199254740994, 0⟩]
      = 9007199254740996 := by
  refine ⟨by decide, by decide, by decide, ?_, by decide, by decide⟩
  exact @List.perm_append_comm Job [⟨"J2", 1, 0⟩, ⟨"J3", 2, 0⟩] [⟨"J1", 9007199254740994, 0⟩]

/-- C16 (amended): for jobs with non-negative integer processing times and
integer deadlines such that the total processing time plus the magnitude of
any deadline is at most `2^53`, the final `maxLate` of `buildLateness` is the
least possible maximum lateness: it is the maximum lateness of the deadline
order, and every permutation of the jobs, run back to back from time 0, has a
maximum lateness at least as large (which the arithmetic of the source
computes without rounding). -/
theorem c16_lateness_optimal (js : List Job) (hp : ∀ j ∈ js, 0 ≤ j.p)
    (hb : WithinExactRange js) :
    ∃ fin, (buildLateness js).getLast? = some fin ∧
      fin.maxLate = maxLatenessFrom 0 (jsSort cmpDeadline js) ∧
      ∀ l : List Job, l.Perm js →
        fin.maxLate ≤ maxLatenessFrom 0 l ∧
        maxLatenessRounded 0 l = maxLatenessFrom 0 l := by
  have hperm := jsSort_perm cmpDeadline js
  have hex : ∀ l : List Job, l.Perm js → maxLatenessRounded 0 l = maxLatenessFrom 0 l :=
    fun l hl => maxLatenessRounded_exact ((js.map (fun j => j.p)).sum) l 0 (le_refl _)
      (fun j hj => ⟨hp j (hl.mem_iff.1 hj), hb j (hl.mem_iff.1 hj)⟩)
      (by rw [(hl.map _).sum_eq]; omega)
  have hfin : (lateAfter (jsSort cmpDeadline js) (jsSort cmpDeadline js)).maxLate
      = maxLatenessFrom 0 (jsSort cmpDeadline js) := by
    unfold lateAfter
    rw [lateFold_maxLate _ _ _ (by simp [lateInit]), ← hex _ hperm]
    simp [lateInit, maxLatenessRounded_nonneg]
  refine ⟨lateFinish (jsSort cmpDeadline js)
    (lateAfter (jsSort cmpDeadline js) (jsSort cmpDeadline js)), by simp [buildLateness],
    hfin, ?_⟩
  intro l hl
  refine ⟨?_, hex l hl⟩
  simp only [lateFinish]
  rw [hfin]
  exact edd_optimal_exact js hp l hl

theorem c16_lateness_optimal_witness :
    ((∀ j ∈ jobs, 0 ≤ j.p) ∧ WithinExactRange jobs) ∧
    ∃ fin, (buildLateness jobs).getLast? = some fin ∧
      fin.maxLate = maxLatenessFrom 0 (jsSort cmpDeadline jobs) ∧
      ∀ l : List Job, l.Perm jobs →
        fin.maxLate ≤ maxLatenessFrom 0 l ∧
        maxLatenessRounded 0 l = maxLatenessFrom 0 l :=
  ⟨⟨by decide, by unfold WithinExactRange; decide⟩,
    c16_lateness_optimal jobs (by decide) (by unfold WithinExactRange; decide)⟩

end Greedy
namespace Loop

theorem run_succ {σ : Type} (step : σ → Flow σ) (fuel : Nat) (s r : σ)
    (h : run step fuel s = some r) : run step (fuel + 1) s = some r := by
  induction fuel generalizing s with
  | zero => simp [run] at h
  | succ n ih =>
    rw [run] at h ⊢
    cases hs : step s with
    | done s1 => rw [hs] at h; exact h
    | next s1 => rw [hs] at h; exact ih s1 h

/-- More fuel does not change the result of a loop that has ended. -/
theorem run_mono {σ : Type} (step : σ → Flow σ) (fuel fuel2 : Nat) (s r : σ)
    (h : run step fuel s = some r) (hle : fuel ≤ fuel2) : run step fuel2 s = some r := by
  induction hle with
  | refl => exact h
  | step _ ih => exact run_succ step _ s r ih

theorem forEachM_mono {σ α : Type} (step1 step2 : σ → α → Option σ)
    (hstep : ∀ s a r, step1 s a = some r → step2 s a = some r) (l : List α) (s r : σ)
    (h : forEachM step1 l s = some r) : forEachM step2 l s = some r := by
  induction l generalizing s with
  | nil => exact h
  | cons a rest ih =>
    rw [forEachM] at h ⊢
    cases h1 : step1 s a with
    | none => rw [h1] at h; exact absurd h (by simp)
    | some s1 =>
      rw [h1] at h
      rw [hstep s a s1 h1]
      exact ih s1 h

end Loop

namespace Greedy

open Js

/-! ## Weighted graph: more fuel gives the same trace -/

theorem buildDijkstra_mono (fuel fuel2 : Nat) (tr : List GraphStep)
    (h : buildDijkstra fuel = some tr) (hle : fuel ≤ fuel2) : buildDijkstra fuel2 = some tr := by
  unfold buildDijkstra at h ⊢
  obtain ⟨st, hst, rfl⟩ := Option.map_eq_some'.1 h
  rw [Loop.run_mono _ fuel fuel2 _ st hst hle]
  rfl

theorem buildPrim_mono (fuel fuel2 : Nat) (tr : List GraphStep)
    (h : buildPrim fuel = some tr) (hle : fuel ≤ fuel2) : buildPrim fuel2 = some tr := by
  unfold buildPrim at h ⊢
  obtain ⟨st, hst, rfl⟩ := Option.map_eq_some'.1 h
  rw [Loop.run_mono _ fuel fuel2 _ st hst hle]
  rfl

theorem find_succ (fuel : Nat) (uf : UF) (x : String) (r : UF × String)
    (h : UF.find fuel uf x = some r) : UF.find (fuel + 1) uf x = some r := by
  induction fuel generalizing uf x r with
  | zero => simp [UF.find] at h
  | succ n ih =>
    rw [UF.find] at h ⊢
    cases hp : objGet uf.parent x with
    | none => rw [hp] at h; exact absurd h (by simp)
    | some px =>
      rw [hp] at h
      simp only at h ⊢
      by_cases hx : px ≠ x
      · rw [if_pos hx] at h ⊢
        cases hf : UF.find n uf px with
        | none => rw [hf] at h; exact absurd h (by simp)
        | some r1 =>
          rw [hf] at h
          rw [ih uf px r1 hf]
          exact h
      · rw [if_neg hx] at h ⊢
        exact h

theorem find_mono (fuel fuel2 : Nat) (uf : UF) (x : String) (r : UF × String)
    (h : UF.find fuel uf x = some r) (hle : fuel ≤ fuel2) : UF.find fuel2 uf x = some r := by
  induction hle with
  | refl => exact h
  | step _ ih => exact find_succ _ uf x r ih

theorem union_mono (fuel fuel2 : Nat) (uf : UF) (a b : String) (r : UF × Bool)
    (h : UF.union fuel uf a b = some r) (hle : fuel ≤ fuel2) :
    UF.union fuel2 uf a b = some r := by
  unfold UF.union at h ⊢
  cases h1 : UF.find fuel uf a with
  | none => rw [h1] at h; exact absurd h (by simp)
  | some r1 =>
    rw [h1] at h
    rw [find_mono fuel fuel2 uf a r1 h1 hle]
    obtain ⟨uf1, ra⟩ := r1
    simp only at h ⊢
    cases h2 : UF.find fuel uf1 b with
    | none => rw [h2] at h; exact absurd h (by simp)
    | some r2 =>
      rw [h2] at h
      rw [find_mono fuel fuel2 uf1 b r2 h2 hle]
      exact h

theorem kruskalStep_mono (fuel fuel2 : Nat) (hle : fuel ≤ fuel2) (st : KruskalState) (e : Edge)
    (r : KruskalState) (h : kruskalStep fuel st e = some r) : kruskalStep fuel2 st e = some r := by
  unfold kruskalStep at h ⊢
  cases h1 : UF.union fuel st.uf e.u e.v with
  | none => rw [h1] at h; exact absurd h (by simp)
  | some r1 =>
    rw [h1] at h
    rw [union_mono fuel fuel2 _ _ _ r1 h1 hle]
    exact h

theorem buildKruskal_mono (fuel fuel2 : Nat) (tr : List GraphStep)
    (h : buildKruskal fuel = some tr) (hle : fuel ≤ fuel2) : buildKruskal fuel2 = some tr := by
  unfold buildKruskal at h ⊢
  obtain ⟨st, hst, rfl⟩ := Option.map_eq_some'.1 h
  rw [Loop.forEachM_mono _ _ (kruskalStep_mono fuel fuel2 hle) _ _ st hst]
  rfl

theorem connected_mono (fuel fuel2 : Nat) (active : List String) (b : Bool)
    (h : connected fuel active = some b) (hle : fuel ≤ fuel2) :
    connected fuel2 active = some b := by
  unfold connected at h ⊢
  obtain ⟨st, hst, rfl⟩ := Option.map_eq_some'.1 h
  rw [Loop.run_mono _ fuel fuel2 _ st hst hle]
  rfl

theorem reverseDeleteStep_mono (fuel fuel2 : Nat) (hle : fuel ≤ fuel2)
    (st : ReverseDeleteState) (e : Edge) (r : ReverseDeleteState)
    (h : reverseDeleteStep fuel st e = some r) : reverseDeleteStep fuel2 st e = some r := by
  unfold reverseDeleteStep at h ⊢
  cases h1 : connected fuel (setDelete st.active e.id) with
  | none => simp only [h1] at h; exact absurd h (by simp)
  | some b =>
    simp only [h1] at h
    simp only [connected_mono fuel fuel2 _ b h1 hle]
    exact h

theorem buildReverseDelete_mono (fuel fuel2 : Nat) (tr : List GraphStep)
    (h : buildReverseDelete fuel = some tr) (hle : fuel ≤ fuel2) :
    buildReverseDelete fuel2 = some tr := by
  unfold buildReverseDelete at h ⊢
  obtain ⟨st, hst, rfl⟩ := Option.map_eq_some'.1 h
  rw [Loop.forEachM_mono _ _ (reverseDeleteStep_mono fuel fuel2 hle) _ _ st hst]
  rfl

end Greedy
namespace Greedy

open Js

/-! ## Dijkstra on the built-in graph -/

/-- A potential that no edge can undercut bounds every walk from below. -/
theorem walk_lower_bound (pot : String → Int)
    (hpot : ∀ e ∈ graphEdges, pot e.v ≤ pot e.u + e.w ∧ pot e.u ≤ pot e.v + e.w) :
    ∀ (p : List Edge) (a b : String), isWalk a b p = true → pot b ≤ pot a + totalWeight p := by
  intro p
  induction p with
  | nil =>
    intro a b h
    simp [isWalk] at h
    simp [totalWeight, h]
  | cons e rest ih =>
    intro a b h
    simp only [isWalk, Bool.and_eq_true, Bool.or_eq_true, decide_eq_true_eq] at h
    obtain ⟨he, h2⟩ := h
    have hw : totalWeight (e :: rest) = e.w + totalWeight rest := by simp [totalWeight]
    rw [hw]
    rcases h2 with ⟨hu, hr⟩ | ⟨hv, hr⟩
    · have := ih e.v b hr
      have := (hpot e he).1
      subst hu
      omega
    · have := ih e.u b hr
      have := (hpot e he).2
      subst hv
      omega

set_option maxRecDepth 100000 in
/-- C17: with enough fuel `buildDijkstra` returns a trace whose last snapshot
has all 7 nodes in `visited` and a `dist` that gives, for every node, the
least total weight of a walk from A to it in the built-in graph (0 for A):
some walk has that weight and no walk has less. -/
theorem c17_dijkstra_shortest (fuel : Nat) (hf : 8 ≤ fuel) :
    ∃ tr fin vis dist, buildDijkstra fuel = some tr ∧ tr.getLast? = some fin ∧
      fin.visited = some vis ∧ (∀ n ∈ graphNodes, n.id ∈ vis) ∧
      fin.dist = some dist ∧ objGet dist "A" = some (some 0) ∧
      ∀ n ∈ graphNodes, ∃ dv, objGet dist n.id = some (some dv) ∧
        (∃ p, isWalk "A" n.id p = true ∧ totalWeight p = dv) ∧
        (∀ p, isWalk "A" n.id p = true → dv ≤ totalWeight p) := by
  have h8 : ((buildDijkstra 8).bind (fun t => t.getLast?)).map (fun s => (s.visited, s.dist))
      = some (some ["A", "C", "B", "D", "G", "F", "E"],
          some [("A", some 0), ("B", some 4), ("C", some 3), ("D", some 9), ("E", some 12),
            ("F", some 10), ("G", some 9)]) := by decide
  cases hb : buildDijkstra 8 with
  | none => rw [hb] at h8; exact absurd h8 (by simp)
  | some tr =>
    rw [hb] at h8
    simp only [Option.some_bind, Option.map_eq_some'] at h8
    obtain ⟨fin, hlast, hfin⟩ := h8
    have hv : fin.visited = some ["A", "C", "B", "D", "G", "F", "E"] := congrArg Prod.fst hfin
    have hd : fin.dist = some [("A", some 0), ("B", some 4), ("C", some 3), ("D", some 9),
        ("E", some 12), ("F", some 10), ("G", some 9)] := congrArg Prod.snd hfin
    have hpot := walk_lower_bound
      (fun k => ((objGet [("A", some (0 : Int)), ("B", some 4), ("C", some 3), ("D", some 9),
        ("E", some 12), ("F", some 10), ("G", some 9)] k).join).getD 0) (by decide)
    refine ⟨tr, fin, _, _, buildDijkstra_mono 8 fuel tr hb hf, hlast, hv, by decide, hd,
      by decide, ?_⟩
    intro n hn
    simp only [graphNodes, List.mem_cons, List.mem_singleton, List.not_mem_nil, or_false] at hn
    rcases hn with rfl | rfl | rfl | rfl | rfl | rfl | rfl
    · exact ⟨0, by decide, ⟨[], by decide, by decide⟩, fun p hp => by
        have := hpot p "A" "A" hp
        simpa [objGet] using this⟩
    · exact ⟨4, by decide, ⟨[⟨"A-B", "A", "B", 4⟩], by decide, by decide⟩, fun p hp => by
        have := hpot p "A" "B" hp
        simpa [objGet] using this⟩
    · exact ⟨3, by decide, ⟨[⟨"A-C", "A", "C", 3⟩], by decide, by decide⟩, fun p hp => by
        have := hpot p "A" "C" hp
        simpa [objGet] using this⟩
    · exact ⟨9, by decide, ⟨[⟨"A-B", "A", "B", 4⟩, ⟨"B-D", "B", "D", 5⟩], by decide, by decide⟩,
        fun p hp => by
          have := hpot p "A" "D" hp
          simpa [objGet] using this⟩
    · exact ⟨12, by decide, ⟨[⟨"A-B", "A", "B", 4⟩, ⟨"B-D", "B", "D", 5⟩, ⟨"D-E", "D", "E", 3⟩],
        by decide, by decide⟩, fun p hp => by
          have := hpot p "A" "E" hp
          simpa [objGet] using this⟩
    · exact ⟨10, by decide, ⟨[⟨"A-C", "A", "C", 3⟩, ⟨"C-G", "C", "G", 6⟩, ⟨"F-G", "F", "G", 1⟩],
        by decide, by decide⟩, fun p hp => by
          have := hpot p "A" "F" hp
          simpa [objGet] using this⟩
    · exact ⟨9, by decide, ⟨[⟨"A-C", "A", "C", 3⟩, ⟨"C-G", "C", "G", 6⟩], by decide, by decide⟩,
        fun p hp => by
          have := hpot p "A" "G" hp
          simpa [objGet] using this⟩

theorem c17_dijkstra_shortest_witness :
    (8 ≤ 8) ∧
    ∃ tr fin vis dist, buildDijkstra 8 = some tr ∧ tr.getLast? = some fin ∧
      fin.visited = some vis ∧ (∀ n ∈ graphNodes, n.id ∈ vis) ∧
      fin.dist = some dist ∧ objGet dist "A" = some (some 0) ∧
      ∀ n ∈ graphNodes, ∃ dv, objGet dist n.id = some (some dv) ∧
        (∃ p, isWalk "A" n.id p = true ∧ totalWeight p = dv) ∧
        (∀ p, isWalk "A" n.id p = true → dv ≤ totalWeight p) :=
  ⟨le_refl 8, c17_dijkstra_shortest 8 (le_refl 8)⟩

end Greedy
namespace Greedy

open Js

/-! ## Kruskal on the built-in graph -/

theorem allSubsets_sound (check : List Edge → Bool) (l : List Edge) :
    ∀ acc, allSubsets check l acc = true → ∀ T, T.Sublist l → check (acc ++ T) = true := by
  induction l with
  | nil =>
    intro acc h T hT
    simp at hT
    subst hT
    simpa [allSubsets] using h
  | cons e rest ih =>
    intro acc h T hT
    simp only [allSubsets, Bool.and_eq_true] at h
    rcases List.sublist_cons_iff.1 hT with hT1 | ⟨r, rfl, hr⟩
    · exact ih acc h.1 T hT1
    · have := ih (acc ++ [e]) h.2 r hr
      simpa using this

theorem grow_step_reach (es : List Edge) (l : List Edge) (hl : ∀ e ∈ l, e ∈ es) :
    ∀ s : List String, (∀ x ∈ s, Relation.ReflTransGen (Adjacent es) "A" x) →
      ∀ x ∈ l.foldl
        (fun s e =>
          if e.u ∈ s ∧ e.v ∉ s then s ++ [e.v]
          else if e.v ∈ s ∧ e.u ∉ s then s ++ [e.u]
          else s) s,
        Relation.ReflTransGen (Adjacent es) "A" x := by
  induction l with
  | nil => intro s hs; simpa using hs
  | cons e rest ih =>
    intro s hs
    simp only [List.foldl_cons]
    apply ih (fun x hx => hl x (List.mem_cons_of_mem _ hx))
    have he := hl e (List.mem_cons_self _ _)
    split_ifs with h1 h2
    · intro x hx
      rcases List.mem_append.1 hx with hx | hx
      · exact hs x hx
      · simp at hx
        subst hx
        exact Relation.ReflTransGen.tail (hs _ h1.1) ⟨e, he, Or.inl ⟨rfl, rfl⟩⟩
    · intro x hx
      rcases List.mem_append.1 hx with hx | hx
      · exact hs x hx
      · simp at hx
        subst hx
        exact Relation.ReflTransGen.tail (hs _ h2.1) ⟨e, he, Or.inr ⟨rfl, rfl⟩⟩
    · exact hs

theorem grow_iterate_reach (es : List Edge) (k : Nat) :
    ∀ x ∈ (grow es)^[k] ["A"], Relation.ReflTransGen (Adjacent es) "A" x := by
  induction k with
  | zero =>
    intro x hx
    simp at hx
    subst hx
    exact Relation.ReflTransGen.refl
  | succ k ih =>
    rw [Function.iterate_succ_apply']
    exact grow_step_reach es es (fun e he => he) _ ih

/-- Every node of `grown es` can be reached from A along edges of `es`. -/
theorem grown_reach (es : List Edge) :
    ∀ x ∈ grown es, Relation.ReflTransGen (Adjacent es) "A" x :=
  grow_iterate_reach es _

/-- A set that holds A, is closed under the edges and misses a node shows
that the edges do not connect all the nodes. -/
theorem cutCheck_sound (es : List Edge) (h : cutCheck es = true) : ¬ Spans es := by
  simp only [cutCheck, Bool.and_eq_true, decide_eq_true_eq, List.all_eq_true,
    List.any_eq_true] at h
  obtain ⟨⟨hA, hclosed⟩, n, hn, hmiss⟩ := h
  intro hsp
  have key : ∀ x, Relation.ReflTransGen (Adjacent es) "A" x → x ∈ grown es := by
    intro x hx
    induction hx with
    | refl => exact hA
    | tail _ hadj ih =>
      obtain ⟨e, he, h1 | h1⟩ := hadj
      · rw [← h1.2]
        rw [← h1.1] at ih
        exact (hclosed e he).1 ih
      · rw [← h1.1]
        rw [← h1.2] at ih
        exact (hclosed e he).2 ih
  exact hmiss (key _ (hsp n hn))

theorem light_sets_cut :
    allSubsets (fun T => decide (16 ≤ totalWeight T) || cutCheck T) graphEdges [] = true := by
  decide!

/-- Every set of edges of the graph that connects all the nodes weighs at
least 16. -/
theorem spans_weight (T : List Edge) (hT : T.Sublist graphEdges) (hs : Spans T) :
    16 ≤ totalWeight T := by
  have := allSubsets_sound _ graphEdges [] light_sets_cut T hT
  simp only [List.nil_append, Bool.or_eq_true, decide_eq_true_eq] at this
  rcases this with h | h
  · exact h
  · exact absurd hs (cutCheck_sound T h)

set_option maxRecDepth 100000 in
/-- C18: with enough fuel `buildKruskal` returns a trace whose final
`treeEdges` has exactly 6 edge ids; the 6 edges form a spanning tree of the
built-in 7-node, 11-edge graph, their total weight is 16, and every spanning
tree of the graph weighs at least 16. -/
theorem c18_kruskal_minimum (fuel : Nat) (hf : 3 ≤ fuel) :
    ∃ tr fin, buildKruskal fuel = some tr ∧ tr.getLast? = some fin ∧
      fin.treeEdges.length = 6 ∧ fin.treeEdges.Nodup ∧
      (∀ i ∈ fin.treeEdges, ∃ e ∈ graphEdges, e.id = i) ∧
      IsSpanningTree (edgesOfIds fin.treeEdges) ∧
      totalWeight (edgesOfIds fin.treeEdges) = 16 ∧
      ∀ T, IsSpanningTree T → 16 ≤ totalWeight T := by
  have h3 : ((buildKruskal 3).bind (fun t => t.getLast?)).map (fun s => s.treeEdges)
      = some ["F-G", "B-C", "E-F", "A-C", "D-E", "B-D"] := by decide
  cases hb : buildKruskal 3 with
  | none => rw [hb] at h3; exact absurd h3 (by simp)
  | some tr =>
    rw [hb] at h3
    simp only [Option.some_bind, Option.map_eq_some'] at h3
    obtain ⟨fin, hlast, hfin⟩ := h3
    refine ⟨tr, fin, buildKruskal_mono 3 fuel tr hb hf, hlast, ?_, ?_, ?_, ?_, ?_, ?_⟩
    · rw [hfin]; rfl
    · rw [hfin]; decide
    · rw [hfin]; decide
    · rw [hfin]
      refine ⟨List.filter_sublist _, ?_, by decide⟩
      intro n hn
      apply grown_reach
      revert n
      decide
    · rw [hfin]; decide
    · intro T hT
      exact spans_weight T hT.1 hT.2.1

theorem c18_kruskal_minimum_witness :
    (3 ≤ 3) ∧
    ∃ tr fin, buildKruskal 3 = some tr ∧ tr.getLast? = some fin ∧
      fin.treeEdges.length = 6 ∧ fin.treeEdges.Nodup ∧
      (∀ i ∈ fin.treeEdges, ∃ e ∈ graphEdges, e.id = i) ∧
      IsSpanningTree (edgesOfIds fin.treeEdges) ∧
      totalWeight (edgesOfIds fin.treeEdges) = 16 ∧
      ∀ T, IsSpanningTree T → 16 ≤ totalWeight T :=
  ⟨le_refl 3, c18_kruskal_minimum 3 (le_refl 3)⟩

end Greedy
namespace Greedy

open Js

/-! ## The final tree of the four weighted-graph generators -/

theorem endsWithSixEdges_of (r : Option (List GraphStep)) (L : List String)
    (h : (r.bind (fun t => t.getLast?)).map (fun s => s.treeEdges) = some L)
    (h1 : L.length = 6) (h2 : L.Nodup) (h3 : ∀ i ∈ L, ∃ e ∈ graphEdges, e.id = i) :
    EndsWithSixEdges r := by
  cases hr : r with
  | none => rw [hr] at h; exact absurd h (by simp)
  | some tr =>
    rw [hr] at h
    simp only [Option.some_bind, Option.map_eq_some'] at h
    obtain ⟨fin, hlast, hfin⟩ := h
    exact ⟨tr, fin, rfl, hlast, by rw [hfin]; exact h1, by rw [hfin]; exact h2,
      by rw [hfin]; exact h3⟩

theorem mono_of_isSome (build : Nat → Option (List GraphStep))
    (hmono : ∀ f f2 tr, build f = some tr → f ≤ f2 → build f2 = some tr)
    (n fuel : Nat) (hn : (build n).isSome = true) (hf : n ≤ fuel) : build fuel = build n := by
  obtain ⟨tr, htr⟩ := Option.isSome_iff_exists.1 hn
  rw [htr, hmono n fuel tr htr hf]

set_option maxRecDepth 100000 in
/-- C19: with enough fuel, the last snapshot of each of `buildDijkstra`,
`buildKruskal`, `buildPrim` and `buildReverseDelete` has a `treeEdges` list of
exactly 6 = |V| - 1 distinct edge ids, each the id of an edge of the built-in
graph. -/
theorem c19_tree_edges (fuel : Nat) (hf : 12 ≤ fuel) :
    graphNodes.length - 1 = 6 ∧
    EndsWithSixEdges (buildDijkstra fuel) ∧ EndsWithSixEdges (buildKruskal fuel) ∧
    EndsWithSixEdges (buildPrim fuel) ∧ EndsWithSixEdges (buildReverseDelete fuel) := by
  refine ⟨rfl, ?_, ?_, ?_, ?_⟩
  · rw [mono_of_isSome buildDijkstra buildDijkstra_mono 8 fuel (by decide) (by omega)]
    exact endsWithSixEdges_of _ ["A-B", "A-C", "B-D", "D-E", "F-G", "C-G"]
      (by decide) rfl (by decide) (by decide)
  · rw [mono_of_isSome buildKruskal buildKruskal_mono 3 fuel (by decide) (by omega)]
    exact endsWithSixEdges_of _ ["F-G", "B-C", "E-F", "A-C", "D-E", "B-D"]
      (by decide) rfl (by decide) (by decide)
  · rw [mono_of_isSome buildPrim buildPrim_mono 7 fuel (by decide) (by omega)]
    exact endsWithSixEdges_of _ ["A-C", "B-C", "B-D", "D-E", "E-F", "F-G"]
      (by decide) rfl (by decide) (by decide)
  · rw [mono_of_isSome buildReverseDelete buildReverseDelete_mono 12 fuel (by decide!)
      (by omega)]
    exact endsWithSixEdges_of _ ["B-D", "A-C", "D-E", "B-C", "E-F", "F-G"]
      (by decide!) rfl (by decide) (by decide)

theorem c19_tree_edges_witness :
    (12 ≤ 12) ∧ EndsWithSixEdges (buildPrim 12) :=
  ⟨le_refl 12, (c19_tree_edges 12 (le_refl 12)).2.2.2.1⟩

end Greedy
namespace Playback

/-! # Playback controllers: cursor bounds -/

theorem applyCurrent_idx {σ : Type} (ready : String) (text : σ → String) (c : Ctl σ) :
    (applyCurrent ready text c).idx = c.idx ∧ (applyCurrent ready text c).steps = c.steps := by
  unfold applyCurrent
  split_ifs
  · exact ⟨rfl, rfl⟩
  · cases c.steps[c.idx.toNat]? <;> exact ⟨rfl, rfl⟩

theorem cursorInRange_applyCurrent {σ : Type} (ready : String) (text : σ → String) (c : Ctl σ)
    (h : CursorInRange c) : CursorInRange (applyCurrent ready text c) := by
  unfold CursorInRange at *
  rw [(applyCurrent_idx ready text c).1, (applyCurrent_idx ready text c).2]
  exact h

theorem cursorInRange_fresh {σ : Type} (ready : String) (text : σ → String) (c : Ctl σ)
    (hi : c.idx = -1) : CursorInRange (applyCurrent ready text c) := by
  apply cursorInRange_applyCurrent
  unfold CursorInRange
  rw [hi]
  omega

theorem cursorInRange_stepForward {σ : Type} (ready : String) (text : σ → String) (c : Ctl σ)
    (h : CursorInRange c) : CursorInRange (stepForward ready text c) := by
  unfold stepForward
  split_ifs with hc
  · exact h
  · apply cursorInRange_applyCurrent
    unfold CursorInRange at *
    simp only [not_or, not_le] at hc
    simp only
    omega

theorem cursorInRange_stepBack {σ : Type} (ready : String) (text : σ → String) (c : Ctl σ)
    (h : CursorInRange c) : CursorInRange (stepBack ready text c) := by
  unfold stepBack
  split_ifs with hc
  · exact h
  · apply cursorInRange_applyCurrent
    unfold CursorInRange at *
    simp only
    omega

theorem cursorInRange_stopPlaying {σ : Type} (c : Ctl σ) (h : CursorInRange c) :
    CursorInRange (stopPlaying c) := by
  unfold stopPlaying
  cases c.timer <;> exact h

theorem cursorInRange_startPlaying {σ : Type} (c : Ctl σ) (h : CursorInRange c) :
    CursorInRange (startPlaying c) :=
  cursorInRange_stopPlaying c h

theorem cursorInRange_speedInput {σ : Type} (v : Int) (c : Ctl σ) (h : CursorInRange c) :
    CursorInRange (speedInput v c) := by
  unfold speedInput
  cases ht : c.timer with
  | none => simp only [ht]; exact h
  | some id => simp only [ht]; exact cursorInRange_startPlaying _ h

theorem cursorInRange_tick {σ : Type} (ready : String) (text : σ → String) (id : Nat)
    (c : Ctl σ) (h : CursorInRange c) : CursorInRange (tick ready text id c) := by
  unfold tick
  split_ifs
  · exact cursorInRange_stopPlaying c h
  · exact cursorInRange_stepForward ready text c h
  · exact h

theorem stopPlaying_idx {σ : Type} (c : Ctl σ) :
    (stopPlaying c).idx = c.idx ∧ (stopPlaying c).steps = c.steps := by
  unfold stopPlaying
  cases c.timer <;> exact ⟨rfl, rfl⟩

theorem cursorInRange_initial {σ : Type} (mode : String) (speed : Int) :
    CursorInRange (initial mode speed : Ctl σ) := by
  simp [CursorInRange, initial]

end Playback

namespace SearchPage

open Playback

theorem search_cursorInRange_setMode {σ : Type} (m : String) (c : Ctl σ) (h : CursorInRange c) :
    CursorInRange (setMode m c) := by
  unfold setMode
  split_ifs
  · simp [CursorInRange, resetState]
  · exact h

theorem search_cursorInRange_buildSteps {σ τ : Type} (text : σ → String) (gen : String → τ → List σ)
    (target : Option τ) (c : Ctl σ) (h : CursorInRange c) :
    CursorInRange (buildSteps text gen target c) := by
  unfold buildSteps
  cases target with
  | none => exact h
  | some t => exact cursorInRange_fresh _ _ _ rfl

theorem search_cursorInRange_handle {σ τ : Type} (text : σ → String) (gen : String → τ → List σ)
    (c : Ctl σ) (e : Event τ) (h : CursorInRange c) : CursorInRange (handle text gen c e) := by
  cases e with
  | setMode m => exact search_cursorInRange_setMode m c h
  | newArray _ => exact h
  | build target => exact search_cursorInRange_buildSteps text gen target c h
  | play => exact cursorInRange_startPlaying c h
  | pause => exact cursorInRange_stopPlaying c h
  | stepForward => exact cursorInRange_stepForward _ _ c h
  | stepBack => exact cursorInRange_stepBack _ _ c h
  | reset => simp [handle, resetClick, CursorInRange, resetState]
  | speed v => exact cursorInRange_speedInput v c h
  | tick id => exact cursorInRange_tick _ _ id c h

theorem search_cursorInRange_init {σ τ : Type} (text : σ → String) (gen : String → τ → List σ)
    (requested : Option String) (target : Option τ) (c : Ctl σ) (h : CursorInRange c) :
    CursorInRange (init text gen requested target c) := by
  unfold init
  cases requested with
  | none => exact search_cursorInRange_setMode _ c h
  | some r =>
    simp only
    split_ifs
    · exact search_cursorInRange_buildSteps _ _ _ _ (search_cursorInRange_setMode _ c h)
    · exact search_cursorInRange_setMode _ c h

end SearchPage

namespace SortPage

open Playback

theorem sort_cursorInRange_setAlgo {σ : Type} (text : σ → String) (m : String) (c : Ctl σ)
    (h : CursorInRange c) : CursorInRange (setAlgo text m c) := by
  unfold setAlgo
  split_ifs
  · exact cursorInRange_fresh _ _ _ rfl
  · exact h

theorem sort_cursorInRange_resetArray {σ : Type} (text : σ → String) (arr : List Int) (c : Ctl σ) :
    CursorInRange (resetArray text arr c) :=
  cursorInRange_fresh _ _ _ rfl

theorem sort_cursorInRange_buildSteps {σ : Type} (text : σ → String)
    (gen : String → List Int → List σ) (c : Ctl σ) :
    CursorInRange (buildSteps text gen c) :=
  cursorInRange_fresh _ _ _ rfl

theorem sort_cursorInRange_handle {σ τ : Type} (text : σ → String)
    (gen : String → List Int → List σ) (c : Ctl σ) (e : Event τ) (h : CursorInRange c) :
    CursorInRange (handle text gen c e) := by
  cases e with
  | setMode m => exact sort_cursorInRange_setAlgo text m c h
  | newArray arr => exact sort_cursorInRange_resetArray text arr c
  | build _ => exact sort_cursorInRange_buildSteps text gen _
  | play => exact cursorInRange_startPlaying c h
  | pause => exact cursorInRange_stopPlaying c h
  | stepForward => exact cursorInRange_stepForward _ _ c h
  | stepBack => exact cursorInRange_stepBack _ _ c h
  | reset => exact cursorInRange_fresh _ _ _ rfl
  | speed v => exact cursorInRange_speedInput v c h
  | tick id => exact cursorInRange_tick _ _ id c h

theorem sort_cursorInRange_init {σ : Type} (text : σ → String) (gen : String → List Int → List σ)
    (requested : Option String) (arr : List Int) (c : Ctl σ) :
    CursorInRange (init text gen requested arr c) := by
  unfold init
  cases requested with
  | none => exact sort_cursorInRange_resetArray _ _ _
  | some r =>
    simp only
    split_ifs
    · exact sort_cursorInRange_buildSteps _ _ _
    · exact sort_cursorInRange_resetArray _ _ _

end SortPage

namespace GreedyPage

open Playback

theorem greedy_cursorInRange_setMode {σ : Type} (text : σ → String) (m : String) (c : Ctl σ)
    (h : CursorInRange c) : CursorInRange (setMode text m c) := by
  unfold setMode
  split_ifs
  · exact cursorInRange_fresh _ _ _ rfl
  · exact h

theorem greedy_cursorInRange_buildSteps {σ : Type} (text : σ → String) (gen : String → List σ)
    (c : Ctl σ) : CursorInRange (buildSteps text gen c) :=
  cursorInRange_fresh _ _ _ rfl

theorem greedy_cursorInRange_handle {σ τ : Type} (text : σ → String) (gen : String → List σ)
    (c : Ctl σ) (e : Event τ) (h : CursorInRange c) : CursorInRange (handle text gen c e) := by
  cases e with
  | setMode m => exact greedy_cursorInRange_setMode text m c h
  | newArray _ => exact h
  | build _ => exact greedy_cursorInRange_buildSteps text gen c
  | play => exact cursorInRange_startPlaying c h
  | pause => exact cursorInRange_stopPlaying c h
  | stepForward => exact cursorInRange_stepForward _ _ c h
  | stepBack => exact cursorInRange_stepBack _ _ c h
  | reset => exact cursorInRange_fresh _ _ _ rfl
  | speed v => exact cursorInRange_speedInput v c h
  | tick id => exact cursorInRange_tick _ _ id c h

theorem greedy_cursorInRange_init {σ : Type} (text : σ → String) (gen : String → List σ)
    (requested : Option String) (c : Ctl σ) (h : CursorInRange c) :
    CursorInRange (init text gen requested c) := by
  unfold init
  cases requested with
  | none => exact greedy_cursorInRange_setMode _ _ c h
  | some r =>
    simp only
    split_ifs
    · exact greedy_cursorInRange_buildSteps _ _ _
    · exact greedy_cursorInRange_setMode _ _ c h

end GreedyPage

namespace Playback

theorem cursorInRange_foldl {σ ε : Type} (handle : Ctl σ → ε → Ctl σ)
    (hstep : ∀ c e, CursorInRange c → CursorInRange (handle c e)) (evs : List ε) (c : Ctl σ)
    (h : CursorInRange c) : CursorInRange (evs.foldl handle c) := by
  induction evs generalizing c with
  | nil => exact h
  | cons e rest ih => exact ih _ (hstep c e h)

/-- C20: in each of the three controllers, from the initial values of the
script variables and from the state after the page initialisation, after any
finite sequence of events (build, step forward, step back, reset, timer tick,
and also mode switch, new array, play, pause and speed change) the cursor is
between -1 and length - 1; in particular it is -1 when the trace is empty. -/
theorem c20_cursor_bounds {σ τ : Type} (text : σ → String)
    (genSearch : String → τ → List σ) (genSort : String → List Int → List σ)
    (genGreedy : String → List σ) (speed : Int) (requested : Option String)
    (target : Option τ) (arr : List Int) (evs : List (Event τ)) :
    let states : List (Ctl σ) :=
      [ evs.foldl (SearchPage.handle text genSearch) (initial "linear" speed),
        evs.foldl (SearchPage.handle text genSearch)
          (SearchPage.init text genSearch requested target (initial "linear" speed)),
        evs.foldl (SortPage.handle text genSort) (initial "bubble" speed),
        evs.foldl (SortPage.handle text genSort)
          (SortPage.init text genSort requested arr (initial "bubble" speed)),
        evs.foldl (GreedyPage.handle text genGreedy) (initial "interval" speed),
        evs.foldl (GreedyPage.handle text genGreedy)
          (GreedyPage.init text genGreedy requested (initial "interval" speed)) ]
    ∀ c ∈ states, -1 ≤ c.idx ∧ c.idx ≤ (c.steps.length : Int) - 1 ∧ (c.steps = [] → c.idx = -1) := by
  intro states c hc
  have key : CursorInRange c := by
    simp only [states, List.mem_cons, List.mem_singleton, List.not_mem_nil, or_false] at hc
    rcases hc with rfl | rfl | rfl | rfl | rfl | rfl
    · exact cursorInRange_foldl _ (SearchPage.search_cursorInRange_handle text genSearch) _ _
        (cursorInRange_initial _ _)
    · exact cursorInRange_foldl _ (SearchPage.search_cursorInRange_handle text genSearch) _ _
        (SearchPage.search_cursorInRange_init _ _ _ _ _ (cursorInRange_initial _ _))
    · exact cursorInRange_foldl _ (SortPage.sort_cursorInRange_handle text genSort) _ _
        (cursorInRange_initial _ _)
    · exact cursorInRange_foldl _ (SortPage.sort_cursorInRange_handle text genSort) _ _
        (SortPage.sort_cursorInRange_init _ _ _ _ _)
    · exact cursorInRange_foldl _ (GreedyPage.greedy_cursorInRange_handle text genGreedy) _ _
        (cursorInRange_initial _ _)
    · exact cursorInRange_foldl _ (GreedyPage.greedy_cursorInRange_handle text genGreedy) _ _
        (GreedyPage.greedy_cursorInRange_init _ _ _ _ (cursorInRange_initial _ _))
  refine ⟨key.1, key.2, ?_⟩
  intro hs
  have := key.2
  rw [hs] at this
  have := key.1
  simp at *
  omega

end Playback

namespace Playback

theorem c20_cursor_bounds_witness :
    ([Event.build (some (0 : Int)), Event.stepForward, Event.stepForward].foldl
        (SearchPage.handle (fun s : String => s) (fun _ _ => ["one"]))
        (initial "linear" 300)).idx ≤ 0 := by
  have h := c20_cursor_bounds (fun s : String => s) (fun _ (_ : Int) => ["one"])
    (fun _ _ => []) (fun _ => []) 300 none none []
    [Event.build (some (0 : Int)), Event.stepForward, Event.stepForward] _
    (List.mem_cons_self _ _)
  simpa using h.2.1

end Playback
namespace Loop

/-- An invariant of a counted loop holds after the loop. -/
theorem forLoop_inv {σ : Type} (body : Nat → σ → σ) (I : Nat → σ → Prop) :
    ∀ (count start : Nat) (s : σ), I start s →
      (∀ j s, start ≤ j → j < start + count → I j s → I (j + 1) (body j s)) →
      I (start + count) (forLoop body count start s) := by
  intro count
  induction count with
  | zero => intro start s h _; simpa [forLoop] using h
  | succ c ih =>
    intro start s h hstep
    rw [forLoop]
    have h1 := hstep start s (le_refl _) (by omega) h
    have := ih (start + 1) (body start s) h1
      (fun j s hj hlt hI => hstep j s (by omega) (by omega) hI)
    have e : start + 1 + c = start + (c + 1) := by omega
    rw [e] at this
    exact this

/-- The last pass of a counted loop. -/
theorem forLoop_succ_last {σ : Type} (body : Nat → σ → σ) :
    ∀ (count start : Nat) (s : σ),
      forLoop body (count + 1) start s = body (start + count) (forLoop body count start s) := by
  intro count
  induction count with
  | zero => intro start s; simp [forLoop]
  | succ c ih =>
    intro start s
    rw [forLoop, ih (start + 1) (body start s)]
    have e : start + 1 + c = start + (c + 1) := by omega
    rw [e]
    rfl

end Loop

namespace Sorting

open Loop

/-! # Sorting: array lemmas -/

theorem rd_set (arr : List Int) (i : Nat) (v : Int) (j : Nat) (hi : i < arr.length) :
    rd (arr.set i v) j = if j = i then v else rd arr j := by
  unfold rd
  simp only [List.getD_eq_getElem?_getD, List.getElem?_set]
  by_cases h : i = j
  · subst h
    simp [hi]
  · have h2 : ¬ j = i := fun e => h e.symm
    simp [h, h2]

theorem rd_set_ne (arr : List Int) (i : Nat) (v : Int) (j : Nat) (h : j ≠ i) :
    rd (arr.set i v) j = rd arr j := by
  unfold rd
  simp only [List.getD_eq_getElem?_getD, List.getElem?_set]
  have h2 : ¬ i = j := fun e => h e.symm
  simp [h2]

theorem rd_eq_getElem (arr : List Int) (i : Nat) (hi : i < arr.length) : rd arr i = arr[i] := by
  unfold rd
  simp [List.getD_eq_getElem?_getD, hi]

theorem set_rd_self (arr : List Int) (i : Nat) : arr.set i (rd arr i) = arr := by
  by_cases hi : i < arr.length
  · apply List.ext_getElem?
    intro k
    rw [List.getElem?_set]
    by_cases hk : i = k
    · subst hk
      simp [hi, rd_eq_getElem arr i hi]
    · simp [hk]
  · exact List.set_eq_of_length_le (by omega)

theorem length_swap (arr : List Int) (i j : Nat) : (swap arr i j).length = arr.length := by
  simp [swap]

theorem rd_swap (arr : List Int) (i j k : Nat) (hi : i < arr.length) (hj : j < arr.length) :
    rd (swap arr i j) k
      = if k = j then rd arr i else if k = i then rd arr j else rd arr k := by
  unfold swap
  rw [rd_set _ _ _ _ (by simpa using hj), rd_set _ _ _ _ hi]

theorem set_perm_of_count (arr : List Int) (i : Nat) (v : Int) (hi : i < arr.length) (b : Int) :
    (arr.set i v).count b + (if arr[i] = b then 1 else 0)
      = arr.count b + (if v = b then 1 else 0) := by
  rw [List.count_set _ _ _ _ hi]
  have h1 : (if arr[i] = b then 1 else 0) ≤ arr.count b := by
    split_ifs with h
    · rw [← h]
      exact List.count_pos_iff.2 (List.getElem_mem hi)
    · exact Nat.zero_le _
  simp only [beq_iff_eq]
  omega

theorem swap_perm (arr : List Int) (i j : Nat) (hi : i < arr.length) (hj : j < arr.length) :
    (swap arr i j).Perm arr := by
  rw [List.perm_iff_count]
  intro b
  unfold swap
  have hj2 : j < (arr.set i (rd arr j)).length := by simpa using hj
  have h1 := set_perm_of_count (arr.set i (rd arr j)) j (rd arr i) hj2 b
  have h2 := set_perm_of_count arr i (rd arr j) hi b
  have e1 : (arr.set i (rd arr j))[j] = if j = i then rd arr j else rd arr j := by
    rw [← rd_eq_getElem _ _ hj2, rd_set _ _ _ _ hi]
  simp only [ite_self] at e1
  rw [e1] at h1
  rw [rd_eq_getElem arr i hi, rd_eq_getElem arr j hj] at h1
  simp only [rd_eq_getElem arr i hi, rd_eq_getElem arr j hj]
  rw [rd_eq_getElem arr j hj] at h2
  omega

theorem sorted_of_rd (arr : List Int)
    (h : ∀ p q, p < q → q < arr.length → rd arr p ≤ rd arr q) : arr.Sorted (fun a b => a ≤ b) := by
  unfold List.Sorted
  rw [List.pairwise_iff_getElem]
  intro i j hi hj hij
  have := h i j hij hj
  rwa [rd_eq_getElem _ _ hi, rd_eq_getElem _ _ hj] at this

end Sorting
namespace Sorting

open Loop

/-! # Bubble sort -/

theorem bubbleInner_fst (sorted : List Nat) (j : Nat) (s : List Int × List Step) :
    (bubbleInner sorted j s).1 = if rd s.1 j > rd s.1 (j + 1) then swap s.1 j (j + 1) else s.1 := by
  unfold bubbleInner
  split_ifs <;> rfl

theorem bubbleInner_inv (input : List Int) (n i : Nat) (sorted : List Nat) (j : Nat)
    (s : List Int × List Step) (hi : i < n) (hj : j < n - i - 1)
    (h : s.1.length = n ∧ s.1.Perm input ∧ (∀ p, p < j → rd s.1 p ≤ rd s.1 j) ∧
      TailFixed n i s.1) :
    (bubbleInner sorted j s).1.length = n ∧ (bubbleInner sorted j s).1.Perm input ∧
      (∀ p, p < j + 1 → rd (bubbleInner sorted j s).1 p ≤ rd (bubbleInner sorted j s).1 (j + 1)) ∧
      TailFixed n i (bubbleInner sorted j s).1 := by
  obtain ⟨hlen, hperm, hmax, htail⟩ := h
  rw [bubbleInner_fst]
  have hj1 : j < s.1.length := by omega
  have hj2 : j + 1 < s.1.length := by omega
  split_ifs with hc
  · refine ⟨by rw [length_swap]; exact hlen, (swap_perm _ _ _ hj1 hj2).trans hperm, ?_, ?_⟩
    · intro p hp
      rw [rd_swap _ _ _ _ hj1 hj2, rd_swap _ _ _ _ hj1 hj2]
      simp only [if_true]
      by_cases hpj : p = j
      · subst hpj
        simp
        omega
      · have : p < j := by omega
        have := hmax p this
        simp [hpj, show p ≠ j + 1 by omega]
        exact this
    · intro p q hpq hq hqn
      rw [rd_swap _ _ _ _ hj1 hj2, rd_swap _ _ _ _ hj1 hj2]
      have hq1 : q ≠ j + 1 := by omega
      have hq2 : q ≠ j := by omega
      simp only [hq1, hq2, if_false]
      split_ifs
      · exact htail j q (by omega) hq hqn
      · exact htail (j + 1) q (by omega) hq hqn
      · exact htail p q hpq hq hqn
  · refine ⟨hlen, hperm, ?_, htail⟩
    intro p hp
    by_cases hpj : p = j
    · subst hpj
      omega
    · have := hmax p (by omega)
      omega

theorem bubbleOuter_inv (input : List Int) (i : Nat) (s : SortState) (hi : i < input.length)
    (h : BubbleInv input i s) : BubbleInv input (i + 1) (bubbleOuter i s) := by
  obtain ⟨hlen, hperm, htail, hsorted⟩ := h
  have key := forLoop_inv (bubbleInner s.sorted)
    (fun j (t : List Int × List Step) => t.1.length = input.length ∧ t.1.Perm input ∧
      (∀ p, p < j → rd t.1 p ≤ rd t.1 j) ∧ TailFixed input.length i t.1)
    (s.arr.length - i - 1) 0 (s.arr, s.out)
    ⟨hlen, hperm, fun p hp => absurd hp (Nat.not_lt_zero _), htail⟩
    (fun j t _ hj hI => bubbleInner_inv input input.length i s.sorted j t hi
      (by rw [hlen] at hj; omega) hI)
  simp only [Nat.zero_add] at key
  obtain ⟨klen, kperm, kmax, ktail⟩ := key
  have harr : (bubbleOuter i s).arr
      = (forLoop (bubbleInner s.sorted) (s.arr.length - i - 1) 0 (s.arr, s.out)).1 := rfl
  have hsrt : (bubbleOuter i s).sorted = s.sorted
      ++ [(forLoop (bubbleInner s.sorted) (s.arr.length - i - 1) 0 (s.arr, s.out)).1.length
        - i - 1] := rfl
  refine ⟨by rw [harr]; exact klen, by rw [harr]; exact kperm, ?_, ?_⟩
  · intro p q hpq hq hqn
    rw [harr]
    by_cases hq2 : q = input.length - i - 1
    · subst hq2
      rw [hlen] at kmax ⊢
      exact kmax p hpq
    · exact ktail p q hpq (by omega) hqn
  · rw [hsrt, klen, List.reverse_append, List.reverse_singleton, List.singleton_append, hsorted]
    have e : input.length - (i + 1) = input.length - i - 1 := by omega
    have e2 : input.length - i = (input.length - i - 1) + 1 := by omega
    rw [List.range'_succ, e]
    congr 2

theorem bubbleFinal_inv (input : List Int) :
    BubbleInv input input.length (bubbleFinal input) := by
  have := forLoop_inv bubbleOuter (fun i s => BubbleInv input i s) input.length 0
    { arr := input, out := [], sorted := [] }
    ⟨rfl, List.Perm.refl _, fun p q _ hq hqn => by simp at hq; omega, by simp⟩
    (fun j s _ hj hI => bubbleOuter_inv input j s (by omega) hI)
  simpa [bubbleFinal] using this

theorem bubbleOuter_last (i : Nat) (s : SortState) :
    ∃ fin, (bubbleOuter i s).out.getLast? = some fin ∧ fin.arr = (bubbleOuter i s).arr ∧
      fin.sorted = (bubbleOuter i s).sorted := by
  simp [bubbleOuter, pushStep]

theorem bubble_last (input : List Int) (h : input ≠ []) :
    ∃ fin, (buildBubble input).getLast? = some fin ∧ fin.arr = (bubbleFinal input).arr ∧
      fin.sorted = (bubbleFinal input).sorted := by
  obtain ⟨c, hc⟩ : ∃ c, input.length = c + 1 :=
    ⟨input.length - 1, by have := List.length_pos.2 h; omega⟩
  unfold buildBubble bubbleFinal
  rw [hc, forLoop_succ_last]
  exact bubbleOuter_last _ _

theorem bubble_sorted (input : List Int) :
    (bubbleFinal input).arr.Sorted (fun a b => a ≤ b) ∧ (bubbleFinal input).arr.Perm input ∧
      (bubbleFinal input).sorted.Perm (List.range input.length) := by
  obtain ⟨hlen, hperm, htail, hsorted⟩ := bubbleFinal_inv input
  refine ⟨sorted_of_rd _ ?_, hperm, ?_⟩
  · intro p q hpq hq
    exact htail p q hpq (by omega) (by omega)
  · have : (bubbleFinal input).sorted.reverse = List.range input.length := by
      rw [hsorted]
      simp [List.range_eq_range']
    rw [← this]
    exact (List.reverse_perm _).symm

end Sorting
namespace Sorting

open Loop

/-! # Selection sort -/

theorem selectionInner_fst (arr : List Int) (sorted : List Nat) (j : Nat) (s : Nat × List Step) :
    (selectionInner arr sorted j s).1 = if rd arr j < rd arr s.1 then j else s.1 := by
  unfold selectionInner
  split_ifs <;> rfl

theorem selectionInner_inv (arr : List Int) (sorted : List Nat) (i j : Nat)
    (s : Nat × List Step) (hj : i < j)
    (h : i ≤ s.1 ∧ s.1 < j ∧ ∀ p, i ≤ p → p < j → rd arr s.1 ≤ rd arr p) :
    i ≤ (selectionInner arr sorted j s).1 ∧ (selectionInner arr sorted j s).1 < j + 1 ∧
      ∀ p, i ≤ p → p < j + 1 → rd arr (selectionInner arr sorted j s).1 ≤ rd arr p := by
  obtain ⟨h1, h2, h3⟩ := h
  rw [selectionInner_fst]
  split_ifs with hc
  · refine ⟨by omega, by omega, ?_⟩
    intro p hp hpj
    by_cases e : p = j
    · subst e; exact le_refl _
    · have := h3 p hp (by omega)
      omega
  · refine ⟨h1, by omega, ?_⟩
    intro p hp hpj
    by_cases e : p = j
    · subst e; omega
    · exact h3 p hp (by omega)

theorem selectionOuter_arr (i : Nat) (s : SortState) :
    (selectionOuter i s).arr
      = (if (forLoop (selectionInner s.arr s.sorted) (s.arr.length - (i + 1)) (i + 1)
              (i, pushStep s.out s.arr [i] [] s.sorted
                ("Set index " ++ toString i ++ " as current minimum."))).1 ≠ i
          then swap s.arr i
            (forLoop (selectionInner s.arr s.sorted) (s.arr.length - (i + 1)) (i + 1)
              (i, pushStep s.out s.arr [i] [] s.sorted
                ("Set index " ++ toString i ++ " as current minimum."))).1
          else s.arr) := rfl

theorem selectionOuter_inv (input : List Int) (i : Nat) (s : SortState) (hi : i < input.length)
    (h : SelectionInv input i s) : SelectionInv input (i + 1) (selectionOuter i s) := by
  obtain ⟨hlen, hperm, hhead, hsorted⟩ := h
  have key := forLoop_inv (selectionInner s.arr s.sorted)
    (fun j (t : Nat × List Step) => i ≤ t.1 ∧ t.1 < j ∧
      ∀ p, i ≤ p → p < j → rd s.arr t.1 ≤ rd s.arr p)
    (s.arr.length - (i + 1)) (i + 1)
    (i, pushStep s.out s.arr [i] [] s.sorted
      ("Set index " ++ toString i ++ " as current minimum."))
    ⟨le_refl _, by simp, fun p hp hp2 => by
      have : p = i := by omega
      subst this
      exact le_refl _⟩
    (fun j t hj _ hI => selectionInner_inv s.arr s.sorted i j t (by omega) hI)
  have e : i + 1 + (s.arr.length - (i + 1)) = input.length := by omega
  rw [e] at key
  obtain ⟨k1, k2, k3⟩ := key
  have hi2 : i < s.arr.length := by omega
  have hsrt : (selectionOuter i s).sorted = s.sorted ++ [i] := rfl
  refine ⟨?_, ?_, ?_, by rw [hsrt, hsorted, List.range_succ]⟩
  · rw [selectionOuter_arr]
    split_ifs
    · rw [length_swap]; exact hlen
    · exact hlen
  · rw [selectionOuter_arr]
    split_ifs
    · exact (swap_perm _ _ _ hi2 (by omega)).trans hperm
    · exact hperm
  · rw [selectionOuter_arr]
    generalize (forLoop (selectionInner s.arr s.sorted) (s.arr.length - (i + 1)) (i + 1)
      (i, pushStep s.out s.arr [i] [] s.sorted
        ("Set index " ++ toString i ++ " as current minimum."))).1 = m at k1 k2 k3
    intro p q hpq hp hq
    have f1 := k3 i (le_refl _) hi
    have f2 : i ≤ q → rd s.arr m ≤ rd s.arr q := fun hq2 => k3 q hq2 hq
    have f3 : p < i → rd s.arr p ≤ rd s.arr q := fun hp2 => hhead p q hpq hp2 hq
    have f4 : p < i → rd s.arr p ≤ rd s.arr i := fun hp2 => hhead p i hp2 hp2 hi
    have f5 : p < i → rd s.arr p ≤ rd s.arr m := fun hp2 => hhead p m (by omega) hp2 k2
    split_ifs with hm
    · rw [rd_swap _ _ _ _ hi2 (by omega), rd_swap _ _ _ _ hi2 (by omega)]
      by_cases hpi : p = i
      · subst hpi
        have := f2 (by omega)
        split_ifs <;> subst_vars <;> omega
      · have hp1 : p < i := by omega
        have g3 := f3 hp1
        have g4 := f4 hp1
        have g5 := f5 hp1
        split_ifs <;> subst_vars <;> omega
    · simp only [ne_eq, not_not] at hm
      subst hm
      by_cases hpi : p = m
      · subst hpi
        exact f2 (by omega)
      · exact f3 (by omega)

theorem selectionFinal_inv (input : List Int) :
    SelectionInv input input.length (selectionFinal input) := by
  have := forLoop_inv selectionOuter (fun i s => SelectionInv input i s) input.length 0
    { arr := input, out := [], sorted := [] }
    ⟨rfl, List.Perm.refl _, fun p q _ hp _ => absurd hp (Nat.not_lt_zero _), by simp⟩
    (fun j s _ hj hI => selectionOuter_inv input j s (by omega) hI)
  simpa [selectionFinal] using this

theorem selectionOuter_last (i : Nat) (s : SortState) :
    ∃ fin, (selectionOuter i s).out.getLast? = some fin ∧ fin.arr = (selectionOuter i s).arr ∧
      fin.sorted = (selectionOuter i s).sorted := by
  simp [selectionOuter, pushStep]

theorem selection_last (input : List Int) (h : input ≠ []) :
    ∃ fin, (buildSelection input).getLast? = some fin ∧ fin.arr = (selectionFinal input).arr ∧
      fin.sorted = (selectionFinal input).sorted := by
  obtain ⟨c, hc⟩ : ∃ c, input.length = c + 1 :=
    ⟨input.length - 1, by have := List.length_pos.2 h; omega⟩
  unfold buildSelection selectionFinal
  rw [hc, forLoop_succ_last]
  exact selectionOuter_last _ _

theorem selection_sorted (input : List Int) :
    (selectionFinal input).arr.Sorted (fun a b => a ≤ b) ∧
      (selectionFinal input).arr.Perm input ∧
      (selectionFinal input).sorted.Perm (List.range input.length) := by
  obtain ⟨hlen, hperm, hhead, hsorted⟩ := selectionFinal_inv input
  refine ⟨sorted_of_rd _ ?_, hperm, by rw [hsorted]⟩
  intro p q hpq hq
  exact hhead p q hpq (by omega) (by omega)

end Sorting
namespace Sorting

open Loop

/-! # Insertion sort -/

theorem set_set_swap (a : List Int) (j : Nat) (key : Int) (hj : j + 1 < a.length) :
    (a.set (j + 1) (rd a j)).set j key = swap (a.set (j + 1) key) j (j + 1) := by
  unfold swap
  have h1 : rd (a.set (j + 1) key) (j + 1) = key := by
    rw [rd_set _ _ _ _ hj]; simp
  have h2 : rd (a.set (j + 1) key) j = rd a j := by
    rw [rd_set_ne _ _ _ _ (by omega)]
  rw [h1, h2]
  apply List.ext_getElem?
  intro k
  simp only [List.getElem?_set, List.length_set]
  by_cases e1 : j = k
  · subst e1
    simp
  · by_cases e2 : j + 1 = k
    · subst e2
      simp [hj]
    · simp [e1, e2]

theorem insertionShift_spec (input : List Int) (key : Int) (i : Nat) (hi : i < input.length) :
    ∀ (g : Nat) (s : List Int × List Step), g ≤ i → ShiftInv input key i g s.1 →
      ShiftInv input key i (insertionShift key g s).1 (insertionShift key g s).2.1 ∧
      (insertionShift key g s).1 ≤ i ∧
      ((insertionShift key g s).1 = 0 ∨
        rd (insertionShift key g s).2.1 ((insertionShift key g s).1 - 1) ≤ key) := by
  intro g
  induction g with
  | zero =>
    intro s _ h
    exact ⟨h, Nat.zero_le _, Or.inl rfl⟩
  | succ j ih =>
    intro s hg h
    rw [insertionShift]
    split_ifs with hc
    · apply ih _ (by omega)
      obtain ⟨hlen, hperm, hord, hgt⟩ := h
      have hj1 : j + 1 < s.1.length := by omega
      refine ⟨by simpa using hlen, ?_, ?_, ?_⟩
      · show ((s.1.set (j + 1) (rd s.1 j)).set j key).Perm input
        rw [set_set_swap _ _ _ hj1]
        exact (swap_perm _ _ _ (by simp; omega) (by simpa using hj1)).trans hperm
      · intro p q hpq hq hp1 hq1
        show rd (s.1.set (j + 1) (rd s.1 j)) p ≤ rd (s.1.set (j + 1) (rd s.1 j)) q
        rw [rd_set _ _ _ _ hj1, rd_set _ _ _ _ hj1]
        split_ifs with e1 e2 e2
        · exact le_refl _
        · subst e1
          exact hord j q (by omega) hq (by omega) e2
        · subst e2
          exact hord p j (by omega) (by omega) e1 (by omega)
        · exact hord p q hpq hq e1 e2
      · intro q hjq hq
        show key < rd (s.1.set (j + 1) (rd s.1 j)) q
        rw [rd_set _ _ _ _ hj1]
        split_ifs with e
        · exact hc
        · exact hgt q (by omega) hq
    · exact ⟨h, hg, Or.inr (by simpa using not_lt.1 hc)⟩

theorem insertionOuter_fst (i : Nat) (s : List Int × List Step) :
    (insertionOuter i s).1
      = (insertionShift (rd s.1 i) i (s.1, pushStep s.2 s.1 [i] [] []
          ("Insert value " ++ toString (rd s.1 i) ++ " from index " ++ toString i ++ "."))).2.1.set
        (insertionShift (rd s.1 i) i (s.1, pushStep s.2 s.1 [i] [] []
          ("Insert value " ++ toString (rd s.1 i) ++ " from index " ++ toString i ++ "."))).1
        (rd s.1 i) := rfl

theorem insertionOuter_inv (input : List Int) (i : Nat) (s : List Int × List Step)
    (hi : i < input.length) (h : InsertionInv input i s) :
    InsertionInv input (i + 1) (insertionOuter i s) := by
  obtain ⟨hlen, hperm, hord⟩ := h
  have h0 : ShiftInv input (rd s.1 i) i i s.1 :=
    ⟨hlen, by rw [set_rd_self]; exact hperm,
      fun p q hpq hq _ hq1 => hord p q hpq (by omega),
      fun q hq1 hq2 => absurd hq1 (by omega)⟩
  have key := insertionShift_spec input (rd s.1 i) i hi i
    (s.1, pushStep s.2 s.1 [i] [] []
      ("Insert value " ++ toString (rd s.1 i) ++ " from index " ++ toString i ++ ".")) (le_refl _) h0
  unfold InsertionInv
  rw [insertionOuter_fst]
  generalize insertionShift (rd s.1 i) i (s.1, pushStep s.2 s.1 [i] [] []
      ("Insert value " ++ toString (rd s.1 i) ++ " from index " ++ toString i ++ ".")) = r at key
  obtain ⟨⟨klen, kperm, kord, kgt⟩, kle, kend⟩ := key
  have hg : r.1 < r.2.1.length := by omega
  refine ⟨by simpa using klen, kperm, ?_⟩
  intro p q hpq hq
  rw [rd_set _ _ _ _ hg, rd_set _ _ _ _ hg]
  split_ifs with e1 e2 e2
  · exact le_refl _
  · exact le_of_lt (kgt q (by omega) (by omega))
  · rcases kend with k0 | k1
    · omega
    · by_cases e3 : p = r.1 - 1
      · rw [e3]; exact k1
      · have := kord p (r.1 - 1) (by omega) (by omega) e1 (by omega)
        omega
  · exact kord p q hpq (by omega) e1 e2

theorem insertionFinal_inv (input : List Int) (h : input ≠ []) :
    InsertionInv input input.length (insertionFinal input) := by
  have hpos := List.length_pos.2 h
  have := forLoop_inv insertionOuter (fun i s => InsertionInv input i s) (input.length - 1) 1
    (input, pushStep [] input [0] [] [0] "Start with first element as sorted.")
    ⟨rfl, List.Perm.refl _, fun p q hpq hq => by omega⟩
    (fun j s _ hj hI => insertionOuter_inv input j s (by omega) hI)
  have e : 1 + (input.length - 1) = input.length := by omega
  rw [e] at this
  exact this

theorem insertion_last (input : List Int) (h : input ≠ []) :
    ∃ fin, (buildInsertion input).getLast? = some fin ∧ fin.arr = (insertionFinal input).1 ∧
      fin.sorted = List.range input.length := by
  have hpos := List.length_pos.2 h
  unfold buildInsertion insertionFinal
  rcases Nat.lt_or_ge 1 input.length with h2 | h2
  · obtain ⟨c, hc⟩ : ∃ c, input.length - 1 = c + 1 := ⟨input.length - 2, by omega⟩
    rw [hc, forLoop_succ_last]
    have e : 1 + c + 1 = input.length := by omega
    simp [insertionOuter, pushStep, e]
  · have e : input.length = 1 := by omega
    simp [e, forLoop, pushStep, List.range_succ]

theorem insertion_sorted (input : List Int) (h : input ≠ []) :
    (insertionFinal input).1.Sorted (fun a b => a ≤ b) ∧ (insertionFinal input).1.Perm input := by
  obtain ⟨hlen, hperm, hord⟩ := insertionFinal_inv input h
  exact ⟨sorted_of_rd _ (fun p q hpq hq => hord p q hpq (by omega)), hperm⟩

end Sorting
namespace Sorting

/-- C1: for every non-empty array of integers, the last snapshot of
`buildBubble`, of `buildSelection` and of `buildInsertion` has an `arr` in
non-decreasing order that is a permutation of the input. -/
theorem c1_simple_sorts (input : List Int) (h : input ≠ []) :
    EndsSorted (buildBubble input) input ∧ EndsSorted (buildSelection input) input ∧
      EndsSorted (buildInsertion input) input := by
  refine ⟨?_, ?_, ?_⟩
  · obtain ⟨fin, h1, h2, _⟩ := bubble_last input h
    obtain ⟨k1, k2, _⟩ := bubble_sorted input
    exact ⟨fin, h1, by rw [h2]; exact k1, by rw [h2]; exact k2⟩
  · obtain ⟨fin, h1, h2, _⟩ := selection_last input h
    obtain ⟨k1, k2, _⟩ := selection_sorted input
    exact ⟨fin, h1, by rw [h2]; exact k1, by rw [h2]; exact k2⟩
  · obtain ⟨fin, h1, h2, _⟩ := insertion_last input h
    obtain ⟨k1, k2⟩ := insertion_sorted input h
    exact ⟨fin, h1, by rw [h2]; exact k1, by rw [h2]; exact k2⟩

theorem c1_simple_sorts_witness :
    ([3, 1, 2] : List Int) ≠ [] ∧ EndsSorted (buildBubble [3, 1, 2]) [3, 1, 2] :=
  ⟨by decide, (c1_simple_sorts [3, 1, 2] (by decide)).1⟩

end Sorting
namespace Sorting

open Loop

/-! # Quick sort -/

theorem partitionBody_fst (high : Nat) (pivot : Int) (j : Nat) (s : Nat × List Int × List Step) :
    (partitionBody high pivot j s).1 = (if rd s.2.1 j ≤ pivot then s.1 + 1 else s.1) ∧
    (partitionBody high pivot j s).2.1
      = (if rd s.2.1 j ≤ pivot then swap s.2.1 s.1 j else s.2.1) := by
  unfold partitionBody
  split_ifs <;> exact ⟨rfl, rfl⟩

theorem partitionBody_inv (a : List Int) (low high : Nat) (pivot : Int) (j : Nat)
    (s : Nat × List Int × List Step) (hlow : low ≤ j) (hj : j < high) (hh : high < a.length)
    (h : PartitionInv a low high pivot j s.1 s.2.1) :
    PartitionInv a low high pivot (j + 1) (partitionBody high pivot j s).1
      (partitionBody high pivot j s).2.1 := by
  obtain ⟨hlen, hperm, hi1, hi2, hle, hgt, hpiv, hout, hseg⟩ := h
  rw [(partitionBody_fst high pivot j s).1, (partitionBody_fst high pivot j s).2]
  have hjl : j < s.2.1.length := by omega
  have hil : s.1 < s.2.1.length := by omega
  split_ifs with hc
  · refine ⟨by rw [length_swap]; exact hlen, (swap_perm _ _ _ hil hjl).trans hperm,
      by omega, by omega, ?_, ?_, ?_, ?_, ?_⟩
    · intro p hp1 hp2
      rw [rd_swap _ _ _ _ hil hjl]
      split_ifs with e1 e2
      · subst e1
        by_cases e3 : s.1 = p
        · rw [e3]; exact hc
        · exact hle s.1 hi1 (by omega)
      · exact hc
      · exact hle p hp1 (by omega)
    · intro p hp1 hp2
      rw [rd_swap _ _ _ _ hil hjl]
      split_ifs with e1 e2
      · subst e1
        exact hgt s.1 (le_refl _) (by omega)
      · omega
      · exact hgt p (by omega) (by omega)
    · rw [rd_swap _ _ _ _ hil hjl]
      have e1 : ¬ high = j := by omega
      have e2 : ¬ high = s.1 := by omega
      simp only [e1, e2, if_false]
      exact hpiv
    · intro p hp
      rw [rd_swap _ _ _ _ hil hjl]
      have e1 : ¬ p = j := by omega
      have e2 : ¬ p = s.1 := by omega
      simp only [e1, e2, if_false]
      exact hout p hp
    · intro p hp1 hp2
      rw [rd_swap _ _ _ _ hil hjl]
      split_ifs with e1 e2
      · exact hseg s.1 (by omega) (by omega)
      · exact hseg j (by omega) (by omega)
      · exact hseg p hp1 hp2
  · refine ⟨hlen, hperm, hi1, by omega, hle, ?_, hpiv, hout, hseg⟩
    intro p hp1 hp2
    by_cases e : p = j
    · subst e; omega
    · exact hgt p hp1 (by omega)

theorem partition_fst (low high : Nat) (s : List Int × List Step) :
    (partition low high s).1
      = (forLoop (partitionBody high (rd s.1 high)) (high - low) low
          (low, s.1, pushStep s.2 s.1 [high] [] []
            ("Pivot is " ++ toString (rd s.1 high) ++ " at index " ++ toString high ++ "."))).1 ∧
    (partition low high s).2.1
      = swap (forLoop (partitionBody high (rd s.1 high)) (high - low) low
          (low, s.1, pushStep s.2 s.1 [high] [] []
            ("Pivot is " ++ toString (rd s.1 high) ++ " at index " ++ toString high ++ "."))).2.1
          (forLoop (partitionBody high (rd s.1 high)) (high - low) low
          (low, s.1, pushStep s.2 s.1 [high] [] []
            ("Pivot is " ++ toString (rd s.1 high) ++ " at index " ++ toString high ++ "."))).1
          high := ⟨rfl, rfl⟩

/-- What `partition` does to the array. -/
theorem partition_spec (low high : Nat) (s : List Int × List Step) (hlh : low < high)
    (hh : high < s.1.length) :
    low ≤ (partition low high s).1 ∧ (partition low high s).1 ≤ high ∧
    (partition low high s).2.1.length = s.1.length ∧
    (partition low high s).2.1.Perm s.1 ∧
    rd (partition low high s).2.1 (partition low high s).1 = rd s.1 high ∧
    (∀ p, low ≤ p → p < (partition low high s).1 →
      rd (partition low high s).2.1 p ≤ rd s.1 high) ∧
    (∀ p, (partition low high s).1 < p → p ≤ high →
      rd s.1 high < rd (partition low high s).2.1 p) ∧
    (∀ p, p < low ∨ high < p → rd (partition low high s).2.1 p = rd s.1 p) ∧
    (∀ p, low ≤ p → p ≤ high →
      ∃ q, low ≤ q ∧ q ≤ high ∧ rd (partition low high s).2.1 p = rd s.1 q) := by
  have key := forLoop_inv (partitionBody high (rd s.1 high))
    (fun j (t : Nat × List Int × List Step) => PartitionInv s.1 low high (rd s.1 high) j t.1 t.2.1)
    (high - low) low
    (low, s.1, pushStep s.2 s.1 [high] [] []
      ("Pivot is " ++ toString (rd s.1 high) ++ " at index " ++ toString high ++ "."))
    ⟨rfl, List.Perm.refl _, le_refl _, le_refl _, fun p h1 h2 => by omega,
      fun p h1 h2 => by omega, rfl, fun p _ => rfl, fun p h1 h2 => ⟨p, h1, h2, rfl⟩⟩
    (fun j t h1 h2 hI => partitionBody_inv s.1 low high (rd s.1 high) j t h1 (by omega) hh hI)
  have e : low + (high - low) = high := by omega
  rw [e] at key
  rw [(partition_fst low high s).1, (partition_fst low high s).2]
  generalize forLoop (partitionBody high (rd s.1 high)) (high - low) low
    (low, s.1, pushStep s.2 s.1 [high] [] []
      ("Pivot is " ++ toString (rd s.1 high) ++ " at index " ++ toString high ++ ".")) = r at key
  obtain ⟨hlen, hperm, hi1, hi2, hle, hgt, hpiv, hout, hseg⟩ := key
  have hil : r.1 < r.2.1.length := by omega
  have hhl : high < r.2.1.length := by omega
  refine ⟨hi1, hi2, by rw [length_swap]; exact hlen, (swap_perm _ _ _ hil hhl).trans hperm,
    ?_, ?_, ?_, ?_, ?_⟩
  · rw [rd_swap _ _ _ _ hil hhl]
    by_cases e1 : r.1 = high
    · simp only [e1, if_true]; exact hpiv
    · simp only [e1, if_false, if_true]; exact hpiv
  · intro p hp1 hp2
    rw [rd_swap _ _ _ _ hil hhl]
    have e1 : ¬ p = high := by omega
    have e2 : ¬ p = r.1 := by omega
    simp only [e1, e2, if_false]
    exact hle p hp1 hp2
  · intro p hp1 hp2
    rw [rd_swap _ _ _ _ hil hhl]
    split_ifs with e1 e2
    · exact hgt r.1 (le_refl _) (by omega)
    · omega
    · exact hgt p (by omega) (by omega)
  · intro p hp
    rw [rd_swap _ _ _ _ hil hhl]
    have e1 : ¬ p = high := by omega
    have e2 : ¬ p = r.1 := by omega
    simp only [e1, e2, if_false]
    exact hout p hp
  · intro p hp1 hp2
    rw [rd_swap _ _ _ _ hil hhl]
    split_ifs with e1 e2
    · exact hseg r.1 hi1 hi2
    · exact hseg high (by omega) (le_refl _)
    · exact hseg p hp1 hp2

end Sorting
namespace Sorting

open Loop

/-- With enough fuel `run(low, high)` of `buildQuick` returns, and the segment
`low..high` of the array is then sorted. -/
theorem quickRun_spec :
    ∀ (fuel low high : Nat) (s : List Int × List Step), high - low < fuel →
      (low < high → high < s.1.length) →
      ∃ r, quickRun fuel low high s = some r ∧ SegmentSorted low high s.1 r.1 ∧
        (high ≤ low → r = s) := by
  intro fuel
  induction fuel with
  | zero => intro low high s h; omega
  | succ fuel ih =>
    intro low high s hf hb
    rw [quickRun]
    by_cases hlh : low < high
    · simp only [hlh, if_true]
      have hh := hb hlh
      obtain ⟨p1, p2, plen, pperm, ppiv, ple, pgt, pout, pseg⟩ := partition_spec low high s hlh hh
      generalize partition low high s = r0 at p1 p2 plen pperm ppiv ple pgt pout pseg
      obtain ⟨r1, hr1, ⟨l1, m1, o1, g1, d1⟩, id1⟩ :=
        ih low (r0.1 - 1) r0.2 (by omega) (fun _ => by omega)
      rw [hr1]
      obtain ⟨r2, hr2, ⟨l2, m2, o2, g2, d2⟩, _⟩ :=
        ih (r0.1 + 1) high r1 (by omega) (fun _ => by omega)
      simp only
      rw [hr2]
      -- the first call leaves everything from the pivot on, and everything below `low`
      have F1 : ∀ p, r0.1 ≤ p → rd r1.1 p = rd r0.2.1 p := by
        intro p hp
        by_cases hid : r0.1 - 1 ≤ low
        · rw [id1 hid]
        · exact o1 p (Or.inr (by omega))
      have F2 : ∀ p, p < low → rd r1.1 p = rd r0.2.1 p := fun p hp => o1 p (Or.inl hp)
      have F3 : ∀ p, low ≤ p → p < r0.1 → ∃ q, low ≤ q ∧ q < r0.1 ∧ rd r1.1 p = rd r0.2.1 q := by
        intro p hp1 hp2
        by_cases hid : r0.1 - 1 ≤ low
        · rw [id1 hid]
          exact ⟨p, hp1, hp2, rfl⟩
        · obtain ⟨q, hq1, hq2, hq3⟩ := g1 p hp1 (by omega)
          exact ⟨q, hq1, by omega, hq3⟩
      have F4 : ∀ p q, low ≤ p → p < q → q < r0.1 → rd r1.1 p ≤ rd r1.1 q := by
        intro p q hp hpq hq
        exact d1 p q hp hpq (by omega)
      have G1 : ∀ p, p ≤ r0.1 → rd r2.1 p = rd r1.1 p := fun p hp => o2 p (Or.inl (by omega))
      have Hlow : ∀ p, low ≤ p → p < r0.1 → rd r2.1 p ≤ rd s.1 high := by
        intro p hp1 hp2
        obtain ⟨q, hq1, hq2, hq3⟩ := F3 p hp1 hp2
        rw [G1 p (by omega), hq3]
        exact ple q hq1 hq2
      have Hpiv : rd r2.1 r0.1 = rd s.1 high := by
        rw [G1 _ (le_refl _), F1 _ (le_refl _)]
        exact ppiv
      have Hhigh : ∀ p, r0.1 < p → p ≤ high → rd s.1 high < rd r2.1 p := by
        intro p hp1 hp2
        obtain ⟨q, hq1, hq2, hq3⟩ := g2 p (by omega) hp2
        rw [hq3, F1 q (by omega)]
        exact pgt q (by omega) hq2
      refine ⟨r2, rfl, ⟨by omega, (m2.trans m1).trans pperm, ?_, ?_, ?_⟩, fun h => by omega⟩
      · intro p hp
        rcases hp with hp | hp
        · rw [G1 p (by omega), F2 p hp]
          exact pout p (Or.inl hp)
        · rw [o2 p (Or.inr hp), F1 p (by omega)]
          exact pout p (Or.inr hp)
      · intro p hp1 hp2
        by_cases hc : p < r0.1
        · obtain ⟨q, hq1, hq2, hq3⟩ := F3 p hp1 hc
          obtain ⟨q2, ha, hb2, hc2⟩ := pseg q hq1 (by omega)
          exact ⟨q2, ha, hb2, by rw [G1 p (by omega), hq3, hc2]⟩
        · by_cases hc2 : p = r0.1
          · obtain ⟨q2, ha, hb2, hc3⟩ := pseg r0.1 p1 p2
            exact ⟨q2, ha, hb2, by rw [hc2, G1 _ (le_refl _), F1 _ (le_refl _), hc3]⟩
          · obtain ⟨q, hq1, hq2, hq3⟩ := g2 p (by omega) hp2
            obtain ⟨q2, ha, hb2, hc3⟩ := pseg q (by omega) hq2
            exact ⟨q2, ha, hb2, by rw [hq3, F1 q (by omega), hc3]⟩
      · intro p q hp hpq hq
        by_cases c1 : q < r0.1
        · rw [G1 p (by omega), G1 q (by omega)]
          exact F4 p q hp hpq c1
        · by_cases c2 : q = r0.1
          · rw [c2, Hpiv]
            exact Hlow p hp (by omega)
          · have hq2 := Hhigh q (by omega) hq
            by_cases c3 : p < r0.1
            · have := Hlow p hp c3
              omega
            · by_cases c4 : p = r0.1
              · rw [c4, Hpiv]
                omega
              · exact d2 p q (by omega) hpq hq
    · simp only [hlh, if_false]
      refine ⟨s, rfl, ⟨rfl, List.Perm.refl _, fun p _ => rfl, fun p h1 h2 => ⟨p, h1, h2, rfl⟩, ?_⟩,
        fun _ => rfl⟩
      intro p q hp hpq hq
      omega

theorem pushStep_getLast (out : List Step) (arr : List Int) (active compare sorted : List Nat)
    (text : String) :
    (pushStep out arr active compare sorted text).getLast?
      = some { arr := arr, active := active, compare := compare, sorted := sorted,
               text := text } := by
  simp [pushStep]

theorem final_push (out : List Step) (arr input : List Int) (text : String)
    (hs : arr.Sorted (fun a b => a ≤ b)) (hp : arr.Perm input) :
    EndsSorted (pushStep out arr [] [] (List.range arr.length) text) input ∧
      EndsAllSorted (pushStep out arr [] [] (List.range arr.length) text) input.length ∧
      pushStep out arr [] [] (List.range arr.length) text ≠ [] := by
  refine ⟨⟨_, pushStep_getLast _ _ _ _ _ _, hs, hp⟩, ⟨_, pushStep_getLast _ _ _ _ _ _, ?_⟩, ?_⟩
  · rw [hp.length_eq]
  · simp [pushStep]

/-- The result of `buildQuick` for enough fuel. -/
theorem buildQuick_spec (fuel : Nat) (input : List Int) (hf : input.length + 1 ≤ fuel) :
    ∃ tr, buildQuick fuel input = some tr ∧ EndsSorted tr input ∧
      EndsAllSorted tr input.length ∧ tr ≠ [] := by
  obtain ⟨r, hr, ⟨hlen, hperm, _, _, hord⟩, _⟩ :=
    quickRun_spec fuel 0 (input.length - 1) (input, []) (by omega) (fun h => by simp; omega)
  refine ⟨_, by rw [buildQuick, hr]; rfl, ?_⟩
  apply final_push _ _ _ _ _ hperm
  apply sorted_of_rd
  intro p q hpq hq
  simp only at hlen
  exact hord p q (Nat.zero_le _) hpq (by omega)

end Sorting
namespace Loop

/-- Total correctness of a loop: with an invariant `I` kept by every pass
that goes round again, a measure that such a pass decreases, and fuel above
the measure, the loop ends, in a state that a leaving pass made from a state
satisfying `I`. -/
theorem run_spec {σ : Type} (step : σ → Flow σ) (I : σ → Prop) (Q : σ → Prop) (μ : σ → Nat)
    (hnext : ∀ s s1, I s → step s = Flow.next s1 → I s1 ∧ μ s1 < μ s)
    (hdone : ∀ s s1, I s → step s = Flow.done s1 → Q s1) :
    ∀ (fuel : Nat) (s : σ), I s → μ s < fuel → ∃ r, run step fuel s = some r ∧ Q r := by
  intro fuel
  induction fuel with
  | zero => intro s _ h; omega
  | succ fuel ih =>
    intro s hI hμ
    rw [run]
    cases hs : step s with
    | done s1 => exact ⟨s1, rfl, hdone s s1 hI hs⟩
    | next s1 =>
      obtain ⟨h1, h2⟩ := hnext s s1 hI hs
      exact ih s1 h1 (by omega)

end Loop

namespace Sorting

open Loop

/-! # Merge sort -/

theorem slice_length (a : List Int) (x y : Nat) (hy : y ≤ a.length) :
    (slice a x y).length = y - x := by
  simp [slice]
  omega

theorem slice_append (a : List Int) (x y z : Nat) (hxy : x ≤ y) (hyz : y ≤ z) :
    slice a x y ++ slice a y z = slice a x z := by
  unfold slice
  have e : z - x = (y - x) + (z - y) := by omega
  rw [e, List.take_add, List.drop_drop]
  congr 3
  omega

theorem slice_decompose (a : List Int) (x y : Nat) (hxy : x ≤ y) :
    a = a.take x ++ (slice a x y ++ a.drop y) := by
  unfold slice
  have e : a.drop y = (a.drop x).drop (y - x) := by
    rw [List.drop_drop]
    congr 1
    omega
  rw [e, List.take_append_drop, List.take_append_drop]

theorem slice_eq_of_take (a b : List Int) (x y : Nat) (h : a.take y = b.take y) :
    slice a x y = slice b x y := by
  unfold slice
  rw [← List.drop_take, ← List.drop_take, h]

theorem slice_eq_of_drop (a b : List Int) (x y : Nat) (h : a.drop x = b.drop x) :
    slice a x y = slice b x y := by
  unfold slice
  rw [h]

theorem rd_slice (a : List Int) (x y p : Nat) (hp : x + p < y) :
    rd (slice a x y) p = rd a (x + p) := by
  unfold rd slice
  simp only [List.getD_eq_getElem?_getD]
  rw [List.getElem?_take_of_lt (by omega), List.getElem?_drop]

theorem slice_set_snoc (arr : List Int) (left k : Nat) (v : Int) (hl : left ≤ k)
    (hk : k < arr.length) : slice (arr.set k v) left (k + 1) = slice arr left k ++ [v] := by
  unfold slice
  rw [List.set_eq_take_append_cons_drop, if_pos hk]
  have h1 : (arr.take k).length = k := by simp; omega
  rw [List.drop_append_of_le_length (by omega)]
  have h2 : ((arr.take k).drop left).length = k - left := by simp; omega
  rw [List.take_append_eq_append_take, h2]
  have e1 : k + 1 - left - (k - left) = 1 := by omega
  rw [e1, List.take_of_length_le (by omega)]
  congr 1
  rw [List.drop_take]

theorem take_set_ge (arr : List Int) (left k : Nat) (v : Int) (hl : left ≤ k) :
    (arr.set k v).take left = arr.take left := by
  apply List.ext_getElem?
  intro p
  by_cases hp : p < left
  · rw [List.getElem?_take_of_lt hp, List.getElem?_take_of_lt hp,
      List.getElem?_set_ne (by omega)]
  · rw [List.getElem?_eq_none (by simp; omega), List.getElem?_eq_none (by simp; omega)]

theorem drop_set_lt (arr : List Int) (m k : Nat) (v : Int) (hk : k < m) :
    (arr.set k v).drop m = arr.drop m :=
  List.drop_set_of_lt v arr hk

end Sorting
namespace Sorting

open Loop

theorem sorted_drop_head (L : List Int) (i : Nat) (hi : i < L.length)
    (hL : L.Sorted (fun x y => x ≤ y)) : ∀ x ∈ L.drop i, rd L i ≤ x := by
  have h1 : (L.drop i).Pairwise (fun x y => x ≤ y) := hL.sublist (List.drop_sublist i L)
  rw [List.drop_eq_getElem_cons hi, List.pairwise_cons] at h1
  intro x hx
  rw [List.drop_eq_getElem_cons hi] at hx
  rw [rd_eq_getElem L i hi]
  rcases List.mem_cons.1 hx with rfl | hx
  · exact le_refl _
  · exact h1.1 x hx

theorem mergeInv_takeLeft (a : List Int) (left right : Nat) (L R : List Int) (st : MergeState)
    (out2 : List Step) (hr : right < a.length)
    (hLR : L.length + R.length = right + 1 - left) (hL : L.Sorted (fun x y => x ≤ y))
    (h : MergeInv a left right L R st) (hi : st.i < L.length)
    (hy : ∀ y ∈ R.drop st.j, rd L st.i ≤ y) :
    MergeInv a left right L R
      { i := st.i + 1, j := st.j, k := st.k + 1, arr := st.arr.set st.k (rd L st.i),
        out := out2 } := by
  obtain ⟨hlen, hk, hiL, hjR, htake, hdrop, hsorted, hperm, hbound⟩ := h
  have hk1 : st.k < st.arr.length := by omega
  have hdropL : L.drop st.i = rd L st.i :: L.drop (st.i + 1) := by
    rw [rd_eq_getElem L _ hi]
    exact List.drop_eq_getElem_cons hi
  refine ⟨by simpa using hlen, by simp only; omega, by simp only; omega, hjR, ?_, ?_, ?_, ?_, ?_⟩
  · simp only
    rw [take_set_ge _ _ _ _ (by omega)]
    exact htake
  · simp only
    rw [drop_set_lt _ _ _ _ (by omega)]
    exact hdrop
  · simp only
    rw [slice_set_snoc _ _ _ _ (by omega) hk1]
    unfold List.Sorted
    rw [List.pairwise_append]
    refine ⟨hsorted, List.pairwise_singleton _ _, ?_⟩
    intro w hw x hx
    simp at hx
    subst hx
    exact hbound w hw _ (by rw [hdropL]; simp)
  · simp only
    rw [slice_set_snoc _ _ _ _ (by omega) hk1]
    rw [hdropL] at hperm
    simpa using hperm
  · simp only
    rw [slice_set_snoc _ _ _ _ (by omega) hk1]
    intro w hw x hx
    rcases List.mem_append.1 hw with hw | hw
    · apply hbound w hw x
      rw [hdropL]
      rcases List.mem_append.1 hx with hx | hx
      · simp [hx]
      · simp [hx]
    · simp at hw
      subst hw
      rcases List.mem_append.1 hx with hx | hx
      · exact sorted_drop_head L st.i hi hL x (by rw [hdropL]; simp [hx])
      · exact hy x hx

theorem mergeInv_takeRight (a : List Int) (left right : Nat) (L R : List Int) (st : MergeState)
    (out2 : List Step) (hr : right < a.length)
    (hLR : L.length + R.length = right + 1 - left) (hR : R.Sorted (fun x y => x ≤ y))
    (h : MergeInv a left right L R st) (hj : st.j < R.length)
    (hx : ∀ x ∈ L.drop st.i, rd R st.j ≤ x) :
    MergeInv a left right L R
      { i := st.i, j := st.j + 1, k := st.k + 1, arr := st.arr.set st.k (rd R st.j),
        out := out2 } := by
  obtain ⟨hlen, hk, hiL, hjR, htake, hdrop, hsorted, hperm, hbound⟩ := h
  have hk1 : st.k < st.arr.length := by omega
  have hdropR : R.drop st.j = rd R st.j :: R.drop (st.j + 1) := by
    rw [rd_eq_getElem R _ hj]
    exact List.drop_eq_getElem_cons hj
  refine ⟨by simpa using hlen, by simp only; omega, hiL, by simp only; omega, ?_, ?_, ?_, ?_, ?_⟩
  · simp only
    rw [take_set_ge _ _ _ _ (by omega)]
    exact htake
  · simp only
    rw [drop_set_lt _ _ _ _ (by omega)]
    exact hdrop
  · simp only
    rw [slice_set_snoc _ _ _ _ (by omega) hk1]
    unfold List.Sorted
    rw [List.pairwise_append]
    refine ⟨hsorted, List.pairwise_singleton _ _, ?_⟩
    intro w hw x hx2
    simp at hx2
    subst hx2
    exact hbound w hw _ (by rw [hdropR]; simp)
  · simp only
    rw [slice_set_snoc _ _ _ _ (by omega) hk1]
    rw [hdropR] at hperm
    refine List.Perm.trans ?_ hperm
    simp only [List.append_assoc, List.singleton_append]
    apply List.Perm.append_left
    exact (List.perm_middle).symm
  · simp only
    rw [slice_set_snoc _ _ _ _ (by omega) hk1]
    intro w hw x hx2
    rcases List.mem_append.1 hw with hw | hw
    · apply hbound w hw x
      rw [hdropR]
      rcases List.mem_append.1 hx2 with hx2 | hx2
      · simp [hx2]
      · simp [hx2]
    · simp at hw
      subst hw
      rcases List.mem_append.1 hx2 with hx2 | hx2
      · exact hx x hx2
      · exact sorted_drop_head R st.j hj hR x (by rw [hdropR]; simp [hx2])

end Sorting
namespace Sorting

open Loop

theorem mergeMain_spec (a : List Int) (left right : Nat) (L R : List Int) (hr : right < a.length)
    (hLR : L.length + R.length = right + 1 - left) (hL : L.Sorted (fun x y => x ≤ y))
    (hR : R.Sorted (fun x y => x ≤ y)) (fuel : Nat) (st : MergeState)
    (h : MergeInv a left right L R st) (hf : L.length + R.length < fuel) :
    ∃ r, Loop.run (mergeMainPass L R) fuel st = some r ∧ MergeInv a left right L R r ∧
      (r.i < L.length → r.j = R.length) := by
  apply Loop.run_spec (mergeMainPass L R) (MergeInv a left right L R)
    (fun r => MergeInv a left right L R r ∧ (r.i < L.length → r.j = R.length))
    (fun s => (L.length - s.i) + (R.length - s.j)) ?_ ?_ fuel st h (by simp only; omega)
  · intro s s1 hI hs
    unfold mergeMainPass at hs
    split_ifs at hs with hc hle
    · injection hs with hs
      subst hs
      refine ⟨mergeInv_takeLeft a left right L R s _ hr hLR hL hI hc.1 ?_, by simp only; omega⟩
      intro y hy
      have := sorted_drop_head R s.j hc.2 hR y hy
      omega
    · injection hs with hs
      subst hs
      refine ⟨mergeInv_takeRight a left right L R s _ hr hLR hR hI hc.2 ?_, by simp only; omega⟩
      intro x hx
      have := sorted_drop_head L s.i hc.1 hL x hx
      omega
  · intro s s1 hI hs
    unfold mergeMainPass at hs
    split_ifs at hs with hc
    injection hs with hs
    subst hs
    refine ⟨hI, fun hi => ?_⟩
    have := hI.2.2.2.1
    by_contra hne
    exact hc ⟨hi, by omega⟩

theorem mergeLeft_spec (a : List Int) (left right : Nat) (L R : List Int) (hr : right < a.length)
    (hLR : L.length + R.length = right + 1 - left) (hL : L.Sorted (fun x y => x ≤ y))
    (fuel : Nat) (st : MergeState)
    (h : MergeInv a left right L R st ∧ (st.i < L.length → st.j = R.length))
    (hf : L.length + R.length < fuel) :
    ∃ r, Loop.run (mergeLeftPass L) fuel st = some r ∧ MergeInv a left right L R r ∧
      r.i = L.length := by
  apply Loop.run_spec (mergeLeftPass L)
    (fun s => MergeInv a left right L R s ∧ (s.i < L.length → s.j = R.length))
    (fun r => MergeInv a left right L R r ∧ r.i = L.length)
    (fun s => L.length - s.i) ?_ ?_ fuel st h (by simp only; omega)
  · intro s s1 hI hs
    unfold mergeLeftPass at hs
    split_ifs at hs with hc
    injection hs with hs
    subst hs
    refine ⟨⟨mergeInv_takeLeft a left right L R s _ hr hLR hL hI.1 hc ?_, fun _ => hI.2 hc⟩,
      by simp only; omega⟩
    intro y hy
    rw [hI.2 hc] at hy
    simp at hy
  · intro s s1 hI hs
    unfold mergeLeftPass at hs
    split_ifs at hs with hc
    injection hs with hs
    subst hs
    have := hI.1.2.2.1
    exact ⟨hI.1, by omega⟩

theorem mergeRight_spec (a : List Int) (left right : Nat) (L R : List Int)
    (hr : right < a.length) (hLR : L.length + R.length = right + 1 - left)
    (hR : R.Sorted (fun x y => x ≤ y)) (fuel : Nat) (st : MergeState)
    (h : MergeInv a left right L R st ∧ st.i = L.length)
    (hf : L.length + R.length < fuel) :
    ∃ r, Loop.run (mergeRightPass R) fuel st = some r ∧ MergeInv a left right L R r ∧
      r.i = L.length ∧ r.j = R.length := by
  apply Loop.run_spec (mergeRightPass R)
    (fun s => MergeInv a left right L R s ∧ s.i = L.length)
    (fun r => MergeInv a left right L R r ∧ r.i = L.length ∧ r.j = R.length)
    (fun s => R.length - s.j) ?_ ?_ fuel st h (by simp only; omega)
  · intro s s1 hI hs
    unfold mergeRightPass at hs
    split_ifs at hs with hc
    injection hs with hs
    subst hs
    refine ⟨⟨mergeInv_takeRight a left right L R s _ hr hLR hR hI.1 hc ?_, hI.2⟩,
      by simp only; omega⟩
    intro x hx
    rw [hI.2] at hx
    simp at hx
  · intro s s1 hI hs
    unfold mergeRightPass at hs
    split_ifs at hs with hc
    injection hs with hs
    subst hs
    have := hI.1.2.2.2.1
    exact ⟨hI.1, hI.2, by omega⟩

/-- With enough fuel `merge(left, mid, right)` returns; it merges the two
sorted slices in place. -/
theorem merge_spec (fuel left mid right : Nat) (s : List Int × List Step)
    (h1 : left ≤ mid) (h2 : mid < right) (hr : right < s.1.length)
    (hL : (slice s.1 left (mid + 1)).Sorted (fun x y => x ≤ y))
    (hR : (slice s.1 (mid + 1) (right + 1)).Sorted (fun x y => x ≤ y))
    (hf : right + 1 - left < fuel) :
    ∃ r, merge fuel left mid right s = some r ∧ r.1.length = s.1.length ∧
      r.1.take left = s.1.take left ∧ r.1.drop (right + 1) = s.1.drop (right + 1) ∧
      (slice r.1 left (right + 1)).Sorted (fun x y => x ≤ y) ∧
      (slice r.1 left (right + 1)).Perm (slice s.1 left (right + 1)) := by
  have lenL := slice_length s.1 left (mid + 1) (by omega)
  have lenR := slice_length s.1 (mid + 1) (right + 1) (by omega)
  have hLR : (slice s.1 left (mid + 1)).length + (slice s.1 (mid + 1) (right + 1)).length
      = right + 1 - left := by omega
  have h0 : MergeInv s.1 left right (slice s.1 left (mid + 1)) (slice s.1 (mid + 1) (right + 1))
      { i := 0, j := 0, k := left, arr := s.1, out := s.2 } := by
    refine ⟨rfl, rfl, Nat.zero_le _, Nat.zero_le _, rfl, rfl, ?_, ?_, ?_⟩
    · simp [slice]
    · simp [slice]
    · intro w hw
      simp [slice] at hw
  unfold merge
  obtain ⟨r1, e1, i1, c1⟩ := mergeMain_spec s.1 left right _ _ hr hLR hL hR fuel _ h0 (by omega)
  simp only [e1]
  obtain ⟨r2, e2, i2, c2⟩ := mergeLeft_spec s.1 left right _ _ hr hLR hL fuel r1 ⟨i1, c1⟩
    (by omega)
  simp only [e2]
  obtain ⟨r3, e3, i3, c3, d3⟩ := mergeRight_spec s.1 left right _ _ hr hLR hR fuel r2 ⟨i2, c2⟩
    (by omega)
  simp only [e3]
  obtain ⟨hlen, hk, _, _, htake, hdrop, hsorted, hperm, _⟩ := i3
  have hk2 : r3.k = right + 1 := by omega
  rw [hk2] at hsorted hperm
  rw [c3, d3, List.drop_of_length_le (le_refl _), List.drop_of_length_le (le_refl _)] at hperm
  refine ⟨_, rfl, hlen, htake, hdrop, hsorted, ?_⟩
  simp only [List.append_nil] at hperm
  rw [slice_append s.1 left (mid + 1) (right + 1) (by omega) (by omega)] at hperm
  exact hperm

/-- With enough fuel `run(left, right)` of `buildMerge` returns, and the
slice `left..right` of the array is then sorted. -/
theorem mergeRun_spec :
    ∀ (fuel left right : Nat) (s : List Int × List Step), right - left + 3 ≤ fuel →
      (left < right → right < s.1.length) →
      ∃ r, mergeRun fuel left right s = some r ∧ SliceSorted left right s.1 r.1 := by
  intro fuel
  induction fuel with
  | zero => intro left right s h; omega
  | succ fuel ih =>
    intro left right s hf hb
    rw [mergeRun]
    by_cases hlr : left ≥ right
    · simp only [hlr, if_true]
      refine ⟨s, rfl, rfl, rfl, rfl, ?_, List.Perm.refl _⟩
      have : (slice s.1 left (right + 1)).length ≤ 1 := by
        simp [slice]
        omega
      unfold List.Sorted
      match hs : slice s.1 left (right + 1), this with
      | [], _ => exact List.Pairwise.nil
      | [x], _ => exact List.pairwise_singleton _ _
      | _ :: _ :: _, h => simp at h
    · simp only [hlr, if_false]
      have hlt : left < right := by omega
      have hr := hb hlt
      have hm1 : left ≤ (left + right) / 2 := by omega
      have hm2 : (left + right) / 2 < right := by omega
      generalize (left + right) / 2 = mid at hm1 hm2
      obtain ⟨r1, e1, l1, t1, d1, s1, p1⟩ := ih left mid s (by omega) (fun _ => by omega)
      simp only [e1]
      obtain ⟨r2, e2, l2, t2, d2, s2, p2⟩ := ih (mid + 1) right r1 (by omega) (fun _ => by omega)
      simp only [e2]
      have hL : (slice r2.1 left (mid + 1)).Sorted (fun x y => x ≤ y) := by
        rw [slice_eq_of_take r2.1 r1.1 left (mid + 1) t2]
        exact s1
      obtain ⟨r3, e3, l3, t3, d3, s3, p3⟩ := merge_spec fuel left mid right r2 hm1 hm2 (by omega)
        hL s2 (by omega)
      refine ⟨r3, e3, by omega, ?_, ?_, s3, ?_⟩
      · rw [t3]
        have q1 : r2.1.take left = (r2.1.take (mid + 1)).take left := by
          rw [List.take_take]
          congr 1
          omega
        have q2 : r1.1.take left = (r1.1.take (mid + 1)).take left := by
          rw [List.take_take]
          congr 1
          omega
        rw [q1, t2, ← q2, t1]
      · rw [d3, d2]
        have q1 : ∀ b : List Int, b.drop (right + 1) = (b.drop (mid + 1)).drop (right - mid) := by
          intro b
          rw [List.drop_drop]
          congr 1
          omega
        rw [q1 r1.1, d1, ← q1]
      · refine p3.trans ?_
        rw [← slice_append r2.1 left (mid + 1) (right + 1) (by omega) (by omega),
          ← slice_append s.1 left (mid + 1) (right + 1) (by omega) (by omega)]
        apply List.Perm.append
        · rw [slice_eq_of_take r2.1 r1.1 left (mid + 1) t2]
          exact p1
        · refine p2.trans ?_
          rw [slice_eq_of_drop r1.1 s.1 (mid + 1) (right + 1) d1]

/-- The result of `buildMerge` for enough fuel. -/
theorem buildMerge_spec (fuel : Nat) (input : List Int) (hf : input.length + 3 ≤ fuel) :
    ∃ tr, buildMerge fuel input = some tr ∧ EndsSorted tr input ∧
      EndsAllSorted tr input.length ∧ tr ≠ [] := by
  obtain ⟨r, hr, hlen, _, _, hsorted, hperm⟩ :=
    mergeRun_spec fuel 0 (input.length - 1) (input, []) (by omega) (fun h => by simp; omega)
  have e1 : ∀ b : List Int, b.length = input.length → slice b 0 (input.length - 1 + 1) = b := by
    intro b hb
    simp only [slice, List.drop_zero, Nat.sub_zero]
    exact List.take_of_length_le (by omega)
  rw [e1 r.1 hlen] at hsorted hperm
  rw [e1 input rfl] at hperm
  refine ⟨_, by rw [buildMerge, hr]; rfl, ?_⟩
  exact final_push _ _ _ _ hsorted hperm

end Sorting

namespace Sorting

/-- C2: for every array of integers and enough fuel (which bounds the depth
of the recursion and the passes of the loops), `buildMerge` and `buildQuick`
return a trace (both recursions end), and the last snapshot has an `arr` in
non-decreasing order that is a permutation of the input. -/
theorem c2_recursive_sorts (input : List Int) (fuel : Nat) (hf : input.length + 3 ≤ fuel) :
    (∃ tr, buildMerge fuel input = some tr ∧ EndsSorted tr input) ∧
    (∃ tr, buildQuick fuel input = some tr ∧ EndsSorted tr input) := by
  obtain ⟨tr1, h1, h2, _⟩ := buildMerge_spec fuel input hf
  obtain ⟨tr2, k1, k2, _⟩ := buildQuick_spec fuel input (by omega)
  exact ⟨⟨tr1, h1, h2⟩, ⟨tr2, k1, k2⟩⟩

theorem c2_recursive_sorts_witness :
    (([3, 1, 2] : List Int).length + 3 ≤ 6) ∧
    ∃ tr, buildQuick 6 [3, 1, 2] = some tr ∧ EndsSorted tr [3, 1, 2] :=
  ⟨by decide, (c2_recursive_sorts [3, 1, 2] 6 (by decide)).2⟩

/-- C3: for every input array of length n >= 1 (and enough fuel for merge and
quick sort), the `sorted` list of the last snapshot of each of the five sort
traces holds every index 0..n-1 exactly once: it is a permutation of
`List.range n`. -/
theorem c3_sorted_indices (input : List Int) (fuel : Nat) (h : 1 ≤ input.length)
    (hf : input.length + 3 ≤ fuel) :
    EndsAllSorted (buildBubble input) input.length ∧
    EndsAllSorted (buildSelection input) input.length ∧
    EndsAllSorted (buildInsertion input) input.length ∧
    (∃ tr, buildMerge fuel input = some tr ∧ EndsAllSorted tr input.length) ∧
    (∃ tr, buildQuick fuel input = some tr ∧ EndsAllSorted tr input.length) := by
  have hne : input ≠ [] := by
    intro e
    rw [e] at h
    simp at h
  refine ⟨?_, ?_, ?_, ?_, ?_⟩
  · obtain ⟨fin, h1, _, h3⟩ := bubble_last input hne
    exact ⟨fin, h1, by rw [h3]; exact (bubble_sorted input).2.2⟩
  · obtain ⟨fin, h1, _, h3⟩ := selection_last input hne
    exact ⟨fin, h1, by rw [h3]; exact (selection_sorted input).2.2⟩
  · obtain ⟨fin, h1, _, h3⟩ := insertion_last input hne
    exact ⟨fin, h1, by rw [h3]⟩
  · obtain ⟨tr, h1, _, h3, _⟩ := buildMerge_spec fuel input hf
    exact ⟨tr, h1, h3⟩
  · obtain ⟨tr, h1, _, h3, _⟩ := buildQuick_spec fuel input (by omega)
    exact ⟨tr, h1, h3⟩

theorem c3_sorted_indices_witness :
    (1 ≤ ([3, 1, 2] : List Int).length) ∧ (([3, 1, 2] : List Int).length + 3 ≤ 6) ∧
    EndsAllSorted (buildBubble [3, 1, 2]) 3 :=
  ⟨by decide, by decide, (c3_sorted_indices [3, 1, 2] 6 (by decide) (by decide)).1⟩

end Sorting
namespace Sorting

open Loop

theorem insertion_nonempty (input : List Int) : 1 ≤ (buildInsertion input).length := by
  unfold buildInsertion insertionFinal
  cases hc : input.length - 1 with
  | zero => simp [forLoop, pushStep]
  | succ c =>
    rw [forLoop_succ_last]
    simp [insertionOuter, pushStep]

/-- C4 (what the code does): for every non-empty input array each of the five
sort generators returns a trace with at least one snapshot (merge and quick
sort for enough fuel); `buildInsertion`, `buildMerge` and `buildQuick` do so
for the empty array as well, while `buildBubble` and `buildSelection` return
the empty trace for the empty array. -/
theorem c4_traces_nonempty (input : List Int) (fuel : Nat) (hf : input.length + 3 ≤ fuel) :
    (input ≠ [] → 1 ≤ (buildBubble input).length ∧ 1 ≤ (buildSelection input).length) ∧
    1 ≤ (buildInsertion input).length ∧
    (∃ tr, buildMerge fuel input = some tr ∧ 1 ≤ tr.length) ∧
    (∃ tr, buildQuick fuel input = some tr ∧ 1 ≤ tr.length) ∧
    buildBubble [] = [] ∧ buildSelection [] = [] := by
  refine ⟨?_, insertion_nonempty input, ?_, ?_, rfl, rfl⟩
  · intro hne
    obtain ⟨f1, h1, _⟩ := bubble_last input hne
    obtain ⟨f2, h2, _⟩ := selection_last input hne
    constructor
    · cases hb : buildBubble input with
      | nil => rw [hb] at h1; simp at h1
      | cons x xs => simp
    · cases hb : buildSelection input with
      | nil => rw [hb] at h2; simp at h2
      | cons x xs => simp
  · obtain ⟨tr, h1, _, _, h4⟩ := buildMerge_spec fuel input hf
    exact ⟨tr, h1, List.length_pos.2 h4⟩
  · obtain ⟨tr, h1, _, _, h4⟩ := buildQuick_spec fuel input (by omega)
    exact ⟨tr, h1, List.length_pos.2 h4⟩

theorem c4_traces_nonempty_witness :
    ((([3, 1, 2] : List Int).length + 3 ≤ 6) ∧ ([3, 1, 2] : List Int) ≠ []) ∧
    (1 ≤ (buildBubble [3, 1, 2]).length ∧ 1 ≤ (buildSelection [3, 1, 2]).length) :=
  ⟨⟨by decide, by decide⟩, (c4_traces_nonempty [3, 1, 2] 6 (by decide)).1 (by decide)⟩

end Sorting
namespace Search

theorem linearLoop_miss {α : Type} [DecidableEq α] [ToString α] (arr : List α) (t : α) :
    ∀ (count i : Nat) (out : List Step),
      (∀ k, i ≤ k → k < i + count → arr[k]? ≠ some t) →
      (linearLoop arr t count i out).map (fun s => (s.activeIndices, s.foundIndex))
        = out.map (fun s => (s.activeIndices, s.foundIndex))
          ++ (List.range' i count).map (fun k : Nat => ([(k : Int)], (none : Option Int)))
          ++ [([], none)] := by
  intro count
  induction count with
  | zero => intro i out _; simp [linearLoop]
  | succ c ih =>
    intro i out h
    have hi : arr[i]? ≠ some t := h i (le_refl _) (by omega)
    rw [linearLoop]
    simp only [if_neg hi]
    rw [ih (i + 1) _ (fun k hk1 hk2 => h k (by omega) (by omega))]
    simp [List.range'_succ]

theorem linearLoop_hit {α : Type} [DecidableEq α] [ToString α] (arr : List α) (t : α) (j : Nat)
    (hj : arr[j]? = some t) :
    ∀ (count i : Nat) (out : List Step),
      i ≤ j → j < i + count →
      (∀ k, i ≤ k → k < j → arr[k]? ≠ some t) →
      (linearLoop arr t count i out).map (fun s => (s.activeIndices, s.foundIndex))
        = out.map (fun s => (s.activeIndices, s.foundIndex))
          ++ (List.range' i (j + 1 - i)).map (fun k : Nat => ([(k : Int)], (none : Option Int)))
          ++ [([(j : Int)], some (j : Int))] := by
  intro count
  induction count with
  | zero => intro i out h1 h2; omega
  | succ c ih =>
    intro i out h1 h2 h
    rw [linearLoop]
    by_cases hij : i = j
    · subst hij
      simp only [if_pos hj]
      have : i + 1 - i = 1 := by omega
      simp [this]
    · have hi : arr[i]? ≠ some t := h i (le_refl _) (by omega)
      simp only [if_neg hi]
      rw [ih (i + 1) _ (by omega) (by omega) (fun k hk1 hk2 => h k (by omega) hk2)]
      have : j + 1 - i = (j + 1 - (i + 1)) + 1 := by omega
      rw [this, List.range'_succ]
      simp

/-- C5: `buildLinearSteps` scans from the left and stops at the first match.  If
the target first occurs at index `i`, the trace is the `i + 1` inspect
snapshots for the indices `0..i` (each with `activeIndices = [k]` and no
`foundIndex`) followed by one snapshot with `foundIndex = i`, `i + 2`
snapshots in all; if it does not occur, the trace is the `n` inspect
snapshots followed by one snapshot with empty `activeIndices` and no
`foundIndex`, `n + 1` snapshots in all. -/
theorem c5_linear_trace {α : Type} [DecidableEq α] [ToString α] (arr : List α) (t : α) :
    (∀ i : Nat, arr[i]? = some t → (∀ k, k < i → arr[k]? ≠ some t) →
      (buildLinearSteps arr t).length = i + 2 ∧
      (buildLinearSteps arr t).map (fun s => (s.activeIndices, s.foundIndex))
        = (List.range (i + 1)).map (fun k : Nat => ([(k : Int)], (none : Option Int)))
          ++ [([(i : Int)], some (i : Int))]) ∧
    (t ∉ arr →
      (buildLinearSteps arr t).length = arr.length + 1 ∧
      (buildLinearSteps arr t).map (fun s => (s.activeIndices, s.foundIndex))
        = (List.range arr.length).map (fun k : Nat => ([(k : Int)], (none : Option Int)))
          ++ [([], none)]) := by
  constructor
  · intro i hi hfirst
    have hlt : i < arr.length := by
      rcases Nat.lt_or_ge i arr.length with h | h
      · exact h
      · rw [List.getElem?_eq_none h] at hi; cases hi
    have h := linearLoop_hit arr t i hi arr.length 0 [] (Nat.zero_le _) (by omega)
      (fun k _ hk => hfirst k hk)
    have hshape : (buildLinearSteps arr t).map (fun s => (s.activeIndices, s.foundIndex))
        = (List.range (i + 1)).map (fun k : Nat => ([(k : Int)], (none : Option Int)))
          ++ [([(i : Int)], some (i : Int))] := by
      unfold buildLinearSteps
      rw [h]
      simp [List.range_eq_range']
    refine ⟨?_, hshape⟩
    have := congrArg List.length hshape
    rw [List.length_map, List.length_append, List.length_map, List.length_range] at this
    exact this
  · intro hmem
    have h := linearLoop_miss arr t arr.length 0 []
      (fun k _ _ hk => hmem (List.getElem?_mem hk))
    have hshape : (buildLinearSteps arr t).map (fun s => (s.activeIndices, s.foundIndex))
        = (List.range arr.length).map (fun k : Nat => ([(k : Int)], (none : Option Int)))
          ++ [([], none)] := by
      unfold buildLinearSteps
      rw [h]
      simp [List.range_eq_range']
    refine ⟨?_, hshape⟩
    have := congrArg List.length hshape
    rw [List.length_map, List.length_append, List.length_map, List.length_range] at this
    exact this

set_option maxRecDepth 100000 in
theorem c5_linear_trace_witness :
    (baseArray[2]? = some 19 ∧ (∀ k, k < 2 → baseArray[k]? ≠ some 19)) ∧
      (buildLinearSteps baseArray 19).length = 2 + 2 ∧
      (buildLinearSteps baseArray 19).map (fun s => (s.activeIndices, s.foundIndex))
        = (List.range (2 + 1)).map (fun k : Nat => ([(k : Int)], (none : Option Int)))
          ++ [([((2 : Nat) : Int)], some ((2 : Nat) : Int))] :=
  ⟨⟨by decide, by decide⟩,
   (c5_linear_trace baseArray 19).1 2 (by decide) (by decide)⟩

end Search
namespace Search

open Loop

theorem getAt_eq {α : Type} (arr : List α) (m : Int) (h0 : 0 ≤ m) (h1 : m < (arr.length : Int)) :
    ∃ (k : Nat) (hk : k < arr.length), m = (k : Int) ∧ getAt arr m = some arr[k] := by
  refine ⟨m.toNat, by omega, by omega, ?_⟩
  unfold getAt
  rw [if_pos h0]
  exact List.getElem?_eq_getElem (by omega)

theorem inRange_ne_nil (n : Nat) (l : List Int) (x : Int) (hx : x ∈ l) (h0 : 0 ≤ x)
    (h1 : x < (n : Int)) : inRange n l ≠ [] := by
  apply List.ne_nil_of_mem (a := x)
  unfold inRange
  rw [List.mem_filter]
  exact ⟨hx, by simp [h0, h1]⟩

theorem inRange_length (n : Nat) (l : List Int) : (inRange n l).length ≤ l.length :=
  List.length_filter_le _ _

theorem midpointChecks_append (a b : List Step) :
    midpointChecks (a ++ b) = midpointChecks a + midpointChecks b := by
  unfold midpointChecks; exact List.countP_append _ _ _

theorem midpointChecks_single (x : Step) :
    midpointChecks [x] = if x.activeIndices.length = 3 then 1 else 0 := by
  unfold midpointChecks
  by_cases h : x.activeIndices.length = 3 <;> simp [List.countP_cons, h]

theorem sorted_le {α : Type} [LinearOrder α] (arr : List α)
    (hs : arr.Pairwise (fun a b => a ≤ b)) (i j : Nat) (hi : i ≤ j) (hj : j < arr.length)
    (hi2 : i < arr.length) : arr[i] ≤ arr[j] := by
  rcases Nat.lt_or_ge i j with h | h
  · exact (List.pairwise_iff_getElem.mp hs) i j (by omega) hj h
  · have : i = j := by omega
    subst this; exact le_refl _

theorem binaryPass_next {α : Type} [LinearOrder α] [ToString α] (arr : List α) (t : α)
    (s s1 : BinaryState) (hI : BinaryInv arr t s) (hstep : binaryPass arr t s = Flow.next s1) :
    BinaryInv arr t s1 ∧
      (s1.right - s1.left + 1).toNat < (s.right - s.left + 1).toNat := by
  obtain ⟨h0, hn, hlr, hout, hsorted, hhalf, hcnt⟩ := hI
  unfold binaryPass at hstep
  by_cases hle : s.left ≤ s.right
  · rw [if_pos hle] at hstep
    have hm0 : 0 ≤ (s.left + s.right) / 2 := by omega
    have hm1 : (s.left + s.right) / 2 < (arr.length : Int) := by omega
    obtain ⟨k, hk, hmk, hget⟩ := getAt_eq arr _ hm0 hm1
    have hone : (1 : Int) * 2 ^ midpointChecks s.out ≤ (arr.length : Int) := by
      refine le_trans ?_ hhalf
      exact mul_le_mul_of_nonneg_right (by omega) (by positivity)
    have hpow : 2 ^ (midpointChecks s.out + 1) ≤ 2 * arr.length := by
      have h1 : (2 : Int) ^ midpointChecks s.out ≤ (arr.length : Int) := by simpa using hone
      have h2 : 2 ^ midpointChecks s.out ≤ arr.length := by exact_mod_cast h1
      rw [pow_succ]; omega
    simp only at hstep
    by_cases hfound : getAt arr ((s.left + s.right) / 2) = some t
    · rw [if_pos hfound] at hstep; cases hstep
    · rw [if_neg hfound] at hstep
      by_cases hlt : ltTarget (getAt arr ((s.left + s.right) / 2)) t = true
      · rw [if_pos hlt] at hstep
        cases hstep
        refine ⟨⟨by simp only; omega, hn, by simp only; omega, ?_, ?_, ?_, ?_⟩,
          by simp only; omega⟩
        · intro x hx
          simp only [List.mem_append, List.mem_singleton] at hx
          rcases hx with (hx | hx) | hx
          · exact hout x hx
          · subst hx; exact ⟨by simp, rfl⟩
          · subst hx
            exact ⟨inRange_ne_nil _ _ s.right (by simp) (by omega) hn, rfl⟩
        · intro hs j hj
          obtain ⟨hj1, hj2⟩ := hsorted hs j hj
          refine ⟨?_, hj2⟩
          simp only
          by_contra hcon
          have hjk : j ≤ k := by omega
          have hjlen : j < arr.length := by omega
          have hle2 := sorted_le arr hs j k hjk hk hjlen
          rw [List.getElem?_eq_getElem hjlen] at hj
          have hjt : arr[j] = t := by simpa using hj
          rw [hget] at hlt
          simp only [ltTarget, decide_eq_true_eq] at hlt
          rw [hjt] at hle2
          exact absurd hlt (not_lt.mpr hle2)
        · simp only [midpointChecks_append, midpointChecks_single]
          have hlen := inRange_length arr.length [(s.left + s.right) / 2 + 1, s.right]
          simp only [List.length_cons, List.length_nil] at hlen
          rw [if_pos (by simp), if_neg (by omega)]
          have h2 : 2 * (s.right - ((s.left + s.right) / 2 + 1) + 1) ≤ s.right - s.left + 1 := by
            omega
          calc (s.right - ((s.left + s.right) / 2 + 1) + 1) * 2 ^ (midpointChecks s.out + 1 + 0)
              = (2 * (s.right - ((s.left + s.right) / 2 + 1) + 1)) * 2 ^ midpointChecks s.out := by
                rw [Nat.add_zero, pow_succ]; ring
            _ ≤ (s.right - s.left + 1) * 2 ^ midpointChecks s.out :=
                mul_le_mul_of_nonneg_right h2 (by positivity)
            _ ≤ (arr.length : Int) := hhalf
        · simp only [midpointChecks_append, midpointChecks_single]
          have hlen := inRange_length arr.length [(s.left + s.right) / 2 + 1, s.right]
          simp only [List.length_cons, List.length_nil] at hlen
          rw [if_pos (by simp), if_neg (by omega)]
          right; exact hpow
      · rw [if_neg hlt] at hstep
        cases hstep
        refine ⟨⟨h0, by simp only; omega, by simp only; omega, ?_, ?_, ?_, ?_⟩,
          by simp only; omega⟩
        · intro x hx
          simp only [List.mem_append, List.mem_singleton] at hx
          rcases hx with (hx | hx) | hx
          · exact hout x hx
          · subst hx; exact ⟨by simp, rfl⟩
          · subst hx
            exact ⟨inRange_ne_nil _ _ s.left (by simp) h0 (by omega), rfl⟩
        · intro hs j hj
          obtain ⟨hj1, hj2⟩ := hsorted hs j hj
          refine ⟨hj1, ?_⟩
          simp only
          by_contra hcon
          have hjk : k ≤ j := by omega
          have hjlen : j < arr.length := by
            rcases Nat.lt_or_ge j arr.length with h | h
            · exact h
            · rw [List.getElem?_eq_none h] at hj; cases hj
          have hle2 := sorted_le arr hs k j hjk hjlen hk
          rw [List.getElem?_eq_getElem hjlen] at hj
          have hjt : arr[j] = t := by simpa using hj
          rw [hget] at hlt hfound
          simp only [ltTarget, decide_eq_true_eq] at hlt
          rw [hjt] at hle2
          have hne : arr[k] ≠ t := fun h => hfound (by rw [h])
          exact hlt (lt_of_le_of_ne hle2 hne)
        · simp only [midpointChecks_append, midpointChecks_single]
          have hlen := inRange_length arr.length [s.left, (s.left + s.right) / 2 - 1]
          simp only [List.length_cons, List.length_nil] at hlen
          rw [if_pos (by simp), if_neg (by omega)]
          have h2 : 2 * ((s.left + s.right) / 2 - 1 - s.left + 1) ≤ s.right - s.left + 1 := by
            omega
          calc ((s.left + s.right) / 2 - 1 - s.left + 1) * 2 ^ (midpointChecks s.out + 1 + 0)
              = (2 * ((s.left + s.right) / 2 - 1 - s.left + 1)) * 2 ^ midpointChecks s.out := by
                rw [Nat.add_zero, pow_succ]; ring
            _ ≤ (s.right - s.left + 1) * 2 ^ midpointChecks s.out :=
                mul_le_mul_of_nonneg_right h2 (by positivity)
            _ ≤ (arr.length : Int) := hhalf
        · simp only [midpointChecks_append, midpointChecks_single]
          have hlen := inRange_length arr.length [s.left, (s.left + s.right) / 2 - 1]
          simp only [List.length_cons, List.length_nil] at hlen
          rw [if_pos (by simp), if_neg (by omega)]
          right; exact hpow
  · rw [if_neg hle] at hstep; cases hstep

theorem binaryPass_done {α : Type} [LinearOrder α] [ToString α] (arr : List α) (t : α)
    (s s1 : BinaryState) (hI : BinaryInv arr t s) (hstep : binaryPass arr t s = Flow.done s1) :
    BinaryPost arr t s1 := by
  obtain ⟨h0, hn, hlr, hout, hsorted, hhalf, hcnt⟩ := hI
  unfold binaryPass at hstep
  by_cases hle : s.left ≤ s.right
  · rw [if_pos hle] at hstep
    have hm0 : 0 ≤ (s.left + s.right) / 2 := by omega
    have hm1 : (s.left + s.right) / 2 < (arr.length : Int) := by omega
    obtain ⟨k, hk, hmk, hget⟩ := getAt_eq arr _ hm0 hm1
    have hone : (1 : Int) * 2 ^ midpointChecks s.out ≤ (arr.length : Int) := by
      refine le_trans ?_ hhalf
      exact mul_le_mul_of_nonneg_right (by omega) (by positivity)
    have hpow : 2 ^ (midpointChecks s.out + 1) ≤ 2 * arr.length := by
      have h1 : (2 : Int) ^ midpointChecks s.out ≤ (arr.length : Int) := by simpa using hone
      have h2 : 2 ^ midpointChecks s.out ≤ arr.length := by exact_mod_cast h1
      rw [pow_succ]; omega
    simp only at hstep
    by_cases hfound : getAt arr ((s.left + s.right) / 2) = some t
    · rw [if_pos hfound] at hstep
      cases hstep
      refine ⟨⟨_, _, rfl, ?_, Or.inl ⟨hle, k, ?_, ?_, ?_⟩⟩, ?_⟩
      · intro x hx
        simp only [List.mem_append, List.mem_singleton] at hx
        rcases hx with hx | hx
        · exact hout x hx
        · subst hx; exact ⟨by simp, rfl⟩
      · simp only; rw [hmk]
      · simp only; rw [hmk]
      · rw [hget] at hfound
        rw [List.getElem?_eq_getElem hk]; exact hfound
      · simp only [midpointChecks_append, midpointChecks_single]
        rw [if_pos (by simp), if_neg (by simp)]
        right; exact hpow
    · rw [if_neg hfound] at hstep
      split_ifs at hstep
  · rw [if_neg hle] at hstep
    cases hstep
    refine ⟨⟨_, _, rfl, hout, Or.inr ⟨by simp only; omega, rfl, rfl, ?_⟩⟩, ?_⟩
    · intro hs hmem
      obtain ⟨j, hj⟩ := List.mem_iff_getElem?.mp hmem
      obtain ⟨hj1, hj2⟩ := hsorted hs j hj
      omega
    · simp only [midpointChecks_append, midpointChecks_single]
      rw [if_neg (by simp)]
      exact hcnt

/-- Total correctness of the loop of `buildBinarySteps`: with more fuel than
the length of the array the loop is left, in a state described by
`BinaryPost`. -/
theorem binary_run {α : Type} [LinearOrder α] [ToString α] (arr : List α) (t : α) (fuel : Nat)
    (hfuel : arr.length + 1 ≤ fuel) :
    ∃ r, Loop.run (binaryPass arr t) fuel
        { left := 0, right := (arr.length : Int) - 1, out := [] } = some r ∧
      BinaryPost arr t r := by
  apply Loop.run_spec (binaryPass arr t) (BinaryInv arr t) (BinaryPost arr t)
    (fun s => (s.right - s.left + 1).toNat)
    (binaryPass_next arr t) (binaryPass_done arr t) fuel
  · refine ⟨le_refl _, by simp only; omega, by simp only; omega, ?_, ?_, ?_, ?_⟩
    · intro x hx; cases hx
    · intro hs k hk
      have hklen : k < arr.length := by
        rcases Nat.lt_or_ge k arr.length with h | h
        · exact h
        · rw [List.getElem?_eq_none h] at hk; cases hk
      simp only; omega
    · simp [midpointChecks]
    · left; rfl
  · simp only; omega

end Search
namespace Search

open Loop

/-- The trace of `buildBinarySteps` is the `out` of the state in which its loop
is left. -/
theorem buildBinarySteps_of_run {α : Type} [LinearOrder α] [ToString α] (arr : List α) (t : α)
    (fuel : Nat) (r : BinaryState)
    (h : Loop.run (binaryPass arr t) fuel
      { left := 0, right := (arr.length : Int) - 1, out := [] } = some r) :
    buildBinarySteps fuel arr t = some r.out := by
  unfold buildBinarySteps
  rw [h]; rfl

/-- C6: on an array in ascending order, with fuel above the length of the array,
`buildBinarySteps` returns a trace whose last snapshot has `foundIndex = i`
for an index `i` with `array[i] = t` when the target `t` occurs in the array,
and has no `foundIndex` when `t` does not occur. -/
theorem c6_binary_search {α : Type} [LinearOrder α] [ToString α] (arr : List α) (t : α)
    (fuel : Nat) (hs : arr.Pairwise (fun a b => a ≤ b)) (hfuel : arr.length + 1 ≤ fuel) :
    ∃ tr last, buildBinarySteps fuel arr t = some tr ∧ tr.getLast? = some last ∧
      (t ∈ arr → ∃ i : Nat, last.foundIndex = some (i : Int) ∧ arr[i]? = some t) ∧
      (t ∉ arr → last.foundIndex = none) := by
  obtain ⟨r, hrun, ⟨front, last, hout, _, hlast⟩, _⟩ := binary_run arr t fuel hfuel
  refine ⟨r.out, last, buildBinarySteps_of_run arr t fuel r hrun, ?_, ?_, ?_⟩
  · rw [hout]; simp
  · intro hmem
    rcases hlast with ⟨_, m, h1, _, h2⟩ | ⟨_, _, _, h⟩
    · exact ⟨m, h1, h2⟩
    · exact absurd hmem (h hs)
  · intro hmem
    rcases hlast with ⟨_, m, _, _, h2⟩ | ⟨_, _, h, _⟩
    · exact absurd (List.getElem?_mem h2) hmem
    · exact h

set_option maxRecDepth 100000 in
theorem c6_binary_search_witness :
    (baseArray.Pairwise (fun a b => a ≤ b) ∧ baseArray.length + 1 ≤ 13) ∧
    ∃ tr last, buildBinarySteps 13 baseArray 61 = some tr ∧ tr.getLast? = some last ∧
      ((61 : Int) ∈ baseArray → ∃ i : Nat, last.foundIndex = some (i : Int) ∧
        baseArray[i]? = some 61) ∧
      ((61 : Int) ∉ baseArray → last.foundIndex = none) :=
  ⟨⟨by decide, by decide⟩, c6_binary_search baseArray 61 13 (by decide) (by decide)⟩

/-- C7: for every target, whatever ordered number type `α` the array values and
the target are read in (through a map `f` of the integers), the binary-search
trace over the built-in array has at most 4 midpoint-comparison snapshots;
for target 42 the trace ends with `foundIndex = 5`. -/
theorem c7_binary_comparisons {α : Type} [LinearOrder α] [ToString α] (f : Int → α) (t : α)
    (fuel : Nat) (hfuel : 13 ≤ fuel) :
    (∃ tr, buildBinarySteps fuel (baseArray.map f) t = some tr ∧ midpointChecks tr ≤ 4) ∧
    (∃ tr last, buildBinarySteps fuel (baseArray.map f) (f 42) = some tr ∧
      tr.getLast? = some last ∧ last.foundIndex = some 5) := by
  have hlen : (baseArray.map f).length = 12 := by simp [baseArray]
  constructor
  · obtain ⟨r, hrun, _, hcnt⟩ := binary_run (baseArray.map f) t fuel (by omega)
    refine ⟨r.out, buildBinarySteps_of_run _ t fuel r hrun, ?_⟩
    rcases hcnt with h | h
    · omega
    · rw [hlen] at h
      by_contra hcon
      have h5 : 5 ≤ midpointChecks r.out := by omega
      have := Nat.pow_le_pow_right (by norm_num : 0 < 2) h5
      omega
  · have hrun : ∃ r, Loop.run (binaryPass (baseArray.map f) (f 42)) 1
        { left := 0, right := ((baseArray.map f).length : Int) - 1, out := [] } = some r ∧
        ∃ last, r.out.getLast? = some last ∧ last.foundIndex = some 5 := by
      rw [hlen]
      simp [Loop.run, binaryPass, getAt, baseArray]
    obtain ⟨r, hr, last, hlast, hfound⟩ := hrun
    have hr2 := Loop.run_mono _ 1 fuel _ r hr (by omega)
    exact ⟨r.out, last, buildBinarySteps_of_run _ _ fuel r hr2, hlast, hfound⟩

theorem c7_binary_comparisons_witness :
    (13 ≤ 13) ∧
    (∃ tr, buildBinarySteps 13 (baseArray.map id) 100 = some tr ∧ midpointChecks tr ≤ 4) ∧
    (∃ tr last, buildBinarySteps 13 (baseArray.map id) (id 42) = some tr ∧
      tr.getLast? = some last ∧ last.foundIndex = some 5) :=
  ⟨le_refl _, c7_binary_comparisons id 100 13 (le_refl _)⟩

/-- C8: for every target that does not occur in the built-in array (read in any
ordered number type `α` through a map `f` of the integers), the loop of
`buildBinarySteps` is left with `left > right`, and the trace is snapshots
with non-empty `activeIndices` followed by one last snapshot with empty
`activeIndices` and no `foundIndex`. -/
theorem c8_binary_not_found {α : Type} [LinearOrder α] [ToString α] (f : Int → α) (t : α)
    (fuel : Nat) (hfuel : 13 ≤ fuel) (habs : t ∉ baseArray.map f) :
    ∃ r front last,
      Loop.run (binaryPass (baseArray.map f) t) fuel
        { left := 0, right := ((baseArray.map f).length : Int) - 1, out := [] } = some r ∧
      r.right < r.left ∧
      buildBinarySteps fuel (baseArray.map f) t = some (front ++ [last]) ∧
      last.activeIndices = [] ∧ last.foundIndex = none ∧
      ∀ x ∈ front, x.activeIndices ≠ [] := by
  have hlen : (baseArray.map f).length = 12 := by simp [baseArray]
  obtain ⟨r, hrun, ⟨front, last, hout, hfront, hlast⟩, _⟩ :=
    binary_run (baseArray.map f) t fuel (by omega)
  rcases hlast with ⟨_, m, _, _, h2⟩ | ⟨hlr, h1, h2, _⟩
  · exact absurd (List.getElem?_mem h2) habs
  · refine ⟨r, front, last, hrun, hlr, ?_, h1, h2, fun x hx => (hfront x hx).1⟩
    rw [← hout]
    exact buildBinarySteps_of_run _ t fuel r hrun

set_option maxRecDepth 100000 in
theorem c8_binary_not_found_witness :
    (13 ≤ 13 ∧ (100 : Int) ∉ baseArray.map id) ∧
    ∃ r front last,
      Loop.run (binaryPass (baseArray.map id) (100 : Int)) 13
        { left := 0, right := ((baseArray.map id).length : Int) - 1, out := [] } = some r ∧
      r.right < r.left ∧
      buildBinarySteps 13 (baseArray.map id) (100 : Int) = some (front ++ [last]) ∧
      last.activeIndices = [] ∧ last.foundIndex = none ∧
      ∀ x ∈ front, x.activeIndices ≠ [] :=
  ⟨⟨le_refl _, by decide⟩, c8_binary_not_found id 100 13 (le_refl _) (by decide)⟩

end Search
namespace Search

open Loop

theorem buildGraphSteps_mono (kind : String) (f f2 : Nat) (tr : List GraphStep)
    (h : buildGraphSteps f kind = some tr) (hle : f ≤ f2) :
    buildGraphSteps f2 kind = some tr := by
  unfold buildGraphSteps at h ⊢
  split_ifs at h ⊢
  · obtain ⟨r, hr, hout⟩ := Option.map_eq_some'.mp h
    rw [Loop.run_mono _ f f2 _ r hr hle]; simpa using hout
  · obtain ⟨r, hr, hout⟩ := Option.map_eq_some'.mp h
    rw [Loop.run_mono _ f f2 _ r hr hle]; simpa using hout

theorem buildGraphSteps_dfs (kind : String) (fuel : Nat) (h : kind ≠ "bfs") :
    buildGraphSteps fuel kind = buildGraphSteps fuel "dfs" := by
  unfold buildGraphSteps
  rw [if_neg h, if_neg (by decide)]

/-- A property of the trace built with 8 passes holds of the trace built with
any larger fuel. -/
theorem graph_trace_of (kind : String) (P : List GraphStep → Prop) (fuel : Nat) (hf : 8 ≤ fuel)
    (hsome : (buildGraphSteps 8 kind).isSome = true)
    (hP : P ((buildGraphSteps 8 kind).get hsome)) :
    ∃ tr, buildGraphSteps fuel kind = some tr ∧ P tr :=
  ⟨_, buildGraphSteps_mono kind 8 fuel _ (Option.some_get hsome).symm hf, hP⟩

set_option maxRecDepth 100000 in
/-- C9: with enough fuel, the BFS trace from node A on the built-in graph of 7
nodes and 10 edges dequeues each of the 7 nodes exactly once, its final
`seen` list holds the 7 nodes without repeats, and each node other than the
start A is the `activeNode` of exactly one Discover snapshot (A of none). -/
theorem c9_bfs_visits_once (fuel : Nat) (hf : 8 ≤ fuel) :
    graphNodes.length = 7 ∧ graphEdges.length = 10 ∧
    ∃ tr, buildGraphSteps fuel "bfs" = some tr ∧
      (∀ n ∈ graphNodes, dequeues tr n = 1) ∧
      (∃ last, tr.getLast? = some last ∧ last.seen.Nodup ∧ last.seen.length = 7 ∧
        ∀ n ∈ graphNodes, n ∈ last.seen) ∧
      (∀ n ∈ graphNodes, discovers tr n = if n = "A" then 0 else 1) := by
  refine ⟨rfl, rfl, ?_⟩
  apply graph_trace_of "bfs" _ fuel hf (by decide!)
  refine ⟨by decide!, ⟨graphFinish "Breadth First Search"
    { seen := ["A", "B", "C", "G", "D", "F", "E"], pending := [], out := [] },
    by decide!, by decide!, by decide!, by decide!⟩, by decide!⟩

theorem c9_bfs_visits_once_witness :
    (8 ≤ 8) ∧ ∃ tr, buildGraphSteps 8 "bfs" = some tr ∧
      (∀ n ∈ graphNodes, dequeues tr n = 1) ∧
      (∃ last, tr.getLast? = some last ∧ last.seen.Nodup ∧ last.seen.length = 7 ∧
        ∀ n ∈ graphNodes, n ∈ last.seen) ∧
      (∀ n ∈ graphNodes, discovers tr n = if n = "A" then 0 else 1) :=
  ⟨le_refl _, (c9_bfs_visits_once 8 (le_refl _)).2.2⟩

end Search
namespace Search

open Loop

theorem chain_of_zip_all {α : Type} (R : α → α → Bool) :
    ∀ tr : List α, (tr.zip tr.tail).all (fun p => R p.1 p.2) = true →
      List.Chain' (fun a b => R a b = true) tr
  | [], _ => List.chain'_nil
  | [_], _ => List.chain'_singleton _
  | a :: b :: rest, h => by
    simp only [List.tail_cons, List.zip_cons_cons, List.all_cons, Bool.and_eq_true] at h
    exact List.chain'_cons.mpr ⟨h.1, chain_of_zip_all R (b :: rest) (by simpa using h.2)⟩

theorem seen_chain (tr : List GraphStep)
    (h : (tr.zip tr.tail).all (fun p => p.1.seen.isPrefixOf p.2.seen) = true) :
    List.Chain' (fun a b => a.seen <+: b.seen) tr :=
  (chain_of_zip_all (fun a b => a.seen.isPrefixOf b.seen) tr h).imp
    (fun {_ _} h => List.isPrefixOf_iff_prefix.mp h)

set_option maxRecDepth 100000 in
/-- C10: with enough fuel, in the BFS trace and in the DFS trace (every `kind`
other than `bfs`) built by `buildGraphSteps`, the `seen` list of each
snapshot is a prefix of the `seen` list of the next snapshot, no node id
occurs twice in any `seen` list, and the `seen` list of the last snapshot
contains every node of the built-in graph. -/
theorem c10_seen_monotonic (kind : String) (fuel : Nat) (hf : 8 ≤ fuel) :
    ∃ tr, buildGraphSteps fuel kind = some tr ∧
      List.Chain' (fun a b => a.seen <+: b.seen) tr ∧
      (∀ s ∈ tr, s.seen.Nodup) ∧
      ∃ last, tr.getLast? = some last ∧ ∀ n ∈ graphNodes, n ∈ last.seen := by
  by_cases hk : kind = "bfs"
  · subst hk
    apply graph_trace_of "bfs" _ fuel hf (by decide!)
    exact ⟨seen_chain _ (by decide!), by decide!, graphFinish "Breadth First Search"
      { seen := ["A", "B", "C", "G", "D", "F", "E"], pending := [], out := [] },
      by decide!, by decide!⟩
  · rw [buildGraphSteps_dfs kind fuel hk]
    apply graph_trace_of "dfs" _ fuel hf (by decide!)
    exact ⟨seen_chain _ (by decide!), by decide!, graphFinish "Depth First Search"
      { seen := ["A", "G", "C", "B", "D", "E", "F"], pending := [], out := [] },
      by decide!, by decide!⟩

theorem c10_seen_monotonic_witness :
    (8 ≤ 8) ∧ ∃ tr, buildGraphSteps 8 "dfs" = some tr ∧
      List.Chain' (fun a b => a.seen <+: b.seen) tr ∧
      (∀ s ∈ tr, s.seen.Nodup) ∧
      ∃ last, tr.getLast? = some last ∧ ∀ n ∈ graphNodes, n ∈ last.seen :=
  ⟨le_refl _, c10_seen_monotonic "dfs" 8 (le_refl _)⟩

end Search
namespace Playback

/-! # Playback controllers: timers, status and display -/

theorem applyCurrent_frame {σ : Type} (ready : String) (text : σ → String) (c : Ctl σ) :
    (applyCurrent ready text c).mode = c.mode ∧ (applyCurrent ready text c).steps = c.steps ∧
    (applyCurrent ready text c).idx = c.idx ∧ (applyCurrent ready text c).timer = c.timer ∧
    (applyCurrent ready text c).host = c.host ∧ (applyCurrent ready text c).speed = c.speed ∧
    (applyCurrent ready text c).base = c.base := by
  unfold applyCurrent
  split_ifs
  · exact ⟨rfl, rfl, rfl, rfl, rfl, rfl, rfl⟩
  · cases c.steps[c.idx.toNat]? <;> exact ⟨rfl, rfl, rfl, rfl, rfl, rfl, rfl⟩

/-- In range, `applyCurrent` writes the status and the display determined by
the cursor and the trace. -/
theorem applyCurrent_synced {σ : Type} (ready : String) (text : σ → String) (c : Ctl σ)
    (h : CursorInRange c) :
    StatusSynced ready text (applyCurrent ready text c) ∧
      ShownSynced (applyCurrent ready text c) := by
  have hlt : ¬ c.idx < 0 → c.idx.toNat < c.steps.length := by
    intro hneg; unfold CursorInRange at h; omega
  unfold StatusSynced ShownSynced statusFor applyCurrent
  by_cases hneg : c.idx < 0
  · simp [hneg]
  · simp [hneg, List.getElem?_eq_getElem (hlt hneg)]

theorem stopPlaying_frame {σ : Type} (c : Ctl σ) :
    (stopPlaying c).mode = c.mode ∧ (stopPlaying c).steps = c.steps ∧
    (stopPlaying c).idx = c.idx ∧ (stopPlaying c).status = c.status ∧
    (stopPlaying c).shown = c.shown ∧ (stopPlaying c).speed = c.speed ∧
    (stopPlaying c).base = c.base := by
  unfold stopPlaying
  cases c.timer <;> exact ⟨rfl, rfl, rfl, rfl, rfl, rfl, rfl⟩

/-- After `stopPlaying` no timer is active. -/
theorem stopPlaying_timer {σ : Type} (c : Ctl σ) (h : TimerInv c) :
    (stopPlaying c).timer = none ∧ (stopPlaying c).host.timers = [] := by
  unfold TimerInv at h
  unfold stopPlaying
  cases ht : c.timer with
  | none =>
    rw [ht] at h
    exact ⟨by simp [ht], by simpa using h⟩
  | some id =>
    rw [ht] at h
    refine ⟨rfl, ?_⟩
    simp only [clearInterval]
    rw [List.filter_eq_nil_iff]
    intro p hp
    have : p.1 ∈ c.host.timers.map (fun p => p.1) := List.mem_map_of_mem _ hp
    rw [h] at this
    simpa using this

theorem startPlaying_frame {σ : Type} (c : Ctl σ) :
    (startPlaying c).mode = c.mode ∧ (startPlaying c).steps = c.steps ∧
    (startPlaying c).idx = c.idx ∧ (startPlaying c).status = c.status ∧
    (startPlaying c).shown = c.shown ∧ (startPlaying c).speed = c.speed ∧
    (startPlaying c).base = c.base := by
  unfold startPlaying
  exact stopPlaying_frame c

/-- After `startPlaying` exactly one timer is active: a new one, with the value
of the speed control as its delay. -/
theorem startPlaying_timer {σ : Type} (c : Ctl σ) (h : TimerInv c) :
    ∃ id, (startPlaying c).timer = some id ∧ (startPlaying c).host.timers = [(id, c.speed)] := by
  obtain ⟨_, h2⟩ := stopPlaying_timer c h
  refine ⟨(stopPlaying c).host.nextId, rfl, ?_⟩
  simp only [startPlaying, setInterval, h2, List.nil_append]
  rw [(stopPlaying_frame c).2.2.2.2.2.1]

theorem timerInv_of_none {σ : Type} (c : Ctl σ) (h1 : c.timer = none) (h2 : c.host.timers = []) :
    TimerInv c := by
  unfold TimerInv; rw [h1, h2]; rfl

theorem timerInv_stopPlaying {σ : Type} (c : Ctl σ) (h : TimerInv c) :
    TimerInv (stopPlaying c) :=
  timerInv_of_none _ (stopPlaying_timer c h).1 (stopPlaying_timer c h).2

theorem timerInv_startPlaying {σ : Type} (c : Ctl σ) (h : TimerInv c) :
    TimerInv (startPlaying c) := by
  obtain ⟨id, h1, h2⟩ := startPlaying_timer c h
  unfold TimerInv; rw [h1, h2]; rfl

theorem timerInv_congr {σ : Type} (c d : Ctl σ) (h : TimerInv c) (h1 : d.timer = c.timer)
    (h2 : d.host = c.host) : TimerInv d := by
  unfold TimerInv at *; rw [h1, h2]; exact h

theorem timerInv_applyCurrent {σ : Type} (ready : String) (text : σ → String) (c : Ctl σ)
    (h : TimerInv c) : TimerInv (applyCurrent ready text c) :=
  timerInv_congr c _ h (applyCurrent_frame ready text c).2.2.2.1
    (applyCurrent_frame ready text c).2.2.2.2.1

theorem timerInv_stepForward {σ : Type} (ready : String) (text : σ → String) (c : Ctl σ)
    (h : TimerInv c) : TimerInv (stepForward ready text c) := by
  unfold stepForward
  split_ifs
  · exact h
  · exact timerInv_applyCurrent _ _ _ (timerInv_congr c _ h rfl rfl)

theorem timerInv_stepBack {σ : Type} (ready : String) (text : σ → String) (c : Ctl σ)
    (h : TimerInv c) : TimerInv (stepBack ready text c) := by
  unfold stepBack
  split_ifs
  · exact h
  · exact timerInv_applyCurrent _ _ _ (timerInv_congr c _ h rfl rfl)

theorem timerInv_speedInput {σ : Type} (v : Int) (c : Ctl σ) (h : TimerInv c) :
    TimerInv (speedInput v c) := by
  unfold speedInput
  cases ht : c.timer with
  | none => simp only [ht]; exact timerInv_congr c _ h ht.symm rfl
  | some id => simp only [ht]; exact timerInv_startPlaying _ (timerInv_congr c _ h ht.symm rfl)

theorem timerInv_tick {σ : Type} (ready : String) (text : σ → String) (id : Nat) (c : Ctl σ)
    (h : TimerInv c) : TimerInv (tick ready text id c) := by
  unfold tick
  split_ifs
  · exact timerInv_stopPlaying c h
  · exact timerInv_stepForward ready text c h
  · exact h

theorem timerInv_initial {σ : Type} (mode : String) (speed : Int) :
    TimerInv (initial mode speed : Ctl σ) := by
  simp [TimerInv, initial]

end Playback
namespace Playback

theorem shownSynced_congr {σ : Type} (c d : Ctl σ) (h : ShownSynced c) (h1 : d.idx = c.idx)
    (h2 : d.steps = c.steps) (h3 : d.shown = c.shown) : ShownSynced d := by
  unfold ShownSynced at *; rw [h1, h2, h3]; exact h

theorem statusSynced_congr {σ : Type} (ready : String) (text : σ → String) (c d : Ctl σ)
    (h : StatusSynced ready text c) (h1 : d.idx = c.idx) (h2 : d.steps = c.steps)
    (h3 : d.status = c.status) : StatusSynced ready text d := by
  unfold StatusSynced statusFor at *; rw [h1, h2, h3]; exact h

theorem wellFormed_applyCurrent {σ : Type} (ready : String) (text : σ → String) (c : Ctl σ)
    (h1 : CursorInRange c) (h2 : TimerInv c) : WellFormed (applyCurrent ready text c) :=
  ⟨cursorInRange_applyCurrent ready text c h1, timerInv_applyCurrent ready text c h2,
    (applyCurrent_synced ready text c h1).2⟩

theorem wellFormed_stepForward {σ : Type} (ready : String) (text : σ → String) (c : Ctl σ)
    (h : WellFormed c) : WellFormed (stepForward ready text c) := by
  refine ⟨cursorInRange_stepForward _ _ c h.1, timerInv_stepForward _ _ c h.2.1, ?_⟩
  unfold stepForward
  split_ifs with hc
  · exact h.2.2
  · refine (applyCurrent_synced ready text _ ?_).2
    have := h.1
    unfold CursorInRange at *
    simp only [not_or, not_le] at hc
    simp only
    omega

theorem wellFormed_stepBack {σ : Type} (ready : String) (text : σ → String) (c : Ctl σ)
    (h : WellFormed c) : WellFormed (stepBack ready text c) := by
  refine ⟨cursorInRange_stepBack _ _ c h.1, timerInv_stepBack _ _ c h.2.1, ?_⟩
  unfold stepBack
  split_ifs with hc
  · exact h.2.2
  · refine (applyCurrent_synced ready text _ ?_).2
    have := h.1
    unfold CursorInRange at *
    simp only
    omega

theorem wellFormed_stopPlaying {σ : Type} (c : Ctl σ) (h : WellFormed c) :
    WellFormed (stopPlaying c) :=
  ⟨cursorInRange_stopPlaying c h.1, timerInv_stopPlaying c h.2.1,
    shownSynced_congr c _ h.2.2 (stopPlaying_frame c).2.2.1 (stopPlaying_frame c).2.1
      (stopPlaying_frame c).2.2.2.2.1⟩

theorem wellFormed_startPlaying {σ : Type} (c : Ctl σ) (h : WellFormed c) :
    WellFormed (startPlaying c) :=
  ⟨cursorInRange_startPlaying c h.1, timerInv_startPlaying c h.2.1,
    shownSynced_congr c _ h.2.2 (startPlaying_frame c).2.2.1 (startPlaying_frame c).2.1
      (startPlaying_frame c).2.2.2.2.1⟩

theorem speedInput_frame {σ : Type} (v : Int) (c : Ctl σ) :
    (speedInput v c).mode = c.mode ∧ (speedInput v c).steps = c.steps ∧
    (speedInput v c).idx = c.idx ∧ (speedInput v c).status = c.status ∧
    (speedInput v c).shown = c.shown ∧ (speedInput v c).speed = v ∧
    (speedInput v c).base = c.base := by
  unfold speedInput
  cases ht : c.timer with
  | none => exact ⟨rfl, rfl, rfl, rfl, rfl, rfl, rfl⟩
  | some id => exact startPlaying_frame _

theorem wellFormed_speedInput {σ : Type} (v : Int) (c : Ctl σ) (h : WellFormed c) :
    WellFormed (speedInput v c) :=
  ⟨cursorInRange_speedInput v c h.1, timerInv_speedInput v c h.2.1,
    shownSynced_congr c _ h.2.2 (speedInput_frame v c).2.2.1 (speedInput_frame v c).2.1
      (speedInput_frame v c).2.2.2.2.1⟩

theorem wellFormed_tick {σ : Type} (ready : String) (text : σ → String) (id : Nat) (c : Ctl σ)
    (h : WellFormed c) : WellFormed (tick ready text id c) := by
  unfold tick
  split_ifs
  · exact wellFormed_stopPlaying c h
  · exact wellFormed_stepForward ready text c h
  · exact h

theorem wellFormed_initial {σ : Type} (mode : String) (speed : Int) :
    WellFormed (initial mode speed : Ctl σ) :=
  ⟨cursorInRange_initial _ _, timerInv_initial _ _, by simp [ShownSynced, initial]⟩

theorem wellFormed_foldl {σ ε : Type} (handle : Ctl σ → ε → Ctl σ)
    (hstep : ∀ c e, WellFormed c → WellFormed (handle c e)) (evs : List ε) (c : Ctl σ)
    (h : WellFormed c) : WellFormed (evs.foldl handle c) := by
  induction evs generalizing c with
  | nil => exact h
  | cons e rest ih => exact ih _ (hstep c e h)

end Playback

namespace SearchPage

open Playback

theorem search_wellFormed_reset {σ : Type} (c : Ctl σ) (h : WellFormed c) :
    WellFormed ({ resetState (stopPlaying c) with shown := none } : Ctl σ) := by
  have ht := wellFormed_stopPlaying c h
  refine ⟨by simp [CursorInRange, resetState], timerInv_congr _ _ ht.2.1 rfl rfl, ?_⟩
  simp [ShownSynced, resetState]

theorem search_wellFormed_setMode {σ : Type} (m : String) (c : Ctl σ) (h : WellFormed c) :
    WellFormed (setMode m c) := by
  unfold setMode
  split_ifs
  · exact search_wellFormed_reset _
      ⟨h.1, timerInv_congr c _ h.2.1 rfl rfl, shownSynced_congr c _ h.2.2 rfl rfl rfl⟩
  · exact ⟨h.1, timerInv_congr c _ h.2.1 rfl rfl, shownSynced_congr c _ h.2.2 rfl rfl rfl⟩

theorem search_wellFormed_buildSteps {σ τ : Type} (text : σ → String)
    (gen : String → τ → List σ) (target : Option τ) (c : Ctl σ) (h : WellFormed c) :
    WellFormed (buildSteps text gen target c) := by
  unfold buildSteps
  cases target with
  | none => exact ⟨h.1, timerInv_congr c _ h.2.1 rfl rfl, shownSynced_congr c _ h.2.2 rfl rfl rfl⟩
  | some t =>
    exact wellFormed_applyCurrent _ _ _ (by simp [CursorInRange])
      (timerInv_congr c _ h.2.1 rfl rfl)

theorem search_wellFormed_handle {σ τ : Type} (text : σ → String) (gen : String → τ → List σ)
    (c : Ctl σ) (e : Event τ) (h : WellFormed c) : WellFormed (handle text gen c e) := by
  cases e with
  | setMode m => exact search_wellFormed_setMode m c h
  | newArray _ => exact h
  | build target => exact search_wellFormed_buildSteps text gen target c h
  | play => exact wellFormed_startPlaying c h
  | pause => exact wellFormed_stopPlaying c h
  | stepForward => exact wellFormed_stepForward _ _ c h
  | stepBack => exact wellFormed_stepBack _ _ c h
  | reset => exact search_wellFormed_reset c h
  | speed v => exact wellFormed_speedInput v c h
  | tick id => exact wellFormed_tick _ _ id c h

theorem search_wellFormed_init {σ τ : Type} (text : σ → String) (gen : String → τ → List σ)
    (requested : Option String) (target : Option τ) (c : Ctl σ) (h : WellFormed c) :
    WellFormed (init text gen requested target c) := by
  unfold init
  cases requested with
  | none => exact search_wellFormed_setMode _ c h
  | some r =>
    simp only
    split_ifs
    · exact search_wellFormed_buildSteps _ _ _ _ (search_wellFormed_setMode _ c h)
    · exact search_wellFormed_setMode _ c h

end SearchPage

namespace SortPage

open Playback

theorem sort_wellFormed_fresh {σ : Type} (text : σ → String) (c d : Ctl σ) (h : WellFormed c)
    (hi : d.idx = -1) (h1 : d.timer = (stopPlaying c).timer) (h2 : d.host = (stopPlaying c).host) :
    WellFormed (applyCurrent ready text d) :=
  wellFormed_applyCurrent _ _ _ (by unfold CursorInRange; rw [hi]; omega)
    (timerInv_congr _ _ (timerInv_stopPlaying c h.2.1) h1 h2)

theorem sort_wellFormed_setAlgo {σ : Type} (text : σ → String) (m : String) (c : Ctl σ)
    (h : WellFormed c) : WellFormed (setAlgo text m c) := by
  unfold setAlgo
  split_ifs
  · exact sort_wellFormed_fresh text { c with mode := m } _
      ⟨h.1, timerInv_congr c _ h.2.1 rfl rfl, shownSynced_congr c _ h.2.2 rfl rfl rfl⟩ rfl rfl rfl
  · exact h

theorem sort_wellFormed_resetArray {σ : Type} (text : σ → String) (arr : List Int) (c : Ctl σ)
    (h : WellFormed c) : WellFormed (resetArray text arr c) :=
  sort_wellFormed_fresh text c _ h rfl rfl rfl

theorem sort_wellFormed_buildSteps {σ : Type} (text : σ → String)
    (gen : String → List Int → List σ) (c : Ctl σ) (h : WellFormed c) :
    WellFormed (buildSteps text gen c) :=
  wellFormed_applyCurrent _ _ _ (by simp [CursorInRange]) (timerInv_congr c _ h.2.1 rfl rfl)

theorem sort_wellFormed_handle {σ τ : Type} (text : σ → String)
    (gen : String → List Int → List σ) (c : Ctl σ) (e : Event τ) (h : WellFormed c) :
    WellFormed (handle text gen c e) := by
  cases e with
  | setMode m => exact sort_wellFormed_setAlgo text m c h
  | newArray arr => exact sort_wellFormed_resetArray text arr c h
  | build _ => exact sort_wellFormed_buildSteps text gen _ (wellFormed_stopPlaying c h)
  | play => exact wellFormed_startPlaying c h
  | pause => exact wellFormed_stopPlaying c h
  | stepForward => exact wellFormed_stepForward _ _ c h
  | stepBack => exact wellFormed_stepBack _ _ c h
  | reset => exact sort_wellFormed_fresh text c _ h rfl rfl rfl
  | speed v => exact wellFormed_speedInput v c h
  | tick id => exact wellFormed_tick _ _ id c h

theorem sort_wellFormed_init {σ : Type} (text : σ → String) (gen : String → List Int → List σ)
    (requested : Option String) (arr : List Int) (c : Ctl σ) (h : WellFormed c) :
    WellFormed (init text gen requested arr c) := by
  unfold init
  have h1 := sort_wellFormed_setAlgo text "bubble" c h
  cases requested with
  | none => exact sort_wellFormed_resetArray _ _ _ h1
  | some r =>
    simp only
    split_ifs
    · exact sort_wellFormed_buildSteps _ _ _
        (sort_wellFormed_resetArray _ _ _ (sort_wellFormed_setAlgo _ _ _ h1))
    · exact sort_wellFormed_resetArray _ _ _ h1

end SortPage

namespace GreedyPage

open Playback

theorem greedy_wellFormed_fresh {σ : Type} (text : σ → String) (c d : Ctl σ) (h : WellFormed c)
    (hi : d.idx = -1) (h1 : d.timer = (stopPlaying c).timer) (h2 : d.host = (stopPlaying c).host) :
    WellFormed (applyCurrent ready text d) :=
  wellFormed_applyCurrent _ _ _ (by unfold CursorInRange; rw [hi]; omega)
    (timerInv_congr _ _ (timerInv_stopPlaying c h.2.1) h1 h2)

theorem greedy_wellFormed_setMode {σ : Type} (text : σ → String) (m : String) (c : Ctl σ)
    (h : WellFormed c) : WellFormed (setMode text m c) := by
  unfold setMode
  split_ifs
  · exact greedy_wellFormed_fresh text { c with mode := m } _
      ⟨h.1, timerInv_congr c _ h.2.1 rfl rfl, shownSynced_congr c _ h.2.2 rfl rfl rfl⟩ rfl rfl rfl
  · exact ⟨h.1, timerInv_congr c _ h.2.1 rfl rfl, shownSynced_congr c _ h.2.2 rfl rfl rfl⟩

theorem greedy_wellFormed_buildSteps {σ : Type} (text : σ → String) (gen : String → List σ)
    (c : Ctl σ) (h : WellFormed c) : WellFormed (buildSteps text gen c) :=
  wellFormed_applyCurrent _ _ _ (by simp [CursorInRange]) (timerInv_congr c _ h.2.1 rfl rfl)

theorem greedy_wellFormed_handle {σ τ : Type} (text : σ → String) (gen : String → List σ)
    (c : Ctl σ) (e : Event τ) (h : WellFormed c) : WellFormed (handle text gen c e) := by
  cases e with
  | setMode m => exact greedy_wellFormed_setMode text m c h
  | newArray _ => exact h
  | build _ => exact greedy_wellFormed_buildSteps text gen c h
  | play => exact wellFormed_startPlaying c h
  | pause => exact wellFormed_stopPlaying c h
  | stepForward => exact wellFormed_stepForward _ _ c h
  | stepBack => exact wellFormed_stepBack _ _ c h
  | reset => exact greedy_wellFormed_fresh text c _ h rfl rfl rfl
  | speed v => exact wellFormed_speedInput v c h
  | tick id => exact wellFormed_tick _ _ id c h

theorem greedy_wellFormed_init {σ : Type} (text : σ → String) (gen : String → List σ)
    (requested : Option String) (c : Ctl σ) (h : WellFormed c) :
    WellFormed (init text gen requested c) := by
  unfold init
  cases requested with
  | none => exact greedy_wellFormed_setMode _ _ c h
  | some r =>
    simp only
    split_ifs
    · exact greedy_wellFormed_buildSteps _ _ _ (greedy_wellFormed_setMode _ _ c h)
    · exact greedy_wellFormed_setMode _ _ c h

end GreedyPage
namespace Playback

/-- The transport functions are the same in the three controllers, up to the
ready message, and every event keeps a state well formed. -/
theorem controllers_common {σ τ : Type} (text : σ → String) (genSearch : String → τ → List σ)
    (genSort : String → List Int → List σ) (genGreedy : String → List σ)
    (p : String × (Ctl σ → Event τ → Ctl σ))
    (hp : p ∈ controllers text genSearch genSort genGreedy) :
    (∀ c, p.2 c Event.play = startPlaying c) ∧
    (∀ c, p.2 c Event.pause = stopPlaying c) ∧
    (∀ c, p.2 c Event.stepForward = stepForward p.1 text c) ∧
    (∀ c, p.2 c Event.stepBack = stepBack p.1 text c) ∧
    (∀ c v, p.2 c (Event.speed v) = speedInput v c) ∧
    (∀ c id, p.2 c (Event.tick id) = tick p.1 text id c) ∧
    (∀ c e, WellFormed c → WellFormed (p.2 c e)) := by
  simp only [controllers, List.mem_cons, List.mem_singleton, List.not_mem_nil, or_false] at hp
  rcases hp with rfl | rfl | rfl
  · exact ⟨fun _ => rfl, fun _ => rfl, fun _ => rfl, fun _ => rfl, fun _ _ => rfl,
      fun _ _ => rfl, SearchPage.search_wellFormed_handle text genSearch⟩
  · exact ⟨fun _ => rfl, fun _ => rfl, fun _ => rfl, fun _ => rfl, fun _ _ => rfl,
      fun _ _ => rfl, SortPage.sort_wellFormed_handle text genSort⟩
  · exact ⟨fun _ => rfl, fun _ => rfl, fun _ => rfl, fun _ => rfl, fun _ _ => rfl,
      fun _ _ => rfl, GreedyPage.greedy_wellFormed_handle text genGreedy⟩

theorem applyCurrent_ready {σ : Type} (ready : String) (text : σ → String) (c : Ctl σ)
    (h : c.idx = -1) :
    applyCurrent ready text c = { c with status := ready, shown := none } := by
  unfold applyCurrent
  rw [if_pos (by omega)]

theorem stopPlaying_timer_none {σ : Type} (c : Ctl σ) : (stopPlaying c).timer = none := by
  unfold stopPlaying
  cases ht : c.timer with
  | none => simpa using ht
  | some id => rfl

/-- C21 (what the code does): the build handler of the sort page stops the
timer before it builds, but `buildSteps` of the search page and of the greedy
page, which are their build handlers, leave `timer` and the browser timers as
they are: after play and then build, the interval started by play is still
active.  In all three the new trace replaces the old one and the cursor is -1. -/
theorem c21_build_timer {σ τ : Type} (text : σ → String) (genSearch : String → τ → List σ)
    (genSort : String → List Int → List σ) (genGreedy : String → List σ) (t : τ) :
    (∀ c : Ctl σ,
      (SearchPage.handle text genSearch c (Event.build (some t))).steps = genSearch c.mode t ∧
      (SearchPage.handle text genSearch c (Event.build (some t))).idx = -1 ∧
      (SearchPage.handle text genSearch c (Event.build (some t))).timer = c.timer ∧
      (SearchPage.handle text genSearch c (Event.build (some t))).host = c.host) ∧
    (∀ c : Ctl σ,
      (GreedyPage.handle text genGreedy c (Event.build (some t))).steps = genGreedy c.mode ∧
      (GreedyPage.handle text genGreedy c (Event.build (some t))).idx = -1 ∧
      (GreedyPage.handle text genGreedy c (Event.build (some t))).timer = c.timer ∧
      (GreedyPage.handle text genGreedy c (Event.build (some t))).host = c.host) ∧
    (∀ c : Ctl σ,
      (SortPage.handle text genSort c (Event.build (some t))).steps = genSort c.mode c.base ∧
      (SortPage.handle text genSort c (Event.build (some t))).idx = -1 ∧
      (SortPage.handle text genSort c (Event.build (some t))).timer = none) ∧
    ([Event.play, Event.build (some t)].foldl (SearchPage.handle text genSearch)
        (initial "linear" 300)).host.timers = [(1, 300)] ∧
    ([Event.play, Event.build (some t)].foldl (GreedyPage.handle text genGreedy)
        (initial "interval" 300)).host.timers = [(1, 300)] ∧
    ([Event.play, Event.build (some t)].foldl (SortPage.handle text genSort)
        (initial "bubble" 300)).host.timers = [] := by
  refine ⟨?_, ?_, ?_, ?_, ?_, ?_⟩
  · intro c
    simp [SearchPage.handle, SearchPage.buildSteps, applyCurrent_ready]
  · intro c
    simp [GreedyPage.handle, GreedyPage.buildSteps, applyCurrent_ready]
  · intro c
    simp only [SortPage.handle, SortPage.buildClick, SortPage.buildSteps]
    rw [applyCurrent_ready _ _ _ rfl]
    refine ⟨?_, rfl, ?_⟩
    · simp only
      rw [(stopPlaying_frame c).1, (stopPlaying_frame c).2.2.2.2.2.2]
    · exact stopPlaying_timer_none c
  · simp [SearchPage.handle, SearchPage.buildSteps, applyCurrent_ready, startPlaying,
      stopPlaying, initial, setInterval]
  · simp [GreedyPage.handle, GreedyPage.buildSteps, applyCurrent_ready, startPlaying,
      stopPlaying, initial, setInterval]
  · simp [SortPage.handle, SortPage.buildClick, SortPage.buildSteps, applyCurrent_ready,
      startPlaying, stopPlaying, initial, setInterval, clearInterval]

end Playback
namespace Playback

set_option maxRecDepth 100000 in
/-- C22 as stated fails: on the search page, reset after building the linear
search for 42 leaves an empty list of snapshots, not the built trace, and
stepping forward then shows nothing. -/
theorem c22_reset_clears_trace_counterexample :
    ¬ ((SearchPage.handle SearchPage.narration SearchPage.generate
          (SearchPage.handle SearchPage.narration SearchPage.generate
            (initial "linear" 300) (Event.build (some 42)))
          Event.reset).steps
        = (SearchPage.handle SearchPage.narration SearchPage.generate
            (initial "linear" 300) (Event.build (some 42))).steps) := by
  decide

end Playback

namespace Playback

/-- C22, amended: in each controller reset stops the timer (none is active
afterwards) and sets the cursor to -1.  On the sort page the list of
snapshots after reset is the same as before it, and stepping forward then
shows its first snapshot again; on the search page and on the greedy page
reset empties the list of snapshots, and stepping forward then does nothing. -/
theorem c22_reset {σ : Type} (text : σ → String) (c : Ctl σ) (h : TimerInv c) :
    ((SortPage.resetClick text c).steps = c.steps ∧
      (SortPage.resetClick text c).idx = -1 ∧
      (SortPage.resetClick text c).timer = none ∧
      (SortPage.resetClick text c).host.timers = [] ∧
      (c.steps ≠ [] →
        (stepForward SortPage.ready text (SortPage.resetClick text c)).idx = 0 ∧
        (stepForward SortPage.ready text (SortPage.resetClick text c)).shown = c.steps.head?)) ∧
    ((SearchPage.resetClick c).steps = [] ∧
      (SearchPage.resetClick c).idx = -1 ∧
      (SearchPage.resetClick c).timer = none ∧
      (SearchPage.resetClick c).host.timers = [] ∧
      stepForward SearchPage.ready text (SearchPage.resetClick c) = SearchPage.resetClick c) ∧
    ((GreedyPage.resetClick text c).steps = [] ∧
      (GreedyPage.resetClick text c).idx = -1 ∧
      (GreedyPage.resetClick text c).timer = none ∧
      (GreedyPage.resetClick text c).host.timers = [] ∧
      stepForward GreedyPage.ready text (GreedyPage.resetClick text c)
        = GreedyPage.resetClick text c) := by
  obtain ⟨ht1, ht2⟩ := stopPlaying_timer c h
  obtain ⟨_, hs, _⟩ := stopPlaying_frame c
  refine ⟨?_, ?_, ?_⟩
  · simp only [SortPage.resetClick]
    rw [applyCurrent_ready _ _ _ rfl]
    refine ⟨hs, rfl, ht1, ht2, ?_⟩
    intro hne
    obtain ⟨x, rest, hx⟩ := List.exists_cons_of_ne_nil hne
    have hlen : ¬ ((rest.length : Int) ≤ -1) := by omega
    simp [stepForward, hs, hx, applyCurrent, hlen]
  · refine ⟨rfl, rfl, ht1, ht2, ?_⟩
    simp [stepForward, SearchPage.resetClick, SearchPage.resetState]
  · simp only [GreedyPage.resetClick]
    rw [applyCurrent_ready _ _ _ rfl]
    refine ⟨rfl, rfl, ht1, ht2, ?_⟩
    simp [stepForward]

set_option maxRecDepth 100000 in
theorem c22_reset_witness :
    TimerInv (startPlaying (SortPage.buildSteps SortPage.narration SortPage.generate
        { (initial "bubble" 300 : Ctl Sorting.Step) with base := [3, 1, 2] })) ∧
    (SortPage.resetClick SortPage.narration
        (startPlaying (SortPage.buildSteps SortPage.narration SortPage.generate
          { (initial "bubble" 300 : Ctl Sorting.Step) with base := [3, 1, 2] }))).steps
      = Sorting.buildBubble [3, 1, 2] :=
  ⟨timerInv_startPlaying _ (timerInv_applyCurrent _ _ _ (timerInv_of_none _ rfl rfl)),
    ((c22_reset SortPage.narration
      (startPlaying (SortPage.buildSteps SortPage.narration SortPage.generate
        { (initial "bubble" 300 : Ctl Sorting.Step) with base := [3, 1, 2] }))
      (timerInv_startPlaying _ (timerInv_applyCurrent _ _ _
        (timerInv_of_none _ rfl rfl)))).1.1).trans (by decide)⟩

end Playback
namespace Playback

theorem mem_timers_of_timer {σ : Type} (c : Ctl σ) (id : Nat) (h : TimerInv c)
    (ht : c.timer = some id) : id ∈ c.host.timers.map (fun p => p.1) := by
  unfold TimerInv at h
  rw [h, ht]; simp

/-- The callback of the active timer leaves the loop of playback at the last
snapshot and steps forward before it. -/
theorem tick_active {σ : Type} (ready : String) (text : σ → String) (c : Ctl σ) (id : Nat)
    (h : TimerInv c) (ht : c.timer = some id) :
    tick ready text id c
      = if c.idx ≥ (c.steps.length : Int) - 1 then stopPlaying c else stepForward ready text c := by
  unfold tick
  rw [if_pos (mem_timers_of_timer c id h ht)]

/-- A step forward before the last snapshot moves the cursor by one and shows
the snapshot under it. -/
theorem stepForward_advance {σ : Type} (ready : String) (text : σ → String) (c : Ctl σ)
    (h : CursorInRange c) (hlt : c.idx < (c.steps.length : Int) - 1) :
    (stepForward ready text c).idx = c.idx + 1 ∧
    (stepForward ready text c).steps = c.steps ∧
    (stepForward ready text c).timer = c.timer ∧
    (stepForward ready text c).host = c.host ∧
    (stepForward ready text c).shown = c.steps[(c.idx + 1).toNat]? ∧
    (stepForward ready text c).shown ≠ none ∧
    StatusSynced ready text (stepForward ready text c) := by
  have h1 := h.1
  have hcond : ¬ (c.steps.length = 0 ∨ c.idx ≥ (c.steps.length : Int) - 1) := by
    intro hc
    rcases hc with hc | hc
    · rw [hc] at hlt; simp at hlt; omega
    · omega
  have hin : CursorInRange ({ c with idx := c.idx + 1 } : Ctl σ) := by
    unfold CursorInRange at *; simp only; omega
  have hs := applyCurrent_synced ready text _ hin
  obtain ⟨_, f2, f3, f4, f5, _⟩ := applyCurrent_frame ready text ({ c with idx := c.idx + 1 })
  unfold stepForward
  rw [if_neg hcond]
  refine ⟨f3, f2, f4, f5, ?_, ?_, hs.1⟩
  · have := hs.2
    unfold ShownSynced at this
    rw [this, f3, f2]
    simp only
    rw [if_neg (by omega)]
  · have := hs.2
    unfold ShownSynced at this
    rw [this, f3, f2]
    simp only
    rw [if_neg (by omega)]
    have hlt2 : (c.idx + 1).toNat < c.steps.length := by omega
    rw [List.getElem?_eq_getElem hlt2]
    simp

set_option maxRecDepth 100000 in
/-- C23 as stated fails: on the search page as loaded, with no trace built,
play starts a timer. -/
theorem c23_play_without_trace_counterexample :
    (SearchPage.init SearchPage.narration SearchPage.generate none (some 42)
        (initial "linear" 300)).steps = [] ∧
    ¬ ((SearchPage.handle SearchPage.narration SearchPage.generate
          (SearchPage.init SearchPage.narration SearchPage.generate none (some 42)
            (initial "linear" 300))
          Event.play).timer = none) := by
  decide

/-- C23, amended: in each controller, play with no trace built leaves the
(empty) trace, the cursor (-1), the status and the display unchanged, but it
starts a timer with the value of the speed control as its delay; the first
callback of that timer stops it, again without changing the trace, the cursor,
the status or the display, and no timer is active after it. -/
theorem c23_play_without_trace {σ τ : Type} (text : σ → String)
    (genSearch : String → τ → List σ) (genSort : String → List Int → List σ)
    (genGreedy : String → List σ) (p : String × (Ctl σ → Event τ → Ctl σ))
    (hp : p ∈ controllers text genSearch genSort genGreedy) (c : Ctl σ)
    (hwf : WellFormed c) (hs : c.steps = []) :
    c.idx = -1 ∧
    (p.2 c Event.play).steps = [] ∧ (p.2 c Event.play).idx = -1 ∧
    (p.2 c Event.play).status = c.status ∧ (p.2 c Event.play).shown = c.shown ∧
    ∃ id, (p.2 c Event.play).timer = some id ∧
      (p.2 c Event.play).host.timers = [(id, c.speed)] ∧
      (p.2 (p.2 c Event.play) (Event.tick id)).steps = [] ∧
      (p.2 (p.2 c Event.play) (Event.tick id)).idx = -1 ∧
      (p.2 (p.2 c Event.play) (Event.tick id)).status = c.status ∧
      (p.2 (p.2 c Event.play) (Event.tick id)).shown = c.shown ∧
      (p.2 (p.2 c Event.play) (Event.tick id)).timer = none ∧
      (p.2 (p.2 c Event.play) (Event.tick id)).host.timers = [] := by
  obtain ⟨hplay, _, _, _, _, htick, _⟩ :=
    controllers_common text genSearch genSort genGreedy p hp
  have hidx : c.idx = -1 := by
    have := hwf.1
    unfold CursorInRange at this
    rw [hs] at this
    simp at this
    omega
  obtain ⟨_, f2, f3, f4, f5, _⟩ := startPlaying_frame c
  obtain ⟨id, t1, t2⟩ := startPlaying_timer c hwf.2.1
  have hinv := timerInv_startPlaying c hwf.2.1
  rw [hplay]
  refine ⟨hidx, by rw [f2, hs], by rw [f3, hidx], f4, f5, id, t1, t2, ?_⟩
  rw [htick, tick_active _ _ _ id hinv t1, if_pos (by rw [f2, f3, hs, hidx]; simp)]
  obtain ⟨_, g2, g3, g4, g5, _⟩ := stopPlaying_frame (startPlaying c)
  obtain ⟨s1, s2⟩ := stopPlaying_timer (startPlaying c) hinv
  exact ⟨by rw [g2, f2, hs], by rw [g3, f3, hidx], by rw [g4, f4], by rw [g5, f5], s1, s2⟩

theorem c23_play_without_trace_witness :
    ((SearchPage.ready, SearchPage.handle SearchPage.narration SearchPage.generate)
        ∈ controllers SearchPage.narration SearchPage.generate (fun _ _ => []) (fun _ => []) ∧
      WellFormed (initial "linear" 300 : Ctl (Search.Step ⊕ Search.GraphStep)) ∧
      (initial "linear" 300 : Ctl (Search.Step ⊕ Search.GraphStep)).steps = []) ∧
    (SearchPage.handle SearchPage.narration SearchPage.generate (initial "linear" 300)
        Event.play).idx = -1 :=
  ⟨⟨by simp [controllers], wellFormed_initial _ _, rfl⟩,
    (c23_play_without_trace SearchPage.narration SearchPage.generate (fun _ _ => [])
      (fun _ => []) (SearchPage.ready, SearchPage.handle SearchPage.narration SearchPage.generate)
      (by simp [controllers]) (initial "linear" 300) (wellFormed_initial _ _) rfl).2.2.1⟩

end Playback
namespace Playback

theorem ticks_succ {σ τ : Type} (handle : Ctl σ → Event τ → Ctl σ) (id k : Nat) (c : Ctl σ) :
    ticks handle id (k + 1) c = handle (ticks handle id k c) (Event.tick id) := by
  unfold ticks
  rw [List.replicate_succ', List.foldl_append]
  rfl

/-- While the cursor is before the last snapshot, `k` callbacks of the active
timer move the cursor by `k`, one snapshot at a time, and leave the timer
active. -/
theorem ticks_advance {σ τ : Type} (text : σ → String) (genSearch : String → τ → List σ)
    (genSort : String → List Int → List σ) (genGreedy : String → List σ)
    (p : String × (Ctl σ → Event τ → Ctl σ))
    (hp : p ∈ controllers text genSearch genSort genGreedy) (c : Ctl σ) (id : Nat)
    (hwf : WellFormed c) (ht : c.timer = some id) :
    ∀ k : Nat, (k : Int) ≤ (c.steps.length : Int) - 1 - c.idx →
      WellFormed (ticks p.2 id k c) ∧ (ticks p.2 id k c).idx = c.idx + k ∧
      (ticks p.2 id k c).steps = c.steps ∧ (ticks p.2 id k c).timer = some id ∧
      (ticks p.2 id k c).host = c.host ∧
      (1 ≤ k → (ticks p.2 id k c).shown = c.steps[(c.idx + k).toNat]? ∧
        (ticks p.2 id k c).shown ≠ none) := by
  obtain ⟨_, _, _, _, _, htick, _⟩ := controllers_common text genSearch genSort genGreedy p hp
  intro k
  induction k with
  | zero =>
    intro _
    exact ⟨hwf, by simp [ticks], rfl, ht, rfl, fun h => absurd h (by omega)⟩
  | succ k ih =>
    intro hk
    obtain ⟨w, i1, i2, i3, i4, _⟩ := ih (by omega)
    rw [ticks_succ, htick, tick_active _ _ _ id w.2.1 i3, if_neg (by rw [i1, i2]; omega)]
    obtain ⟨a1, a2, a3, a4, a5, a6, _⟩ :=
      stepForward_advance p.1 text (ticks p.2 id k c) w.1 (by rw [i1, i2]; omega)
    refine ⟨wellFormed_stepForward _ _ _ w, by rw [a1, i1]; push_cast; omega, by rw [a2, i2],
      by rw [a3, i3], by rw [a4, i4], fun _ => ⟨?_, a6⟩⟩
    rw [a5, i1, i2]
    congr 2
    push_cast
    omega

/-- C24: in each controller, while playing, a callback of the timer with the
cursor before the last snapshot moves the cursor by exactly one (showing the
snapshot under it) and leaves the timer active; a callback with the cursor on
the last snapshot stops the timer and leaves cursor, display and status as
they are.  Hence from a state with cursor -1 and a trace of length n, play
followed by k callbacks, 1 <= k <= n, is at cursor k - 1 showing snapshot
k - 1 with the timer active, and after n + 1 callbacks the cursor is n - 1,
the display is the one after n callbacks and no timer is active. -/
theorem c24_auto_advance {σ τ : Type} (text : σ → String) (genSearch : String → τ → List σ)
    (genSort : String → List Int → List σ) (genGreedy : String → List σ)
    (p : String × (Ctl σ → Event τ → Ctl σ))
    (hp : p ∈ controllers text genSearch genSort genGreedy) (c : Ctl σ) (hwf : WellFormed c) :
    (∀ id, c.timer = some id →
      (c.idx < (c.steps.length : Int) - 1 →
        (p.2 c (Event.tick id)).idx = c.idx + 1 ∧
        (p.2 c (Event.tick id)).steps = c.steps ∧
        (p.2 c (Event.tick id)).timer = some id ∧
        (p.2 c (Event.tick id)).host = c.host ∧
        (p.2 c (Event.tick id)).shown = c.steps[(c.idx + 1).toNat]?) ∧
      (c.idx = (c.steps.length : Int) - 1 →
        (p.2 c (Event.tick id)).idx = c.idx ∧
        (p.2 c (Event.tick id)).steps = c.steps ∧
        (p.2 c (Event.tick id)).timer = none ∧
        (p.2 c (Event.tick id)).host.timers = [] ∧
        (p.2 c (Event.tick id)).shown = c.shown ∧
        (p.2 c (Event.tick id)).status = c.status)) ∧
    (c.idx = -1 →
      ∃ id, (p.2 c Event.play).timer = some id ∧
        (∀ k : Nat, 1 ≤ k → k ≤ c.steps.length →
          (ticks p.2 id k (p.2 c Event.play)).idx = (k : Int) - 1 ∧
          (ticks p.2 id k (p.2 c Event.play)).shown = c.steps[k - 1]? ∧
          (ticks p.2 id k (p.2 c Event.play)).timer = some id) ∧
        (ticks p.2 id (c.steps.length + 1) (p.2 c Event.play)).idx
          = (c.steps.length : Int) - 1 ∧
        (ticks p.2 id (c.steps.length + 1) (p.2 c Event.play)).steps = c.steps ∧
        (ticks p.2 id (c.steps.length + 1) (p.2 c Event.play)).shown
          = (ticks p.2 id c.steps.length (p.2 c Event.play)).shown ∧
        (ticks p.2 id (c.steps.length + 1) (p.2 c Event.play)).timer = none ∧
        (ticks p.2 id (c.steps.length + 1) (p.2 c Event.play)).host.timers = []) := by
  obtain ⟨hplay, _, _, _, _, htick, _⟩ :=
    controllers_common text genSearch genSort genGreedy p hp
  constructor
  · intro id ht
    rw [htick, tick_active _ _ _ id hwf.2.1 ht]
    constructor
    · intro hlt
      rw [if_neg (by omega)]
      obtain ⟨a1, a2, a3, a4, a5, _⟩ := stepForward_advance p.1 text c hwf.1 hlt
      exact ⟨a1, a2, by rw [a3, ht], a4, a5⟩
    · intro heq
      rw [if_pos (by omega)]
      obtain ⟨_, g2, g3, g4, g5, _⟩ := stopPlaying_frame c
      obtain ⟨s1, s2⟩ := stopPlaying_timer c hwf.2.1
      exact ⟨g3, g2, s1, s2, g5, g4⟩
  · intro hidx
    obtain ⟨_, f2, f3, f4, f5, _⟩ := startPlaying_frame c
    obtain ⟨id, t1, t2⟩ := startPlaying_timer c hwf.2.1
    have hw := wellFormed_startPlaying c hwf
    have hadv := ticks_advance text genSearch genSort genGreedy p hp (startPlaying c) id hw t1
    rw [hplay]
    refine ⟨id, t1, ?_, ?_⟩
    · intro k hk1 hk2
      obtain ⟨_, i1, _, i3, _, i5⟩ := hadv k (by rw [f2, f3, hidx]; omega)
      refine ⟨by rw [i1, f3, hidx]; omega, ?_, i3⟩
      rw [(i5 hk1).1, f2, f3, hidx]
      congr 1
      omega
    · obtain ⟨w, i1, i2, i3, _, _⟩ := hadv c.steps.length (by rw [f2, f3, hidx]; omega)
      rw [ticks_succ, htick, tick_active _ _ _ id w.2.1 i3,
        if_pos (by rw [i1, i2, f2, f3, hidx]; omega)]
      obtain ⟨_, g2, g3, _, g5, _⟩ := stopPlaying_frame (ticks p.2 id c.steps.length (startPlaying c))
      obtain ⟨s1, s2⟩ := stopPlaying_timer _ w.2.1
      exact ⟨by rw [g3, i1, f3, hidx]; omega, by rw [g2, i2, f2], g5, s1, s2⟩

set_option maxRecDepth 100000 in
theorem c24_auto_advance_witness :
    ((SearchPage.ready, SearchPage.handle SearchPage.narration SearchPage.generate)
        ∈ controllers SearchPage.narration SearchPage.generate (fun _ _ => []) (fun _ => []) ∧
      WellFormed (SearchPage.buildSteps SearchPage.narration SearchPage.generate (some 7)
        (initial "linear" 300)) ∧
      (SearchPage.buildSteps SearchPage.narration SearchPage.generate (some 7)
        (initial "linear" 300)).idx = -1) ∧
    ∃ id, (SearchPage.handle SearchPage.narration SearchPage.generate
        (SearchPage.buildSteps SearchPage.narration SearchPage.generate (some 7)
          (initial "linear" 300)) Event.play).timer = some id ∧
      (ticks (SearchPage.handle SearchPage.narration SearchPage.generate) id 3
        (SearchPage.handle SearchPage.narration SearchPage.generate
          (SearchPage.buildSteps SearchPage.narration SearchPage.generate (some 7)
            (initial "linear" 300)) Event.play)).idx = 1 ∧
      (ticks (SearchPage.handle SearchPage.narration SearchPage.generate) id 3
        (SearchPage.handle SearchPage.narration SearchPage.generate
          (SearchPage.buildSteps SearchPage.narration SearchPage.generate (some 7)
            (initial "linear" 300)) Event.play)).timer = none := by
  have hw : WellFormed (SearchPage.buildSteps SearchPage.narration SearchPage.generate (some 7)
      (initial "linear" 300)) :=
    SearchPage.search_wellFormed_buildSteps _ _ _ _ (wellFormed_initial _ _)
  have hlen : (SearchPage.buildSteps SearchPage.narration SearchPage.generate (some 7)
      (initial "linear" 300)).steps.length = 2 := by decide
  have hi : (SearchPage.buildSteps SearchPage.narration SearchPage.generate (some 7)
      (initial "linear" 300)).idx = -1 := by decide
  refine ⟨⟨by simp [controllers], hw, hi⟩, ?_⟩
  obtain ⟨id, h1, _, h3, _, _, h6, _⟩ :=
    (c24_auto_advance SearchPage.narration SearchPage.generate (fun _ _ => [])
      (fun _ => []) (SearchPage.ready, SearchPage.handle SearchPage.narration SearchPage.generate)
      (by simp [controllers]) _ hw).2 hi
  rw [hlen] at h3 h6
  exact ⟨id, h1, h3, h6⟩

end Playback
namespace Playback

theorem staysOrAdvances_step {σ τ : Type} (text : σ → String) (genSearch : String → τ → List σ)
    (genSort : String → List Int → List σ) (genGreedy : String → List σ)
    (p : String × (Ctl σ → Event τ → Ctl σ))
    (hp : p ∈ controllers text genSearch genSort genGreedy) (c : Ctl σ) (hwf : WellFormed c)
    (e : Event τ) (he : isSpeedOrTick e = true) : StaysOrAdvances c (p.2 c e) := by
  obtain ⟨_, _, _, _, hspeed, htick, _⟩ :=
    controllers_common text genSearch genSort genGreedy p hp
  cases e with
  | speed v =>
    rw [hspeed]
    obtain ⟨_, f2, f3, f4, f5, _⟩ := speedInput_frame v c
    exact ⟨f2, Or.inl ⟨f3, f5, f4⟩⟩
  | tick id =>
    rw [htick]
    unfold tick
    split_ifs with h1 h2
    · obtain ⟨_, g2, g3, g4, g5, _⟩ := stopPlaying_frame c
      exact ⟨g2, Or.inl ⟨g3, g5, g4⟩⟩
    · obtain ⟨a1, a2, _, _, a5, a6, _⟩ := stepForward_advance p.1 text c hwf.1 (by omega)
      exact ⟨a2, Or.inr ⟨a1, a5, a6⟩⟩
    · exact ⟨rfl, Or.inl ⟨rfl, rfl, rfl⟩⟩
  | setMode _ => cases he
  | newArray _ => cases he
  | build _ => cases he
  | play => cases he
  | pause => cases he
  | stepForward => cases he
  | stepBack => cases he
  | reset => cases he

/-- C25: in each controller, a speed change while playing and a second play
while playing leave the trace, the cursor, the display and the status
unchanged and leave exactly one timer active, the one whose id `timer` holds;
and along any sequence of speed changes and timer callbacks each state has
the same trace as the one before it and either the same cursor and display,
or the cursor one further with the snapshot under it on display. -/
theorem c25_speed_change {σ τ : Type} (text : σ → String) (genSearch : String → τ → List σ)
    (genSort : String → List Int → List σ) (genGreedy : String → List σ)
    (p : String × (Ctl σ → Event τ → Ctl σ))
    (hp : p ∈ controllers text genSearch genSort genGreedy) (c : Ctl σ) (hwf : WellFormed c) :
    (c.timer ≠ none → ∀ e, (e = Event.play ∨ ∃ v, e = Event.speed v) →
      (p.2 c e).steps = c.steps ∧ (p.2 c e).idx = c.idx ∧ (p.2 c e).shown = c.shown ∧
      (p.2 c e).status = c.status ∧
      ∃ id delay, (p.2 c e).timer = some id ∧ (p.2 c e).host.timers = [(id, delay)]) ∧
    (∀ evs : List (Event τ), (∀ e ∈ evs, isSpeedOrTick e = true) →
      List.Chain StaysOrAdvances c (statesAfter p.2 c evs)) := by
  obtain ⟨hplay, _, _, _, hspeed, _, hwfstep⟩ :=
    controllers_common text genSearch genSort genGreedy p hp
  constructor
  · intro hplaying e he
    rcases he with rfl | ⟨v, rfl⟩
    · rw [hplay]
      obtain ⟨_, f2, f3, f4, f5, _⟩ := startPlaying_frame c
      obtain ⟨id, t1, t2⟩ := startPlaying_timer c hwf.2.1
      exact ⟨f2, f3, f5, f4, id, _, t1, t2⟩
    · rw [hspeed]
      obtain ⟨_, f2, f3, f4, f5, _⟩ := speedInput_frame v c
      refine ⟨f2, f3, f5, f4, ?_⟩
      have hsp : speedInput v c = startPlaying ({ c with speed := v } : Ctl σ) := by
        unfold speedInput
        simp only
        cases hc : c.timer with
        | none => exact absurd hc hplaying
        | some id1 => rfl
      rw [hsp]
      obtain ⟨id, t1, t2⟩ := startPlaying_timer ({ c with speed := v } : Ctl σ)
        (timerInv_congr c _ hwf.2.1 rfl rfl)
      exact ⟨id, _, t1, t2⟩
  · intro evs
    induction evs generalizing c with
    | nil => intro _; exact List.Chain.nil
    | cons e rest ih =>
      intro hall
      have he := hall e (List.mem_cons_self _ _)
      exact List.Chain.cons
        (staysOrAdvances_step text genSearch genSort genGreedy p hp c hwf e he)
        (ih (p.2 c e) (hwfstep c e hwf) (fun x hx => hall x (List.mem_cons_of_mem _ hx)))

theorem c25_speed_change_witness :
    ((SearchPage.ready, SearchPage.handle SearchPage.narration SearchPage.generate)
        ∈ controllers SearchPage.narration SearchPage.generate (fun _ _ => []) (fun _ => []) ∧
      WellFormed (startPlaying (SearchPage.buildSteps SearchPage.narration SearchPage.generate
        (some 7) (initial "linear" 300))) ∧
      (startPlaying (SearchPage.buildSteps SearchPage.narration SearchPage.generate
        (some 7) (initial "linear" 300))).timer ≠ none) ∧
    (SearchPage.handle SearchPage.narration SearchPage.generate
        (startPlaying (SearchPage.buildSteps SearchPage.narration SearchPage.generate
          (some 7) (initial "linear" 300))) (Event.speed 80)).idx
      = (startPlaying (SearchPage.buildSteps SearchPage.narration SearchPage.generate
          (some 7) (initial "linear" 300))).idx := by
  have hw : WellFormed (startPlaying (SearchPage.buildSteps SearchPage.narration
      SearchPage.generate (some 7) (initial "linear" 300))) :=
    wellFormed_startPlaying _
      (SearchPage.search_wellFormed_buildSteps _ _ _ _ (wellFormed_initial _ _))
  have ht : (startPlaying (SearchPage.buildSteps SearchPage.narration SearchPage.generate
      (some 7) (initial "linear" 300))).timer ≠ none := by
    simp [startPlaying]
  exact ⟨⟨by simp [controllers], hw, ht⟩,
    (((c25_speed_change SearchPage.narration SearchPage.generate (fun _ _ => [])
      (fun _ => []) (SearchPage.ready, SearchPage.handle SearchPage.narration SearchPage.generate)
      (by simp [controllers]) _ hw).1 ht (Event.speed 80) (Or.inr ⟨80, rfl⟩)).2.1)⟩

end Playback
namespace Playback

set_option maxRecDepth 100000 in
/-- C26 as stated fails: on the search page as loaded, with 300 in the speed
control, setting the control to 0 and pressing play starts a timer with
interval 0; and while playing at 300, setting the control to -5 restarts the
timer with interval -5. -/
theorem c26_nonpositive_speed_counterexample :
    ([Event.speed 0, Event.play].foldl
        (SearchPage.handle SearchPage.narration SearchPage.generate)
        (SearchPage.init SearchPage.narration SearchPage.generate none (some 42)
          (initial "linear" 300))).host.timers = [(1, 0)] ∧
    ([Event.play, Event.speed (-5)].foldl
        (SearchPage.handle SearchPage.narration SearchPage.generate)
        (SearchPage.init SearchPage.narration SearchPage.generate none (some 42)
          (initial "linear" 300))).host.timers = [(2, -5)] := by
  decide

/-- C26, amended: no controller checks the speed.  Play starts its timer with
the value the speed control holds, and a change of the speed control to `v`
while playing restarts the timer with interval `v`, whatever the sign of the
value; a change while not playing starts no timer, and the next play uses
`v`. -/
theorem c26_speed_unchecked {σ τ : Type} (text : σ → String) (genSearch : String → τ → List σ)
    (genSort : String → List Int → List σ) (genGreedy : String → List σ)
    (p : String × (Ctl σ → Event τ → Ctl σ))
    (hp : p ∈ controllers text genSearch genSort genGreedy) (c : Ctl σ) (hwf : WellFormed c)
    (v : Int) :
    (∃ id, (p.2 c Event.play).timer = some id ∧
      (p.2 c Event.play).host.timers = [(id, c.speed)]) ∧
    (c.timer ≠ none → ∃ id, (p.2 c (Event.speed v)).timer = some id ∧
      (p.2 c (Event.speed v)).host.timers = [(id, v)]) ∧
    (c.timer = none → (p.2 c (Event.speed v)).timer = none ∧
      (p.2 c (Event.speed v)).host.timers = []) ∧
    (∃ id, (p.2 (p.2 c (Event.speed v)) Event.play).timer = some id ∧
      (p.2 (p.2 c (Event.speed v)) Event.play).host.timers = [(id, v)]) := by
  obtain ⟨hplay, _, _, _, hspeed, _, hwfstep⟩ :=
    controllers_common text genSearch genSort genGreedy p hp
  refine ⟨?_, ?_, ?_, ?_⟩
  · rw [hplay]; exact startPlaying_timer c hwf.2.1
  · intro hplaying
    rw [hspeed]
    have hsp : speedInput v c = startPlaying ({ c with speed := v } : Ctl σ) := by
      unfold speedInput
      simp only
      cases hc : c.timer with
      | none => exact absurd hc hplaying
      | some id1 => rfl
    rw [hsp]
    exact startPlaying_timer ({ c with speed := v } : Ctl σ) (timerInv_congr c _ hwf.2.1 rfl rfl)
  · intro hnone
    rw [hspeed]
    have hsp : speedInput v c = ({ c with speed := v } : Ctl σ) := by
      unfold speedInput
      simp only
      rw [hnone]
    rw [hsp]
    have := hwf.2.1
    unfold TimerInv at this
    rw [hnone] at this
    exact ⟨hnone, by simpa using this⟩
  · rw [hplay]
    have h1 := startPlaying_timer (p.2 c (Event.speed v)) (hwfstep c _ hwf).2.1
    rw [hspeed] at h1 ⊢
    rw [(speedInput_frame v c).2.2.2.2.2.1] at h1
    exact h1

theorem c26_speed_unchecked_witness :
    ((SearchPage.ready, SearchPage.handle SearchPage.narration SearchPage.generate)
        ∈ controllers SearchPage.narration SearchPage.generate (fun _ _ => []) (fun _ => []) ∧
      WellFormed (initial "linear" 300 : Ctl (Search.Step ⊕ Search.GraphStep))) ∧
    ∃ id, (SearchPage.handle SearchPage.narration SearchPage.generate
          (SearchPage.handle SearchPage.narration SearchPage.generate (initial "linear" 300)
            (Event.speed (-5))) Event.play).timer = some id ∧
      (SearchPage.handle SearchPage.narration SearchPage.generate
          (SearchPage.handle SearchPage.narration SearchPage.generate (initial "linear" 300)
            (Event.speed (-5))) Event.play).host.timers = [(id, -5)] :=
  ⟨⟨by simp [controllers], wellFormed_initial _ _⟩,
    (c26_speed_unchecked SearchPage.narration SearchPage.generate (fun _ _ => [])
      (fun _ => []) (SearchPage.ready, SearchPage.handle SearchPage.narration SearchPage.generate)
      (by simp [controllers]) (initial "linear" 300) (wellFormed_initial _ _) (-5)).2.2.2⟩

/-- C29: on the search page, in every mode and every prior state, build with a
target that parses to `NaN` changes nothing but the status, which becomes the
invalid-target message: the trace, the cursor, the display, the mode and the
timer are as before, so no trace and no part of one is built. -/
theorem c29_invalid_target {σ τ : Type} (text : σ → String) (gen : String → τ → List σ)
    (c : Ctl σ) :
    SearchPage.handle text gen c (Event.build none)
      = { c with status := "Enter a valid numeric target." } ∧
    (SearchPage.handle text gen c (Event.build none)).steps = c.steps ∧
    (SearchPage.handle text gen c (Event.build none)).idx = c.idx ∧
    (SearchPage.handle text gen c (Event.build none)).status
      = "Enter a valid numeric target." :=
  ⟨rfl, rfl, rfl, rfl⟩

end Playback
namespace Playback

theorem applyCurrent_at {σ : Type} (ready : String) (text : σ → String) (c : Ctl σ) (step : σ)
    (h : 0 ≤ c.idx) (hs : c.steps[c.idx.toNat]? = some step) :
    applyCurrent ready text c
      = { c with
          status := "Step " ++ toString (c.idx + 1) ++ "/" ++ toString c.steps.length ++ "\n"
            ++ text step,
          shown := some step } := by
  unfold applyCurrent
  rw [if_neg (by omega), hs]

/-- A step forward from before the last snapshot, then a step back, then a step
forward again ends in the state of the first step forward; and the step back
restores trace, cursor, timer and display, and the status too when it was the
one determined by the cursor. -/
theorem step_roundtrip {σ : Type} (ready : String) (text : σ → String) (c : Ctl σ)
    (hwf : WellFormed c) (hlt : c.idx < (c.steps.length : Int) - 1) :
    stepForward ready text (stepBack ready text (stepForward ready text c))
      = stepForward ready text c ∧
    (stepBack ready text (stepForward ready text c)).steps = c.steps ∧
    (stepBack ready text (stepForward ready text c)).idx = c.idx ∧
    (stepBack ready text (stepForward ready text c)).timer = c.timer ∧
    (stepBack ready text (stepForward ready text c)).host = c.host ∧
    (stepBack ready text (stepForward ready text c)).shown = c.shown ∧
    (StatusSynced ready text c → stepBack ready text (stepForward ready text c) = c) := by
  obtain ⟨⟨hlo, hhi⟩, _, hshown⟩ := hwf
  have hlen : (c.idx + 1).toNat < c.steps.length := by omega
  have hcond : ¬ (c.steps.length = 0 ∨ c.idx ≥ (c.steps.length : Int) - 1) := by
    intro hc
    rcases hc with hc | hc <;> omega
  have hF : stepForward ready text c
      = { c with
          idx := c.idx + 1,
          status := "Step " ++ toString (c.idx + 1 + 1) ++ "/" ++ toString c.steps.length
            ++ "\n" ++ text c.steps[(c.idx + 1).toNat],
          shown := some c.steps[(c.idx + 1).toNat] } := by
    unfold stepForward
    rw [if_neg hcond]
    rw [applyCurrent_at ready text _ c.steps[(c.idx + 1).toNat] (by simp only; omega)
      (by simp only; exact List.getElem?_eq_getElem hlen)]
  have hB : stepBack ready text (stepForward ready text c)
      = { c with
          status := (statusFor ready text c).getD c.status,
          shown := if c.idx < 0 then none else c.steps[c.idx.toNat]? } := by
    rw [hF]
    unfold stepBack
    rw [if_neg (by simp only; omega)]
    by_cases hneg : c.idx < 0
    · have hi : c.idx = -1 := by omega
      rw [applyCurrent_ready _ _ _ (by simp only; omega)]
      simp [statusFor, hneg, hi]
    · have hl0 : c.idx.toNat < c.steps.length := by omega
      rw [applyCurrent_at ready text _ c.steps[c.idx.toNat] (by simp only; omega)
        (by simp only [add_sub_cancel_right]; exact List.getElem?_eq_getElem hl0)]
      simp [statusFor, hneg, List.getElem?_eq_getElem hl0]
  unfold ShownSynced at hshown
  refine ⟨?_, by rw [hB], by rw [hB], by rw [hB], by rw [hB], by rw [hB]; exact hshown.symm, ?_⟩
  · rw [hB, hF]
    unfold stepForward
    rw [if_neg hcond]
    rw [applyCurrent_at ready text _ c.steps[(c.idx + 1).toNat] (by simp only; omega)
      (by simp only; exact List.getElem?_eq_getElem hlen)]
  · intro hsync
    unfold StatusSynced at hsync
    rw [hB, hsync, ← hshown]
    rfl

end Playback

namespace Playback

/-- C28: in each controller, for a cursor before the last snapshot, step
forward, step back, step forward ends in exactly the state of a single step
forward (trace, cursor, timer, display and status); step back after that step
forward restores the trace, the cursor, the timer and the display, and the
whole state when the status was the one determined by the cursor.  After any
sequence of events, the snapshot on display at a cursor `i >= 0` is
`trace[i]`. -/
theorem c28_step_roundtrip {σ τ : Type} (text : σ → String) (genSearch : String → τ → List σ)
    (genSort : String → List Int → List σ) (genGreedy : String → List σ)
    (p : String × (Ctl σ → Event τ → Ctl σ))
    (hp : p ∈ controllers text genSearch genSort genGreedy) (c : Ctl σ) (hwf : WellFormed c) :
    (c.idx < (c.steps.length : Int) - 1 →
      p.2 (p.2 (p.2 c Event.stepForward) Event.stepBack) Event.stepForward
        = p.2 c Event.stepForward ∧
      (p.2 (p.2 c Event.stepForward) Event.stepBack).steps = c.steps ∧
      (p.2 (p.2 c Event.stepForward) Event.stepBack).idx = c.idx ∧
      (p.2 (p.2 c Event.stepForward) Event.stepBack).timer = c.timer ∧
      (p.2 (p.2 c Event.stepForward) Event.stepBack).host = c.host ∧
      (p.2 (p.2 c Event.stepForward) Event.stepBack).shown = c.shown ∧
      (StatusSynced p.1 text c → p.2 (p.2 c Event.stepForward) Event.stepBack = c)) ∧
    (∀ evs : List (Event τ), 0 ≤ (evs.foldl p.2 c).idx →
      ∃ step, (evs.foldl p.2 c).steps[(evs.foldl p.2 c).idx.toNat]? = some step ∧
        (evs.foldl p.2 c).shown = some step) := by
  obtain ⟨_, _, hfwd, hback, _, _, hwfstep⟩ :=
    controllers_common text genSearch genSort genGreedy p hp
  constructor
  · intro hlt
    rw [hfwd, hback, hfwd]
    exact step_roundtrip p.1 text c hwf hlt
  · intro evs h0
    obtain ⟨⟨_, hhi⟩, _, hshown⟩ := wellFormed_foldl p.2 hwfstep evs c hwf
    have hl : (evs.foldl p.2 c).idx.toNat < (evs.foldl p.2 c).steps.length := by omega
    unfold ShownSynced at hshown
    rw [if_neg (by omega)] at hshown
    exact ⟨_, List.getElem?_eq_getElem hl, by rw [hshown, List.getElem?_eq_getElem hl]⟩

set_option maxRecDepth 100000 in
theorem c28_step_roundtrip_witness :
    ((SearchPage.ready, SearchPage.handle SearchPage.narration SearchPage.generate)
        ∈ controllers SearchPage.narration SearchPage.generate (fun _ _ => []) (fun _ => []) ∧
      WellFormed (SearchPage.buildSteps SearchPage.narration SearchPage.generate (some 7)
        (initial "linear" 300)) ∧
      (SearchPage.buildSteps SearchPage.narration SearchPage.generate (some 7)
          (initial "linear" 300)).idx
        < ((SearchPage.buildSteps SearchPage.narration SearchPage.generate (some 7)
          (initial "linear" 300)).steps.length : Int) - 1) ∧
    [Event.stepForward, Event.stepBack, Event.stepForward].foldl
        (SearchPage.handle SearchPage.narration SearchPage.generate)
        (SearchPage.buildSteps SearchPage.narration SearchPage.generate (some 7)
          (initial "linear" 300))
      = SearchPage.handle SearchPage.narration SearchPage.generate
          (SearchPage.buildSteps SearchPage.narration SearchPage.generate (some 7)
            (initial "linear" 300)) Event.stepForward := by
  have hw : WellFormed (SearchPage.buildSteps SearchPage.narration SearchPage.generate (some 7)
      (initial "linear" 300)) :=
    SearchPage.search_wellFormed_buildSteps _ _ _ _ (wellFormed_initial _ _)
  have hlt : (SearchPage.buildSteps SearchPage.narration SearchPage.generate (some 7)
        (initial "linear" 300)).idx
      < ((SearchPage.buildSteps SearchPage.narration SearchPage.generate (some 7)
        (initial "linear" 300)).steps.length : Int) - 1 := by decide
  exact ⟨⟨by simp [controllers], hw, hlt⟩,
    ((c28_step_roundtrip SearchPage.narration SearchPage.generate (fun _ _ => [])
      (fun _ => []) (SearchPage.ready, SearchPage.handle SearchPage.narration SearchPage.generate)
      (by simp [controllers]) _ hw).1 hlt).1⟩

end Playback
namespace Playback

theorem statusKept_stepForward {σ : Type} (ready : String) (text : σ → String) (c : Ctl σ)
    (h : CursorInRange c) : StatusKept ready text c (stepForward ready text c) := by
  unfold stepForward
  split_ifs with hc
  · exact Or.inl ⟨rfl, rfl, rfl⟩
  · refine Or.inr (applyCurrent_synced ready text _ ?_).1
    unfold CursorInRange at *
    simp only [not_or, not_le] at hc
    simp only
    omega

theorem statusKept_stepBack {σ : Type} (ready : String) (text : σ → String) (c : Ctl σ)
    (h : CursorInRange c) : StatusKept ready text c (stepBack ready text c) := by
  unfold stepBack
  split_ifs with hc
  · exact Or.inl ⟨rfl, rfl, rfl⟩
  · refine Or.inr (applyCurrent_synced ready text _ ?_).1
    unfold CursorInRange at *
    simp only
    omega

theorem statusKept_stopPlaying {σ : Type} (ready : String) (text : σ → String) (c : Ctl σ) :
    StatusKept ready text c (stopPlaying c) :=
  Or.inl ⟨(stopPlaying_frame c).2.2.2.1, (stopPlaying_frame c).2.2.1, (stopPlaying_frame c).2.1⟩

theorem statusKept_tick {σ : Type} (ready : String) (text : σ → String) (id : Nat) (c : Ctl σ)
    (h : CursorInRange c) : StatusKept ready text c (tick ready text id c) := by
  unfold tick
  split_ifs
  · exact statusKept_stopPlaying ready text c
  · exact statusKept_stepForward ready text c h
  · exact Or.inl ⟨rfl, rfl, rfl⟩

/-- The transport events keep the status or write the one determined by the
cursor. -/
theorem statusKept_transport {σ τ : Type} (text : σ → String) (genSearch : String → τ → List σ)
    (genSort : String → List Int → List σ) (genGreedy : String → List σ)
    (p : String × (Ctl σ → Event τ → Ctl σ))
    (hp : p ∈ controllers text genSearch genSort genGreedy) (c : Ctl σ) (h : CursorInRange c)
    (e : Event τ)
    (he : e = Event.play ∨ e = Event.pause ∨ e = Event.stepForward ∨ e = Event.stepBack ∨
      (∃ v, e = Event.speed v) ∨ ∃ id, e = Event.tick id) :
    StatusKept p.1 text c (p.2 c e) := by
  obtain ⟨hplay, hpause, hfwd, hback, hspeed, htick, _⟩ :=
    controllers_common text genSearch genSort genGreedy p hp
  rcases he with rfl | rfl | rfl | rfl | ⟨v, rfl⟩ | ⟨id, rfl⟩
  · rw [hplay]
    exact Or.inl ⟨(startPlaying_frame c).2.2.2.1, (startPlaying_frame c).2.2.1,
      (startPlaying_frame c).2.1⟩
  · rw [hpause]; exact statusKept_stopPlaying _ _ c
  · rw [hfwd]; exact statusKept_stepForward _ _ c h
  · rw [hback]; exact statusKept_stepBack _ _ c h
  · rw [hspeed]
    exact Or.inl ⟨(speedInput_frame v c).2.2.2.1, (speedInput_frame v c).2.2.1,
      (speedInput_frame v c).2.1⟩
  · rw [htick]; exact statusKept_tick _ _ id c h

theorem statusSynced_of_kept {σ : Type} (ready : String) (text : σ → String) (c d : Ctl σ)
    (h : StatusSynced ready text c) (hk : StatusKept ready text c d) :
    StatusSynced ready text d := by
  rcases hk with ⟨h1, h2, h3⟩ | hk
  · exact statusSynced_congr ready text c d h h2 h3 h1
  · exact hk

theorem statusSynced_fresh {σ : Type} (ready : String) (text : σ → String) (c : Ctl σ)
    (hi : c.idx = -1) : StatusSynced ready text (applyCurrent ready text c) :=
  (applyCurrent_synced ready text c (by unfold CursorInRange; rw [hi]; omega)).1

end Playback

namespace SortPage

open Playback

theorem sort_statusSynced_handle {σ τ : Type} (text : σ → String)
    (gen : String → List Int → List σ) (c : Ctl σ) (e : Event τ)
    (h : WellFormed c ∧ StatusSynced ready text c) :
    WellFormed (handle text gen c e) ∧ StatusSynced ready text (handle text gen c e) := by
  refine ⟨sort_wellFormed_handle text gen c e h.1, ?_⟩
  have hp : (ready, handle text gen) ∈ controllers text (fun _ (_ : τ) => []) gen (fun _ => []) := by
    simp [controllers]
  have tr := fun he => statusSynced_of_kept ready text c _ h.2
    (statusKept_transport text (fun _ (_ : τ) => []) gen (fun _ => []) _ hp c h.1.1 e he)
  cases e with
  | setMode m =>
    simp only [handle, setAlgo]
    split_ifs
    · exact statusSynced_fresh _ _ _ rfl
    · exact h.2
  | newArray arr => exact statusSynced_fresh _ _ _ rfl
  | build _ => exact statusSynced_fresh _ _ _ rfl
  | reset => exact statusSynced_fresh _ _ _ rfl
  | play => exact tr (Or.inl rfl)
  | pause => exact tr (Or.inr (Or.inl rfl))
  | stepForward => exact tr (Or.inr (Or.inr (Or.inl rfl)))
  | stepBack => exact tr (Or.inr (Or.inr (Or.inr (Or.inl rfl))))
  | speed v => exact tr (Or.inr (Or.inr (Or.inr (Or.inr (Or.inl ⟨v, rfl⟩)))))
  | tick id => exact tr (Or.inr (Or.inr (Or.inr (Or.inr (Or.inr ⟨id, rfl⟩)))))

theorem sort_statusSynced_init {σ : Type} (text : σ → String) (gen : String → List Int → List σ)
    (requested : Option String) (arr : List Int) (c : Ctl σ) :
    StatusSynced ready text (init text gen requested arr c) := by
  unfold init
  cases requested with
  | none => exact statusSynced_fresh _ _ _ rfl
  | some r =>
    simp only
    split_ifs
    · exact statusSynced_fresh _ _ _ rfl
    · exact statusSynced_fresh _ _ _ rfl

end SortPage

namespace GreedyPage

open Playback

theorem greedy_statusSynced_handle {σ τ : Type} (text : σ → String)
    (gen : String → List σ) (c : Ctl σ) (e : Event τ)
    (h : WellFormed c ∧ StatusSynced ready text c) :
    WellFormed (handle text gen c e) ∧ StatusSynced ready text (handle text gen c e) := by
  refine ⟨greedy_wellFormed_handle text gen c e h.1, ?_⟩
  have hp : (ready, handle text gen)
      ∈ controllers text (fun _ (_ : τ) => []) (fun _ _ => []) gen := by
    simp [controllers]
  have tr := fun he => statusSynced_of_kept ready text c _ h.2
    (statusKept_transport text (fun _ (_ : τ) => []) (fun _ _ => []) gen _ hp c h.1.1 e he)
  cases e with
  | setMode m =>
    simp only [handle, setMode]
    split_ifs
    · exact statusSynced_fresh _ _ _ rfl
    · exact statusSynced_congr ready text c _ h.2 rfl rfl rfl
  | newArray arr => exact h.2
  | build _ => exact statusSynced_fresh _ _ _ rfl
  | reset => exact statusSynced_fresh _ _ _ rfl
  | play => exact tr (Or.inl rfl)
  | pause => exact tr (Or.inr (Or.inl rfl))
  | stepForward => exact tr (Or.inr (Or.inr (Or.inl rfl)))
  | stepBack => exact tr (Or.inr (Or.inr (Or.inr (Or.inl rfl))))
  | speed v => exact tr (Or.inr (Or.inr (Or.inr (Or.inr (Or.inl ⟨v, rfl⟩)))))
  | tick id => exact tr (Or.inr (Or.inr (Or.inr (Or.inr (Or.inr ⟨id, rfl⟩)))))

theorem greedy_statusSynced_init {σ : Type} (text : σ → String) (gen : String → List σ)
    (requested : Option String) (c : Ctl σ) :
    StatusSynced ready text (init text gen requested c) := by
  unfold init
  have hdef : StatusSynced ready text (setMode text "interval" c) := by
    unfold setMode
    rw [if_pos (Or.inl (by decide))]
    exact statusSynced_fresh _ _ _ rfl
  cases requested with
  | none => exact hdef
  | some r =>
    simp only
    split_ifs
    · exact statusSynced_fresh _ _ _ rfl
    · exact hdef

end GreedyPage

namespace SearchPage

open Playback

theorem statusKnown_of_kept {σ : Type} (text : σ → String) (c d : Ctl σ)
    (h : StatusKnown text c) (hk : StatusKept ready text c d) : StatusKnown text d := by
  rcases hk with ⟨h1, h2, h3⟩ | hk
  · rcases h with h | ⟨a, b, e⟩ | h
    · exact Or.inl (statusSynced_congr ready text c d h h2 h3 h1)
    · exact Or.inr (Or.inl ⟨by rw [h1, a], by rw [h2, b], by rw [h3, e]⟩)
    · exact Or.inr (Or.inr (by rw [h1, h]))
  · exact Or.inl hk

theorem search_statusKnown_setMode {σ : Type} (text : σ → String) (m : String) (c : Ctl σ)
    (h : StatusKnown text c) : StatusKnown text (setMode m c) := by
  unfold setMode
  split_ifs
  · exact Or.inr (Or.inl ⟨rfl, rfl, rfl⟩)
  · exact statusKnown_of_kept text c _ h (Or.inl ⟨rfl, rfl, rfl⟩)

theorem search_statusKnown_buildSteps {σ τ : Type} (text : σ → String)
    (gen : String → τ → List σ) (target : Option τ) (c : Ctl σ) :
    StatusKnown text (buildSteps text gen target c) := by
  unfold buildSteps
  cases target with
  | none => exact Or.inr (Or.inr rfl)
  | some t => exact Or.inl (statusSynced_fresh _ _ _ rfl)

theorem search_statusKnown_handle {σ τ : Type} (text : σ → String)
    (gen : String → τ → List σ) (c : Ctl σ) (e : Event τ)
    (h : WellFormed c ∧ StatusKnown text c) :
    WellFormed (handle text gen c e) ∧ StatusKnown text (handle text gen c e) := by
  refine ⟨search_wellFormed_handle text gen c e h.1, ?_⟩
  have hp : (ready, handle text gen)
      ∈ controllers text gen (fun _ _ => []) (fun _ => []) := by
    simp [controllers]
  have tr := fun he => statusKnown_of_kept text c _ h.2
    (statusKept_transport text gen (fun _ _ => []) (fun _ => []) _ hp c h.1.1 e he)
  cases e with
  | setMode m => exact search_statusKnown_setMode text m c h.2
  | newArray arr => exact h.2
  | build target => exact search_statusKnown_buildSteps text gen target c
  | reset => exact Or.inr (Or.inl ⟨rfl, rfl, rfl⟩)
  | play => exact tr (Or.inl rfl)
  | pause => exact tr (Or.inr (Or.inl rfl))
  | stepForward => exact tr (Or.inr (Or.inr (Or.inl rfl)))
  | stepBack => exact tr (Or.inr (Or.inr (Or.inr (Or.inl rfl))))
  | speed v => exact tr (Or.inr (Or.inr (Or.inr (Or.inr (Or.inl ⟨v, rfl⟩)))))
  | tick id => exact tr (Or.inr (Or.inr (Or.inr (Or.inr (Or.inr ⟨id, rfl⟩)))))

theorem search_statusKnown_init {σ τ : Type} (text : σ → String) (gen : String → τ → List σ)
    (requested : Option String) (target : Option τ) (c : Ctl σ) :
    StatusKnown text (init text gen requested target c) := by
  unfold init
  have hdef : StatusKnown text (setMode "linear" c) := by
    unfold setMode
    rw [if_pos (Or.inl (by decide))]
    exact Or.inr (Or.inl ⟨rfl, rfl, rfl⟩)
  cases requested with
  | none => exact hdef
  | some r =>
    simp only
    split_ifs
    · exact search_statusKnown_buildSteps _ _ _ _
    · exact hdef

end SearchPage

namespace Playback

theorem invariant_foldl {σ ε : Type} (P : Ctl σ → Prop) (handle : Ctl σ → ε → Ctl σ)
    (hstep : ∀ c e, P c → P (handle c e)) (evs : List ε) (c : Ctl σ) (h : P c) :
    P (evs.foldl handle c) := by
  induction evs generalizing c with
  | nil => exact h
  | cons e rest ih => exact ih _ (hstep c e h)

set_option maxRecDepth 100000 in
/-- C27 as stated fails on the search page.  After building the linear search
for 42 the cursor is -1 and the status is the ready message; after a reset the
cursor is -1 and the status is another text; a rejected build leaves trace and
cursor as they are and changes the status; and after a step forward and a
rejected build the cursor is 0 and the status is not of the form
`Step 1/...`. -/
theorem c27_status_counterexample :
    (SearchPage.buildSteps SearchPage.narration SearchPage.generate (some 42)
        (initial "linear" 300)).idx = -1 ∧
    (SearchPage.buildSteps SearchPage.narration SearchPage.generate (some 42)
        (initial "linear" 300)).status = "Ready. Build steps then play or step forward." ∧
    ([Event.build (some 42), Event.reset].foldl
        (SearchPage.handle SearchPage.narration SearchPage.generate)
        (initial "linear" 300)).idx = -1 ∧
    ([Event.build (some 42), Event.reset].foldl
        (SearchPage.handle SearchPage.narration SearchPage.generate)
        (initial "linear" 300)).status = "No steps built yet." ∧
    ([Event.build (some 42), Event.build none].foldl
        (SearchPage.handle SearchPage.narration SearchPage.generate)
        (initial "linear" 300)).steps
      = (SearchPage.buildSteps SearchPage.narration SearchPage.generate (some 42)
          (initial "linear" 300)).steps ∧
    ([Event.build (some 42), Event.build none].foldl
        (SearchPage.handle SearchPage.narration SearchPage.generate)
        (initial "linear" 300)).idx = -1 ∧
    ([Event.build (some 42), Event.build none].foldl
        (SearchPage.handle SearchPage.narration SearchPage.generate)
        (initial "linear" 300)).status = "Enter a valid numeric target." ∧
    ([Event.build (some 42), Event.stepForward, Event.build none].foldl
        (SearchPage.handle SearchPage.narration SearchPage.generate)
        (initial "linear" 300)).idx = 0 ∧
    ([Event.build (some 42), Event.stepForward, Event.build none].foldl
        (SearchPage.handle SearchPage.narration SearchPage.generate)
        (initial "linear" 300)).status = "Enter a valid numeric target." := by
  decide

/-- C27, amended: after the page initialisation and any sequence of events, on
the sort page and on the greedy page the status is the text determined by the
cursor and the trace (the ready message of the page at cursor -1, and
`Step <cursor+1>/<length>`, a newline and the narration of `trace[cursor]`
otherwise); on the search page it is that text, or the text of `resetState`
(after a reset or a mode switch, with an empty trace and cursor -1), or the
invalid-target message (after a rejected build).  On the search page a build
with a numeric target writes the ready message, and every transport event
keeps status, cursor and trace or writes the text determined by the cursor. -/
theorem c27_status {σ τ : Type} (text : σ → String) (genSearch : String → τ → List σ)
    (genSort : String → List Int → List σ) (genGreedy : String → List σ) (speed : Int)
    (requested : Option String) (target : Option τ) (arr : List Int) (evs : List (Event τ)) :
    StatusSynced SortPage.ready text
      (evs.foldl (SortPage.handle text genSort)
        (SortPage.init text genSort requested arr (initial "bubble" speed))) ∧
    StatusSynced GreedyPage.ready text
      (evs.foldl (GreedyPage.handle text genGreedy)
        (GreedyPage.init text genGreedy requested (initial "interval" speed))) ∧
    SearchPage.StatusKnown text
      (evs.foldl (SearchPage.handle text genSearch)
        (SearchPage.init text genSearch requested target (initial "linear" speed))) ∧
    (∀ (c : Ctl σ) (t : τ),
      (SearchPage.handle text genSearch c (Event.build (some t))).status = SearchPage.ready) ∧
    (∀ (c : Ctl σ) (e : Event τ), CursorInRange c →
      (e = Event.play ∨ e = Event.pause ∨ e = Event.stepForward ∨ e = Event.stepBack ∨
        (∃ v, e = Event.speed v) ∨ ∃ id, e = Event.tick id) →
      StatusKept SearchPage.ready text c (SearchPage.handle text genSearch c e)) := by
  refine ⟨?_, ?_, ?_, ?_, ?_⟩
  · exact (invariant_foldl (fun c => WellFormed c ∧ StatusSynced SortPage.ready text c) _
      (SortPage.sort_statusSynced_handle text genSort) evs _
      ⟨SortPage.sort_wellFormed_init _ _ _ _ _ (wellFormed_initial _ _),
        SortPage.sort_statusSynced_init _ _ _ _ _⟩).2
  · exact (invariant_foldl (fun c => WellFormed c ∧ StatusSynced GreedyPage.ready text c) _
      (GreedyPage.greedy_statusSynced_handle text genGreedy) evs _
      ⟨GreedyPage.greedy_wellFormed_init _ _ _ _ (wellFormed_initial _ _),
        GreedyPage.greedy_statusSynced_init _ _ _ _⟩).2
  · exact (invariant_foldl (fun c => WellFormed c ∧ SearchPage.StatusKnown text c) _
      (SearchPage.search_statusKnown_handle text genSearch) evs _
      ⟨SearchPage.search_wellFormed_init _ _ _ _ _ (wellFormed_initial _ _),
        SearchPage.search_statusKnown_init _ _ _ _ _⟩).2
  · intro c t
    simp [SearchPage.handle, SearchPage.buildSteps, applyCurrent_ready]
  · intro c e hc he
    exact statusKept_transport text genSearch genSort genGreedy
      (SearchPage.ready, SearchPage.handle text genSearch) (by simp [controllers]) c hc e he

end Playback
namespace Playback

theorem c27_status_witness :
    CursorInRange (initial "linear" 300 : Ctl (Search.Step ⊕ Search.GraphStep)) ∧
    StatusKept SearchPage.ready SearchPage.narration (initial "linear" 300)
      (SearchPage.handle SearchPage.narration SearchPage.generate (initial "linear" 300)
        (Event.stepBack : Event Int)) :=
  ⟨cursorInRange_initial _ _,
    (c27_status SearchPage.narration SearchPage.generate (fun _ _ => []) (fun _ => []) 300
      none none [] []).2.2.2.2 (initial "linear" 300) Event.stepBack
      (cursorInRange_initial _ _) (Or.inr (Or.inr (Or.inr (Or.inl rfl))))⟩

theorem sort_setAlgo_fields {σ : Type} (text : σ → String) (r : String) (c : Ctl σ)
    (h : SortPage.conceptMapHas r = true) :
    (SortPage.setAlgo text r c).mode = r ∧ (SortPage.setAlgo text r c).steps = [] ∧
    (SortPage.setAlgo text r c).idx = -1 := by
  unfold SortPage.setAlgo
  rw [if_pos h]
  obtain ⟨f1, f2, f3, _⟩ := applyCurrent_frame SortPage.ready text
    { stopPlaying { c with mode := r } with steps := [], idx := -1 }
  rw [f1, f2, f3]
  exact ⟨(stopPlaying_frame _).1, rfl, rfl⟩

theorem sort_resetArray_fields {σ : Type} (text : σ → String) (arr : List Int) (c : Ctl σ) :
    (SortPage.resetArray text arr c).mode = c.mode ∧ (SortPage.resetArray text arr c).steps = [] ∧
    (SortPage.resetArray text arr c).idx = -1 ∧ (SortPage.resetArray text arr c).base = arr := by
  unfold SortPage.resetArray
  obtain ⟨f1, f2, f3, _, _, _, f7⟩ := applyCurrent_frame SortPage.ready text
    { stopPlaying c with base := arr, steps := [], idx := -1 }
  rw [f1, f2, f3, f7]
  exact ⟨(stopPlaying_frame _).1, rfl, rfl, rfl⟩

theorem sort_buildSteps_fields {σ : Type} (text : σ → String) (gen : String → List Int → List σ)
    (c : Ctl σ) :
    (SortPage.buildSteps text gen c).mode = c.mode ∧
    (SortPage.buildSteps text gen c).steps = gen c.mode c.base ∧
    (SortPage.buildSteps text gen c).idx = -1 := by
  unfold SortPage.buildSteps
  obtain ⟨f1, f2, f3, _⟩ := applyCurrent_frame SortPage.ready text
    { c with steps := gen c.mode c.base, idx := -1 }
  rw [f1, f2, f3]
  exact ⟨rfl, rfl, rfl⟩

theorem sort_init_requested {σ : Type} (text : σ → String) (gen : String → List Int → List σ)
    (r : String) (arr : List Int) (c : Ctl σ) (h : SortPage.conceptMapHas r = true) :
    (SortPage.init text gen (some r) arr c).mode = r ∧
    (SortPage.init text gen (some r) arr c).steps = gen r arr ∧
    (SortPage.init text gen (some r) arr c).idx = -1 := by
  have hne : r ≠ "" := by
    intro he
    rw [he] at h
    exact absurd h (by decide)
  unfold SortPage.init
  simp only
  rw [if_pos ⟨hne, h⟩]
  obtain ⟨b1, b2, b3⟩ := sort_buildSteps_fields text gen
    (SortPage.resetArray text arr (SortPage.setAlgo text r (SortPage.setAlgo text "bubble" c)))
  obtain ⟨r1, _, _, r4⟩ := sort_resetArray_fields text arr
    (SortPage.setAlgo text r (SortPage.setAlgo text "bubble" c))
  obtain ⟨a1, _, _⟩ := sort_setAlgo_fields text r (SortPage.setAlgo text "bubble" c) h
  rw [b1, b2, b3, r1, r4, a1]
  exact ⟨rfl, rfl, rfl⟩

theorem sort_init_default {σ : Type} (text : σ → String) (gen : String → List Int → List σ)
    (requested : Option String) (arr : List Int) (c : Ctl σ)
    (h : ∀ r, requested = some r → r = "" ∨ SortPage.conceptMapHas r = false) :
    (SortPage.init text gen requested arr c).mode = "bubble" ∧
    (SortPage.init text gen requested arr c).steps = [] ∧
    (SortPage.init text gen requested arr c).idx = -1 := by
  have key : (SortPage.resetArray text arr (SortPage.setAlgo text "bubble" c)).mode = "bubble" ∧
      (SortPage.resetArray text arr (SortPage.setAlgo text "bubble" c)).steps = [] ∧
      (SortPage.resetArray text arr (SortPage.setAlgo text "bubble" c)).idx = -1 := by
    obtain ⟨r1, r2, r3, _⟩ := sort_resetArray_fields text arr (SortPage.setAlgo text "bubble" c)
    obtain ⟨a1, _, _⟩ := sort_setAlgo_fields text "bubble" c (by decide)
    rw [r1, r2, r3, a1]
    exact ⟨rfl, rfl, rfl⟩
  unfold SortPage.init
  cases requested with
  | none => exact key
  | some r =>
    simp only
    rw [if_neg]
    · exact key
    · rintro ⟨h1, h2⟩
      rcases h r rfl with h3 | h3
      · exact h1 h3
      · rw [h2] at h3; cases h3

theorem search_setMode_fields {σ : Type} (m : String) (c : Ctl σ) (h : m ∈ SearchPage.modes) :
    (SearchPage.setMode m c).mode = m ∧ (SearchPage.setMode m c).steps = [] ∧
    (SearchPage.setMode m c).idx = -1 := by
  unfold SearchPage.setMode
  simp only
  rw [if_pos (Or.inl h)]
  exact ⟨(stopPlaying_frame _).1, rfl, rfl⟩

theorem search_init_fields {σ τ : Type} (text : σ → String) (gen : String → τ → List σ)
    (requested : Option String) (t : τ) (c : Ctl σ) :
    (∀ r, requested = some r → r ∈ SearchPage.modes →
      (SearchPage.init text gen requested (some t) c).mode = r ∧
      (SearchPage.init text gen requested (some t) c).steps = gen r t ∧
      (SearchPage.init text gen requested (some t) c).idx = -1) ∧
    ((∀ r, requested = some r → r ∉ SearchPage.modes) →
      (SearchPage.init text gen requested (some t) c).mode = "linear" ∧
      (SearchPage.init text gen requested (some t) c).steps = [] ∧
      (SearchPage.init text gen requested (some t) c).idx = -1) := by
  constructor
  · intro r hr hmem
    subst hr
    have hne : r ≠ "" := by
      intro he; rw [he] at hmem; exact absurd hmem (by decide)
    unfold SearchPage.init
    simp only
    rw [if_pos ⟨hne, hmem⟩]
    unfold SearchPage.buildSteps
    simp only
    obtain ⟨f1, f2, f3, _⟩ := applyCurrent_frame SearchPage.ready text
      { SearchPage.setMode r c with
        steps := gen (SearchPage.setMode r c).mode t, idx := -1 }
    rw [f1, f2, f3]
    obtain ⟨a1, _, _⟩ := search_setMode_fields r c hmem
    simp only [a1]
    exact ⟨trivial, trivial, trivial⟩
  · intro h
    have key := search_setMode_fields "linear" c (by decide)
    unfold SearchPage.init
    cases requested with
    | none => exact key
    | some r =>
      simp only
      rw [if_neg (fun hc => h r rfl hc.2)]
      exact key

theorem greedy_setMode_fields {σ : Type} (text : σ → String) (m : String) (c : Ctl σ)
    (h : m ∈ GreedyPage.modes) :
    (GreedyPage.setMode text m c).mode = m ∧ (GreedyPage.setMode text m c).steps = [] ∧
    (GreedyPage.setMode text m c).idx = -1 := by
  unfold GreedyPage.setMode
  simp only
  rw [if_pos (Or.inl h)]
  obtain ⟨f1, f2, f3, _⟩ := applyCurrent_frame GreedyPage.ready text
    { stopPlaying { c with mode := m } with steps := [], idx := -1 }
  rw [f1, f2, f3]
  exact ⟨(stopPlaying_frame _).1, rfl, rfl⟩

theorem greedy_init_fields {σ : Type} (text : σ → String) (gen : String → List σ)
    (requested : Option String) (c : Ctl σ) :
    (∀ r, requested = some r → r ∈ GreedyPage.modes →
      (GreedyPage.init text gen requested c).mode = r ∧
      (GreedyPage.init text gen requested c).steps = gen r ∧
      (GreedyPage.init text gen requested c).idx = -1) ∧
    ((∀ r, requested = some r → r ∉ GreedyPage.modes) →
      (GreedyPage.init text gen requested c).mode = "interval" ∧
      (GreedyPage.init text gen requested c).steps = [] ∧
      (GreedyPage.init text gen requested c).idx = -1) := by
  constructor
  · intro r hr hmem
    subst hr
    have hne : r ≠ "" := by
      intro he; rw [he] at hmem; exact absurd hmem (by decide)
    unfold GreedyPage.init
    simp only
    rw [if_pos ⟨hne, hmem⟩]
    unfold GreedyPage.buildSteps
    obtain ⟨f1, f2, f3, _⟩ := applyCurrent_frame GreedyPage.ready text
      { GreedyPage.setMode text r c with
        steps := gen (GreedyPage.setMode text r c).mode, idx := -1 }
    rw [f1, f2, f3]
    obtain ⟨a1, _, _⟩ := greedy_setMode_fields text r c hmem
    simp only [a1]
    exact ⟨trivial, trivial, trivial⟩
  · intro h
    have key := greedy_setMode_fields text "interval" c (by decide)
    unfold GreedyPage.init
    cases requested with
    | none => exact key
    | some r =>
      simp only
      rw [if_neg (fun hc => h r rfl hc.2)]
      exact key

end Playback
namespace Playback

/-- C30 (what the code does): on initialisation the search page and the greedy
page select a requested mode that is in their list of modes and build its
trace, and fall back to their default mode, with no trace, for every other
request (absent, empty or any other string).  The sort page tests
`conceptMap[requested]` instead: it selects and builds a request that is one
of the five algorithm names, and falls back to bubble for a request that is
absent, empty or no property of `conceptMap`; but a request naming a property
inherited from `Object.prototype`, such as `constructor`, passes the test,
becomes `currentAlgo`, and the quick-sort trace is built for it. -/
theorem c30_init_requested {σ τ : Type} (text : σ → String) (genSearch : String → τ → List σ)
    (genSort : String → List Int → List σ) (genGreedy : String → List σ) (speed : Int)
    (requested : Option String) (t : τ) (arr : List Int) :
    ((∀ r, requested = some r → r ∈ SearchPage.modes →
        (SearchPage.init text genSearch requested (some t) (initial "linear" speed)).mode = r ∧
        (SearchPage.init text genSearch requested (some t) (initial "linear" speed)).steps
          = genSearch r t) ∧
      ((∀ r, requested = some r → r ∉ SearchPage.modes) →
        (SearchPage.init text genSearch requested (some t) (initial "linear" speed)).mode
          = "linear" ∧
        (SearchPage.init text genSearch requested (some t) (initial "linear" speed)).steps
          = [])) ∧
    ((∀ r, requested = some r → r ∈ GreedyPage.modes →
        (GreedyPage.init text genGreedy requested (initial "interval" speed)).mode = r ∧
        (GreedyPage.init text genGreedy requested (initial "interval" speed)).steps
          = genGreedy r) ∧
      ((∀ r, requested = some r → r ∉ GreedyPage.modes) →
        (GreedyPage.init text genGreedy requested (initial "interval" speed)).mode
          = "interval" ∧
        (GreedyPage.init text genGreedy requested (initial "interval" speed)).steps = [])) ∧
    ((∀ r, requested = some r → r ∈ SortPage.modes →
        (SortPage.init text genSort requested arr (initial "bubble" speed)).mode = r ∧
        (SortPage.init text genSort requested arr (initial "bubble" speed)).steps
          = genSort r arr) ∧
      ((∀ r, requested = some r → r = "" ∨ (r ∉ SortPage.modes ∧ r ∉ protoKeys)) →
        (SortPage.init text genSort requested arr (initial "bubble" speed)).mode = "bubble" ∧
        (SortPage.init text genSort requested arr (initial "bubble" speed)).steps = []) ∧
      (∀ r, requested = some r → r ∈ protoKeys →
        (SortPage.init text genSort requested arr (initial "bubble" speed)).mode = r ∧
        (SortPage.init text genSort requested arr (initial "bubble" speed)).steps
          = genSort r arr)) ∧
    ("constructor" ∈ protoKeys ∧ "constructor" ∉ SortPage.modes ∧
      (SortPage.init SortPage.narration SortPage.generate (some "constructor") arr
        (initial "bubble" speed)).mode = "constructor" ∧
      (SortPage.init SortPage.narration SortPage.generate (some "constructor") arr
        (initial "bubble" speed)).steps = (Sorting.buildQuick (arr.length + 3) arr).getD [] ∧
      (SortPage.init SortPage.narration SortPage.generate (some "constructor") arr
        (initial "bubble" speed)).steps ≠ []) := by
  refine ⟨⟨?_, ?_⟩, ⟨?_, ?_⟩, ⟨?_, ?_, ?_⟩, ?_⟩
  · intro r hr hm
    obtain ⟨h1, h2, _⟩ := (search_init_fields text genSearch requested t _).1 r hr hm
    exact ⟨h1, h2⟩
  · intro h
    obtain ⟨h1, h2, _⟩ := (search_init_fields text genSearch requested t _).2 h
    exact ⟨h1, h2⟩
  · intro r hr hm
    obtain ⟨h1, h2, _⟩ := (greedy_init_fields text genGreedy requested _).1 r hr hm
    exact ⟨h1, h2⟩
  · intro h
    obtain ⟨h1, h2, _⟩ := (greedy_init_fields text genGreedy requested _).2 h
    exact ⟨h1, h2⟩
  · intro r hr hm
    subst hr
    obtain ⟨h1, h2, _⟩ := sort_init_requested text genSort r arr (initial "bubble" speed)
      (by unfold SortPage.conceptMapHas; exact decide_eq_true (Or.inl hm))
    exact ⟨h1, h2⟩
  · intro h
    obtain ⟨h1, h2, _⟩ := sort_init_default text genSort requested arr (initial "bubble" speed)
      (fun r hr => by
        rcases h r hr with h0 | ⟨h1, h2⟩
        · exact Or.inl h0
        · right
          unfold SortPage.conceptMapHas
          exact decide_eq_false (fun hc => hc.elim h1 h2))
    exact ⟨h1, h2⟩
  · intro r hr hm
    subst hr
    obtain ⟨h1, h2, _⟩ := sort_init_requested text genSort r arr (initial "bubble" speed)
      (by unfold SortPage.conceptMapHas; exact decide_eq_true (Or.inr hm))
    exact ⟨h1, h2⟩
  · obtain ⟨h1, h2, _⟩ := sort_init_requested SortPage.narration SortPage.generate
      "constructor" arr (initial "bubble" speed) (by decide)
    have hq : SortPage.generate "constructor" arr
        = (Sorting.buildQuick (arr.length + 3) arr).getD [] := by
      unfold SortPage.generate
      rw [if_neg (by decide), if_neg (by decide), if_neg (by decide), if_neg (by decide)]
    obtain ⟨tr, e1, _, _, e4⟩ := Sorting.buildQuick_spec (arr.length + 3) arr (by omega)
    refine ⟨by decide, by decide, h1, by rw [h2, hq], ?_⟩
    rw [h2, hq, e1]
    exact e4

set_option maxRecDepth 100000 in
theorem c30_init_requested_witness :
    ((some "merge" : Option String) = some "merge" ∧ "merge" ∈ SortPage.modes) ∧
    (SortPage.init SortPage.narration SortPage.generate (some "merge") [3, 1, 2]
        (initial "bubble" 300)).mode = "merge" ∧
    (SortPage.init SortPage.narration SortPage.generate (some "merge") [3, 1, 2]
        (initial "bubble" 300)).steps = SortPage.generate "merge" [3, 1, 2] :=
  ⟨⟨rfl, by decide⟩,
    (c30_init_requested SortPage.narration (fun _ (_ : Int) => []) SortPage.generate
      (fun _ => []) 300 (some "merge") 0 [3, 1, 2]).2.2.1.1 "merge" rfl (by decide)⟩

end Playback
namespace Search

open Loop

set_option maxRecDepth 100000 in
/-- C31: with enough fuel, the BFS trace and the DFS trace (every `kind` other
than `bfs`) on the built-in graph of 7 nodes and 10 edges consist of one
initial snapshot, one Dequeue or Pop snapshot for each of the 7 nodes, one
Inspect snapshot for each of the 20 ordered pairs (node, neighbour), one
Discover snapshot for each of the 6 nodes other than A, and one final
snapshot (the only one without `activeNode`): 35 snapshots. -/
theorem c31_trace_composition (kind : String) (fuel : Nat) (hf : 8 ≤ fuel) :
    graphNodes.length = 7 ∧ graphEdges.length = 10 ∧ orderedPairs.length = 20 ∧
    ∃ tr, buildGraphSteps fuel kind = some tr ∧
      tr.length = 35 ∧
      countText "Initialize " tr = 1 ∧
      countText "Dequeue " tr + countText "Pop " tr = 7 ∧
      (taken tr).Perm graphNodes ∧
      countText "Inspect edge " tr = 20 ∧
      (∀ p ∈ orderedPairs,
        tr.countP (fun s => decide (s.text = "Inspect edge " ++ p.1 ++ " -> " ++ p.2 ++ ".")) = 1) ∧
      countText "Discover " tr = 6 ∧
      (∀ n ∈ graphNodes, n ≠ "A" →
        tr.countP (fun s => startsWith "Discover " s.text && decide (s.activeNode = some n)) = 1) ∧
      tr.countP (fun s => decide (s.activeNode = none)) = 1 ∧
      (tr.getLast?.map (fun s => s.activeNode)) = some none := by
  refine ⟨rfl, rfl, by decide, ?_⟩
  by_cases hk : kind = "bfs"
  · subst hk
    apply graph_trace_of "bfs" _ fuel hf (by decide!)
    exact ⟨by decide!, by decide!, by decide!, by decide!, by decide!, by decide!, by decide!,
      by decide!, by decide!, by decide!⟩
  · rw [buildGraphSteps_dfs kind fuel hk]
    apply graph_trace_of "dfs" _ fuel hf (by decide!)
    exact ⟨by decide!, by decide!, by decide!, by decide!, by decide!, by decide!, by decide!,
      by decide!, by decide!, by decide!⟩

theorem c31_trace_composition_witness :
    (8 ≤ 8) ∧ ∃ tr, buildGraphSteps 8 "dfs" = some tr ∧ tr.length = 35 := by
  obtain ⟨_, _, _, tr, h1, h2, _⟩ := c31_trace_composition "dfs" 8 (le_refl _)
  exact ⟨le_refl _, tr, h1, h2⟩

set_option maxRecDepth 100000 in
/-- C32 as stated fails: the DFS trace pops the nodes in the order A, B, D, E,
F, C, G, while the recursive depth-first traversal from A that tries the
neighbours in ascending order first visits them in the order A, B, C, D, E, F,
G. -/
theorem c32_dfs_order_counterexample :
    (buildGraphSteps 8 "dfs").map taken = some ["A", "B", "D", "E", "F", "C", "G"] ∧
    recursiveDfs 8 [] "A" = ["A", "B", "C", "D", "E", "F", "G"] ∧
    (buildGraphSteps 8 "dfs").map taken ≠ some (recursiveDfs 8 [] "A") := by
  decide!

end Search

namespace Search

open Loop

set_option maxRecDepth 100000 in
/-- C32, amended: with enough fuel, the DFS trace (every `kind` other than
`bfs`) pops the nodes in the order A, B, D, E, F, C, G, every node once.  A
node is marked seen when it is pushed and the neighbours are pushed in
descending id order: whenever a popped node discovers nodes, they are
discovered in descending order and the next node popped is the smallest of
them.  The recursive traversal visits the same 7 nodes, in another order. -/
theorem c32_dfs_order (kind : String) (hk : kind ≠ "bfs") (fuel : Nat) (hf : 8 ≤ fuel) :
    ∃ tr, buildGraphSteps fuel kind = some tr ∧
      taken tr = ["A", "B", "D", "E", "F", "C", "G"] ∧
      discoveredBy tr = [("A", ["G", "C", "B"]), ("B", ["D"]), ("D", ["E"]), ("E", ["F"]),
        ("F", []), ("C", []), ("G", [])] ∧
      smallestFirst (discoveredBy tr) = true ∧
      (taken tr).Perm (recursiveDfs 8 [] "A") := by
  rw [buildGraphSteps_dfs kind fuel hk]
  apply graph_trace_of "dfs" _ fuel hf (by decide!)
  exact ⟨by decide!, by decide!, by decide!, by decide!⟩

theorem c32_dfs_order_witness :
    ("dfs" ≠ "bfs" ∧ 8 ≤ 8) ∧
    ∃ tr, buildGraphSteps 8 "dfs" = some tr ∧
      taken tr = ["A", "B", "D", "E", "F", "C", "G"] := by
  obtain ⟨tr, h1, h2, _⟩ := c32_dfs_order "dfs" (by decide) 8 (le_refl _)
  exact ⟨⟨by decide, le_refl _⟩, tr, h1, h2⟩

end Search
namespace Greedy

open Js

/-- A property of the trace built with fuel `n` holds of the trace built with
any larger fuel. -/
theorem trace_of_get (build : Nat → Option (List GraphStep))
    (hmono : ∀ f f2 tr, build f = some tr → f ≤ f2 → build f2 = some tr)
    (P : List GraphStep → Prop) (n fuel : Nat) (hf : n ≤ fuel)
    (hsome : (build n).isSome = true) (hP : P ((build n).get hsome)) :
    ∃ tr, build fuel = some tr ∧ P tr :=
  ⟨_, hmono n fuel _ (Option.some_get hsome).symm hf, hP⟩

set_option maxRecDepth 100000 in
/-- C33 as stated fails: node C has four incident edges, but when
`buildDijkstra` settles C the trace has only three Relax snapshots, none for
the edge A-C to the node A settled before. -/
theorem c33_relax_per_edge_counterexample :
    incidentIds "C" = ["A-C", "B-C", "C-D", "C-G"] ∧
    (buildDijkstra 8).map (fun tr => relaxedFrom tr "C") = some ["B-C", "C-D", "C-G"] := by
  decide

set_option maxRecDepth 100000 in
/-- C33, amended: with enough fuel, each node of the built-in graph is settled
once, and the Relax snapshots that follow are, in the order of `neighbors`,
one for every incident edge whose other end has not been settled before (an
edge to a settled node gets no snapshot); a Relax snapshot is followed by an
Update snapshot exactly when the candidate distance is smaller than the
tentative distance of the other end, and Update snapshots occur nowhere
else. -/
theorem c33_relax_snapshots (fuel : Nat) (hf : 8 ≤ fuel) :
    ∃ tr, buildDijkstra fuel = some tr ∧
      (∀ n ∈ graphNodes,
        tr.countP (fun s => startsWith "Settle " s.text && decide (s.activeNode = some n.id)) = 1 ∧
        relaxedFrom tr n.id = openIncidentIds tr n.id) ∧
      tr.countP (fun s => startsWith "Relax " s.text)
        = ((graphNodes.map (fun n => (relaxedFrom tr n.id).length)).sum) ∧
      updateRule tr = true := by
  apply trace_of_get buildDijkstra buildDijkstra_mono _ 8 fuel hf (by decide)
  exact ⟨by decide, by decide, by decide⟩

theorem c33_relax_snapshots_witness :
    (8 ≤ 8) ∧ ∃ tr, buildDijkstra 8 = some tr ∧ updateRule tr = true := by
  obtain ⟨tr, h1, _, _, h4⟩ := c33_relax_snapshots 8 (le_refl _)
  exact ⟨le_refl _, tr, h1, h4⟩

end Greedy
namespace Greedy

open Js

theorem spansB_sound (es : List Edge) (h : spansB es = true) : Spans es := by
  intro n hn
  apply grown_reach
  simp only [spansB, List.all_eq_true, decide_eq_true_eq] at h
  exact h n hn

end Greedy
namespace Greedy

open Js

/-! ## The search of `connected` -/

theorem push_mem (seen1 : List String) (x : String) :
    ∀ (nbs stack1 : List String),
      x ∈ nbs.foldl (fun stack v => if v ∉ seen1 then stack ++ [v] else stack) stack1 ↔
        x ∈ stack1 ∨ (x ∈ nbs ∧ x ∉ seen1) := by
  intro nbs
  induction nbs with
  | nil => intro stack1; simp
  | cons v rest ih =>
    intro stack1
    rw [List.foldl_cons, ih]
    by_cases hv : v ∉ seen1
    · rw [if_pos hv]
      simp only [List.mem_append, List.mem_cons, List.not_mem_nil, or_false]
      constructor
      · rintro ((h | h) | h)
        · exact Or.inl h
        · exact Or.inr ⟨Or.inl h, by rw [h]; exact hv⟩
        · exact Or.inr ⟨Or.inr h.1, h.2⟩
      · rintro (h | ⟨h1 | h1, h2⟩)
        · exact Or.inl (Or.inl h)
        · exact Or.inl (Or.inr h1)
        · exact Or.inr ⟨h1, h2⟩
    · rw [if_neg hv]
      simp only [List.mem_cons]
      constructor
      · rintro (h | h)
        · exact Or.inl h
        · exact Or.inr ⟨Or.inr h.1, h.2⟩
      · rintro (h | ⟨h1 | h1, h2⟩)
        · exact Or.inl h
        · exact absurd (by rw [← h1]; exact h2) hv
        · exact Or.inr ⟨h1, h2⟩

theorem push_length (seen1 : List String) :
    ∀ (nbs stack1 : List String),
      (nbs.foldl (fun stack v => if v ∉ seen1 then stack ++ [v] else stack) stack1).length
        ≤ stack1.length + nbs.length := by
  intro nbs
  induction nbs with
  | nil => intro stack1; simp
  | cons v rest ih =>
    intro stack1
    rw [List.foldl_cons]
    have := ih (if v ∉ seen1 then stack1 ++ [v] else stack1)
    have h2 : (if v ∉ seen1 then stack1 ++ [v] else stack1).length ≤ stack1.length + 1 := by
      split
      · simp
      · omega
    simp only [List.length_cons]
    omega

theorem objGet_not_key {β : Type} (o : List (String × β)) (k : String)
    (h : k ∉ o.map Prod.fst) : objGet o k = none := by
  induction o with
  | nil => rfl
  | cons p rest ih =>
    obtain ⟨k1, v1⟩ := p
    simp only [List.map_cons, List.mem_cons, not_or] at h
    rw [objGet, if_neg (fun e => h.1 e.symm)]
    exact ih h.2

theorem unseenWork_not_key (adj : List (String × List String)) (seen : List String)
    (u : String) (h : u ∉ adj.map Prod.fst) :
    unseenWork adj (seen ++ [u]) = unseenWork adj seen := by
  unfold unseenWork
  congr 2
  apply List.filter_congr
  intro p hp
  have hne : p.1 ≠ u := by
    intro e
    exact h (e ▸ List.mem_map_of_mem Prod.fst hp)
  simp [hne]

/-- Seeing a new node takes its neighbour entries out of the work to come. -/
theorem unseenWork_add (adj : List (String × List String)) (seen : List String) (u : String)
    (hk : (adj.map Prod.fst).Nodup) (hu : u ∉ seen) :
    unseenWork adj (seen ++ [u]) + (adjOf adj u).length = unseenWork adj seen := by
  induction adj with
  | nil => simp [unseenWork, adjOf, objGet]
  | cons p rest ih =>
    obtain ⟨k, l⟩ := p
    simp only [List.map_cons, List.nodup_cons] at hk
    have ih2 := ih hk.2
    by_cases e : k = u
    · subst e
      have h1 := unseenWork_not_key rest seen k hk.1
      have c1 : ¬ (decide ((k, l).1 ∉ seen ++ [k]) = true) := by simp
      have c2 : decide ((k, l).1 ∉ seen) = true := by simp [hu]
      have e3 : adjOf ((k, l) :: rest) k = l := by simp [adjOf, objGet]
      rw [e3]
      unfold unseenWork at h1 ⊢
      rw [List.filter_cons, List.filter_cons, if_neg c1, if_pos c2, List.map_cons,
        List.sum_cons, h1]
      dsimp only
      omega
    · have e3 : adjOf ((k, l) :: rest) u = adjOf rest u := by simp [adjOf, objGet, e]
      rw [e3]
      unfold unseenWork at ih2 ⊢
      rw [List.filter_cons, List.filter_cons]
      by_cases hs : k ∈ seen
      · have c1 : ¬ (decide ((k, l).1 ∉ seen ++ [u]) = true) := by simp [hs]
        have c2 : ¬ (decide ((k, l).1 ∉ seen) = true) := by simp [hs]
        rw [if_neg c1, if_neg c2]
        exact ih2
      · have c1 : decide ((k, l).1 ∉ seen ++ [u]) = true := by simp [hs, e]
        have c2 : decide ((k, l).1 ∉ seen) = true := by simp [hs]
        rw [if_pos c1, if_pos c2, List.map_cons, List.map_cons, List.sum_cons, List.sum_cons]
        dsimp only
        omega

theorem connectedPass_next (adj : List (String × List String)) (a : String)
    (hk : (adj.map Prod.fst).Nodup) (st st1 : SearchState) (hI : SearchInv adj a st)
    (h : connectedPass adj st = Loop.Flow.next st1) :
    SearchInv adj a st1 ∧
      st1.stack.length + unseenWork adj st1.seen < st.stack.length + unseenWork adj st.seen := by
  obtain ⟨i1, i2, i3, i4⟩ := hI
  unfold connectedPass at h
  cases hl : st.stack.getLast? with
  | none =>
    rw [hl] at h
    cases h
  | some u =>
    rw [hl] at h
    simp only at h
    have hst : st.stack.dropLast ++ [u] = st.stack := List.dropLast_append_getLast? u hl
    have hlen : st.stack.length = st.stack.dropLast.length + 1 := by
      rw [← hst]
      simp
    have hmem : ∀ x, x ∈ st.stack ↔ x ∈ st.stack.dropLast ∨ x = u := by
      intro x
      rw [← hst]
      simp
    have hru := i1 u (Or.inr ((hmem u).2 (Or.inr rfl)))
    by_cases hu : u ∈ st.seen
    · rw [if_pos hu] at h
      simp only [Loop.Flow.next.injEq] at h
      subst h
      refine ⟨⟨?_, ?_, ?_, i4⟩, by simp only; omega⟩
      · rintro x (hx | hx)
        · exact i1 x (Or.inl hx)
        · exact i1 x (Or.inr ((hmem x).2 (Or.inl hx)))
      · rcases i2 with h2 | h2
        · exact Or.inl h2
        · rcases (hmem a).1 h2 with h3 | h3
          · exact Or.inr h3
          · exact Or.inl (h3 ▸ hu)
      · intro w hw v hv
        rcases i3 w hw v hv with h2 | h2
        · exact Or.inl h2
        · rcases (hmem v).1 h2 with h3 | h3
          · exact Or.inr h3
          · exact Or.inl (h3 ▸ hu)
    · rw [if_neg hu] at h
      simp only [Loop.Flow.next.injEq] at h
      subst h
      have hadd : setAdd st.seen u = st.seen ++ [u] := by simp [setAdd, hu]
      have hwork := unseenWork_add adj st.seen u hk hu
      have hpl := push_length (setAdd st.seen u) ((objGet adj u).getD []) st.stack.dropLast
      refine ⟨⟨?_, ?_, ?_, ?_⟩, ?_⟩
      · rintro x (hx | hx)
        · simp only [hadd, List.mem_append, List.mem_singleton] at hx
          rcases hx with hx | hx
          · exact i1 x (Or.inl hx)
          · exact hx ▸ hru
        · rcases (push_mem _ x _ _).1 hx with h2 | ⟨h2, _⟩
          · exact i1 x (Or.inr ((hmem x).2 (Or.inl h2)))
          · exact Relation.ReflTransGen.tail hru h2
      · rcases i2 with h2 | h2
        · exact Or.inl (by simp only [hadd, List.mem_append]; exact Or.inl h2)
        · rcases (hmem a).1 h2 with h3 | h3
          · exact Or.inr ((push_mem _ a _ _).2 (Or.inl h3))
          · exact Or.inl (by simp only [hadd, List.mem_append, List.mem_singleton]
                             exact Or.inr h3)
      · intro w hw v hv
        by_cases hvs : v ∈ setAdd st.seen u
        · exact Or.inl hvs
        · right
          simp only [hadd, List.mem_append, List.mem_singleton] at hw
          rcases hw with hw | hw
          · rcases i3 w hw v hv with h2 | h2
            · exact absurd (by simp only [hadd, List.mem_append]; exact Or.inl h2) hvs
            · rcases (hmem v).1 h2 with h3 | h3
              · exact (push_mem _ v _ _).2 (Or.inl h3)
              · exact absurd (by simp only [hadd, List.mem_append, List.mem_singleton]
                                 exact Or.inr h3) hvs
          · subst hw
            exact (push_mem _ v _ _).2 (Or.inr ⟨hv, hvs⟩)
      · rw [hadd]
        exact List.Nodup.append i4 (List.nodup_singleton u)
          (by simp only [List.disjoint_singleton]; exact hu)
      · simp only
        rw [hadd] at hpl ⊢
        unfold adjOf at hwork
        omega

theorem connectedPass_done (adj : List (String × List String)) (st st1 : SearchState)
    (h : connectedPass adj st = Loop.Flow.done st1) : st1 = st ∧ st.stack = [] := by
  unfold connectedPass at h
  cases hl : st.stack.getLast? with
  | none =>
    rw [hl] at h
    simp only [Loop.Flow.done.injEq] at h
    exact ⟨h.symm, List.getLast?_eq_none_iff.1 hl⟩
  | some u =>
    rw [hl] at h
    simp only at h
    split at h <;> cases h

/-- With fuel above the neighbour entries, the loop of `connected` ends, and
the nodes it has seen are, each once, the nodes that can be reached from the
start. -/
theorem connected_run (adj : List (String × List String)) (a : String) (fuel : Nat)
    (hk : (adj.map Prod.fst).Nodup) (hf : unseenWork adj [] + 1 < fuel) :
    ∃ r, Loop.run (connectedPass adj) fuel { seen := [], stack := [a] } = some r ∧
      r.seen.Nodup ∧
      ∀ x, x ∈ r.seen ↔ Relation.ReflTransGen (fun u v => v ∈ adjOf adj u) a x := by
  have key := Loop.run_spec (connectedPass adj) (SearchInv adj a)
    (fun r => SearchInv adj a r ∧ r.stack = [])
    (fun st => st.stack.length + unseenWork adj st.seen)
    (fun s s1 hI hs => connectedPass_next adj a hk s s1 hI hs)
    (fun s s1 hI hs => by
      obtain ⟨e1, e2⟩ := connectedPass_done adj s s1 hs
      rw [e1]
      exact ⟨hI, e2⟩)
    fuel { seen := [], stack := [a] }
    ⟨fun x hx => by
        rcases hx with hx | hx
        · cases hx
        · simp only [List.mem_singleton] at hx
          rw [hx],
      Or.inr (List.mem_singleton.2 rfl), fun u hu => (by cases hu), List.nodup_nil⟩
    (by simp only [List.length_singleton]; omega)
  obtain ⟨r, hr, ⟨i1, i2, i3, i4⟩, hst⟩ := key
  refine ⟨r, hr, i4, fun x => ⟨fun hx => i1 x (Or.inl hx), fun hx => ?_⟩⟩
  rw [hst] at i2 i3
  induction hx with
  | refl =>
    rcases i2 with h | h
    · exact h
    · cases h
  | tail _ hadj ih =>
    rcases i3 _ ih _ hadj with h | h
    · exact h
    · cases h

/-! ### The adjacency lists of `connected` -/

theorem objPush_keys {β : Type} (o : List (String × List β)) (k : String) (x : β) :
    (objPush o k x).map Prod.fst = o.map Prod.fst := by
  induction o with
  | nil => rfl
  | cons p rest ih =>
    obtain ⟨k1, l⟩ := p
    rw [objPush]
    split
    · rfl
    · simp only [List.map_cons, ih]

theorem objGet_objPush {β : Type} (o : List (String × List β)) (k : String) (x : β)
    (k2 : String) :
    objGet (objPush o k x) k2
      = if k = k2 then (objGet o k2).map (fun l => l ++ [x]) else objGet o k2 := by
  induction o with
  | nil => simp [objPush, objGet]
  | cons p rest ih =>
    obtain ⟨k1, l⟩ := p
    rw [objPush]
    by_cases e1 : k1 = k
    · rw [if_pos e1]
      subst e1
      by_cases e2 : k1 = k2
      · simp [objGet, e2]
      · simp [objGet, e2]
    · rw [if_neg e1, objGet, ih]
      by_cases e2 : k1 = k2
      · have e3 : ¬ k = k2 := fun h => e1 (e2.trans h.symm)
        simp [objGet, e2, e3]
      · simp [objGet, e2]

theorem objGet_key {β : Type} (o : List (String × β)) (k : String)
    (h : k ∈ o.map Prod.fst) : ∃ v, objGet o k = some v := by
  induction o with
  | nil => cases h
  | cons p rest ih =>
    obtain ⟨k1, v1⟩ := p
    rw [objGet]
    by_cases e : k1 = k
    · exact ⟨v1, by rw [if_pos e]⟩
    · rw [if_neg e]
      simp only [List.map_cons, List.mem_cons] at h
      rcases h with h | h
      · exact absurd h.symm e
      · exact ih h

theorem mem_adjOf_objPush (o : List (String × List String)) (k x u v : String)
    (hk : k ∈ o.map Prod.fst) :
    v ∈ adjOf (objPush o k x) u ↔ v ∈ adjOf o u ∨ (k = u ∧ v = x) := by
  unfold adjOf
  rw [objGet_objPush]
  by_cases e : k = u
  · subst e
    obtain ⟨l, hl⟩ := objGet_key o k hk
    simp [hl]
  · simp [e]

theorem total_objPush (o : List (String × List String)) (k x : String) :
    unseenWork (objPush o k x) [] ≤ unseenWork o [] + 1 := by
  unfold unseenWork
  induction o with
  | nil => simp [objPush]
  | cons p rest ih =>
    obtain ⟨k1, l⟩ := p
    rw [objPush]
    split
    · simp
      omega
    · simp at ih ⊢
      omega

theorem activeAdj_keys (active : List String) :
    ∀ (l : List Edge) (o : List (String × List String)),
      (l.foldl
        (fun adj e =>
          if e.id ∉ active then adj
          else objPush (objPush adj e.u e.v) e.v e.u) o).map Prod.fst = o.map Prod.fst := by
  intro l
  induction l with
  | nil => intro o; rfl
  | cons e rest ih =>
    intro o
    rw [List.foldl_cons, ih]
    split
    · rfl
    · rw [objPush_keys, objPush_keys]

theorem activeAdj_total (active : List String) :
    ∀ (l : List Edge) (o : List (String × List String)),
      unseenWork (l.foldl
        (fun adj e =>
          if e.id ∉ active then adj
          else objPush (objPush adj e.u e.v) e.v e.u) o) [] ≤ unseenWork o [] + 2 * l.length := by
  intro l
  induction l with
  | nil => intro o; simp
  | cons e rest ih =>
    intro o
    rw [List.foldl_cons]
    have h1 := ih (if e.id ∉ active then o else objPush (objPush o e.u e.v) e.v e.u)
    have h2 : unseenWork (if e.id ∉ active then o else objPush (objPush o e.u e.v) e.v e.u) []
        ≤ unseenWork o [] + 2 := by
      split
      · omega
      · have a1 := total_objPush o e.u e.v
        have a2 := total_objPush (objPush o e.u e.v) e.v e.u
        omega
    simp only [List.length_cons]
    omega

theorem activeAdj_mem (active : List String) (u v : String) :
    ∀ (l : List Edge) (o : List (String × List String)),
      (∀ e ∈ l, e.u ∈ o.map Prod.fst ∧ e.v ∈ o.map Prod.fst) →
      (v ∈ adjOf (l.foldl
        (fun adj e =>
          if e.id ∉ active then adj
          else objPush (objPush adj e.u e.v) e.v e.u) o) u ↔
        v ∈ adjOf o u ∨
          ∃ e ∈ l, e.id ∈ active ∧ ((e.u = u ∧ e.v = v) ∨ (e.u = v ∧ e.v = u))) := by
  intro l
  induction l with
  | nil => intro o _; simp
  | cons e rest ih =>
    intro o hkeys
    have he := hkeys e (List.mem_cons_self _ _)
    rw [List.foldl_cons]
    by_cases ha : e.id ∉ active
    · rw [if_pos ha, ih o (fun x hx => hkeys x (List.mem_cons_of_mem _ hx))]
      simp only [List.mem_cons, exists_eq_or_imp]
      constructor
      · rintro (h | h)
        · exact Or.inl h
        · exact Or.inr (Or.inr h)
      · rintro (h | h | h)
        · exact Or.inl h
        · exact absurd h.1 ha
        · exact Or.inr h
    · rw [if_neg ha, ih _ (fun x hx => by
        rw [objPush_keys, objPush_keys]
        exact hkeys x (List.mem_cons_of_mem _ hx))]
      have ha2 : e.id ∈ active := not_not.1 ha
      rw [mem_adjOf_objPush _ _ _ _ _ (by rw [objPush_keys]; exact he.2),
        mem_adjOf_objPush _ _ _ _ _ he.1]
      simp only [List.mem_cons, exists_eq_or_imp]
      constructor
      · rintro (((h | ⟨h1, h2⟩) | ⟨h1, h2⟩) | h)
        · exact Or.inl h
        · exact Or.inr (Or.inl ⟨ha2, Or.inl ⟨h1, h2.symm⟩⟩)
        · exact Or.inr (Or.inl ⟨ha2, Or.inr ⟨h2.symm, h1⟩⟩)
        · exact Or.inr (Or.inr h)
      · rintro (h | ⟨_, (⟨h1, h2⟩ | ⟨h1, h2⟩)⟩ | h)
        · exact Or.inl (Or.inl (Or.inl h))
        · exact Or.inl (Or.inl (Or.inr ⟨h1, h2.symm⟩))
        · exact Or.inl (Or.inr ⟨h2, h1.symm⟩)
        · exact Or.inr h

theorem adjOf_empty (u : String) :
    ∀ l : List Node, adjOf (l.map (fun n => (n.id, ([] : List String)))) u = [] := by
  intro l
  induction l with
  | nil => rfl
  | cons n rest ih =>
    unfold adjOf at ih ⊢
    rw [List.map_cons, objGet]
    split
    · rfl
    · exact ih

/-- The adjacency lists of `connected` hold the neighbours along the edges of
the graph with an id in `activeEdges`. -/
theorem activeAdj_adjacent (active : List String) (u v : String) :
    v ∈ adjOf (activeAdj active) u ↔ Adjacent (edgesOfIds active) u v := by
  unfold activeAdj
  rw [activeAdj_mem active u v graphEdges _ (by decide), adjOf_empty]
  unfold Adjacent edgesOfIds
  simp only [List.not_mem_nil, false_or, List.mem_filter, decide_eq_true_eq]
  constructor
  · rintro ⟨e, he, ha, h⟩
    exact ⟨e, ⟨he, ha⟩, h⟩
  · rintro ⟨e, ⟨he, ha⟩, h⟩
    exact ⟨e, he, ha, h⟩

theorem reach_node (es : List Edge) (hes : ∀ e ∈ es, e ∈ graphEdges) (x : String)
    (h : Relation.ReflTransGen (Adjacent es) "A" x) :
    x ∈ graphNodes.map (fun n => n.id) := by
  have hends : ∀ e ∈ graphEdges,
      e.u ∈ graphNodes.map (fun n => n.id) ∧ e.v ∈ graphNodes.map (fun n => n.id) := by
    decide
  induction h with
  | refl => decide
  | tail _ hadj _ =>
    obtain ⟨e, he, h1 | h1⟩ := hadj
    · rw [← h1.2]
      exact (hends e (hes e he)).2
    · rw [← h1.1]
      exact (hends e (hes e he)).1

end Greedy
namespace Greedy

open Js

end Greedy
namespace Greedy

open Js

theorem foldl_cond_congr {α β : Type} (p q : α → Prop) [DecidablePred p] [DecidablePred q]
    (g : β → α → β) (l : List α) (h : ∀ e ∈ l, (p e ↔ q e)) (init : β) :
    l.foldl (fun acc e => if p e then acc else g acc e) init
      = l.foldl (fun acc e => if q e then acc else g acc e) init := by
  induction l generalizing init with
  | nil => rfl
  | cons e rest ih =>
    simp only [List.foldl_cons]
    have he := h e (List.mem_cons_self _ _)
    by_cases hp : p e
    · rw [if_pos hp, if_pos (he.1 hp)]
      exact ih (fun x hx => h x (List.mem_cons_of_mem _ hx)) _
    · rw [if_neg hp, if_neg (fun hq => hp (he.2 hq))]
      exact ih (fun x hx => h x (List.mem_cons_of_mem _ hx)) _

/-- The adjacency lists of `connected` depend only on which edges of the graph
have their id in `activeEdges`. -/
theorem activeAdj_edgesOfIds (active : List String) :
    activeAdj active = activeAdj ((edgesOfIds active).map (fun e => e.id)) := by
  unfold activeAdj
  apply foldl_cond_congr
  intro e he
  simp only [edgesOfIds, List.mem_map, List.mem_filter, decide_eq_true_eq, not_iff_not]
  constructor
  · intro h
    exact ⟨e, ⟨he, h⟩, rfl⟩
  · rintro ⟨e2, ⟨_, h2⟩, h3⟩
    rw [← h3]; exact h2

theorem connected_edgesOfIds (fuel : Nat) (active : List String) :
    connected fuel active = connected fuel ((edgesOfIds active).map (fun e => e.id)) := by
  unfold connected
  rw [← activeAdj_edgesOfIds]

theorem edgesOfIds_idem (active : List String) :
    edgesOfIds ((edgesOfIds active).map (fun e => e.id)) = edgesOfIds active := by
  unfold edgesOfIds
  apply List.filter_congr
  intro e he
  simp only [List.mem_map, List.mem_filter, decide_eq_true_eq, decide_eq_decide]
  constructor
  · rintro ⟨e2, ⟨_, h2⟩, h3⟩
    rw [← h3]; exact h2
  · intro h
    exact ⟨e, ⟨he, h⟩, rfl⟩

end Greedy
namespace Greedy

open Js

/-- The function `connected` is right for every set `active` of edge ids: with
enough fuel it returns, and it returns true exactly when the edges of the
graph with an id in `active` connect all the nodes. -/
theorem connected_spec (fuel : Nat) (hf : 24 ≤ fuel) (active : List String) :
    ∃ b, connected fuel active = some b ∧ (b = true ↔ Spans (edgesOfIds active)) := by
  have hkeys : ((activeAdj active).map Prod.fst).Nodup := by
    unfold activeAdj
    rw [activeAdj_keys]
    decide
  have htot : unseenWork (activeAdj active) [] ≤ 22 := by
    have h1 := activeAdj_total active graphEdges (graphNodes.map (fun n => (n.id, [])))
    have h0 : unseenWork (graphNodes.map (fun n => (n.id, ([] : List String)))) [] = 0 := by
      decide
    have h11 : graphEdges.length = 11 := rfl
    unfold activeAdj
    omega
  obtain ⟨r, hr, hnd, hmem⟩ := connected_run (activeAdj active) "A" fuel hkeys (by omega)
  have hrel : (fun u v => v ∈ adjOf (activeAdj active) u) = Adjacent (edgesOfIds active) := by
    funext u v
    exact propext (activeAdj_adjacent active u v)
  rw [hrel] at hmem
  have hsub : ∀ x ∈ r.seen, x ∈ graphNodes.map (fun n => n.id) :=
    fun x hx => reach_node _ (fun e he => (List.mem_filter.1 he).1) x ((hmem x).1 hx)
  have hids : (graphNodes.map (fun n => n.id)).Nodup := by decide
  have hsp := List.subperm_of_subset hnd hsub
  refine ⟨decide (r.seen.length = graphNodes.length), ?_, ?_⟩
  · unfold connected
    rw [show (graphNodes.head?.map (fun n => n.id)).toList = ["A"] from rfl, hr]
    rfl
  · rw [decide_eq_true_eq]
    constructor
    · intro hlen n hn
      have hperm := hsp.perm_of_length_le (by rw [List.length_map]; omega)
      exact (hmem n.id).1 (hperm.mem_iff.2 (List.mem_map_of_mem _ hn))
    · intro hs
      have hsup : ∀ x ∈ graphNodes.map (fun n => n.id), x ∈ r.seen := by
        intro x hx
        obtain ⟨n, hn, e⟩ := List.mem_map.1 hx
        rw [← e]
        exact (hmem n.id).2 (hs n hn)
      have h1 := hsp.length_le
      have h2 := (List.subperm_of_subset hids hsup).length_le
      rw [List.length_map] at h1 h2
      omega

set_option maxRecDepth 100000 in
/-- C37: `connected(active)` returns true exactly when every node can be
reached from A along edges with an id in `active`.  With enough fuel
`buildReverseDelete` tries the edges in descending weight order; each Try
snapshot is followed by a Remove snapshot without the edge when the other
edges still connect all nodes and by a Keep snapshot with the same edges when
they do not; the `treeEdges` of every snapshot connect all 7 nodes; the
`treeEdges` and `removedEdges` of the last snapshot together are the 11 edges,
each once; and without any one of its edges the last `treeEdges` no longer
connect all nodes. -/
theorem c37_reverse_delete (fuel : Nat) (hf : 24 ≤ fuel) :
    (∀ active : List String,
      ∃ b, connected fuel active = some b ∧ (b = true ↔ Spans (edgesOfIds active))) ∧
    (∀ es, spansB es = true → Spans es) ∧ (∀ es, cutCheck es = true → ¬ Spans es) ∧
    ∃ tr, buildReverseDelete fuel = some tr ∧ ∃ fin, tr.getLast? = some fin ∧
      tried tr = (jsSort cmpWeightDesc graphEdges).map (fun e => e.id) ∧
      (jsSort cmpWeightDesc graphEdges).Pairwise (fun a b => b.w ≤ a.w) ∧
      removalRule tr = true ∧
      (∀ s ∈ tr, Spans (edgesOfIds s.treeEdges)) ∧
      (fin.treeEdges ++ fin.removedEdges).Perm (graphEdges.map (fun e => e.id)) ∧
      (graphEdges.map (fun e => e.id)).Nodup ∧ graphEdges.length = 11 ∧
      ∀ i ∈ fin.treeEdges, ¬ Spans (edgesOfIds (setDelete fin.treeEdges i)) := by
  refine ⟨connected_spec fuel hf, spansB_sound, cutCheck_sound, ?_⟩
  apply trace_of_get buildReverseDelete buildReverseDelete_mono _ 12 fuel (by omega) (by decide!)
  refine ⟨reverseDeleteFinish
      ⟨["B-D", "A-C", "D-E", "B-C", "E-F", "F-G"], ["D-G", "C-D", "C-G", "A-B", "D-F"], []⟩,
    by decide!, by decide!, by decide, by decide!, ?_, by decide, by decide, rfl, ?_⟩
  · intro s hs
    apply spansB_sound
    revert s
    decide!
  · intro i hi
    apply cutCheck_sound
    revert i
    decide

theorem c37_reverse_delete_witness :
    (24 ≤ 24) ∧ ∃ b, connected 24 ["A-B", "A-C"] = some b ∧
      (b = true ↔ Spans (edgesOfIds ["A-B", "A-C"])) :=
  ⟨le_refl _, (c37_reverse_delete 24 (le_refl _)).1 ["A-B", "A-C"]⟩

end Greedy
namespace Greedy

open Js

theorem spanningTree_of_check (ids : List String) (h1 : spansB (edgesOfIds ids) = true)
    (h2 : (edgesOfIds ids).length + 1 = graphNodes.length) : IsSpanningTree (edgesOfIds ids) :=
  ⟨List.filter_sublist _, spansB_sound _ h1, h2⟩

set_option maxRecDepth 100000 in
/-- C38: with enough fuel, the last `treeEdges` of `buildPrim` and of
`buildReverseDelete` are each a spanning tree of the built-in graph of total
weight 16, no spanning tree of the graph weighs less, and both hold the same
6 edge ids as the last `treeEdges` of `buildKruskal`; and the edge of every
Choose snapshot of `buildPrim` has exactly one end in the tree grown so far
and is no heavier than any other such edge. -/
theorem c38_prim_reverse_delete_minimum (fuel : Nat) (hf : 12 ≤ fuel) :
    (∀ T, IsSpanningTree T → 16 ≤ totalWeight T) ∧
    ∃ trK, buildKruskal fuel = some trK ∧
    ∃ trP, buildPrim fuel = some trP ∧
    ∃ trR, buildReverseDelete fuel = some trR ∧
    ∃ finK finP finR, trK.getLast? = some finK ∧ trP.getLast? = some finP ∧
      trR.getLast? = some finR ∧
      IsSpanningTree (edgesOfIds finP.treeEdges) ∧
      totalWeight (edgesOfIds finP.treeEdges) = 16 ∧
      IsSpanningTree (edgesOfIds finR.treeEdges) ∧
      totalWeight (edgesOfIds finR.treeEdges) = 16 ∧
      totalWeight (edgesOfIds finK.treeEdges) = 16 ∧
      finP.treeEdges.Perm finK.treeEdges ∧ finR.treeEdges.Perm finK.treeEdges ∧
      (trP.filter (fun s => startsWith "Choose " s.text)).length = 6 ∧
      ∀ s ∈ trP, startsWith "Choose " s.text = true → lightestCrossing s = true := by
  refine ⟨fun T hT => spans_weight T hT.1 hT.2.1, ?_⟩
  apply trace_of_get buildKruskal buildKruskal_mono _ 3 fuel (by omega) (by decide)
  apply trace_of_get buildPrim buildPrim_mono _ 7 fuel (by omega) (by decide)
  apply trace_of_get buildReverseDelete buildReverseDelete_mono _ 12 fuel (by omega)
    (by decide!)
  refine ⟨kruskalFinish ⟨⟨[], []⟩, ["F-G", "B-C", "E-F", "A-C", "D-E", "B-D"],
      ["A-B", "D-F", "C-G", "C-D", "D-G"], []⟩,
    primFinish ⟨["A", "C", "B", "D", "E", "F", "G"],
      ["A-C", "B-C", "B-D", "D-E", "E-F", "F-G"], []⟩,
    reverseDeleteFinish
      ⟨["B-D", "A-C", "D-E", "B-C", "E-F", "F-G"], ["D-G", "C-D", "C-G", "A-B", "D-F"], []⟩,
    by decide, by decide, by decide!,
    spanningTree_of_check _ (by decide) (by decide), by decide,
    spanningTree_of_check _ (by decide) (by decide), by decide, by decide,
    by decide, by decide, by decide, by decide⟩

theorem c38_prim_reverse_delete_minimum_witness :
    (12 ≤ 12) ∧ ∃ trP finP, buildPrim 12 = some trP ∧ trP.getLast? = some finP ∧
      IsSpanningTree (edgesOfIds finP.treeEdges) ∧
      totalWeight (edgesOfIds finP.treeEdges) = 16 := by
  obtain ⟨_, _, _, trP, h1, _, _, _, finP, _, _, h2, _, h3, h4, _⟩ :=
    c38_prim_reverse_delete_minimum 12 (le_refl _)
  exact ⟨le_refl _, trP, finP, h1, h2, h3, h4⟩

end Greedy
namespace Sorting

open Loop

theorem take_eq_of_rd (a b : List Int) (n : Nat) (hlen : b.length = a.length)
    (h : ∀ p, p < n → rd b p = rd a p) : b.take n = a.take n := by
  apply List.ext_getElem?
  intro p
  by_cases hp : p < n
  · rw [List.getElem?_take_of_lt hp, List.getElem?_take_of_lt hp]
    by_cases hpl : p < a.length
    · have h1 := h p hp
      rw [rd_eq_getElem b p (by omega), rd_eq_getElem a p hpl] at h1
      rw [List.getElem?_eq_getElem (by omega), List.getElem?_eq_getElem hpl, h1]
    · rw [List.getElem?_eq_none (by omega), List.getElem?_eq_none (by omega)]
  · rw [List.getElem?_eq_none (by simp; omega), List.getElem?_eq_none (by simp; omega)]

theorem drop_eq_of_rd (a b : List Int) (n : Nat) (hlen : b.length = a.length)
    (h : ∀ p, n ≤ p → rd b p = rd a p) : b.drop n = a.drop n := by
  apply List.ext_getElem?
  intro p
  rw [List.getElem?_drop, List.getElem?_drop]
  by_cases hpl : n + p < a.length
  · have h1 := h (n + p) (by omega)
    rw [rd_eq_getElem b _ (by omega), rd_eq_getElem a _ hpl] at h1
    rw [List.getElem?_eq_getElem (by omega), List.getElem?_eq_getElem hpl, h1]
  · rw [List.getElem?_eq_none (by omega), List.getElem?_eq_none (by omega)]

/-- A permutation that changes nothing outside `low..high` permutes the part
from `low` to `high`. -/
theorem slice_perm_of_frame (a b : List Int) (low high : Nat) (hlh : low ≤ high + 1)
    (hlen : b.length = a.length) (hperm : b.Perm a)
    (hout : ∀ p, p < low ∨ high < p → rd b p = rd a p) :
    (slice b low (high + 1)).Perm (slice a low (high + 1)) := by
  have ht := take_eq_of_rd a b low hlen (fun p hp => hout p (Or.inl hp))
  have hd := drop_eq_of_rd a b (high + 1) hlen (fun p hp => hout p (Or.inr (by omega)))
  have ea := slice_decompose a low (high + 1) hlh
  have eb := slice_decompose b low (high + 1) hlh
  rw [ea, eb, ht, hd] at hperm
  exact (List.perm_append_right_iff _).1 ((List.perm_append_left_iff _).1 hperm)

/-- C34: for every array and indices `low < high < n`, `partition(low, high)`
returns `p` with `low <= p <= high`; afterwards the pivot (the old
`arr[high]`) is at `p`, every element of `low..p-1` is at most the pivot (so
elements equal to the pivot are left of it), every element of `p+1..high` is
larger than the pivot, the part `low..high` is a permutation of what it was,
and no position outside `low..high` has changed. -/
theorem c34_partition (arr : List Int) (out : List Step) (low high : Nat) (hlh : low < high)
    (hh : high < arr.length) :
    low ≤ (partition low high (arr, out)).1 ∧ (partition low high (arr, out)).1 ≤ high ∧
    (partition low high (arr, out)).2.1.length = arr.length ∧
    rd (partition low high (arr, out)).2.1 (partition low high (arr, out)).1 = rd arr high ∧
    (∀ p, low ≤ p → p < (partition low high (arr, out)).1 →
      rd (partition low high (arr, out)).2.1 p ≤ rd arr high) ∧
    (∀ p, (partition low high (arr, out)).1 < p → p ≤ high →
      rd arr high < rd (partition low high (arr, out)).2.1 p) ∧
    (slice (partition low high (arr, out)).2.1 low (high + 1)).Perm (slice arr low (high + 1)) ∧
    (∀ p, p < low ∨ high < p → rd (partition low high (arr, out)).2.1 p = rd arr p) := by
  obtain ⟨h1, h2, h3, h4, h5, h6, h7, h8, _⟩ := partition_spec low high (arr, out) hlh hh
  exact ⟨h1, h2, h3, h5, h6, h7, slice_perm_of_frame arr _ low high (by omega) h3 h4 h8, h8⟩

theorem c34_partition_witness :
    ((0 : Nat) < 3 ∧ 3 < ([5, 1, 7, 5] : List Int).length) ∧
    (partition 0 3 ([5, 1, 7, 5], [])).1 = 2 ∧
    (partition 0 3 ([5, 1, 7, 5], [])).2.1 = [5, 1, 5, 7] ∧
    rd (partition 0 3 ([5, 1, 7, 5], [])).2.1 (partition 0 3 ([5, 1, 7, 5], [])).1
      = rd [5, 1, 7, 5] 3 :=
  ⟨⟨by decide, by decide⟩, by decide, by decide,
    (c34_partition [5, 1, 7, 5] [] 0 3 (by decide) (by decide)).2.2.2.1⟩

end Sorting
namespace Sorting

open Loop

/-! # Bubble sort: the number of snapshots -/

theorem inversions_perm_head (x : Int) (l1 l2 : List Int) (h : l1.Perm l2) :
    l1.countP (fun y => decide (y < x)) = l2.countP (fun y => decide (y < x)) :=
  h.countP_eq _

/-- Exchanging two neighbours that are out of order removes one inversion. -/
theorem inversions_adjacent (pre post : List Int) (a b : Int) (hab : b < a) :
    inversions (pre ++ b :: a :: post) + 1 = inversions (pre ++ a :: b :: post) := by
  induction pre with
  | nil =>
    simp only [List.nil_append, inversions, List.countP_cons]
    have h1 : decide (b < a) = true := decide_eq_true hab
    have h2 : decide (a < b) = false := decide_eq_false (by omega)
    simp only [h1, h2, if_true]
    simp
    omega
  | cons x pre ih =>
    rw [List.cons_append, List.cons_append, inversions, inversions]
    have hp : (pre ++ b :: a :: post).Perm (pre ++ a :: b :: post) :=
      List.Perm.append_left _ (List.Perm.swap _ _ _)
    rw [inversions_perm_head x _ _ hp]
    omega

theorem swap_adjacent (arr : List Int) (j : Nat) (hj : j + 1 < arr.length) :
    arr = arr.take j ++ rd arr j :: rd arr (j + 1) :: arr.drop (j + 2) ∧
    swap arr j (j + 1) = arr.take j ++ rd arr (j + 1) :: rd arr j :: arr.drop (j + 2) := by
  have e1 : arr = arr.take j ++ rd arr j :: rd arr (j + 1) :: arr.drop (j + 2) := by
    rw [rd_eq_getElem arr j (by omega), rd_eq_getElem arr (j + 1) hj]
    have h1 : arr.drop j = arr[j] :: arr.drop (j + 1) := List.drop_eq_getElem_cons (by omega)
    have h2 : arr.drop (j + 1) = arr[j + 1] :: arr.drop (j + 2) := List.drop_eq_getElem_cons hj
    conv_lhs => rw [← List.take_append_drop j arr, h1, h2]
  refine ⟨e1, ?_⟩
  apply List.ext_getElem?
  intro p
  have hlen : (swap arr j (j + 1)).length = arr.length := length_swap _ _ _
  by_cases hp : p < arr.length
  · have hr := rd_swap arr j (j + 1) p (by omega) hj
    rw [rd_eq_getElem _ p (by omega)] at hr
    rw [List.getElem?_eq_getElem (by omega), hr]
    have htl : (arr.take j).length = j := by simp; omega
    by_cases c1 : p = j + 1
    · subst c1
      simp only [if_true]
      rw [List.getElem?_append_right (by omega), htl]
      simp
    · by_cases c2 : p = j
      · subst c2
        simp only [c1, if_false, if_true]
        rw [List.getElem?_append_right (by omega), htl]
        simp
      · simp only [c1, c2, if_false]
        rw [rd_eq_getElem arr p hp]
        conv_lhs => rw [← List.getElem?_eq_getElem hp, e1]
        by_cases c3 : p < j
        · rw [List.getElem?_append_left (by omega), List.getElem?_append_left (by omega)]
        · rw [List.getElem?_append_right (by omega), List.getElem?_append_right (by omega), htl]
          obtain ⟨d, hd⟩ : ∃ d, p - j = d + 2 := ⟨p - j - 2, by omega⟩
          rw [hd]
          simp
  · rw [List.getElem?_eq_none (by omega), List.getElem?_eq_none]
    simp
    omega

theorem inversions_swap (arr : List Int) (j : Nat) (hj : j + 1 < arr.length)
    (hgt : rd arr j > rd arr (j + 1)) :
    inversions (swap arr j (j + 1)) + 1 = inversions arr := by
  obtain ⟨e1, e2⟩ := swap_adjacent arr j hj
  rw [e2]
  conv_rhs => rw [e1]
  exact inversions_adjacent _ _ _ _ hgt

theorem inversions_sorted (l : List Int) (h : l.Sorted (fun a b => a ≤ b)) :
    inversions l = 0 := by
  induction l with
  | nil => rfl
  | cons x rest ih =>
    simp only [inversions]
    rw [List.sorted_cons] at h
    rw [ih h.2, List.countP_eq_zero.2]
    intro y hy
    have := h.1 y hy
    simp
    omega

theorem counts_push (out : List Step) (arr : List Int) (active compare sorted : List Nat)
    (text : String) :
    compares (pushStep out arr active compare sorted text)
      = compares out + (if compare = [] then 0 else 1) ∧
    swaps (pushStep out arr active compare sorted text)
      = swaps out + (if active = [] then 0 else 1) ∧
    fixes (pushStep out arr active compare sorted text)
      = fixes out + (if compare = [] ∧ active = [] then 1 else 0) ∧
    (pushStep out arr active compare sorted text).length = out.length + 1 := by
  unfold compares swaps fixes pushStep
  simp only [List.countP_append, List.length_append, List.length_singleton, List.countP_cons,
    List.countP_nil]
  refine ⟨?_, ?_, ?_, trivial⟩
  · cases compare <;> simp
  · cases active <;> simp
  · cases compare <;> cases active <;> simp

end Sorting

namespace Sorting

open Loop

theorem bubbleInner_count (sorted : List Nat) (j : Nat) (s : List Int × List Step)
    (hj : j + 1 < s.1.length) :
    (bubbleInner sorted j s).1.length = s.1.length ∧
    compares (bubbleInner sorted j s).2 = compares s.2 + 1 ∧
    fixes (bubbleInner sorted j s).2 = fixes s.2 ∧
    swaps (bubbleInner sorted j s).2 + inversions (bubbleInner sorted j s).1
      = swaps s.2 + inversions s.1 ∧
    (bubbleInner sorted j s).2.length + compares s.2 + swaps s.2 + fixes s.2
      = s.2.length + compares (bubbleInner sorted j s).2 + swaps (bubbleInner sorted j s).2
        + fixes (bubbleInner sorted j s).2 := by
  unfold bubbleInner
  simp only
  split_ifs with hc
  · simp only [counts_push, length_swap]
    have := inversions_swap s.1 j hj hc
    simp
    omega
  · simp only [counts_push]
    simp
    omega

theorem bubbleOuter_count (input : List Int) (i : Nat) (s : SortState) (hi : i < input.length)
    (h : BubbleCount input i s) : BubbleCount input (i + 1) (bubbleOuter i s) := by
  obtain ⟨hlen, hcmp, hfix, hswap, htot⟩ := h
  have key := forLoop_inv (bubbleInner s.sorted)
    (fun j (t : List Int × List Step) =>
      t.1.length = input.length ∧ compares t.2 = compares s.out + j ∧ fixes t.2 = fixes s.out ∧
      swaps t.2 + inversions t.1 = swaps s.out + inversions s.arr ∧
      t.2.length + compares s.out + swaps s.out + fixes s.out
        = s.out.length + compares t.2 + swaps t.2 + fixes t.2)
    (s.arr.length - i - 1) 0 (s.arr, s.out)
    ⟨hlen, rfl, rfl, rfl, rfl⟩
    (fun j t _ hj ⟨a1, a2, a3, a4, a5⟩ => by
      obtain ⟨b1, b2, b3, b4, b5⟩ := bubbleInner_count s.sorted j t (by omega)
      exact ⟨by rw [b1, a1], by rw [b2, a2]; omega, by rw [b3, a3], by rw [b4, a4], by omega⟩)
  simp only [Nat.zero_add] at key
  obtain ⟨k1, k2, k3, k4, k5⟩ := key
  have harr : (bubbleOuter i s).arr
      = (forLoop (bubbleInner s.sorted) (s.arr.length - i - 1) 0 (s.arr, s.out)).1 := rfl
  obtain ⟨c1, c2, c3, c4⟩ := counts_push
    (forLoop (bubbleInner s.sorted) (s.arr.length - i - 1) 0 (s.arr, s.out)).2
    (forLoop (bubbleInner s.sorted) (s.arr.length - i - 1) 0 (s.arr, s.out)).1 [] []
    (s.sorted ++ [(forLoop (bubbleInner s.sorted) (s.arr.length - i - 1) 0
      (s.arr, s.out)).1.length - i - 1])
    ("Position " ++ toString ((forLoop (bubbleInner s.sorted) (s.arr.length - i - 1) 0
      (s.arr, s.out)).1.length - i - 1) ++ " is fixed.")
  have hout : (bubbleOuter i s).out = pushStep
      (forLoop (bubbleInner s.sorted) (s.arr.length - i - 1) 0 (s.arr, s.out)).2
      (forLoop (bubbleInner s.sorted) (s.arr.length - i - 1) 0 (s.arr, s.out)).1 [] []
      (s.sorted ++ [(forLoop (bubbleInner s.sorted) (s.arr.length - i - 1) 0
        (s.arr, s.out)).1.length - i - 1])
      ("Position " ++ toString ((forLoop (bubbleInner s.sorted) (s.arr.length - i - 1) 0
        (s.arr, s.out)).1.length - i - 1) ++ " is fixed.") := rfl
  simp only [if_true, and_self, Nat.add_zero] at c1 c2 c3
  unfold BubbleCount
  rw [hout, harr]
  generalize forLoop (bubbleInner s.sorted) (s.arr.length - i - 1) 0 (s.arr, s.out) = r at *
  refine ⟨k1, ?_, by omega, by omega, by omega⟩
  rw [c1]
  rw [k2, hlen]
  obtain ⟨m, hm⟩ : ∃ m, input.length = m + i + 1 := ⟨input.length - i - 1, by omega⟩
  rw [hm] at hcmp ⊢
  have e3 : 2 * (m + i + 1) - i - 1 = 2 * m + i + 1 := by omega
  have e4 : 2 * (m + i + 1) - (i + 1) - 1 = 2 * m + i := by omega
  have e5 : m + i + 1 - i - 1 = m := by omega
  rw [e3] at hcmp
  rw [e4, e5]
  have : 2 * (compares s.out + m) = 2 * compares s.out + 2 * m := by ring
  rw [this, hcmp]
  ring

theorem bubbleFinal_count (input : List Int) :
    BubbleCount input input.length (bubbleFinal input) := by
  have := forLoop_inv bubbleOuter (fun i s => BubbleCount input i s) input.length 0
    { arr := input, out := [], sorted := [] }
    ⟨rfl, by simp [compares], by simp [fixes], by simp [swaps], by simp [compares, swaps, fixes]⟩
    (fun j s _ hj hI => bubbleOuter_count input j s (by omega) hI)
  simpa [bubbleFinal] using this

/-- C40: for every input array of length `n` the bubble-sort trace has exactly
`n(n-1)/2` compare snapshots (no pass ends early), exactly `n` position-fixed
snapshots, as many swap snapshots as the input has inversions, and no other
snapshot: its length is `n(n-1)/2 + n + inversions(input)`. -/
theorem c40_bubble_counts (input : List Int) :
    compares (buildBubble input) = input.length * (input.length - 1) / 2 ∧
    fixes (buildBubble input) = input.length ∧
    swaps (buildBubble input) = inversions input ∧
    (buildBubble input).length
      = input.length * (input.length - 1) / 2 + input.length + inversions input := by
  obtain ⟨_, hcmp, hfix, hswap, htot⟩ := bubbleFinal_count input
  have hsorted := (bubble_sorted input).1
  rw [inversions_sorted _ hsorted] at hswap
  have e : 2 * input.length - input.length - 1 = input.length - 1 := by omega
  rw [e] at hcmp
  have hc : compares (buildBubble input) = input.length * (input.length - 1) / 2 := by
    unfold buildBubble
    omega
  unfold buildBubble at hc ⊢
  refine ⟨hc, hfix, by omega, ?_⟩
  rw [htot, hc, hfix]
  omega

end Sorting
namespace Sorting

open Loop

theorem allInBounds_push (n : Nat) (out : List Step) (arr : List Int)
    (active compare sorted : List Nat) (text : String)
    (h : AllInBounds n out) (hl : arr.length = n) (ha : ∀ i ∈ active, i < n)
    (hc : ∀ i ∈ compare, i < n) (hs : ∀ i ∈ sorted, i < n) :
    AllInBounds n (pushStep out arr active compare sorted text) := by
  intro s hmem
  simp only [pushStep, List.mem_append, List.mem_singleton] at hmem
  rcases hmem with h1 | h1
  · exact h s h1
  · subst h1
    exact ⟨hl, ha, hc, hs⟩

theorem sortedWithin_push (A : Nat → Prop) (out : List Step) (arr : List Int)
    (active compare sorted : List Nat) (text : String)
    (h : SortedWithin A out arr) (hs : ∀ i ∈ sorted, A i) :
    SortedWithin A (pushStep out arr active compare sorted text) arr := by
  intro s hmem
  simp only [pushStep, List.mem_append, List.mem_singleton] at hmem
  rcases hmem with h1 | h1
  · exact h s h1
  · subst h1
    intro idx hidx
    exact ⟨hs idx hidx, rfl⟩

theorem sortedWithin_frame (A : Nat → Prop) (out : List Step) (arr arr2 : List Int)
    (h : SortedWithin A out arr) (hf : ∀ idx, A idx → rd arr2 idx = rd arr idx) :
    SortedWithin A out arr2 := by
  intro s hmem idx hidx
  obtain ⟨h1, h2⟩ := h s hmem idx hidx
  exact ⟨h1, by rw [h2, hf idx h1]⟩

theorem sortedWithin_mono (A B : Nat → Prop) (out : List Step) (arr : List Int)
    (h : SortedWithin A out arr) (hAB : ∀ idx, A idx → B idx) :
    SortedWithin B out arr := by
  intro s hmem idx hidx
  obtain ⟨h1, h2⟩ := h s hmem idx hidx
  exact ⟨hAB idx h1, h2⟩

theorem allInBounds_nil (n : Nat) : AllInBounds n [] := by
  intro s hs
  cases hs

theorem sortedWithin_nil (A : Nat → Prop) (arr : List Int) : SortedWithin A [] arr := by
  intro s hs
  cases hs

theorem mem_pair_lt (n a b : Nat) (ha : a < n) (hb : b < n) : ∀ i ∈ [a, b], i < n := by
  intro i hi
  simp only [List.mem_cons, List.mem_singleton, List.not_mem_nil, or_false] at hi
  rcases hi with h | h <;> omega

theorem mem_single_lt (n a : Nat) (ha : a < n) : ∀ i ∈ [a], i < n := by
  intro i hi
  simp only [List.mem_singleton] at hi
  omega

theorem mem_nil_lt (n : Nat) : ∀ i ∈ ([] : List Nat), i < n := by
  intro i hi
  cases hi

/-! ### Bubble sort -/

theorem bubbleInner_trace (n i : Nat) (sorted : List Nat) (j : Nat) (s : List Int × List Step)
    (hj : j + 1 < n - i) (hs : ∀ idx ∈ sorted, n - i ≤ idx ∧ idx < n)
    (h : s.1.length = n ∧ AllInBounds n s.2 ∧ SortedWithin (fun idx => n - i ≤ idx) s.2 s.1) :
    (bubbleInner sorted j s).1.length = n ∧ AllInBounds n (bubbleInner sorted j s).2 ∧
      SortedWithin (fun idx => n - i ≤ idx) (bubbleInner sorted j s).2
        (bubbleInner sorted j s).1 := by
  obtain ⟨h1, h2, h3⟩ := h
  have b1 := allInBounds_push n s.2 s.1 [] [j, j + 1] sorted
    ("Compare indices " ++ toString j ++ " and " ++ toString (j + 1) ++ ".") h2 h1
    (mem_nil_lt n) (mem_pair_lt n _ _ (by omega) (by omega)) (fun idx hidx => (hs idx hidx).2)
  have w1 := sortedWithin_push (fun idx => n - i ≤ idx) s.2 s.1 [] [j, j + 1] sorted
    ("Compare indices " ++ toString j ++ " and " ++ toString (j + 1) ++ ".") h3
    (fun idx hidx => (hs idx hidx).1)
  unfold bubbleInner
  simp only
  split
  · refine ⟨by rw [length_swap]; exact h1, ?_, ?_⟩
    · exact allInBounds_push n _ _ _ _ _ _ b1 (by rw [length_swap]; exact h1)
        (mem_pair_lt n _ _ (by omega) (by omega)) (mem_nil_lt n)
        (fun idx hidx => (hs idx hidx).2)
    · apply sortedWithin_push _ _ _ _ _ _ _ _ (fun idx hidx => (hs idx hidx).1)
      apply sortedWithin_frame _ _ _ _ w1
      intro idx hidx
      rw [rd_swap _ _ _ _ (by omega) (by omega)]
      have e1 : ¬ idx = j + 1 := by omega
      have e2 : ¬ idx = j := by omega
      simp only [e1, e2, if_false]
  · exact ⟨h1, b1, w1⟩

theorem bubbleOuter_trace (n i : Nat) (s : SortState) (hi : i < n)
    (h : s.arr.length = n ∧ AllInBounds n s.out ∧
      SortedWithin (fun idx => n - i ≤ idx) s.out s.arr ∧
      ∀ idx ∈ s.sorted, n - i ≤ idx ∧ idx < n) :
    (bubbleOuter i s).arr.length = n ∧ AllInBounds n (bubbleOuter i s).out ∧
      SortedWithin (fun idx => n - (i + 1) ≤ idx) (bubbleOuter i s).out (bubbleOuter i s).arr ∧
      ∀ idx ∈ (bubbleOuter i s).sorted, n - (i + 1) ≤ idx ∧ idx < n := by
  obtain ⟨h1, h2, h3, h4⟩ := h
  have key := forLoop_inv (bubbleInner s.sorted)
    (fun _ (t : List Int × List Step) => t.1.length = n ∧ AllInBounds n t.2 ∧
      SortedWithin (fun idx => n - i ≤ idx) t.2 t.1)
    (n - i - 1) 0 (s.arr, s.out) ⟨h1, h2, h3⟩
    (fun j t _ hj hI => bubbleInner_trace n i s.sorted j t (by omega) h4 hI)
  unfold bubbleOuter
  simp only
  rw [h1]
  generalize forLoop (bubbleInner s.sorted) (n - i - 1) 0 (s.arr, s.out) = r at key
  obtain ⟨k1, k2, k3⟩ := key
  have hs : ∀ idx ∈ s.sorted ++ [r.1.length - i - 1], n - (i + 1) ≤ idx ∧ idx < n := by
    intro idx hidx
    simp only [List.mem_append, List.mem_singleton] at hidx
    rcases hidx with hx | hx
    · have := h4 idx hx
      omega
    · omega
  refine ⟨k1, ?_, ?_, hs⟩
  · exact allInBounds_push n _ _ _ _ _ _ k2 k1 (mem_nil_lt n) (mem_nil_lt n)
      (fun idx hidx => (hs idx hidx).2)
  · apply sortedWithin_push _ _ _ _ _ _ _ _ (fun idx hidx => (hs idx hidx).1)
    exact sortedWithin_mono _ _ _ _ k3 (fun idx hx => by omega)

theorem bubbleFinal_trace (input : List Int) :
    (bubbleFinal input).arr.length = input.length ∧
      AllInBounds input.length (buildBubble input) ∧
      SortedWithin (fun _ => True) (buildBubble input) (bubbleFinal input).arr := by
  have key := forLoop_inv bubbleOuter
    (fun i (s : SortState) => s.arr.length = input.length ∧ AllInBounds input.length s.out ∧
      SortedWithin (fun idx => input.length - i ≤ idx) s.out s.arr ∧
      ∀ idx ∈ s.sorted, input.length - i ≤ idx ∧ idx < input.length)
    input.length 0 { arr := input, out := [], sorted := [] }
    ⟨rfl, allInBounds_nil _, sortedWithin_nil _ _, fun idx hidx => by cases hidx⟩
    (fun j s _ hj hI => bubbleOuter_trace input.length j s (by omega) hI)
  simp only [Nat.zero_add] at key
  obtain ⟨k1, k2, k3, _⟩ := key
  exact ⟨k1, k2, sortedWithin_mono _ _ _ _ k3 (fun _ _ => trivial)⟩

theorem sortedFixed_of_within (tr : List Step) (arr : List Int)
    (h : SortedWithin (fun _ => True) tr arr) (hfin : tr = [] ∨ finalArr tr = arr) :
    SortedFixed tr := by
  rcases hfin with he | he
  · subst he
    intro s hs
    cases hs
  · intro s hs idx hidx
    rw [he]
    exact (h s hs idx hidx).2

theorem bubble_sortedFixed (input : List Int) : SortedFixed (buildBubble input) := by
  apply sortedFixed_of_within _ _ (bubbleFinal_trace input).2.2
  by_cases hne : input = []
  · left
    subst hne
    rfl
  · right
    obtain ⟨fin, hf1, hf2, _⟩ := bubble_last input hne
    unfold finalArr
    rw [hf1]
    exact hf2

end Sorting
namespace Sorting

open Loop

/-! ### Selection sort -/

theorem selectionInner_trace (n i : Nat) (arr : List Int) (sorted : List Nat) (j : Nat)
    (s : Nat × List Step) (hj : j < n) (hlen : arr.length = n)
    (hs : ∀ idx ∈ sorted, idx < i ∧ idx < n)
    (h : i ≤ s.1 ∧ s.1 < n ∧ AllInBounds n s.2 ∧ SortedWithin (fun idx => idx < i) s.2 arr)
    (hij : i ≤ j) :
    i ≤ (selectionInner arr sorted j s).1 ∧ (selectionInner arr sorted j s).1 < n ∧
      AllInBounds n (selectionInner arr sorted j s).2 ∧
      SortedWithin (fun idx => idx < i) (selectionInner arr sorted j s).2 arr := by
  obtain ⟨h0, h1, h2, h3⟩ := h
  have b1 := allInBounds_push n s.2 arr [s.1] [s.1, j] sorted
    ("Compare min index " ++ toString s.1 ++ " with " ++ toString j ++ ".") h2 hlen
    (mem_single_lt n _ h1) (mem_pair_lt n _ _ h1 hj) (fun idx hidx => (hs idx hidx).2)
  have w1 := sortedWithin_push (fun idx => idx < i) s.2 arr [s.1] [s.1, j] sorted
    ("Compare min index " ++ toString s.1 ++ " with " ++ toString j ++ ".") h3
    (fun idx hidx => (hs idx hidx).1)
  unfold selectionInner
  simp only
  split
  · refine ⟨hij, hj, ?_, ?_⟩
    · exact allInBounds_push n _ _ _ _ _ _ b1 hlen (mem_single_lt n _ hj) (mem_nil_lt n)
        (fun idx hidx => (hs idx hidx).2)
    · exact sortedWithin_push _ _ _ _ _ _ _ w1 (fun idx hidx => (hs idx hidx).1)
  · exact ⟨h0, h1, b1, w1⟩

theorem selectionOuter_trace (n i : Nat) (s : SortState) (hi : i < n)
    (h : s.arr.length = n ∧ AllInBounds n s.out ∧
      SortedWithin (fun idx => idx < i) s.out s.arr ∧
      ∀ idx ∈ s.sorted, idx < i ∧ idx < n) :
    (selectionOuter i s).arr.length = n ∧ AllInBounds n (selectionOuter i s).out ∧
      SortedWithin (fun idx => idx < i + 1) (selectionOuter i s).out (selectionOuter i s).arr ∧
      ∀ idx ∈ (selectionOuter i s).sorted, idx < i + 1 ∧ idx < n := by
  obtain ⟨h1, h2, h3, h4⟩ := h
  have b0 := allInBounds_push n s.out s.arr [i] [] s.sorted
    ("Set index " ++ toString i ++ " as current minimum.") h2 h1
    (mem_single_lt n _ hi) (mem_nil_lt n) (fun idx hidx => (h4 idx hidx).2)
  have w0 := sortedWithin_push (fun idx => idx < i) s.out s.arr [i] [] s.sorted
    ("Set index " ++ toString i ++ " as current minimum.") h3 (fun idx hidx => (h4 idx hidx).1)
  have key := forLoop_inv (selectionInner s.arr s.sorted)
    (fun _ (t : Nat × List Step) => i ≤ t.1 ∧ t.1 < n ∧ AllInBounds n t.2 ∧
      SortedWithin (fun idx => idx < i) t.2 s.arr)
    (n - (i + 1)) (i + 1) (i, pushStep s.out s.arr [i] [] s.sorted
      ("Set index " ++ toString i ++ " as current minimum.")) ⟨le_refl _, hi, b0, w0⟩
    (fun j t hj1 hj2 hI => selectionInner_trace n i s.arr s.sorted j t (by omega) h1 h4 hI
      (by omega))
  unfold selectionOuter
  simp only
  rw [h1]
  generalize forLoop (selectionInner s.arr s.sorted) (n - (i + 1)) (i + 1)
    (i, pushStep s.out s.arr [i] [] s.sorted
      ("Set index " ++ toString i ++ " as current minimum.")) = r at key
  obtain ⟨k0, k1, k2, k3⟩ := key
  have hs : ∀ idx ∈ s.sorted ++ [i], idx < i + 1 ∧ idx < n := by
    intro idx hidx
    simp only [List.mem_append, List.mem_singleton] at hidx
    rcases hidx with hx | hx
    · have := h4 idx hx
      omega
    · omega
  by_cases hm : r.1 = i
  · simp only [hm, ne_eq, not_true_eq_false, if_false]
    refine ⟨h1, ?_, ?_, hs⟩
    · exact allInBounds_push n _ _ _ _ _ _ k2 h1 (mem_nil_lt n) (mem_nil_lt n)
        (fun idx hidx => (hs idx hidx).2)
    · apply sortedWithin_push _ _ _ _ _ _ _ _ (fun idx hidx => (hs idx hidx).1)
      exact sortedWithin_mono _ _ _ _ k3 (fun idx hx => by omega)
  · simp only [ne_eq, hm, not_false_eq_true, if_true]
    have hl : (swap s.arr i r.1).length = n := by rw [length_swap]; exact h1
    refine ⟨hl, ?_, ?_, hs⟩
    · apply allInBounds_push n _ _ _ _ _ _ _ hl (mem_nil_lt n) (mem_nil_lt n)
        (fun idx hidx => (hs idx hidx).2)
      exact allInBounds_push n _ _ _ _ _ _ k2 hl (mem_pair_lt n _ _ hi k1) (mem_nil_lt n)
        (fun idx hidx => (h4 idx hidx).2)
    · apply sortedWithin_push _ _ _ _ _ _ _ _ (fun idx hidx => (hs idx hidx).1)
      apply sortedWithin_mono (fun idx => idx < i) _ _ _ _ (fun idx hx => by omega)
      apply sortedWithin_push _ _ _ _ _ _ _ _ (fun idx hidx => (h4 idx hidx).1)
      apply sortedWithin_frame _ _ _ _ k3
      intro idx hidx
      rw [rd_swap _ _ _ _ (by omega) (by omega)]
      have e1 : ¬ idx = r.1 := by omega
      have e2 : ¬ idx = i := by omega
      simp only [e1, e2, if_false]

theorem selectionFinal_trace (input : List Int) :
    (selectionFinal input).arr.length = input.length ∧
      AllInBounds input.length (buildSelection input) ∧
      SortedWithin (fun _ => True) (buildSelection input) (selectionFinal input).arr := by
  have key := forLoop_inv selectionOuter
    (fun i (s : SortState) => s.arr.length = input.length ∧ AllInBounds input.length s.out ∧
      SortedWithin (fun idx => idx < i) s.out s.arr ∧
      ∀ idx ∈ s.sorted, idx < i ∧ idx < input.length)
    input.length 0 { arr := input, out := [], sorted := [] }
    ⟨rfl, allInBounds_nil _, sortedWithin_nil _ _, fun idx hidx => by cases hidx⟩
    (fun j s _ hj hI => selectionOuter_trace input.length j s (by omega) hI)
  simp only [Nat.zero_add] at key
  obtain ⟨k1, k2, k3, _⟩ := key
  exact ⟨k1, k2, sortedWithin_mono _ _ _ _ k3 (fun _ _ => trivial)⟩

theorem selection_sortedFixed (input : List Int) : SortedFixed (buildSelection input) := by
  apply sortedFixed_of_within _ _ (selectionFinal_trace input).2.2
  by_cases hne : input = []
  · left
    subst hne
    rfl
  · right
    obtain ⟨fin, hf1, hf2, _⟩ := selection_last input hne
    unfold finalArr
    rw [hf1]
    exact hf2

end Sorting
namespace Sorting

open Loop

/-! ### Quick sort -/

theorem partitionBody_trace (n low high : Nat) (pivot : Int) (A : Nat → Prop) (j : Nat)
    (t : Nat × List Int × List Step) (hlj : low ≤ j) (hj : j < high) (hh : high < n)
    (hA : ∀ idx, A idx → idx < low ∨ high < idx)
    (h : low ≤ t.1 ∧ t.1 ≤ j ∧ t.2.1.length = n ∧ AllInBounds n t.2.2 ∧
      SortedWithin A t.2.2 t.2.1) :
    low ≤ (partitionBody high pivot j t).1 ∧ (partitionBody high pivot j t).1 ≤ j + 1 ∧
      (partitionBody high pivot j t).2.1.length = n ∧
      AllInBounds n (partitionBody high pivot j t).2.2 ∧
      SortedWithin A (partitionBody high pivot j t).2.2 (partitionBody high pivot j t).2.1 := by
  obtain ⟨h0, h1, h2, h3, h4⟩ := h
  have b1 := allInBounds_push n t.2.2 t.2.1 [high] [j, high] []
    ("Compare index " ++ toString j ++ " with pivot.") h3 h2
    (mem_single_lt n _ hh) (mem_pair_lt n _ _ (by omega) hh) (mem_nil_lt n)
  have w1 := sortedWithin_push A t.2.2 t.2.1 [high] [j, high] []
    ("Compare index " ++ toString j ++ " with pivot.") h4 (fun idx hidx => by cases hidx)
  unfold partitionBody
  simp only
  split
  · have hl : (swap t.2.1 t.1 j).length = n := by rw [length_swap]; exact h2
    refine ⟨by omega, by omega, hl, ?_, ?_⟩
    · exact allInBounds_push n _ _ _ _ _ _ b1 hl (mem_pair_lt n _ _ (by omega) (by omega))
        (mem_nil_lt n) (mem_nil_lt n)
    · apply sortedWithin_push _ _ _ _ _ _ _ _ (fun idx hidx => by cases hidx)
      apply sortedWithin_frame _ _ _ _ w1
      intro idx hidx
      rw [rd_swap _ _ _ _ (by omega) (by omega)]
      have := hA idx hidx
      have e1 : ¬ idx = j := by omega
      have e2 : ¬ idx = t.1 := by omega
      simp only [e1, e2, if_false]
  · exact ⟨h0, by omega, h2, b1, w1⟩

theorem partition_trace (n low high : Nat) (A : Nat → Prop) (s : List Int × List Step)
    (hlh : low < high) (hh : high < n) (hlen : s.1.length = n)
    (hA : ∀ idx, A idx → idx < low ∨ high < idx)
    (hb : AllInBounds n s.2) (hw : SortedWithin A s.2 s.1) :
    AllInBounds n (partition low high s).2.2 ∧
      SortedWithin (fun idx => A idx ∨ idx = (partition low high s).1)
        (partition low high s).2.2 (partition low high s).2.1 := by
  have b0 := allInBounds_push n s.2 s.1 [high] [] []
    ("Pivot is " ++ toString (rd s.1 high) ++ " at index " ++ toString high ++ ".") hb hlen
    (mem_single_lt n _ hh) (mem_nil_lt n) (mem_nil_lt n)
  have w0 := sortedWithin_push A s.2 s.1 [high] [] []
    ("Pivot is " ++ toString (rd s.1 high) ++ " at index " ++ toString high ++ ".") hw
    (fun idx hidx => by cases hidx)
  have key := forLoop_inv (partitionBody high (rd s.1 high))
    (fun j (t : Nat × List Int × List Step) => low ≤ t.1 ∧ t.1 ≤ j ∧ t.2.1.length = n ∧
      AllInBounds n t.2.2 ∧ SortedWithin A t.2.2 t.2.1)
    (high - low) low
    (low, s.1, pushStep s.2 s.1 [high] [] []
      ("Pivot is " ++ toString (rd s.1 high) ++ " at index " ++ toString high ++ "."))
    ⟨le_refl _, le_refl _, hlen, b0, w0⟩
    (fun j t hj1 hj2 hI => partitionBody_trace n low high (rd s.1 high) A j t hj1 (by omega) hh
      hA hI)
  unfold partition
  simp only
  generalize forLoop (partitionBody high (rd s.1 high)) (high - low) low
    (low, s.1, pushStep s.2 s.1 [high] [] []
      ("Pivot is " ++ toString (rd s.1 high) ++ " at index " ++ toString high ++ ".")) = r
    at key
  obtain ⟨k0, k1, k2, k3, k4⟩ := key
  have e : low + (high - low) = high := by omega
  rw [e] at k1
  have hl : (swap r.2.1 r.1 high).length = n := by rw [length_swap]; exact k2
  refine ⟨?_, ?_⟩
  · exact allInBounds_push n _ _ _ _ _ _ k3 hl (mem_single_lt n _ (by omega)) (mem_nil_lt n)
      (mem_single_lt n _ (by omega))
  · apply sortedWithin_push _ _ _ _ _ _ _ _
      (fun idx hidx => by simp only [List.mem_singleton] at hidx; exact Or.inr hidx)
    apply sortedWithin_mono A _ _ _ _ (fun idx hx => Or.inl hx)
    apply sortedWithin_frame _ _ _ _ k4
    intro idx hidx
    rw [rd_swap _ _ _ _ (by omega) (by omega)]
    have := hA idx hidx
    have e1 : ¬ idx = high := by omega
    have e2 : ¬ idx = r.1 := by omega
    simp only [e1, e2, if_false]

/-- What `run(low, high)` of `buildQuick` does to the trace: when it returns,
every snapshot is within bounds, nothing outside `low..high` has changed, and
every index listed as sorted, by an earlier snapshot or a new one, holds its
value of the returned array; the new ones lie in `low..high`. -/
theorem quickRun_trace (n : Nat) :
    ∀ (fuel low high : Nat) (s r : List Int × List Step) (A : Nat → Prop),
      quickRun fuel low high s = some r → s.1.length = n → (low < high → high < n) →
      AllInBounds n s.2 → SortedWithin A s.2 s.1 →
      (low < high → ∀ idx, A idx → idx < low ∨ high < idx) →
      r.1.length = n ∧ AllInBounds n r.2 ∧
        (∀ q, q < low ∨ high < q → rd r.1 q = rd s.1 q) ∧
        SortedWithin (fun idx => A idx ∨ (low ≤ idx ∧ idx ≤ high)) r.2 r.1 := by
  intro fuel
  induction fuel with
  | zero =>
    intro low high s r A h
    simp [quickRun] at h
  | succ fuel ih =>
    intro low high s r A h hlen hb hbd hw hA
    rw [quickRun] at h
    by_cases hlh : low < high
    · simp only [hlh, if_true] at h
      have hh := hb hlh
      obtain ⟨p1, p2, plen, _, _, _, _, pout, _⟩ :=
        partition_spec low high s hlh (by omega)
      obtain ⟨pb, pw⟩ := partition_trace n low high A s hlh hh hlen (hA hlh) hbd hw
      generalize partition low high s = r0 at h p1 p2 plen pout pb pw
      cases h1 : quickRun fuel low (r0.1 - 1) r0.2 with
      | none => rw [h1] at h; cases h
      | some r1 =>
        rw [h1] at h
        simp only at h
        obtain ⟨l1, b1, f1, w1⟩ := ih low (r0.1 - 1) r0.2 r1
          (fun idx => A idx ∨ idx = r0.1) h1 (by omega) (fun _ => by omega) pb pw
          (fun hlt idx hx => by
            rcases hx with hx | hx
            · have := hA hlh idx hx
              omega
            · omega)
        obtain ⟨l2, b2, f2, w2⟩ := ih (r0.1 + 1) high r1 r
          (fun idx => (A idx ∨ idx = r0.1) ∨ (low ≤ idx ∧ idx ≤ r0.1 - 1)) h l1
          (fun _ => by omega) b1 w1
          (fun hlt idx hx => by
            rcases hx with (hx | hx) | hx
            · have := hA hlh idx hx
              omega
            · omega
            · omega)
        refine ⟨l2, b2, ?_, ?_⟩
        · intro q hq
          rw [f2 q (by omega), f1 q (by omega)]
          exact pout q hq
        · apply sortedWithin_mono _ _ _ _ w2
          intro idx hx
          rcases hx with ((hx | hx) | hx) | hx
          · exact Or.inl hx
          · exact Or.inr (by omega)
          · exact Or.inr (by omega)
          · exact Or.inr (by omega)
    · simp only [hlh, if_false] at h
      cases h
      exact ⟨hlen, hbd, fun q _ => rfl, sortedWithin_mono _ _ _ _ hw (fun idx hx => Or.inl hx)⟩

/-- The trace of `buildQuick`: within bounds, with every sorted index holding
its final value. -/
theorem buildQuick_trace (fuel : Nat) (input : List Int) (tr : List Step)
    (h : buildQuick fuel input = some tr) :
    AllInBounds input.length tr ∧ SortedFixed tr := by
  unfold buildQuick at h
  cases hr : quickRun fuel 0 (input.length - 1) (input, []) with
  | none => rw [hr] at h; cases h
  | some r =>
    rw [hr] at h
    simp only [Option.map_some', Option.some.injEq] at h
    obtain ⟨l1, b1, _, w1⟩ := quickRun_trace input.length fuel 0 (input.length - 1) (input, []) r
      (fun _ => False) hr rfl (fun hlt => by omega) (allInBounds_nil _) (sortedWithin_nil _ _)
      (fun _ idx hx => hx.elim)
    subst h
    refine ⟨?_, ?_⟩
    · apply allInBounds_push _ _ _ _ _ _ _ b1 l1 (mem_nil_lt _) (mem_nil_lt _)
      intro i hi
      rw [l1] at hi
      exact List.mem_range.1 hi
    · apply sortedFixed_of_within _ r.1
      · apply sortedWithin_push _ _ _ _ _ _ _ _ (fun _ _ => trivial)
        exact sortedWithin_mono _ _ _ _ w1 (fun _ _ => trivial)
      · right
        unfold finalArr
        rw [pushStep_getLast]

end Sorting
namespace Sorting

/-- C35 (counterexample): `buildInsertion` and `buildMerge` list indices in
`sorted` whose values still change.  For the input `[2, 1]` the first snapshot
of the insertion trace has `arr = [2, 1]` and `sorted = [0]`, and the final
`arr` is `[1, 2]`; for the input `[2, 1, 0]` the merge trace has a snapshot
with `arr = [1, 2, 0]` and `sorted = [0, 1]`, and the final `arr` is
`[0, 1, 2]`. -/
theorem c35_sorted_not_fixed_counterexample :
    ((buildInsertion [2, 1]).head?.map (fun s => (s.arr, s.sorted)) = some ([2, 1], [0]) ∧
      finalArr (buildInsertion [2, 1]) = [1, 2] ∧
      ¬ SortedFixed (buildInsertion [2, 1])) ∧
    ∃ tr, buildMerge 6 [2, 1, 0] = some tr ∧
      (∃ s ∈ tr, s.arr = [1, 2, 0] ∧ s.sorted = [0, 1]) ∧
      finalArr tr = [0, 1, 2] ∧ ¬ SortedFixed tr := by
  refine ⟨⟨by decide, by decide, ?_⟩, _, rfl, by decide, by decide, ?_⟩
  · unfold SortedFixed
    decide
  · unfold SortedFixed
    decide

/-- C35 (amended): in every snapshot of the bubble, selection and quick sort
traces of every input (quick sort with fuel above the length of the input),
every index listed in `sorted` holds, in that snapshot, the value it holds in
the final `arr` of the trace. -/
theorem c35_sorted_fixed (input : List Int) (fuel : Nat) (hf : input.length + 1 ≤ fuel) :
    SortedFixed (buildBubble input) ∧ SortedFixed (buildSelection input) ∧
    ∃ tr, buildQuick fuel input = some tr ∧ SortedFixed tr := by
  obtain ⟨tr, htr, _⟩ := buildQuick_spec fuel input hf
  exact ⟨bubble_sortedFixed input, selection_sortedFixed input, tr, htr,
    (buildQuick_trace fuel input tr htr).2⟩

theorem c35_sorted_fixed_witness :
    SortedFixed (buildBubble [3, 1, 2]) ∧ SortedFixed (buildSelection [3, 1, 2]) ∧
    ∃ tr, buildQuick 4 [3, 1, 2] = some tr ∧ SortedFixed tr :=
  c35_sorted_fixed [3, 1, 2] 4 (by decide)

end Sorting
namespace Loop

/-- An invariant of the passes of a loop holds in the state in which the loop
is left. -/
theorem run_inv {σ : Type} (step : σ → Flow σ) (I : σ → Prop)
    (hnext : ∀ s s1, I s → step s = Flow.next s1 → I s1)
    (hdone : ∀ s s1, I s → step s = Flow.done s1 → I s1) :
    ∀ (fuel : Nat) (s r : σ), I s → run step fuel s = some r → I r := by
  intro fuel
  induction fuel with
  | zero =>
    intro s r _ h
    simp [run] at h
  | succ fuel ih =>
    intro s r hI h
    rw [run] at h
    cases hs : step s with
    | done s1 =>
      rw [hs] at h
      simp only [Option.some.injEq] at h
      subst h
      exact hdone s s1 hI hs
    | next s1 =>
      rw [hs] at h
      exact ih s1 r (hnext s s1 hI hs) h

end Loop

namespace Sorting

open Loop

/-! ### Insertion sort -/

theorem insertionShift_trace (n : Nat) (key : Int) :
    ∀ (g : Nat) (s : List Int × List Step), g < n → s.1.length = n → AllInBounds n s.2 →
      (insertionShift key g s).1 ≤ g ∧ (insertionShift key g s).2.1.length = n ∧
        AllInBounds n (insertionShift key g s).2.2 := by
  intro g
  induction g with
  | zero =>
    intro s _ hl hb
    simp only [insertionShift]
    exact ⟨le_refl _, hl, hb⟩
  | succ j ih =>
    intro s hg hl hb
    rw [insertionShift]
    split
    · simp only
      have b1 := allInBounds_push n s.2 s.1 [j] [j, j + 1] []
        ("Shift " ++ toString (rd s.1 j) ++ " right from index " ++ toString j ++ ".") hb hl
        (mem_single_lt n _ (by omega)) (mem_pair_lt n _ _ (by omega) hg) (mem_nil_lt n)
      have hl2 : (s.1.set (j + 1) (rd s.1 j)).length = n := by simp [hl]
      have b2 := allInBounds_push n _ (s.1.set (j + 1) (rd s.1 j)) [j + 1] [] []
        ("Index " ++ toString (j + 1) ++ " updated.") b1 hl2
        (mem_single_lt n _ hg) (mem_nil_lt n) (mem_nil_lt n)
      obtain ⟨r1, r2, r3⟩ := ih (s.1.set (j + 1) (rd s.1 j),
        pushStep (pushStep s.2 s.1 [j] [j, j + 1] []
          ("Shift " ++ toString (rd s.1 j) ++ " right from index " ++ toString j ++ "."))
          (s.1.set (j + 1) (rd s.1 j)) [j + 1] [] []
          ("Index " ++ toString (j + 1) ++ " updated.")) (by omega) hl2 b2
      exact ⟨Nat.le_succ_of_le r1, r2, r3⟩
    · exact ⟨le_refl _, hl, hb⟩

theorem insertionOuter_trace (n i : Nat) (s : List Int × List Step) (hi : i < n)
    (h : s.1.length = n ∧ AllInBounds n s.2) :
    (insertionOuter i s).1.length = n ∧ AllInBounds n (insertionOuter i s).2 := by
  obtain ⟨hl, hb⟩ := h
  have b0 := allInBounds_push n s.2 s.1 [i] [] []
    ("Insert value " ++ toString (rd s.1 i) ++ " from index " ++ toString i ++ ".") hb hl
    (mem_single_lt n _ hi) (mem_nil_lt n) (mem_nil_lt n)
  obtain ⟨r1, r2, r3⟩ := insertionShift_trace n (rd s.1 i) i (s.1, pushStep s.2 s.1 [i] [] []
    ("Insert value " ++ toString (rd s.1 i) ++ " from index " ++ toString i ++ ".")) hi hl b0
  unfold insertionOuter
  simp only
  refine ⟨by simp only [List.length_set]; exact r2, ?_⟩
  apply allInBounds_push n _ _ _ _ _ _ r3 (by simp only [List.length_set]; exact r2)
    (mem_single_lt n _ (by omega)) (mem_nil_lt n)
  intro idx hidx
  have := List.mem_range.1 hidx
  omega

theorem buildInsertion_trace (input : List Int) (h : input ≠ []) :
    AllInBounds input.length (buildInsertion input) := by
  have hpos := List.length_pos.2 h
  have key := forLoop_inv insertionOuter
    (fun _ (s : List Int × List Step) => s.1.length = input.length ∧
      AllInBounds input.length s.2)
    (input.length - 1) 1
    (input, pushStep [] input [0] [] [0] "Start with first element as sorted.")
    ⟨rfl, allInBounds_push _ _ _ _ _ _ _ (allInBounds_nil _) rfl (mem_single_lt _ _ hpos)
      (mem_nil_lt _) (mem_single_lt _ _ hpos)⟩
    (fun j s _ hj hI => insertionOuter_trace input.length j s (by omega) hI)
  exact key.2

/-! ### Merge sort -/

theorem slice_length_le (a : List Int) (x y : Nat) : (slice a x y).length ≤ y - x := by
  unfold slice
  rw [List.length_take]
  exact Nat.min_le_left _ _

theorem mergeMainPass_trace (n : Nat) (L R : List Int) (s s1 : MergeState)
    (hI : s.arr.length = n ∧ AllInBounds n s.out ∧
      s.k + (L.length - s.i) + (R.length - s.j) ≤ n)
    (h : mergeMainPass L R s = Flow.next s1) :
    s1.arr.length = n ∧ AllInBounds n s1.out ∧
      s1.k + (L.length - s1.i) + (R.length - s1.j) ≤ n := by
  obtain ⟨hl, hb, hk⟩ := hI
  unfold mergeMainPass at h
  by_cases hc : s.i < L.length ∧ s.j < R.length
  · rw [if_pos hc] at h
    simp only at h
    have hkn : s.k < n := by omega
    have b1 := allInBounds_push n s.out s.arr [s.k] [] []
      ("Merge compare " ++ toString (rd L s.i) ++ " and " ++ toString (rd R s.j) ++ ".")
      hb hl (mem_single_lt n _ hkn) (mem_nil_lt n) (mem_nil_lt n)
    by_cases hle : rd L s.i ≤ rd R s.j
    · rw [if_pos hle] at h
      simp only [Flow.next.injEq] at h
      subst h
      refine ⟨by simp only [List.length_set]; exact hl, ?_, by simp only; omega⟩
      exact allInBounds_push n _ _ _ _ _ _ b1 (by simp only [List.length_set]; exact hl)
        (mem_single_lt n _ hkn) (mem_nil_lt n) (mem_nil_lt n)
    · rw [if_neg hle] at h
      simp only [Flow.next.injEq] at h
      subst h
      refine ⟨by simp only [List.length_set]; exact hl, ?_, by simp only; omega⟩
      exact allInBounds_push n _ _ _ _ _ _ b1 (by simp only [List.length_set]; exact hl)
        (mem_single_lt n _ hkn) (mem_nil_lt n) (mem_nil_lt n)
  · rw [if_neg hc] at h
    cases h

theorem mergeMainPass_done (L R : List Int) (s s1 : MergeState)
    (h : mergeMainPass L R s = Flow.done s1) : s1 = s := by
  unfold mergeMainPass at h
  by_cases hc : s.i < L.length ∧ s.j < R.length
  · rw [if_pos hc] at h
    simp only at h
    split at h <;> cases h
  · rw [if_neg hc] at h
    simp only [Flow.done.injEq] at h
    exact h.symm

theorem mergeLeftPass_trace (n : Nat) (L R : List Int) (s s1 : MergeState)
    (hI : s.arr.length = n ∧ AllInBounds n s.out ∧
      s.k + (L.length - s.i) + (R.length - s.j) ≤ n)
    (h : mergeLeftPass L s = Flow.next s1) :
    s1.arr.length = n ∧ AllInBounds n s1.out ∧
      s1.k + (L.length - s1.i) + (R.length - s1.j) ≤ n := by
  obtain ⟨hl, hb, hk⟩ := hI
  unfold mergeLeftPass at h
  by_cases hc : s.i < L.length
  · rw [if_pos hc] at h
    simp only [Flow.next.injEq] at h
    subst h
    have hkn : s.k < n := by omega
    refine ⟨by simp only [List.length_set]; exact hl, ?_, by simp only; omega⟩
    exact allInBounds_push n _ _ _ _ _ _ hb (by simp only [List.length_set]; exact hl)
      (mem_single_lt n _ hkn) (mem_nil_lt n) (mem_nil_lt n)
  · rw [if_neg hc] at h
    cases h

theorem mergeLeftPass_done (L : List Int) (s s1 : MergeState)
    (h : mergeLeftPass L s = Flow.done s1) : s1 = s := by
  unfold mergeLeftPass at h
  by_cases hc : s.i < L.length
  · rw [if_pos hc] at h
    cases h
  · rw [if_neg hc] at h
    simp only [Flow.done.injEq] at h
    exact h.symm

theorem mergeRightPass_trace (n : Nat) (L R : List Int) (s s1 : MergeState)
    (hI : s.arr.length = n ∧ AllInBounds n s.out ∧
      s.k + (L.length - s.i) + (R.length - s.j) ≤ n)
    (h : mergeRightPass R s = Flow.next s1) :
    s1.arr.length = n ∧ AllInBounds n s1.out ∧
      s1.k + (L.length - s1.i) + (R.length - s1.j) ≤ n := by
  obtain ⟨hl, hb, hk⟩ := hI
  unfold mergeRightPass at h
  by_cases hc : s.j < R.length
  · rw [if_pos hc] at h
    simp only [Flow.next.injEq] at h
    subst h
    have hkn : s.k < n := by omega
    refine ⟨by simp only [List.length_set]; exact hl, ?_, by simp only; omega⟩
    exact allInBounds_push n _ _ _ _ _ _ hb (by simp only [List.length_set]; exact hl)
      (mem_single_lt n _ hkn) (mem_nil_lt n) (mem_nil_lt n)
  · rw [if_neg hc] at h
    cases h

theorem mergeRightPass_done (R : List Int) (s s1 : MergeState)
    (h : mergeRightPass R s = Flow.done s1) : s1 = s := by
  unfold mergeRightPass at h
  by_cases hc : s.j < R.length
  · rw [if_pos hc] at h
    cases h
  · rw [if_neg hc] at h
    simp only [Flow.done.injEq] at h
    exact h.symm

theorem merge_trace (n fuel left mid right : Nat) (s r : List Int × List Step)
    (h : merge fuel left mid right s = some r) (hlen : s.1.length = n) (hlm : left ≤ mid)
    (hmr : mid ≤ right) (hr : right < n) (hb : AllInBounds n s.2) :
    r.1.length = n ∧ AllInBounds n r.2 := by
  unfold merge at h
  simp only at h
  have hL := slice_length_le s.1 left (mid + 1)
  have hR := slice_length_le s.1 (mid + 1) (right + 1)
  generalize slice s.1 left (mid + 1) = L at h hL
  generalize slice s.1 (mid + 1) (right + 1) = R at h hR
  cases h1 : Loop.run (mergeMainPass L R) fuel
      { i := 0, j := 0, k := left, arr := s.1, out := s.2 } with
  | none => rw [h1] at h; cases h
  | some s1 =>
    rw [h1] at h
    simp only at h
    have i1 := run_inv (mergeMainPass L R)
      (fun st => st.arr.length = n ∧ AllInBounds n st.out ∧
        st.k + (L.length - st.i) + (R.length - st.j) ≤ n)
      (fun a b hI hs => mergeMainPass_trace n L R a b hI hs)
      (fun a b hI hs => by rw [mergeMainPass_done L R a b hs]; exact hI)
      fuel _ s1 ⟨hlen, hb, by simp only; omega⟩ h1
    cases h2 : Loop.run (mergeLeftPass L) fuel s1 with
    | none => rw [h2] at h; cases h
    | some s2 =>
      rw [h2] at h
      simp only at h
      have i2 := run_inv (mergeLeftPass L)
        (fun st => st.arr.length = n ∧ AllInBounds n st.out ∧
          st.k + (L.length - st.i) + (R.length - st.j) ≤ n)
        (fun a b hI hs => mergeLeftPass_trace n L R a b hI hs)
        (fun a b hI hs => by rw [mergeLeftPass_done L a b hs]; exact hI)
        fuel s1 s2 i1 h2
      cases h3 : Loop.run (mergeRightPass R) fuel s2 with
      | none => rw [h3] at h; cases h
      | some s3 =>
        rw [h3] at h
        simp only [Option.some.injEq] at h
        have i3 := run_inv (mergeRightPass R)
          (fun st => st.arr.length = n ∧ AllInBounds n st.out ∧
            st.k + (L.length - st.i) + (R.length - st.j) ≤ n)
          (fun a b hI hs => mergeRightPass_trace n L R a b hI hs)
          (fun a b hI hs => by rw [mergeRightPass_done R a b hs]; exact hI)
          fuel s2 s3 i2 h3
        subst h
        obtain ⟨k1, k2, _⟩ := i3
        refine ⟨k1, ?_⟩
        apply allInBounds_push n _ _ _ _ _ _ k2 k1 (mem_nil_lt n) (mem_nil_lt n)
        intro idx hidx
        have := (List.mem_range'_1.1 hidx).2
        omega

theorem mergeRun_trace (n : Nat) :
    ∀ (fuel left right : Nat) (s r : List Int × List Step),
      mergeRun fuel left right s = some r → s.1.length = n → (left < right → right < n) →
      AllInBounds n s.2 → r.1.length = n ∧ AllInBounds n r.2 := by
  intro fuel
  induction fuel with
  | zero =>
    intro left right s r h
    simp [mergeRun] at h
  | succ fuel ih =>
    intro left right s r h hlen hr hb
    rw [mergeRun] at h
    by_cases hlr : left ≥ right
    · rw [if_pos hlr] at h
      simp only [Option.some.injEq] at h
      subst h
      exact ⟨hlen, hb⟩
    · rw [if_neg hlr] at h
      simp only at h
      cases h1 : mergeRun fuel left ((left + right) / 2) s with
      | none => rw [h1] at h; cases h
      | some s1 =>
        rw [h1] at h
        simp only at h
        obtain ⟨l1, b1⟩ := ih left ((left + right) / 2) s s1 h1 hlen (fun _ => by omega) hb
        cases h2 : mergeRun fuel ((left + right) / 2 + 1) right s1 with
        | none => rw [h2] at h; cases h
        | some s2 =>
          rw [h2] at h
          simp only at h
          obtain ⟨l2, b2⟩ := ih ((left + right) / 2 + 1) right s1 s2 h2 l1
            (fun _ => by omega) b1
          exact merge_trace n fuel left ((left + right) / 2) right s2 r h l2 (by omega)
            (by omega) (by omega) b2

theorem buildMerge_trace (fuel : Nat) (input : List Int) (tr : List Step)
    (h : buildMerge fuel input = some tr) : AllInBounds input.length tr := by
  unfold buildMerge at h
  cases hr : mergeRun fuel 0 (input.length - 1) (input, []) with
  | none => rw [hr] at h; cases h
  | some r =>
    rw [hr] at h
    simp only [Option.map_some', Option.some.injEq] at h
    obtain ⟨l1, b1⟩ := mergeRun_trace input.length fuel 0 (input.length - 1) (input, []) r hr rfl
      (fun hlt => by omega) (allInBounds_nil _)
    subst h
    apply allInBounds_push _ _ _ _ _ _ _ b1 l1 (mem_nil_lt _) (mem_nil_lt _)
    intro i hi
    rw [l1] at hi
    exact List.mem_range.1 hi

end Sorting
namespace Search

open Loop

/-! ### Indices of the search traces -/

theorem linearLoop_valid {α : Type} [DecidableEq α] [ToString α] (arr : List α) (t : α) :
    ∀ (count i : Nat) (out : List Step), i + count ≤ arr.length →
      (∀ s ∈ out, IndicesValid arr.length s) →
      ∀ s ∈ linearLoop arr t count i out, IndicesValid arr.length s := by
  intro count
  induction count with
  | zero =>
    intro i out _ hout s hs
    simp only [linearLoop, List.mem_append, List.mem_singleton] at hs
    rcases hs with h | h
    · exact hout s h
    · subst h
      exact ⟨fun i hi => (by cases hi), fun i hi => (by cases hi)⟩
  | succ c ih =>
    intro i out hi hout s hs
    have hv : 0 ≤ (i : Int) ∧ (i : Int) < (arr.length : Int) := by omega
    have hout1 : ∀ s ∈ out ++ [{
        activeIndices := [(i : Int)], foundIndex := none,
        text := "Inspect index " ++ toString i ++ " (value " ++ showAt arr[i]? ++ ")." }],
        IndicesValid arr.length s := by
      intro x hx
      simp only [List.mem_append, List.mem_singleton] at hx
      rcases hx with h | h
      · exact hout x h
      · subst h
        refine ⟨fun k hk => ?_, fun k hk => by cases hk⟩
        simp only [List.mem_singleton] at hk
        subst hk
        exact hv
    rw [linearLoop] at hs
    split at hs
    · simp only [List.mem_append, List.mem_singleton] at hs
      rcases hs with (h | h) | h
      · exact hout s h
      · exact hout1 s (by simp only [List.mem_append, List.mem_singleton]; exact Or.inr h)
      · subst h
        refine ⟨fun k hk => ?_, fun k hk => ?_⟩
        · simp only [List.mem_singleton] at hk
          subst hk
          exact hv
        · simp only [Option.some.injEq] at hk
          subst hk
          exact hv
    · exact ih (i + 1) _ (by omega) hout1 s hs

theorem buildLinearSteps_valid {α : Type} [DecidableEq α] [ToString α] (arr : List α) (t : α) :
    ∀ s ∈ buildLinearSteps arr t, IndicesValid arr.length s :=
  linearLoop_valid arr t arr.length 0 [] (by omega) (fun s hs => by cases hs)

theorem mem_inRange (n : Nat) (l : List Int) (i : Int) (h : i ∈ inRange n l) :
    0 ≤ i ∧ i < (n : Int) := by
  unfold inRange at h
  have := (List.mem_filter.1 h).2
  simpa using this

theorem valid_snoc (n : Nat) (out : List Step) (x : Step)
    (h : ∀ s ∈ out, IndicesValid n s) (hx : IndicesValid n x) :
    ∀ s ∈ out ++ [x], IndicesValid n s := by
  intro s hs
  simp only [List.mem_append, List.mem_singleton] at hs
  rcases hs with h1 | h1
  · exact h s h1
  · subst h1
    exact hx

theorem binaryPass_valid {α : Type} [LinearOrder α] [ToString α] (arr : List α) (t : α)
    (s s1 : BinaryState)
    (hI : 0 ≤ s.left ∧ s.right < (arr.length : Int) ∧ ∀ x ∈ s.out, IndicesValid arr.length x)
    (h : binaryPass arr t s = Flow.next s1 ∨ binaryPass arr t s = Flow.done s1) :
    0 ≤ s1.left ∧ s1.right < (arr.length : Int) ∧
      ∀ x ∈ s1.out, IndicesValid arr.length x := by
  obtain ⟨h0, h1, h2⟩ := hI
  unfold binaryPass at h
  by_cases hc : s.left ≤ s.right
  · simp only [if_pos hc] at h
    have hm1 : 0 ≤ (s.left + s.right) / 2 := by omega
    have hm2 : (s.left + s.right) / 2 < (arr.length : Int) := by omega
    have hout1 := valid_snoc arr.length s.out
      { activeIndices := [s.left, (s.left + s.right) / 2, s.right], foundIndex := none,
        text := "Range [" ++ toString s.left ++ ", " ++ toString s.right
          ++ "], check middle index " ++ toString ((s.left + s.right) / 2) ++ " (value "
          ++ showAt (getAt arr ((s.left + s.right) / 2)) ++ ")." } h2
      ⟨fun k hk => by
        simp only [List.mem_cons, List.mem_singleton, List.not_mem_nil, or_false] at hk
        rcases hk with hk | hk | hk <;> omega, fun k hk => by cases hk⟩
    by_cases hf : getAt arr ((s.left + s.right) / 2) = some t
    · simp only [if_pos hf] at h
      rcases h with h | h
      · cases h
      · simp only [Flow.done.injEq] at h
        subst h
        refine ⟨h0, h1, ?_⟩
        apply valid_snoc _ _ _ hout1
        refine ⟨fun k hk => ?_, fun k hk => ?_⟩
        · simp only [List.mem_singleton] at hk
          omega
        · simp only [Option.some.injEq] at hk
          omega
    · simp only [if_neg hf] at h
      by_cases hl : ltTarget (getAt arr ((s.left + s.right) / 2)) t = true
      · simp only [if_pos hl] at h
        rcases h with h | h
        · simp only [Flow.next.injEq] at h
          subst h
          refine ⟨by simp only; omega, h1, ?_⟩
          apply valid_snoc _ _ _ hout1
          exact ⟨fun k hk => mem_inRange _ _ _ hk, fun k hk => by cases hk⟩
        · cases h
      · simp only [if_neg hl] at h
        rcases h with h | h
        · simp only [Flow.next.injEq] at h
          subst h
          refine ⟨h0, by simp only; omega, ?_⟩
          apply valid_snoc _ _ _ hout1
          exact ⟨fun k hk => mem_inRange _ _ _ hk, fun k hk => by cases hk⟩
        · cases h
  · simp only [if_neg hc] at h
    rcases h with h | h
    · cases h
    · simp only [Flow.done.injEq] at h
      subst h
      refine ⟨h0, h1, ?_⟩
      apply valid_snoc _ _ _ h2
      exact ⟨fun k hk => (by cases hk), fun k hk => (by cases hk)⟩

theorem buildBinarySteps_valid {α : Type} [LinearOrder α] [ToString α] (arr : List α) (t : α)
    (fuel : Nat) (tr : List Step) (h : buildBinarySteps fuel arr t = some tr) :
    ∀ s ∈ tr, IndicesValid arr.length s := by
  unfold buildBinarySteps at h
  cases hr : Loop.run (binaryPass arr t) fuel
      { left := 0, right := (arr.length : Int) - 1, out := [] } with
  | none => rw [hr] at h; cases h
  | some r =>
    rw [hr] at h
    simp only [Option.map_some', Option.some.injEq] at h
    subst h
    exact (run_inv (binaryPass arr t)
      (fun s => 0 ≤ s.left ∧ s.right < (arr.length : Int) ∧
        ∀ x ∈ s.out, IndicesValid arr.length x)
      (fun a b hI hs => binaryPass_valid arr t a b hI (Or.inl hs))
      (fun a b hI hs => binaryPass_valid arr t a b hI (Or.inr hs))
      fuel _ r ⟨le_refl _, by simp only; omega, fun x hx => by cases hx⟩ hr).2.2

end Search
namespace Sorting

/-- C39: for every input array of length `n` every snapshot of the bubble,
selection, merge and quick sort traces (the recursive ones with fuel above
`n + 2`) has an `arr` of length `n` and lists only indices below `n` in
`active`, `compare` and `sorted`, and so has every snapshot of the insertion
sort trace when the input is not empty; every index in `activeIndices` and
every `foundIndex` of the linear and binary search traces on an array (binary
search with fuel above its length) is a valid index of that array.  For the
empty input `buildInsertion` returns one snapshot, with `arr = []`,
`active = [0]` and `sorted = [0]`: index 0 is not an index of the empty
array. -/
theorem c39_indices_in_bounds (input : List Int) (fuel : Nat) (arr : List Int) (t : Int)
    (hf : input.length + 3 ≤ fuel) (hb : arr.length + 1 ≤ fuel) :
    AllInBounds input.length (buildBubble input) ∧
    AllInBounds input.length (buildSelection input) ∧
    (input ≠ [] → AllInBounds input.length (buildInsertion input)) ∧
    (∃ tr, buildMerge fuel input = some tr ∧ AllInBounds input.length tr) ∧
    (∃ tr, buildQuick fuel input = some tr ∧ AllInBounds input.length tr) ∧
    (∀ s ∈ Search.buildLinearSteps arr t, Search.IndicesValid arr.length s) ∧
    (∃ tr, Search.buildBinarySteps fuel arr t = some tr ∧
      ∀ s ∈ tr, Search.IndicesValid arr.length s) ∧
    buildInsertion [] = [{ arr := [], active := [0], compare := [], sorted := [0],
                           text := "Start with first element as sorted." }] ∧
    ¬ AllInBounds 0 (buildInsertion []) := by
  obtain ⟨tm, htm, _⟩ := buildMerge_spec fuel input hf
  obtain ⟨tq, htq, _⟩ := buildQuick_spec fuel input (by omega)
  obtain ⟨r, hr, _⟩ := Search.binary_run arr t fuel hb
  have hbin := Search.buildBinarySteps_of_run arr t fuel r hr
  refine ⟨(bubbleFinal_trace input).2.1, (selectionFinal_trace input).2.1,
    buildInsertion_trace input, ⟨tm, htm, buildMerge_trace fuel input tm htm⟩,
    ⟨tq, htq, (buildQuick_trace fuel input tq htq).1⟩,
    Search.buildLinearSteps_valid arr t,
    ⟨r.out, hbin, Search.buildBinarySteps_valid arr t fuel r.out hbin⟩, rfl, ?_⟩
  intro h
  have := (h _ (List.mem_singleton.2 rfl)).2.1 0 (List.mem_singleton.2 rfl)
  omega

theorem c39_indices_in_bounds_witness :
    (([3, 1, 2] : List Int).length + 3 ≤ 13 ∧ Search.baseArray.length + 1 ≤ 13) ∧
    AllInBounds 3 (buildBubble [3, 1, 2]) ∧
    (∀ s ∈ Search.buildLinearSteps Search.baseArray 42,
      Search.IndicesValid Search.baseArray.length s) :=
  ⟨⟨by decide, by decide⟩,
    (c39_indices_in_bounds [3, 1, 2] 13 Search.baseArray 42 (by decide) (by decide)).1,
    (c39_indices_in_bounds [3, 1, 2] 13 Search.baseArray 42 (by decide) (by decide)).2.2.2.2.2.1⟩

end Sorting
namespace Greedy

open Js

/-! ## Union-find -/

theorem rootIn_root (par : List (String × String)) (d : Nat) (x r : String)
    (h : RootIn par d x r) : objGet par r = some r := by
  induction h with
  | self r hr => exact hr
  | up d x p r _ _ _ ih => exact ih

theorem rootIn_unique (par : List (String × String)) (d : Nat) (x r : String)
    (h : RootIn par d x r) : ∀ d2 r2, RootIn par d2 x r2 → r2 = r := by
  induction h with
  | self r hr =>
    intro d2 r2 h2
    cases h2 with
    | self _ _ => rfl
    | up d x p r hp hne _ =>
      rw [hr] at hp
      simp only [Option.some.injEq] at hp
      exact absurd hp.symm hne
  | up d x p r hp hne _ ih =>
    intro d2 r2 h2
    cases h2 with
    | self _ hr =>
      rw [hr] at hp
      simp only [Option.some.injEq] at hp
      exact absurd hp.symm hne
    | up d2 _ p2 _ hp2 _ h3 =>
      rw [hp] at hp2
      simp only [Option.some.injEq] at hp2
      subst hp2
      exact ih _ _ h3

theorem rootsKept_refl (par : List (String × String)) : RootsKept par par :=
  fun _ d _ h => ⟨d, le_refl _, h⟩

theorem rootsKept_trans (p1 p2 p3 : List (String × String)) (h1 : RootsKept p1 p2)
    (h2 : RootsKept p2 p3) : RootsKept p1 p3 := by
  intro y d r h
  obtain ⟨d1, hd1, k1⟩ := h1 y d r h
  obtain ⟨d2, hd2, k2⟩ := h2 y d1 r k1
  exact ⟨d2, by omega, k2⟩

/-- Path compression: pointing `x` at its root keeps every root. -/
theorem rootsKept_compress (par : List (String × String)) (x r : String) (dx : Nat)
    (hx : RootIn par dx x r) (hne : r ≠ x) : RootsKept par (objSet par x r) := by
  have hr := rootIn_root par dx x r hx
  have hr2 : objGet (objSet par x r) r = some r := by
    rw [objGet_objSet, if_neg (fun e => hne e.symm)]
    exact hr
  intro y d r2 h
  induction h with
  | self r2 h2 =>
    have hr2x : r2 ≠ x := by
      intro e
      subst e
      exact hne (rootIn_unique par 0 r2 r2 (RootIn.self r2 h2) dx r hx)
    refine ⟨0, le_refl _, RootIn.self r2 ?_⟩
    rw [objGet_objSet, if_neg (fun e => hr2x e.symm)]
    exact h2
  | up d y p r2 hp hpy h3 ih =>
    obtain ⟨d1, hd1, k1⟩ := ih
    by_cases hyx : y = x
    · subst hyx
      have e : r2 = r := rootIn_unique par dx y r hx _ _ (RootIn.up d y p r2 hp hpy h3)
      subst e
      refine ⟨1, by omega, RootIn.up 0 y r2 r2 ?_ hne (RootIn.self r2 hr2)⟩
      rw [objGet_objSet, if_pos rfl]
    · refine ⟨d1 + 1, by omega, RootIn.up d1 y p r2 ?_ hpy k1⟩
      rw [objGet_objSet, if_neg (fun e => hyx e.symm)]
      exact hp

/-- With fuel above the depth of `x`, `find` returns the root of `x`, and
leaves `rank` and every root as they were. -/
theorem find_spec :
    ∀ (fuel : Nat) (uf : UF) (x r : String) (d : Nat), RootIn uf.parent d x r → d < fuel →
      ∃ uf1, UF.find fuel uf x = some (uf1, r) ∧ uf1.rank = uf.rank ∧
        RootsKept uf.parent uf1.parent := by
  intro fuel
  induction fuel with
  | zero => intro uf x r d _ h; omega
  | succ fuel ih =>
    intro uf x r d h hd
    rw [UF.find]
    cases h with
    | self _ hr =>
      rw [hr]
      simp only [ne_eq, not_true_eq_false, if_false]
      exact ⟨uf, rfl, rfl, rootsKept_refl _⟩
    | up d x p r hp hne h3 =>
      rw [hp]
      simp only [ne_eq, hne, not_false_eq_true, if_true]
      obtain ⟨uf1, hf1, hrank, hk⟩ := ih uf p r d h3 (by omega)
      rw [hf1]
      simp only
      rw [objGet_objSet, if_pos rfl]
      simp only [Option.map_some']
      refine ⟨_, rfl, hrank, ?_⟩
      obtain ⟨dx, _, hx1⟩ := hk x (d + 1) r (RootIn.up d x p r hp hne h3)
      have hrx : r ≠ x := by
        intro e
        subst e
        have := rootIn_root uf.parent _ _ _ h3
        rw [this] at hp
        simp only [Option.some.injEq] at hp
        exact hne hp.symm
      exact rootsKept_trans _ _ _ hk (rootsKept_compress uf1.parent x r dx hx1 hrx)

end Greedy
namespace Greedy

open Js

theorem rootOf_unique (par : List (String × String)) (x r r2 : String)
    (h : RootOf par x r) (h2 : RootOf par x r2) : r2 = r := by
  obtain ⟨d, hd⟩ := h
  obtain ⟨d2, hd2⟩ := h2
  exact rootIn_unique par d x r hd d2 r2 hd2

theorem rootOf_root (par : List (String × String)) (x r : String) (h : RootOf par x r) :
    objGet par r = some r := by
  obtain ⟨d, hd⟩ := h
  exact rootIn_root par d x r hd

theorem rootOf_kept (par par1 : List (String × String)) (hk : RootsKept par par1)
    (x r : String) (h : RootOf par x r) : RootOf par1 x r := by
  obtain ⟨d, hd⟩ := h
  obtain ⟨d1, _, h1⟩ := hk x d r hd
  exact ⟨d1, h1⟩

theorem rooted_rootOf (items : List String) (N : Nat) (uf : UF) (h : Rooted items N uf)
    (x : String) (hx : x ∈ items) : ∃ r, RootOf uf.parent x r := by
  obtain ⟨d, r, _, hr⟩ := h x hx
  exact ⟨r, d, hr⟩

theorem rooted_kept (items : List String) (N : Nat) (uf uf1 : UF) (h : Rooted items N uf)
    (hk : RootsKept uf.parent uf1.parent) : Rooted items N uf1 := by
  intro x hx
  obtain ⟨d, r, hd, hr⟩ := h x hx
  obtain ⟨d1, hd1, h1⟩ := hk x d r hr
  exact ⟨d1, r, by omega, h1⟩

theorem rootOf_kept_iff (items : List String) (N : Nat) (uf : UF)
    (par1 : List (String × String)) (h : Rooted items N uf) (hk : RootsKept uf.parent par1)
    (x : String) (hx : x ∈ items) (r : String) :
    RootOf par1 x r ↔ RootOf uf.parent x r := by
  obtain ⟨r0, h0⟩ := rooted_rootOf items N uf h x hx
  constructor
  · intro h1
    have := rootOf_unique par1 x r0 r (rootOf_kept _ _ hk x r0 h0) h1
    rw [this]
    exact h0
  · exact rootOf_kept _ _ hk x r

theorem same_root_iff (uf : UF) (a ra x : String) (ha : RootOf uf.parent a ra) :
    UF.Same uf x a ↔ RootOf uf.parent x ra := by
  constructor
  · rintro ⟨r, h1, h2⟩
    have := rootOf_unique _ a ra r ha h2
    rw [← this]
    exact h1
  · intro h
    exact ⟨ra, h, ha⟩

theorem same_symm (uf : UF) (x y : String) (h : UF.Same uf x y) : UF.Same uf y x := by
  obtain ⟨r, h1, h2⟩ := h
  exact ⟨r, h2, h1⟩

theorem same_trans (uf : UF) (x y z : String) (h1 : UF.Same uf x y) (h2 : UF.Same uf y z) :
    UF.Same uf x z := by
  obtain ⟨r, a1, a2⟩ := h1
  obtain ⟨r2, b1, b2⟩ := h2
  have := rootOf_unique _ y r r2 a2 b1
  subst this
  exact ⟨r2, a1, b2⟩

/-- Linking the root `r1` under the root `r2` moves the items of `r1` to `r2`,
one step deeper, and leaves the other items where they were. -/
theorem rootIn_link (par : List (String × String)) (r1 r2 : String)
    (h1 : objGet par r1 = some r1) (h2 : objGet par r2 = some r2) (hne : r1 ≠ r2) :
    ∀ y d r, RootIn par d y r →
      RootIn (objSet par r1 r2) (if r = r1 then d + 1 else d) y (if r = r1 then r2 else r) := by
  intro y d r h
  induction h with
  | self r hr =>
    by_cases e : r = r1
    · rw [if_pos e, if_pos e, e]
      exact RootIn.up 0 r1 r2 r2 (by rw [objGet_objSet, if_pos rfl]) (fun e2 => hne e2.symm)
        (RootIn.self r2 (by rw [objGet_objSet, if_neg hne]; exact h2))
    · rw [if_neg e, if_neg e]
      exact RootIn.self r (by rw [objGet_objSet, if_neg (fun e2 => e e2.symm)]; exact hr)
  | up d y p r hp hpy h3 ih =>
    have hy : y ≠ r1 := by
      intro e
      rw [e, h1] at hp
      simp only [Option.some.injEq] at hp
      exact hpy (by rw [e]; exact hp.symm)
    have hp2 : objGet (objSet par r1 r2) y = some p := by
      rw [objGet_objSet, if_neg (fun e => hy e.symm)]
      exact hp
    by_cases e : r = r1
    · rw [if_pos e, if_pos e] at ih
      rw [if_pos e, if_pos e]
      exact RootIn.up _ y p r2 hp2 hpy ih
    · rw [if_neg e, if_neg e] at ih
      rw [if_neg e, if_neg e]
      exact RootIn.up _ y p r hp2 hpy ih

/-- The components after linking the root `r1` under the root `r2`. -/
theorem link_char (items : List String) (par par3 : List (String × String)) (r1 r2 : String)
    (hR : ∀ x ∈ items, ∃ r, RootOf par x r) (hne : r1 ≠ r2)
    (hlink : ∀ y r, RootOf par y r → RootOf par3 y (if r = r1 then r2 else r)) :
    ∀ x ∈ items, ∀ y ∈ items,
      ((∃ r, RootOf par3 x r ∧ RootOf par3 y r) ↔
        ((∃ r, RootOf par x r ∧ RootOf par y r) ∨ (RootOf par x r1 ∧ RootOf par y r2) ∨
          (RootOf par x r2 ∧ RootOf par y r1))) := by
  intro x hx y hy
  obtain ⟨rx, hrx⟩ := hR x hx
  obtain ⟨ry, hry⟩ := hR y hy
  have lx := hlink x rx hrx
  have ly := hlink y ry hry
  constructor
  · rintro ⟨r, k1, k2⟩
    have e1 := rootOf_unique par3 x _ r lx k1
    have e2 := rootOf_unique par3 y _ r ly k2
    by_cases c1 : rx = r1
    · by_cases c2 : ry = r1
      · exact Or.inl ⟨r1, c1 ▸ hrx, c2 ▸ hry⟩
      · rw [if_pos c1] at e1
        rw [if_neg c2] at e2
        have : ry = r2 := by rw [← e2, e1]
        exact Or.inr (Or.inl ⟨c1 ▸ hrx, this ▸ hry⟩)
    · by_cases c2 : ry = r1
      · rw [if_neg c1] at e1
        rw [if_pos c2] at e2
        have : rx = r2 := by rw [← e1, e2]
        exact Or.inr (Or.inr ⟨this ▸ hrx, c2 ▸ hry⟩)
      · rw [if_neg c1] at e1
        rw [if_neg c2] at e2
        have : ry = rx := by rw [← e2, e1]
        exact Or.inl ⟨rx, hrx, this ▸ hry⟩
  · rintro (⟨r, k1, k2⟩ | ⟨k1, k2⟩ | ⟨k1, k2⟩)
    · have e1 := rootOf_unique par x rx r hrx k1
      have e2 := rootOf_unique par y ry r hry k2
      rw [← e1] at lx
      rw [← e2] at ly
      exact ⟨_, lx, ly⟩
    · have e1 := rootOf_unique par x rx r1 hrx k1
      have e2 := rootOf_unique par y ry r2 hry k2
      rw [← e1, if_pos rfl] at lx
      rw [← e2, if_neg (fun e => hne e.symm)] at ly
      exact ⟨_, lx, ly⟩
    · have e1 := rootOf_unique par x rx r2 hrx k1
      have e2 := rootOf_unique par y ry r1 hry k2
      rw [← e1, if_neg (fun e => hne e.symm)] at lx
      rw [← e2, if_pos rfl] at ly
      exact ⟨_, lx, ly⟩

/-- The structure after `union` has linked one of the two distinct roots of `a`
and `b` under the other. -/
theorem union_link (items : List String) (N : Nat) (uf uf3 : UF)
    (par2 : List (String × String)) (a b ra rb r1 r2 : String)
    (hR : Rooted items N uf) (hk : RootsKept uf.parent par2)
    (ha : a ∈ items) (hb : b ∈ items)
    (hra : RootOf uf.parent a ra) (hrb : RootOf uf.parent b rb) (hne : ra ≠ rb)
    (hor : (r1 = ra ∧ r2 = rb) ∨ (r1 = rb ∧ r2 = ra))
    (hp : uf3.parent = objSet par2 r1 r2) :
    Rooted items (N + 1) uf3 ∧ ¬ UF.Same uf a b ∧ UF.Same uf3 a b ∧
      ∀ x ∈ items, ∀ y ∈ items,
        (UF.Same uf3 x y ↔
          UF.Same uf x y ∨ (UF.Same uf x a ∧ UF.Same uf b y) ∨
            (UF.Same uf x b ∧ UF.Same uf a y)) := by
  have hra2 := rootOf_root _ _ _ (rootOf_kept _ _ hk a ra hra)
  have hrb2 := rootOf_root _ _ _ (rootOf_kept _ _ hk b rb hrb)
  have h12 : r1 ≠ r2 := by
    rcases hor with ⟨e1, e2⟩ | ⟨e1, e2⟩
    · rw [e1, e2]; exact hne
    · rw [e1, e2]; exact fun e => hne e.symm
  have hr1 : objGet par2 r1 = some r1 := by
    rcases hor with ⟨e1, _⟩ | ⟨e1, _⟩
    · rw [e1]; exact hra2
    · rw [e1]; exact hrb2
  have hr2 : objGet par2 r2 = some r2 := by
    rcases hor with ⟨_, e2⟩ | ⟨_, e2⟩
    · rw [e2]; exact hrb2
    · rw [e2]; exact hra2
  have hl := rootIn_link par2 r1 r2 hr1 hr2 h12
  have hnot : ¬ UF.Same uf a b := by
    rintro ⟨r, k1, k2⟩
    have e1 := rootOf_unique _ a ra r hra k1
    have e2 := rootOf_unique _ b rb r hrb k2
    exact hne (by rw [← e1, ← e2])
  have hchar : ∀ x ∈ items, ∀ y ∈ items,
      (UF.Same uf3 x y ↔
        UF.Same uf x y ∨ (UF.Same uf x a ∧ UF.Same uf b y) ∨
          (UF.Same uf x b ∧ UF.Same uf a y)) := by
    intro x hx y hy
    have key := link_char items par2 (objSet par2 r1 r2) r1 r2
      (fun z hz => by
        obtain ⟨r, hr⟩ := rooted_rootOf items N uf hR z hz
        exact ⟨r, rootOf_kept _ _ hk z r hr⟩)
      h12
      (fun z r hz => by
        obtain ⟨d, hd⟩ := hz
        exact ⟨_, hl z d r hd⟩)
      x hx y hy
    have kx := fun r => rootOf_kept_iff items N uf par2 hR hk x hx r
    have ky := fun r => rootOf_kept_iff items N uf par2 hR hk y hy r
    have sxa := same_root_iff uf a ra x hra
    have sxb := same_root_iff uf b rb x hrb
    have sya := same_root_iff uf a ra y hra
    have syb := same_root_iff uf b rb y hrb
    unfold UF.Same
    rw [hp, key]
    simp only [kx, ky]
    have sxa2 : UF.Same uf x a ↔ RootOf uf.parent x ra := sxa
    have s1 : UF.Same uf b y ↔ RootOf uf.parent y rb :=
      ⟨fun h => syb.1 (same_symm _ _ _ h), fun h => same_symm _ _ _ (syb.2 h)⟩
    have s2 : UF.Same uf a y ↔ RootOf uf.parent y ra :=
      ⟨fun h => sya.1 (same_symm _ _ _ h), fun h => same_symm _ _ _ (sya.2 h)⟩
    unfold UF.Same at sxa sxb s1 s2
    rw [sxa, sxb, s1, s2]
    rcases hor with ⟨e1, e2⟩ | ⟨e1, e2⟩
    · rw [e1, e2]
    · rw [e1, e2]
      constructor
      · rintro (h | h | h)
        · exact Or.inl h
        · exact Or.inr (Or.inr h)
        · exact Or.inr (Or.inl h)
      · rintro (h | h | h)
        · exact Or.inl h
        · exact Or.inr (Or.inr h)
        · exact Or.inr (Or.inl h)
  refine ⟨?_, hnot, ?_, hchar⟩
  · intro x hx
    obtain ⟨d, r, hd, hr⟩ := hR x hx
    obtain ⟨d1, hd1, k1⟩ := hk x d r hr
    have := hl x d1 r k1
    rw [hp]
    refine ⟨_, _, ?_, this⟩
    split <;> omega
  · rw [hchar a ha b hb]
    exact Or.inr (Or.inl ⟨⟨ra, hra, hra⟩, ⟨rb, hrb, hrb⟩⟩)

end Greedy
namespace Greedy

open Js

/-- With fuel above the depth of the trees, `union` returns; it answers true
exactly when `a` and `b` were in different components, puts them in the same
component, and joins no two items but those it joins through `a` and `b`. -/
theorem union_spec (items : List String) (N fuel : Nat) (uf : UF) (a b : String)
    (hR : Rooted items N uf) (ha : a ∈ items) (hb : b ∈ items) (hf : N < fuel) :
    ∃ uf1 res, UF.union fuel uf a b = some (uf1, res) ∧ Rooted items (N + 1) uf1 ∧
      (res = true ↔ ¬ UF.Same uf a b) ∧ UF.Same uf1 a b ∧
      ∀ x ∈ items, ∀ y ∈ items,
        (UF.Same uf1 x y ↔
          UF.Same uf x y ∨ (UF.Same uf x a ∧ UF.Same uf b y) ∨
            (UF.Same uf x b ∧ UF.Same uf a y)) := by
  obtain ⟨da, ra, hda, hra⟩ := hR a ha
  obtain ⟨db, rb, hdb, hrb⟩ := hR b hb
  obtain ⟨u1, hf1, _, hk1⟩ := find_spec fuel uf a ra da hra (by omega)
  obtain ⟨db1, hdb1, hrb1⟩ := hk1 b db rb hrb
  obtain ⟨u2, hf2, _, hk2⟩ := find_spec fuel u1 b rb db1 hrb1 (by omega)
  have hk := rootsKept_trans _ _ _ hk1 hk2
  unfold UF.union
  rw [hf1]
  simp only
  rw [hf2]
  simp only
  by_cases e : ra = rb
  · rw [if_pos e]
    have hsame : UF.Same uf a b := ⟨ra, ⟨da, hra⟩, ⟨db, e ▸ hrb⟩⟩
    have hiff : ∀ x ∈ items, ∀ y ∈ items, (UF.Same u2 x y ↔ UF.Same uf x y) := by
      intro x hx y hy
      unfold UF.Same
      simp only [rootOf_kept_iff items N uf u2.parent hR hk x hx,
        rootOf_kept_iff items N uf u2.parent hR hk y hy]
    refine ⟨u2, false, rfl, ?_, ?_, ?_, ?_⟩
    · intro x hx
      obtain ⟨d, r, hd, hr⟩ := rooted_kept items N uf u2 hR hk x hx
      exact ⟨d, r, by omega, hr⟩
    · exact Iff.intro (fun h => (by cases h)) (fun h => absurd hsame h)
    · exact (hiff a ha b hb).2 hsame
    · intro x hx y hy
      rw [hiff x hx y hy]
      constructor
      · exact fun h => Or.inl h
      · rintro (h | ⟨h1, h2⟩ | ⟨h1, h2⟩)
        · exact h
        · exact same_trans _ _ _ _ (same_trans _ _ _ _ h1 hsame) h2
        · exact same_trans _ _ _ _ (same_trans _ _ _ _ h1 (same_symm _ _ _ hsame)) h2
  · rw [if_neg e]
    split
    · obtain ⟨k1, k2, k3, k4⟩ := union_link items N uf
        { u2 with parent := objSet u2.parent ra rb } u2.parent a b ra rb ra rb hR hk ha hb
        ⟨da, hra⟩ ⟨db, hrb⟩ e (Or.inl ⟨rfl, rfl⟩) rfl
      exact ⟨_, true, rfl, k1, ⟨fun _ => k2, fun _ => rfl⟩, k3, k4⟩
    · split
      · obtain ⟨k1, k2, k3, k4⟩ := union_link items N uf
          { u2 with parent := objSet u2.parent rb ra } u2.parent a b ra rb rb ra hR hk ha hb
          ⟨da, hra⟩ ⟨db, hrb⟩ e (Or.inr ⟨rfl, rfl⟩) rfl
        exact ⟨_, true, rfl, k1, ⟨fun _ => k2, fun _ => rfl⟩, k3, k4⟩
      · obtain ⟨k1, k2, k3, k4⟩ := union_link items N uf
          { parent := objSet u2.parent rb ra,
            rank := objSet u2.rank ra ((objGet u2.rank ra).getD 0 + 1) }
          u2.parent a b ra rb rb ra hR hk ha hb
          ⟨da, hra⟩ ⟨db, hrb⟩ e (Or.inr ⟨rfl, rfl⟩) rfl
        exact ⟨_, true, rfl, k1, ⟨fun _ => k2, fun _ => rfl⟩, k3, k4⟩

/-- Two items are in the same component exactly when `find` returns the same
root for both. -/
theorem same_iff_find (items : List String) (N fuel : Nat) (uf : UF) (x y : String)
    (hR : Rooted items N uf) (hx : x ∈ items) (hy : y ∈ items) (hf : N < fuel) :
    ∃ uf1 uf2 rx ry, UF.find fuel uf x = some (uf1, rx) ∧ UF.find fuel uf1 y = some (uf2, ry) ∧
      (UF.Same uf x y ↔ rx = ry) := by
  obtain ⟨dx, rx, hdx, hrx⟩ := hR x hx
  obtain ⟨dy, ry, hdy, hry⟩ := hR y hy
  obtain ⟨u1, hf1, _, hk1⟩ := find_spec fuel uf x rx dx hrx (by omega)
  obtain ⟨dy1, hdy1, hry1⟩ := hk1 y dy ry hry
  obtain ⟨u2, hf2, _, _⟩ := find_spec fuel u1 y ry dy1 hry1 (by omega)
  refine ⟨u1, u2, rx, ry, hf1, hf2, ?_, ?_⟩
  · rintro ⟨r, k1, k2⟩
    have e1 := rootOf_unique _ x rx r ⟨dx, hrx⟩ k1
    have e2 := rootOf_unique _ y ry r ⟨dy, hry⟩ k2
    rw [← e1, ← e2]
  · intro e
    exact ⟨rx, ⟨dx, hrx⟩, ⟨dy, e ▸ hry⟩⟩

/-! ### The structure that the constructor builds -/

theorem new_parent_fold (items : List String) :
    ∀ (uf0 : UF) (x : String),
      objGet (items.foldl
        (fun uf i => { parent := objSet uf.parent i i, rank := objSet uf.rank i 0 })
        uf0).parent x = if x ∈ items then some x else objGet uf0.parent x := by
  induction items with
  | nil => intro uf0 x; simp
  | cons i rest ih =>
    intro uf0 x
    rw [List.foldl_cons, ih]
    by_cases hx : x ∈ rest
    · simp [hx]
    · simp only [hx, if_false, List.mem_cons, or_false]
      rw [objGet_objSet]
      by_cases e : i = x
      · simp [e]
      · have e2 : ¬ x = i := fun h => e h.symm
        simp [e, e2]

theorem new_rooted (items : List String) : Rooted items 0 (UF.new items) := by
  intro x hx
  refine ⟨0, x, le_refl _, RootIn.self x ?_⟩
  unfold UF.new
  rw [new_parent_fold, if_pos hx]

theorem new_same (items : List String) (x y : String) (hx : x ∈ items) (hy : y ∈ items) :
    UF.Same (UF.new items) x y ↔ x = y := by
  have rx : RootOf (UF.new items).parent x x :=
    ⟨0, RootIn.self x (by unfold UF.new; rw [new_parent_fold, if_pos hx])⟩
  have ry : RootOf (UF.new items).parent y y :=
    ⟨0, RootIn.self y (by unfold UF.new; rw [new_parent_fold, if_pos hy])⟩
  constructor
  · rintro ⟨r, k1, k2⟩
    have e1 := rootOf_unique _ x x r rx k1
    have e2 := rootOf_unique _ y y r ry k2
    rw [← e1, ← e2]
  · intro e
    subst e
    exact ⟨x, rx, rx⟩

/-! ### The equivalence generated by the pairs -/

theorem eqvGen_insert (R : String → String → Prop) (a b x y : String) :
    Relation.EqvGen (fun s t => R s t ∨ (s = a ∧ t = b)) x y ↔
      (Relation.EqvGen R x y ∨ (Relation.EqvGen R x a ∧ Relation.EqvGen R b y) ∨
        (Relation.EqvGen R x b ∧ Relation.EqvGen R a y)) := by
  constructor
  · intro h
    induction h with
    | rel s t hst =>
      rcases hst with h | ⟨h1, h2⟩
      · exact Or.inl (Relation.EqvGen.rel _ _ h)
      · subst h1
        subst h2
        exact Or.inr (Or.inl ⟨Relation.EqvGen.refl _, Relation.EqvGen.refl _⟩)
    | refl s => exact Or.inl (Relation.EqvGen.refl _)
    | symm s t _ ih =>
      rcases ih with h | ⟨h1, h2⟩ | ⟨h1, h2⟩
      · exact Or.inl (Relation.EqvGen.symm _ _ h)
      · exact Or.inr (Or.inr ⟨Relation.EqvGen.symm _ _ h2, Relation.EqvGen.symm _ _ h1⟩)
      · exact Or.inr (Or.inl ⟨Relation.EqvGen.symm _ _ h2, Relation.EqvGen.symm _ _ h1⟩)
    | trans s t u _ _ ih1 ih2 =>
      rcases ih1 with h | ⟨h1, h2⟩ | ⟨h1, h2⟩
      · rcases ih2 with g | ⟨g1, g2⟩ | ⟨g1, g2⟩
        · exact Or.inl (Relation.EqvGen.trans _ _ _ h g)
        · exact Or.inr (Or.inl ⟨Relation.EqvGen.trans _ _ _ h g1, g2⟩)
        · exact Or.inr (Or.inr ⟨Relation.EqvGen.trans _ _ _ h g1, g2⟩)
      · rcases ih2 with g | ⟨g1, g2⟩ | ⟨g1, g2⟩
        · exact Or.inr (Or.inl ⟨h1, Relation.EqvGen.trans _ _ _ h2 g⟩)
        · exact Or.inr (Or.inl ⟨h1, g2⟩)
        · exact Or.inl (Relation.EqvGen.trans _ _ _ h1 g2)
      · rcases ih2 with g | ⟨g1, g2⟩ | ⟨g1, g2⟩
        · exact Or.inr (Or.inr ⟨h1, Relation.EqvGen.trans _ _ _ h2 g⟩)
        · exact Or.inl (Relation.EqvGen.trans _ _ _ h1 g2)
        · exact Or.inr (Or.inr ⟨h1, g2⟩)
  · have mono : ∀ s t, Relation.EqvGen R s t →
        Relation.EqvGen (fun s t => R s t ∨ (s = a ∧ t = b)) s t :=
      fun s t h => Relation.EqvGen.mono (fun _ _ h2 => Or.inl h2) h
    have hab : Relation.EqvGen (fun s t => R s t ∨ (s = a ∧ t = b)) a b :=
      Relation.EqvGen.rel _ _ (Or.inr ⟨rfl, rfl⟩)
    rintro (h | ⟨h1, h2⟩ | ⟨h1, h2⟩)
    · exact mono _ _ h
    · exact Relation.EqvGen.trans _ _ _ (mono _ _ h1)
        (Relation.EqvGen.trans _ _ _ hab (mono _ _ h2))
    · exact Relation.EqvGen.trans _ _ _ (mono _ _ h1)
        (Relation.EqvGen.trans _ _ _ (Relation.EqvGen.symm _ _ hab) (mono _ _ h2))

theorem eqvGen_congr (R S : String → String → Prop) (h : ∀ s t, R s t ↔ S s t) (x y : String) :
    Relation.EqvGen R x y ↔ Relation.EqvGen S x y :=
  ⟨Relation.EqvGen.mono (fun s t => (h s t).1), Relation.EqvGen.mono (fun s t => (h s t).2)⟩

theorem eqvGen_empty (x y : String) :
    Relation.EqvGen (fun _ _ : String => False) x y ↔ x = y := by
  constructor
  · intro h
    induction h with
    | rel _ _ h => exact h.elim
    | refl _ => rfl
    | symm _ _ _ ih => exact ih.symm
    | trans _ _ _ _ _ ih1 ih2 => exact ih1.trans ih2
  · intro e
    subst e
    exact Relation.EqvGen.refl _

/-- A sequence of unions on items, with fuel above the depth it can reach,
returns, and two items are then in the same component exactly when the pairs
united join them. -/
theorem unions_spec (items : List String) (fuel : Nat) :
    ∀ (ops : List (String × String)) (uf : UF) (N : Nat) (R : String → String → Prop),
      Rooted items N uf → (∀ p ∈ ops, p.1 ∈ items ∧ p.2 ∈ items) → N + ops.length ≤ fuel →
      (∀ x ∈ items, ∀ y ∈ items, (UF.Same uf x y ↔ Relation.EqvGen R x y)) →
      ∃ uf1 bs, UF.unions fuel uf ops = some (uf1, bs) ∧ Rooted items (N + ops.length) uf1 ∧
        ∀ x ∈ items, ∀ y ∈ items,
          (UF.Same uf1 x y ↔ Relation.EqvGen (fun s t => R s t ∨ (s, t) ∈ ops) x y) := by
  intro ops
  induction ops with
  | nil =>
    intro uf N R hR _ _ hS
    refine ⟨uf, [], rfl, hR, ?_⟩
    intro x hx y hy
    rw [hS x hx y hy]
    exact eqvGen_congr _ _ (fun s t => by simp) x y
  | cons p rest ih =>
    intro uf N R hR hops hf hS
    obtain ⟨a, b⟩ := p
    have hab := hops (a, b) (List.mem_cons_self _ _)
    simp only [List.length_cons] at hf
    obtain ⟨uf1, res, hu, hR1, _, _, hchar⟩ :=
      union_spec items N fuel uf a b hR hab.1 hab.2 (by omega)
    have hS1 : ∀ x ∈ items, ∀ y ∈ items,
        (UF.Same uf1 x y ↔ Relation.EqvGen (fun s t => R s t ∨ (s = a ∧ t = b)) x y) := by
      intro x hx y hy
      rw [hchar x hx y hy, eqvGen_insert, hS x hx y hy, hS x hx a hab.1, hS b hab.2 y hy,
        hS x hx b hab.2, hS a hab.1 y hy]
    obtain ⟨uf2, bs, hu2, hR2, hS2⟩ := ih uf1 (N + 1) _ hR1
      (fun p hp => hops p (List.mem_cons_of_mem _ hp)) (by omega) hS1
    refine ⟨uf2, res :: bs, ?_, ?_, ?_⟩
    · rw [UF.unions, hu]
      simp only
      rw [hu2]
      rfl
    · intro x hx
      obtain ⟨d, r, hd, hr⟩ := hR2 x hx
      exact ⟨d, r, by simp only [List.length_cons]; omega, hr⟩
    · intro x hx y hy
      rw [hS2 x hx y hy]
      apply eqvGen_congr
      intro s t
      simp only [List.mem_cons, Prod.mk.injEq]
      tauto

end Greedy
namespace Greedy

open Js

/-! ## Kruskal and the union-find structure -/

theorem grow_step_from (es : List Edge) (a : String) (l : List Edge) (hl : ∀ e ∈ l, e ∈ es) :
    ∀ s : List String, (∀ x ∈ s, Linked es a x) →
      ∀ x ∈ l.foldl
        (fun s e =>
          if e.u ∈ s ∧ e.v ∉ s then s ++ [e.v]
          else if e.v ∈ s ∧ e.u ∉ s then s ++ [e.u]
          else s) s,
        Linked es a x := by
  induction l with
  | nil => intro s hs; simpa using hs
  | cons e rest ih =>
    intro s hs
    simp only [List.foldl_cons]
    apply ih (fun x hx => hl x (List.mem_cons_of_mem _ hx))
    have he := hl e (List.mem_cons_self _ _)
    split_ifs with h1 h2
    · intro x hx
      rcases List.mem_append.1 hx with hx | hx
      · exact hs x hx
      · simp at hx
        subst hx
        exact Relation.ReflTransGen.tail (hs _ h1.1) ⟨e, he, Or.inl ⟨rfl, rfl⟩⟩
    · intro x hx
      rcases List.mem_append.1 hx with hx | hx
      · exact hs x hx
      · simp at hx
        subst hx
        exact Relation.ReflTransGen.tail (hs _ h2.1) ⟨e, he, Or.inr ⟨rfl, rfl⟩⟩
    · exact hs

theorem grow_iterate_from (es : List Edge) (a : String) (k : Nat) :
    ∀ x ∈ (grow es)^[k] [a], Linked es a x := by
  induction k with
  | zero =>
    intro x hx
    simp at hx
    subst hx
    exact Relation.ReflTransGen.refl
  | succ k ih =>
    rw [Function.iterate_succ_apply']
    exact grow_step_from es a es (fun e he => he) _ ih

/-- A node found from `a` can be reached from `a`. -/
theorem linkedB_sound (es : List Edge) (a b : String) (h : linkedB es a b = true) :
    Linked es a b := by
  simp only [linkedB, decide_eq_true_eq] at h
  exact grow_iterate_from es a _ b h

/-- A set that holds `a`, is closed under the edges and misses `b` shows that
`b` cannot be reached from `a`. -/
theorem apartB_sound (es : List Edge) (a b : String) (h : apartB es a b = true) :
    ¬ Linked es a b := by
  simp only [apartB, Bool.and_eq_true, decide_eq_true_eq, List.all_eq_true] at h
  obtain ⟨⟨hA, hclosed⟩, hmiss⟩ := h
  intro hl
  have key : ∀ x, Relation.ReflTransGen (Adjacent es) a x → x ∈ reachFrom es a := by
    intro x hx
    induction hx with
    | refl => exact hA
    | tail _ hadj ih =>
      obtain ⟨e, he, h1 | h1⟩ := hadj
      · rw [← h1.2]
        rw [← h1.1] at ih
        exact (hclosed e he).1 ih
      · rw [← h1.1]
        rw [← h1.2] at ih
        exact (hclosed e he).2 ih
  exact hmiss (key b hl)

theorem acyclicB_sound (es : List Edge) (h : acyclicB es = true) : Acyclic es := by
  simp only [acyclicB, List.all_eq_true] at h
  intro e he
  exact apartB_sound _ _ _ (h e he)

set_option maxRecDepth 100000 in
/-- C36: for every sequence of unions on items of a new structure, with fuel
above their number, the next `union(u, v)` returns true exactly when `u` and
`v` were in different components, which is when the pairs united so far do not
join them; afterwards `find(u)` and `find(v)` return the same root; and two
items are in the same component afterwards exactly when they were before or
one was in the component of `u` and the other in that of `v`.  `buildKruskal`
considers the edges in ascending weight order; each Consider snapshot is
followed by an Accept snapshot with the edge added when the edges accepted so
far do not link its ends, and by a Reject snapshot when they do; and the
`treeEdges` of every snapshot have no cycle. -/
theorem c36_kruskal_union_find (items : List String) (ops : List (String × String))
    (u v : String) (fuel : Nat) (hops : ∀ p ∈ ops, p.1 ∈ items ∧ p.2 ∈ items)
    (hu : u ∈ items) (hv : v ∈ items) (hf : ops.length + 3 ≤ fuel) :
    (∃ uf bs uf1 b, UF.unions fuel (UF.new items) ops = some (uf, bs) ∧
      UF.union fuel uf u v = some (uf1, b) ∧
      (∀ x ∈ items, ∀ y ∈ items, (UF.Same uf x y ↔ United ops x y)) ∧
      (b = true ↔ ¬ UF.Same uf u v) ∧
      (∃ uf2 uf3 r, UF.find fuel uf1 u = some (uf2, r) ∧ UF.find fuel uf2 v = some (uf3, r)) ∧
      (∀ x ∈ items, ∀ y ∈ items,
        (UF.Same uf1 x y ↔
          UF.Same uf x y ∨ (UF.Same uf x u ∧ UF.Same uf v y) ∨
            (UF.Same uf x v ∧ UF.Same uf u y)))) ∧
    (∀ es a b, linkedB es a b = true → Linked es a b) ∧
    (∀ es a b, apartB es a b = true → ¬ Linked es a b) ∧
    ∃ tr, buildKruskal fuel = some tr ∧
      considered tr = (jsSort cmpWeight graphEdges).map (fun e => e.id) ∧
      (jsSort cmpWeight graphEdges).Pairwise (fun a b => a.w ≤ b.w) ∧
      acceptRule tr = true ∧
      ∀ s ∈ tr, Acyclic (edgesOfIds s.treeEdges) := by
  refine ⟨?_, linkedB_sound, apartB_sound, ?_⟩
  · obtain ⟨uf, bs, h1, hR, hS⟩ := unions_spec items fuel ops (UF.new items) 0
      (fun _ _ => False) (new_rooted items) hops (by omega)
      (fun x hx y hy => by rw [new_same items x y hx hy, eqvGen_empty])
    rw [Nat.zero_add] at hR
    obtain ⟨uf1, b, h2, hR1, hb, hsame, hchar⟩ :=
      union_spec items ops.length fuel uf u v hR hu hv (by omega)
    obtain ⟨uf2, uf3, rx, ry, f1, f2, hiff⟩ :=
      same_iff_find items (ops.length + 1) fuel uf1 u v hR1 hu hv (by omega)
    have e := hiff.1 hsame
    subst e
    refine ⟨uf, bs, uf1, b, h1, h2, ?_, hb, ⟨uf2, uf3, rx, f1, f2⟩, hchar⟩
    intro x hx y hy
    rw [hS x hx y hy]
    exact eqvGen_congr _ _ (fun s t => by simp) x y
  · apply trace_of_get buildKruskal buildKruskal_mono _ 3 fuel (by omega) (by decide)
    refine ⟨by decide!, by decide, by decide!, ?_⟩
    intro s hs
    apply acyclicB_sound
    revert s
    decide!

theorem c36_kruskal_union_find_witness :
    ((∀ p ∈ ([("A", "B"), ("B", "C")] : List (String × String)),
        p.1 ∈ ["A", "B", "C", "D"] ∧ p.2 ∈ ["A", "B", "C", "D"]) ∧
      ([("A", "B"), ("B", "C")] : List (String × String)).length + 3 ≤ 5) ∧
    ∃ uf bs uf1 b, UF.unions 5 (UF.new ["A", "B", "C", "D"]) [("A", "B"), ("B", "C")]
        = some (uf, bs) ∧
      UF.union 5 uf "A" "C" = some (uf1, b) ∧
      (∀ x ∈ ["A", "B", "C", "D"], ∀ y ∈ ["A", "B", "C", "D"],
        (UF.Same uf x y ↔ United [("A", "B"), ("B", "C")] x y)) ∧
      (b = true ↔ ¬ UF.Same uf "A" "C") ∧
      (∃ uf2 uf3 r, UF.find 5 uf1 "A" = some (uf2, r) ∧ UF.find 5 uf2 "C" = some (uf3, r)) ∧
      (∀ x ∈ ["A", "B", "C", "D"], ∀ y ∈ ["A", "B", "C", "D"],
        (UF.Same uf1 x y ↔
          UF.Same uf x y ∨ (UF.Same uf x "A" ∧ UF.Same uf "C" y) ∨
            (UF.Same uf x "C" ∧ UF.Same uf "A" y))) :=
  ⟨⟨by decide, by decide⟩,
    (c36_kruskal_union_find ["A", "B", "C", "D"] [("A", "B"), ("B", "C")] "A" "C" 5
      (by decide) (by decide) (by decide) (by decide)).1⟩

end Greedy
